import Mathlib

set_option autoImplicit false

/-! # CryptDB rewriting core: onion adjustment, statement rewriting, result decryption,
the analysis of operators, and the translation of enumerators

A shallow embedding of `main/schema.hh`, `main/cdb_rewrite.cc` and `parser/analyze.cc`.

Conventions of the embedding.

* A `std::map<K, V>` is an association list; `find` is `mapFind`, and an update
  through the mapped pointer is `mapReplace`.
* A `std::vector<T>` is a `List T`; `back()` is `getLast?`, `pop_back()` is `dropLast`.
* A C++ function with side effects takes the state it touches and returns an
  outcome together with the state it leaves behind, so that the state left by a
  failing call is visible as well.
* `assert`/`assert_s` failures, undefined behaviour (null dereference, `back()` of an
  empty vector, out-of-range index) and thrown exceptions are outcomes of type `Fault`.
* The order of side effects is recorded in a ghost list of `Event`s.
-/

namespace CryptDB

/-! ## Data model (`main/schema.hh`) -/

/-- The `onion` enumeration, with the enumerators the sources mention. -/
inductive onion where
  | oPLAIN
  | oDET
  | oOPE
  | oAGG
  | oSWP
  | oINVALID
  deriving DecidableEq, Repr

/-- Security levels. `enum class SECLEVEL` is declared in `util/onions.hh`; a level is
represented here by the integer value of its enumerator, and levels are compared the way
the compiler compares them (`<`, `>`, `==` on that integer). The value of
`SECLEVEL::INVALID` is a parameter of every definition that needs it. -/
abbrev SECLEVEL := Nat

/-- An encryption layer (`EncLayer`): the level it reports through `level()`, and a tag
standing for its key material. -/
structure EncLayer where
  lvl : SECLEVEL
  key : Nat
  deriving DecidableEq, Repr

/-- `EncLayer::level()`. -/
def EncLayer.level (l : EncLayer) : SECLEVEL := l.lvl

/-- How a call can fail to return normally. -/
inductive Fault where
  /-- an `assert` or `assert_s` whose condition is false -/
  | assertion (what : String)
  /-- undefined behaviour: null dereference, `back()` of an empty vector, bad index -/
  | undefined (what : String)
  /-- a thrown exception that is not `OnionAdjustExcept` -/
  | thrown (what : String)
  /-- the bound on loop iterations of the embedding was reached -/
  | fuel
  deriving DecidableEq, Repr

/-- `std::map::find`: the value stored under `k`, if any. -/
def mapFind {K V : Type} [DecidableEq K] (k : K) : List (K × V) → Option V
  | [] => none
  | (k', v) :: rest => if k' = k then some v else mapFind k rest

/-- Update of the object stored under `k` (a write through the mapped pointer). -/
def mapReplace {K V : Type} [DecidableEq K] (k : K) (v : V) : List (K × V) → List (K × V)
  | [] => []
  | (k', v') :: rest => if k' = k then (k, v) :: rest else (k', v') :: mapReplace k v rest

/-- `OnionMeta`: the layer stack (first in list is lowest layer) and the anonymized name. -/
structure OnionMeta where
  layers : List EncLayer
  onionname : String
  deriving DecidableEq, Repr

/-- `OnionMeta::getSecLevel`: `assert(layers.size() > 0); return layers.back()->level();` -/
def OnionMeta.getSecLevel (om : OnionMeta) : Except Fault SECLEVEL :=
  match om.layers.getLast? with
  | none => .error (.assertion "layers.size() > 0")
  | some top => .ok top.level

/-- `FieldMeta`: name, salt flag and salt column name, the onions of the field, and the
anonymized name of the owning table (`fm->tm->anonTableName`). -/
structure FieldMeta where
  fname : String
  has_salt : Bool
  salt_name : String
  anonTableName : String
  onions : List (onion × OnionMeta)
  deriving DecidableEq, Repr

/-- `FieldMeta::getOnionLevel`: `INVALID` when the onion is absent, else `getSecLevel()`. -/
def FieldMeta.getOnionLevel (INVALID : SECLEVEL) (fm : FieldMeta) (o : onion) :
    Except Fault SECLEVEL :=
  match mapFind o fm.onions with
  | none => .ok INVALID
  | some om => om.getSecLevel

/-- `FieldMeta::isEncrypted`:
`(onions.size() != 1) || (onions.find(oPLAIN) == onions.end())`. -/
def FieldMeta.isEncrypted (fm : FieldMeta) : Bool :=
  (fm.onions.length != 1) || (mapFind onion.oPLAIN fm.onions).isNone

/-- The layer stack of onion `o` on `fm` (empty when the onion is absent). -/
def FieldMeta.layersOf (fm : FieldMeta) (o : onion) : List EncLayer :=
  match mapFind o fm.onions with
  | none => []
  | some om => om.layers

/-- The current level of onion `o` on `fm`: the level of the last layer of its stack,
when the onion exists and its stack is not empty. -/
def FieldMeta.curLevel (fm : FieldMeta) (o : onion) : Option SECLEVEL :=
  (fm.layersOf o).getLast?.map EncLayer.level

/-- Write `om` back as the metadata of onion `o`. -/
def FieldMeta.setOnion (fm : FieldMeta) (o : onion) (om : OnionMeta) : FieldMeta :=
  { fm with onions := mapReplace o om fm.onions }

/-! ## Effects -/

/-- A statement sent to the live store by the adjustment engine. -/
inductive Query where
  /-- `USE cur_db;` -/
  | useDb (db : String)
  /-- `UPDATE table SET column = decryptUDF(column, salt);` with the UDF of `layer` -/
  | decryptColumn (table column : String) (layer : EncLayer) (saltColumn : String)
  deriving DecidableEq, Repr

/-- `OnionAdjustExcept`: the onion, the field (a `FieldMeta *`, here the position of the
field in the schema) and the level to adjust to. -/
structure OnionAdjustExcept where
  o : onion
  fm : Nat
  tolevel : SECLEVEL
  deriving DecidableEq, Repr

/-- The observable effects, in the order in which they happen. -/
inductive Event where
  /-- `a.ps->conn->execute(q)`: a statement sent to the live store -/
  | execute (q : Query)
  /-- `om->layers.pop_back()` on onion `o`, removing `layer` from the metadata -/
  | popLayer (o : onion) (layer : EncLayer)
  /-- a call of `rewrite_helper` -/
  | rewriteHelper
  /-- a call of `adjustOnion` from the handler of `OnionAdjustExcept` -/
  | adjustCall (e : OnionAdjustExcept)
  deriving DecidableEq, Repr

/-- The live store: whether it accepts a statement, given everything that happened
before (`Connect::execute` returning true). -/
abbrev Server := List Event → Query → Bool

/-- The state the adjustment engine works on: one field's metadata and the effects so
far. -/
structure AdjState where
  fm : FieldMeta
  trace : List Event
  deriving DecidableEq, Repr

/-! ## Onion adjustment (`removeOnionLayer`, `adjustOnion`, `FieldMeta::setOnionLevel`) -/

/-- `removeOnionLayer`: send `USE cur_db` and the decrypting `UPDATE` built from the
outermost layer, pop that layer, and report the level of the layer now outermost. -/
def removeOnionLayer (srv : Server) (cur_db : String) (o : onion) (s : AdjState) :
    Except Fault SECLEVEL × AdjState :=
  match mapFind o s.fm.onions with
  | none => (.error (.assertion "getAssert(fm->onions, o)"), s)
  | some om =>
    match om.layers.getLast? with
    | none => (.error (.undefined "om->layers.back() of an empty vector"), s)
    | some top =>
      let query := Query.decryptColumn s.fm.anonTableName om.onionname top s.fm.salt_name
      let s1 : AdjState := { s with trace := s.trace ++ [.execute (.useDb cur_db)] }
      if srv s.trace (.useDb cur_db) = false then
        (.error (.assertion "failed to execute USE"), s1)
      else
        let s2 : AdjState := { s1 with trace := s1.trace ++ [.execute query] }
        if srv s1.trace query = false then
          (.error (.assertion "failed to execute onion decryption query"), s2)
        else
          let om1 : OnionMeta := { om with layers := om.layers.dropLast }
          let s3 : AdjState :=
            { fm := s2.fm.setOnion o om1, trace := s2.trace ++ [.popLayer o top] }
          match om1.layers.getLast? with
          | none => (.error (.undefined "om->layers.back() of an empty vector"), s3)
          | some l => (.ok l.level, s3)

/-- The loop of `adjustOnion`: `while (newlevel > tolevel) removeOnionLayer(...)`, with a
bound on the number of iterations. -/
def adjustLoop (srv : Server) (cur_db : String) (o : onion) (tolevel : SECLEVEL) :
    Nat → SECLEVEL → AdjState → Except Fault SECLEVEL × AdjState
  | 0, newlevel, s =>
    if newlevel > tolevel then (.error .fuel, s) else (.ok newlevel, s)
  | k + 1, newlevel, s =>
    if newlevel > tolevel then
      match removeOnionLayer srv cur_db o s with
      | (.ok l, s1) => adjustLoop srv cur_db o tolevel k l s1
      | (.error f, s1) => (.error f, s1)
    else (.ok newlevel, s)

/-- `adjustOnion`: read the current level, assert it is not `INVALID`, peel layers while
the level is above `tolevel`, and assert that `tolevel` was reached. The loop is given as
many iterations as the onion has layers. -/
def adjustOnion (INVALID : SECLEVEL) (srv : Server) (cur_db : String) (o : onion)
    (tolevel : SECLEVEL) (s : AdjState) : Except Fault Unit × AdjState :=
  match s.fm.getOnionLevel INVALID o with
  | .error f => (.error f, s)
  | .ok newlevel =>
    if newlevel = INVALID then (.error (.assertion "newlevel != SECLEVEL::INVALID"), s)
    else
      match adjustLoop srv cur_db o tolevel (s.fm.layersOf o).length newlevel s with
      | (.error f, s1) => (.error f, s1)
      | (.ok l, s1) =>
        if l = tolevel then (.ok (), s1)
        else (.error (.assertion "newlevel == tolevel"), s1)

/-- The loop of `setOnionLevel`:
`while (layers.size() != 0 && layers.back()->level() != maxl) layers.pop_back();`
with a bound on the number of iterations. The layers are returned with the layers that
were popped, in the order in which they were popped. -/
def popUntil (maxl : SECLEVEL) : Nat → List EncLayer → List EncLayer × List EncLayer
  | 0, ls => (ls, [])
  | k + 1, ls =>
    match ls.getLast? with
    | none => (ls, [])
    | some top =>
      if top.level ≠ maxl then
        let r := popUntil maxl k ls.dropLast
        (r.1, top :: r.2)
      else (ls, [])

/-- `FieldMeta::setOnionLevel`: when the current level is above `maxl`, pop layers until
the stack is empty or its last layer has level `maxl`, and return true; else return
false. `onions[o]` of an absent onion is a null pointer. -/
def setOnionLevel (o : onion) (maxl : SECLEVEL) (s : AdjState) :
    Except Fault Bool × AdjState :=
  match mapFind o s.fm.onions with
  | none => (.error (.undefined "onions[o] is null"), s)
  | some om =>
    match om.getSecLevel with
    | .error f => (.error f, s)
    | .ok current_sec_level =>
      if current_sec_level > maxl then
        let r := popUntil maxl om.layers.length om.layers
        (.ok true,
          { fm := s.fm.setOnion o { om with layers := r.1 },
            trace := s.trace ++ r.2.map (Event.popLayer o) })
      else (.ok false, s)

/-- One adjustment operation on a field. -/
inductive AdjOp where
  | removeOnionLayer (o : onion) (cur_db : String)
  | adjustOnion (o : onion) (tolevel : SECLEVEL) (cur_db : String)
  | setOnionLevel (o : onion) (maxl : SECLEVEL)
  deriving DecidableEq, Repr

/-- Run one adjustment operation, forgetting its return value. -/
def runOp (INVALID : SECLEVEL) (srv : Server) (op : AdjOp) (s : AdjState) :
    Except Fault Unit × AdjState :=
  match op with
  | .removeOnionLayer o db =>
    match removeOnionLayer srv db o s with
    | (.ok _, s1) => (.ok (), s1)
    | (.error f, s1) => (.error f, s1)
  | .adjustOnion o tolevel db => adjustOnion INVALID srv db o tolevel s
  | .setOnionLevel o maxl =>
    match setOnionLevel o maxl s with
    | (.ok _, s1) => (.ok (), s1)
    | (.error f, s1) => (.error f, s1)

/-- Run a sequence of adjustment operations, stopping at the first that fails. -/
def runOps (INVALID : SECLEVEL) (srv : Server) : List AdjOp → AdjState →
    Except Fault Unit × AdjState
  | [], s => (.ok (), s)
  | op :: ops, s =>
    match runOp INVALID srv op s with
    | (.ok _, s1) => runOps INVALID srv ops s1
    | (.error f, s1) => (.error f, s1)

/-- The levels of the stack of onion `o` do not decrease from the lowest layer to the
outermost one ("first in list is lowest layer"). -/
def FieldMeta.layersOrdered (fm : FieldMeta) (o : onion) : Prop :=
  ((fm.layersOf o).map EncLayer.level).Sorted (· ≤ ·)

instance (fm : FieldMeta) (o : onion) : Decidable (fm.layersOrdered o) := by
  unfold FieldMeta.layersOrdered
  infer_instance

/-- The name of the column of onion `o` (empty when the onion is absent). -/
def FieldMeta.onionName (fm : FieldMeta) (o : onion) : String :=
  match mapFind o fm.onions with
  | none => ""
  | some om => om.onionname

/-- What peeling the layers `removed` (outermost first) off onion `o` leaves in the
trace: for each layer `USE cur_db`, the decrypting `UPDATE` of that layer, then the pop
of that layer from the metadata. -/
def peelTrace (fm : FieldMeta) (cur_db : String) (o : onion) (removed : List EncLayer) :
    List Event :=
  removed.flatMap fun l =>
    [Event.execute (.useDb cur_db),
     Event.execute (.decryptColumn fm.anonTableName (fm.onionName o) l fm.salt_name),
     Event.popLayer o l]


/-- The number of layers held by all onions of a field. -/
def FieldMeta.layerCount (fm : FieldMeta) : Nat :=
  (fm.onions.map fun p => p.2.layers.length).sum

/-- The number of layers held across all onions of all fields. -/
def totalLayers (fields : List FieldMeta) : Nat :=
  (fields.map FieldMeta.layerCount).sum

/-! ## Return metadata (`ReturnField`, `ReturnMeta`, `OLK`) -/

/-- `OLK`: onion, level and key; the key is a `FieldMeta *`, `none` standing for `NULL`. -/
structure OLK where
  o : onion
  l : SECLEVEL
  key : Option FieldMeta
  deriving DecidableEq, Repr

/-- `ReturnField`: whether the column is a salt, the name the field was called by, the
`OLK` it was rewritten with, and the position of its salt column (`-1` for none). -/
structure ReturnField where
  is_salt : Bool
  field_called : String
  olk : OLK
  pos_salt : Int
  deriving DecidableEq, Repr

/-- `ReturnMeta`: `std::map<int, ReturnField> rfmeta`. -/
structure ReturnMeta where
  rfmeta : List (Nat × ReturnField)
  deriving DecidableEq, Repr

/-! ## The rewrite loop (`Rewriter::rewrite`) -/

/-- The values of `enum_sql_command` that the sources mention; `SQLCOM_OTHER` stands for
every other command. -/
inductive enum_sql_command where
  | SQLCOM_SHOW_DATABASES
  | SQLCOM_SET_OPTION
  | SQLCOM_BEGIN
  | SQLCOM_COMMIT
  | SQLCOM_SHOW_TABLES
  | SQLCOM_SELECT
  | SQLCOM_ALTER_TABLE
  | SQLCOM_CREATE_TABLE
  | SQLCOM_INSERT
  | SQLCOM_REPLACE
  | SQLCOM_DROP_TABLE
  | SQLCOM_UPDATE
  | SQLCOM_DELETE
  | SQLCOM_CHANGE_DB
  | SQLCOM_OTHER
  deriving DecidableEq, Repr

/-- `noRewrite`: the commands that are passed through without rewriting. -/
def noRewrite (cmd : enum_sql_command) : Bool :=
  match cmd with
  | .SQLCOM_SHOW_DATABASES => true
  | .SQLCOM_SET_OPTION => true
  | .SQLCOM_BEGIN => true
  | .SQLCOM_COMMIT => true
  | .SQLCOM_SHOW_TABLES => true
  | _ => false

/-- The proxy state the rewrite loop works on: the `FieldMeta` objects of the schema (a
`FieldMeta *` is a position in this list) and the effects so far. -/
structure ProxyWorld where
  fields : List FieldMeta
  trace : List Event
  deriving DecidableEq, Repr

/-- How one call of `rewrite_helper` ends: with the rewritten queries and the return
metadata of its analysis, with an `OnionAdjustExcept`, or with any other failure. -/
inductive HelperOutcome where
  | queries (qs : List String) (rmeta : ReturnMeta)
  | adjust (e : OnionAdjustExcept)
  | failure (f : Fault)
  deriving DecidableEq, Repr

/-- One call of `rewrite_helper(q, analysis, p)` on a fresh `Analysis`, for a fixed
statement: its outcome and the proxy state it leaves. The rewriting of expressions that
decides the outcome (and raises `OnionAdjustExcept`) lies outside these sources, so it is
a parameter. -/
abbrev Helper := ProxyWorld → HelperOutcome × ProxyWorld

/-- `QueryRewrite`. -/
structure QueryRewrite where
  wasRew : Bool
  queries : List String
  rmeta : ReturnMeta
  deriving DecidableEq, Repr

/-- The loop of `Rewriter::rewrite`: call `rewrite_helper`; on `OnionAdjustExcept` call
`adjustOnion` and start over; on success return; any other failure, and any failure of
`adjustOnion`, leaves the function. `while (true)` is given a bound on its iterations;
the result is `none` when the bound is reached. -/
def rewriteLoop (INVALID : SECLEVEL) (srv : Server) (helper : Helper) (cur_db : String) :
    Nat → ProxyWorld → Option (Except Fault QueryRewrite × ProxyWorld)
  | 0, _ => none
  | k + 1, w =>
    match helper { w with trace := w.trace ++ [.rewriteHelper] } with
    | (.queries qs rmeta, w1) =>
      some (.ok { wasRew := true, queries := qs, rmeta := rmeta }, w1)
    | (.failure f, w1) => some (.error f, w1)
    | (.adjust e, w1) =>
      let w2 : ProxyWorld := { w1 with trace := w1.trace ++ [.adjustCall e] }
      match w2.fields.get? e.fm with
      | none => some (.error (.undefined "e.fm does not point to a FieldMeta"), w2)
      | some fm =>
        match adjustOnion INVALID srv cur_db e.o e.tolevel { fm := fm, trace := w2.trace } with
        | (.error f, s) =>
          some (.error f, { fields := w2.fields.set e.fm s.fm, trace := s.trace })
        | (.ok _, s) =>
          rewriteLoop INVALID srv helper cur_db k
            { fields := w2.fields.set e.fm s.fm, trace := s.trace }

/-- `Rewriter::rewrite`: the two initial assertions, the pass-through of the commands of
`noRewrite` (`wasRew = false`, the query unchanged), and the rewrite loop. -/
def Rewriter.rewrite (INVALID : SECLEVEL) (srv : Server) (helper : Helper)
    (thread_init_ok same_db : Bool) (cmd : enum_sql_command) (q cur_db : String)
    (bound : Nat) (w : ProxyWorld) : Option (Except Fault QueryRewrite × ProxyWorld) :=
  if thread_init_ok = false then some (.error (.assertion "0 == mysql_thread_init()"), w)
  else if same_db = false then
    some (.error (.assertion "ps.conn->getCurDBName() == ps.e_conn->getCurDBName()"), w)
  else if noRewrite cmd then
    some (.ok { wasRew := false, queries := [q], rmeta := { rfmeta := [] } }, w)
  else rewriteLoop INVALID srv helper cur_db bound w

/-! ## Sample data -/

/-- A field with a three-layer `oDET` onion and a two-layer `oOPE` onion. -/
def sampleField : FieldMeta :=
  { fname := "salary", has_salt := true, salt_name := "cdb_salt", anonTableName := "table_a",
    onions :=
      [(onion.oDET, { layers := [⟨1, 11⟩, ⟨2, 12⟩, ⟨3, 13⟩], onionname := "f_oDET" }),
       (onion.oOPE, { layers := [⟨4, 21⟩, ⟨5, 22⟩], onionname := "f_oOPE" })] }

/-- A live store that accepts every statement. -/
def acceptAll : Server := fun _ _ => true

/-- A `rewrite_helper` for a statement that needs `oDET` of the only field at level 2:
it asks for the adjustment while the onion is at level 3, and rewrites otherwise. -/
def sampleHelper : Helper := fun w =>
  match w.fields with
  | [fm] =>
    if fm.curLevel .oDET = some 3 then (.adjust { o := .oDET, fm := 0, tolevel := 2 }, w)
    else (.queries ["SELECT f_oDET FROM table_a"] { rfmeta := [] }, w)
  | _ => (.failure (.thrown "unknown table"), w)

/-! ## SQL handlers (`SqlHandler`, `buildSqlHandlers`, `rewriteLexAndUpdateMeta`) -/

/-- The functions that `buildSqlHandlers` installs in the handlers. -/
inductive HandlerFn where
  | process_select_lex
  | process_update_lex
  | alter_table_update_meta
  | add_table_update_meta
  | drop_table_update_meta
  | changeDBUpdateMeta
  | rewrite_alter_lex
  | rewrite_create_lex
  | rewrite_insert_lex
  | rewrite_drop_table_lex
  | rewrite_update_lex
  | rewrite_delete_lex
  | rewrite_select_lex
  deriving DecidableEq, Repr

/-- `SqlHandler`: the command, the three operations (`update_meta` may be `NULL`) and the
`updateAfter` flag. The class is declared in `main/sql_handler.hh`; the constructor is
used as `SqlHandler(cmd, query_analyze, update_meta, lex_rewrite, updateAfter = false)`. -/
structure SqlHandler where
  sql_cmd : enum_sql_command
  query_analyze : HandlerFn
  update_meta : Option HandlerFn
  lex_rewrite : HandlerFn
  update_after : Bool
  deriving DecidableEq, Repr

/-- `SqlHandler::hasUpdateMeta` (declared in `main/sql_handler.hh`): whether an
`update_meta` operation was given. -/
def SqlHandler.hasUpdateMeta (h : SqlHandler) : Bool := h.update_meta.isSome

/-- `SqlHandler::updateAfter` (declared in `main/sql_handler.hh`): the flag given to the
constructor. -/
def SqlHandler.updateAfter (h : SqlHandler) : Bool := h.update_after

/-- `SqlHandler::getHandler`: the handler registered for `cmd`, `NULL` when none is. -/
def SqlHandler.getHandler (handlers : List (enum_sql_command × SqlHandler))
    (cmd : enum_sql_command) : Option SqlHandler :=
  mapFind cmd handlers

/-- The handlers `buildSqlHandlers` creates, in the order in which it adds them. -/
def builtHandlers : List SqlHandler :=
  [ { sql_cmd := .SQLCOM_ALTER_TABLE, query_analyze := .process_select_lex,
      update_meta := some .alter_table_update_meta, lex_rewrite := .rewrite_alter_lex,
      update_after := true },
    { sql_cmd := .SQLCOM_CREATE_TABLE, query_analyze := .process_select_lex,
      update_meta := some .add_table_update_meta, lex_rewrite := .rewrite_create_lex,
      update_after := false },
    { sql_cmd := .SQLCOM_INSERT, query_analyze := .process_select_lex,
      update_meta := none, lex_rewrite := .rewrite_insert_lex, update_after := true },
    { sql_cmd := .SQLCOM_REPLACE, query_analyze := .process_select_lex,
      update_meta := none, lex_rewrite := .rewrite_insert_lex, update_after := true },
    { sql_cmd := .SQLCOM_DROP_TABLE, query_analyze := .process_select_lex,
      update_meta := some .drop_table_update_meta, lex_rewrite := .rewrite_drop_table_lex,
      update_after := true },
    { sql_cmd := .SQLCOM_UPDATE, query_analyze := .process_update_lex,
      update_meta := none, lex_rewrite := .rewrite_update_lex, update_after := true },
    { sql_cmd := .SQLCOM_DELETE, query_analyze := .process_select_lex,
      update_meta := none, lex_rewrite := .rewrite_delete_lex, update_after := true },
    { sql_cmd := .SQLCOM_SELECT, query_analyze := .process_select_lex,
      update_meta := none, lex_rewrite := .rewrite_select_lex, update_after := true },
    { sql_cmd := .SQLCOM_CHANGE_DB, query_analyze := .process_select_lex,
      update_meta := some .changeDBUpdateMeta, lex_rewrite := .rewrite_select_lex,
      update_after := true } ]

/-- The handler map that `buildSqlHandlers` leaves: one entry per handler. -/
def registeredHandlers : List (enum_sql_command × SqlHandler) :=
  builtHandlers.map fun h => (h.sql_cmd, h)

/-- `ALTER_ADD_COLUMN`, the flag of MySQL's `sql_lex.h` (`1L << 0`). -/
def ALTER_ADD_COLUMN : Nat := 1

/-- `ALTER_DROP_COLUMN`, the flag of MySQL's `sql_lex.h` (`1L << 1`). -/
def ALTER_DROP_COLUMN : Nat := 2

/-- The part of a `LEX` that `rewriteLexAndUpdateMeta` looks at: the command and
`alter_info.flags`. -/
structure LEX where
  sql_command : enum_sql_command
  alter_flags : Nat
  deriving DecidableEq, Repr

/-- The calls `rewriteLexAndUpdateMeta` makes. -/
inductive HandlerEvent where
  | process_table_list
  | query_analyze (f : HandlerFn)
  | update_meta (f : HandlerFn)
  | lex_rewrite (f : HandlerFn)
  deriving DecidableEq, Repr

/-- The behaviour of the operations called by `rewriteLexAndUpdateMeta`: whether a call
fails (it may depend on the calls made before it), and the statements a rewrite
operation returns (`none` for `NULL`). -/
structure Callbacks where
  fails : List HandlerEvent → HandlerEvent → Option Fault
  rewritten : HandlerFn → Option (List String)

/-- `(*sql_handler->update_meta)(q, lex, analysis)`; a `NULL` operation cannot be
called. -/
def callUpdateMeta (cb : Callbacks) (h : SqlHandler) (tr : List HandlerEvent) :
    Option Fault × List HandlerEvent :=
  match h.update_meta with
  | none => (some (.undefined "call through a null update_meta"), tr)
  | some f => (cb.fails tr (.update_meta f), tr ++ [.update_meta f])

/-- `SqlHandler::rewriteLexAndUpdateMeta`: the result (`none` for `NULL`) and the calls
made, in order. -/
def SqlHandler.rewriteLexAndUpdateMeta (handlers : List (enum_sql_command × SqlHandler))
    (cb : Callbacks) (lex : LEX) :
    Except Fault (Option (List String)) × List HandlerEvent :=
  match SqlHandler.getHandler handlers lex.sql_command with
  | none => (.ok none, [])
  | some h =>
    match cb.fails [] .process_table_list with
    | some f => (.error f, [.process_table_list])
    | none =>
      let t1 : List HandlerEvent := [.process_table_list]
      match cb.fails t1 (.query_analyze h.query_analyze) with
      | some f => (.error f, t1 ++ [.query_analyze h.query_analyze])
      | none =>
        let t2 := t1 ++ [.query_analyze h.query_analyze]
        let before : Bool :=
          (lex.sql_command != .SQLCOM_ALTER_TABLE && h.hasUpdateMeta == true &&
            h.updateAfter == false) ||
          (lex.sql_command == .SQLCOM_ALTER_TABLE &&
            lex.alter_flags &&& ALTER_ADD_COLUMN != 0)
        match (if before then callUpdateMeta cb h t2 else (none, t2)) with
        | (some f, t3) => (.error f, t3)
        | (none, t3) =>
          match cb.fails t3 (.lex_rewrite h.lex_rewrite) with
          | some f => (.error f, t3 ++ [.lex_rewrite h.lex_rewrite])
          | none =>
            let t4 := t3 ++ [.lex_rewrite h.lex_rewrite]
            let after : Bool :=
              (lex.sql_command != .SQLCOM_ALTER_TABLE && h.hasUpdateMeta == true &&
                h.updateAfter == true) ||
              (lex.sql_command == .SQLCOM_ALTER_TABLE &&
                lex.alter_flags &&& ALTER_DROP_COLUMN != 0)
            match (if after then callUpdateMeta cb h t4 else (none, t4)) with
            | (some f, t5) => (.error f, t5)
            | (none, t5) => (.ok (cb.rewritten h.lex_rewrite), t5)

/-- Operations that all return, the rewrite operations returning one statement. -/
def sampleCallbacks : Callbacks :=
  { fails := fun _ _ => none, rewritten := fun _ => some ["rewritten statement"] }

/-! ## Items, capability sets and the rewriting of `UPDATE` -/

/-- The items the rewriting of `UPDATE` and the decryption of results look at: a column
reference (`Item_field`), an integer, a string, and `NULL`. -/
inductive Item where
  | field (table name : String)
  | int (v : Nat)
  | str (s : String)
  | null
  deriving DecidableEq, Repr

/-- `LevelFieldPair`. -/
abbrev LevelFieldPair := SECLEVEL × Option FieldMeta

/-- `EncSet`, with its `OnionLevelFieldMap osl`. -/
structure EncSet where
  osl : List (onion × LevelFieldPair)
  deriving DecidableEq, Repr

/-- `EncSet::empty` (declared in the analysis headers): no onion is left. -/
def EncSet.empty (es : EncSet) : Bool := es.osl.isEmpty

/-- The loop of `invalidates` over `fm->onions`. -/
def invalidatesLoop (es : EncSet) : List (onion × OnionMeta) → Bool
  | [] => false
  | o_l :: rest =>
    if (mapFind o_l.1 es.osl).isNone then true else invalidatesLoop es rest

/-- `invalidates(fm, es)`. -/
def invalidates (fm : FieldMeta) (es : EncSet) : Bool := invalidatesLoop es fm.onions

/-- What `rewrite_update_lex` uses of the analysis and of the expression rewriting, which
lie outside these sources. -/
structure UpdateEnv where
  /-- `a.getFieldMeta(table, field)`; `none` when the lookup fails -/
  getFieldMeta : String → String → Option FieldMeta
  /-- `a.rewritePlans[item]->es_out`; `none` when the item has no plan -/
  es_out : Item → Option EncSet
  /-- `EncSet::intersect` -/
  intersect : EncSet → EncSet → EncSet
  /-- the constructor `EncSet(fm)` -/
  encSetOf : FieldMeta → EncSet
  /-- `needsSalt(EncSet)` -/
  needsSalt : EncSet → Bool
  /-- `itemTypes.do_rewrite(item, olk, plan, a)`, which may throw -/
  do_rewrite : Item → OLK → Except Fault Item
  /-- `make_item(field, name)` -/
  make_item : Item → String → Item
  /-- the successive results of `randomValue()` -/
  randomValue : Nat → Nat
  /-- `mp_update_init` returns -/
  mp_ok : Bool
  /-- `rewrite_table_list` and `rewrite_filters_lex`: the rewritten `WHERE`, or a failure -/
  filters : Except Fault (Option Item)

/-- The variables of the loop over the `SET` pairs, with `a.salts` and the number of
random values drawn so far. -/
structure UpdateState where
  res_items : List Item
  res_vals : List Item
  invalids : Bool
  salts : List (FieldMeta × Nat)
  draws : Nat
  deriving DecidableEq, Repr

/-- The inner loop `for (auto pair : r_es.osl)`: one rewritten field and one rewritten
value per onion of `r_es`; `rew_fd` is the last rewritten field. -/
def rewriteOnions (env : UpdateEnv) (i val : Item) (fm : FieldMeta) :
    List (onion × LevelFieldPair) → UpdateState → Option Item →
    Except Fault (UpdateState × Option Item)
  | [], st, rew_fd => .ok (st, rew_fd)
  | pair :: rest, st, _ =>
    let olk : OLK := { o := pair.1, l := pair.2.1, key := some fm }
    match env.es_out i with
    | none => .error (.assertion "getAssert(a.rewritePlans, i)")
    | some _ =>
      match env.do_rewrite i olk with
      | .error f => .error f
      | .ok new_fd =>
        match env.es_out val with
        | none => .error (.assertion "getAssert(a.rewritePlans, val)")
        | some _ =>
          match env.do_rewrite val olk with
          | .error f => .error f
          | .ok new_val =>
            rewriteOnions env i val fm rest
              { st with res_items := st.res_items ++ [new_fd],
                        res_vals := st.res_vals ++ [new_val] }
              (some new_fd)

/-- The loop of `rewrite_update_lex` over the pairs `fd = val` of the `SET` clause, the
two lists being walked by two iterators. -/
def setLoop (env : UpdateEnv) : List Item → List Item → UpdateState → Except Fault UpdateState
  | [], vals, st =>
    match vals with
    | [] => .ok st
    | _ :: _ => .error (.assertion "NULL == v")
  | i :: fds, vals, st =>
    match i with
    | .field table name =>
      match env.getFieldMeta table name with
      | none => .error (.assertion "a.getFieldMeta(fd->table_name, fd->field_name)")
      | some fm =>
        match vals with
        | [] => .error (.assertion "val != NULL")
        | val :: vals1 =>
          if fm.isEncrypted = false then
            setLoop env fds vals1
              { st with res_items := st.res_items ++ [i], res_vals := st.res_vals ++ [val] }
          else
            match env.es_out val with
            | none => .error (.assertion "getAssert(a.rewritePlans, val)")
            | some es =>
              let r_es := env.intersect es (env.encSetOf fm)
              if r_es.empty then .error (.assertion "false")
              else
                let add_salt : Bool :=
                  fm.has_salt && (mapFind fm st.salts).isNone && env.needsSalt r_es
                let salt := env.randomValue st.draws
                let st1 : UpdateState :=
                  if add_salt then
                    { st with salts := st.salts ++ [(fm, salt)], draws := st.draws + 1 }
                  else st
                match rewriteOnions env i val fm r_es.osl st1 none with
                | .error f => .error f
                | .ok (st2, rew_fd) =>
                  let st3 : UpdateState :=
                    { st2 with invalids := st2.invalids || invalidates fm r_es }
                  if add_salt then
                    match rew_fd with
                    | none => .error (.assertion "rew_fd")
                    | some fd =>
                      setLoop env fds vals1
                        { st3 with
                          res_items := st3.res_items ++ [env.make_item fd fm.salt_name],
                          res_vals := st3.res_vals ++ [.int salt] }
                  else setLoop env fds vals1 st3
    | _ => .error (.assertion "i->type() == Item::FIELD_ITEM")

/-- A result row. -/
abbrev Row := List Item

/-- The statements that `rewrite_update_lex_refresh_onions` builds as text. -/
inductive PlainQuery where
  /-- `SELECT * FROM table WHERE where_clause;` -/
  | selectWhere (table where_clause : String)
  /-- `INSERT INTO table VALUES rows;` -/
  | insertValues (table : String) (rows : List Row)
  /-- the original statement, unmodified (`*lex`) -/
  | original
  /-- `SELECT * FROM table;` -/
  | selectAll (table : String)
  /-- `DELETE FROM table;` -/
  | deleteAll (table : String)
  /-- `DELETE FROM table WHERE where_clause;` -/
  | deleteWhere (table where_clause : String)
  deriving DecidableEq, Repr

/-- The rewritten `UPDATE` (`new_lex`): its `SET` columns and values and its `WHERE`. -/
structure NewLex where
  items : List Item
  vals : List Item
  where_ : Option Item
  deriving DecidableEq, Repr

/-- A statement of the output of a rewrite. -/
inductive OutLex where
  /-- the rewritten `UPDATE`, applied in place -/
  | update (n : NewLex)
  /-- `START TRANSACTION;` -/
  | begin_transaction
  /-- `COMMIT;` -/
  | commit_transaction
  /-- a statement produced by `SqlHandler::rewriteLex` from the query `q` -/
  | rewritten (q : PlainQuery) (n : Nat)
  deriving DecidableEq, Repr

/-- The part of the `UPDATE` statement used here: the tables of `top_join_list`, and the
columns and values of the `SET` clause. -/
structure UpdateLex where
  tables : List String
  item_list : List Item
  value_list : List Item
  deriving DecidableEq, Repr

/-- The stores behind the refresh path, seen as lists of plaintext rows, and the
collaborators of `rewrite_update_lex_refresh_onions`. The live table is read through
`executeQuery`; the scratch table lives in the embedded database. -/
structure RefreshEnv where
  /-- `ItemToString` -/
  itemToString : Item → String
  /-- the rows of the table in the live store -/
  live : List Row
  /-- the rows a `WHERE` clause selects -/
  keep : String → Row → Bool
  /-- `executeQuery` returns `NULL` -/
  select_fails : Bool
  /-- the rows of the table in the scratch store when the call starts -/
  scratch : List Row
  /-- the rows the original `UPDATE` applies to -/
  applies : Row → Bool
  /-- the assignment of the original `UPDATE` to a row -/
  assign : Row → Row
  /-- `a.ps->e_conn->execute(q)` returns true -/
  e_execute : PlainQuery → Bool
  /-- `SqlHandler::rewriteLex` on the parsed query: `NULL` or the statements -/
  rewriteLex : PlainQuery → Option (List OutLex)

/-- The call `executeQuery(*a.rewriter, " SELECT * FROM table WHERE where_clause;")` as
the refresh path sees it: `NULL` for any failure inside `executeQuery`, else the
decrypted result, taken to be the rows of the live table that the clause selects. -/
def RefreshEnv.executeQuery (renv : RefreshEnv) (where_clause : String) : Option (List Row) :=
  if renv.select_fails then none else some (renv.live.filter (renv.keep where_clause))

/-- An `UPDATE` run on a table: the rows it applies to are assigned, the others are
kept. -/
def RefreshEnv.runOriginal (renv : RefreshEnv) (rows : List Row) : List Row :=
  rows.map fun r => if renv.applies r then renv.assign r else r

/-- `where_clause`: the text of the `WHERE` of `new_lex`, or `" TRUE "` when it has
none. -/
def RefreshEnv.whereClause (renv : RefreshEnv) (new_lex : NewLex) : String :=
  match new_lex.where_ with
  | some w => renv.itemToString w
  | none => " TRUE "

/-- The result of the refresh path: the statements, and the rows left in the scratch
table. -/
structure RefreshResult where
  lexes : List OutLex
  scratch : List Row
  deriving DecidableEq, Repr

/-- `rewrite_update_lex_refresh_onions`. -/
def rewrite_update_lex_refresh_onions (renv : RefreshEnv) (lex : UpdateLex)
    (new_lex : NewLex) : Except Fault RefreshResult :=
  match lex.tables.head? with
  | none => .error (.undefined "top_join_list.head() is null")
  | some plain_table =>
    let where_clause : String := renv.whereClause new_lex
    match renv.executeQuery where_clause with
    | none => .error (.assertion "select_res_type")
    | some rows =>
      if rows.length = 0 then
        .ok { lexes := [.update new_lex], scratch := renv.scratch }
      else if renv.e_execute (.insertValues plain_table rows) = false then
        .error (.assertion "a.ps->e_conn->execute(push_stream.str())")
      else
        let scratch1 := renv.scratch ++ rows
        if renv.e_execute .original = false then
          .error (.assertion "a.ps->e_conn->execute(query_stream.str())")
        else
          let scratch2 := renv.runOriginal scratch1
          if renv.e_execute (.selectAll plain_table) = false then
            .error (.assertion "a.ps->e_conn->execute(select_results_stream.str(), dbres)")
          else
            let output_rows := scratch2
            if renv.e_execute (.deleteAll plain_table) = false then
              .error (.assertion "a.ps->e_conn->execute(cleanup_stream.str())")
            else
              match renv.rewriteLex (.insertValues plain_table output_rows) with
              | some [final_insert_lex] =>
                match renv.rewriteLex (.deleteWhere plain_table where_clause) with
                | some [delete_lex] =>
                  .ok { lexes := [.begin_transaction, delete_lex, final_insert_lex,
                                  .commit_transaction],
                        scratch := [] }
                | _ => .error (.assertion "delete_lex_arr && 1 == delete_out_lex_count")
              | _ =>
                .error (.assertion "final_insert_lex_arr && 1 == final_insert_out_lex_count")

/-- Which of the two returns of `rewrite_update_lex` was taken. -/
inductive UpdatePath where
  | inPlace
  | refresh
  deriving DecidableEq, Repr

/-- The result of `rewrite_update_lex`: the statements (`out_lex`, `*out_lex_count` being
their number) and the return that produced them. -/
structure UpdateResult where
  lexes : List OutLex
  path : UpdatePath
  deriving DecidableEq, Repr

/-- `rewrite_update_lex`. -/
def rewrite_update_lex (env : UpdateEnv) (renv : RefreshEnv) (lex : UpdateLex)
    (salts : List (FieldMeta × Nat)) : Except Fault UpdateResult :=
  if lex.item_list.isEmpty then .error (.assertion "update needs to have item_list")
  else if env.mp_ok = false then
    .error (.assertion "cannot update changes to access tree")
  else
    match env.filters with
    | .error f => .error f
    | .ok new_where =>
      if lex.value_list.isEmpty then .error (.assertion "lex->value_list.head()")
      else
        match setLoop env lex.item_list lex.value_list
            { res_items := [], res_vals := [], invalids := false, salts := salts,
              draws := 0 } with
        | .error f => .error f
        | .ok st =>
          let new_lex : NewLex :=
            { items := st.res_items, vals := st.res_vals, where_ := new_where }
          if st.invalids = false then .ok { lexes := [.update new_lex], path := .inPlace }
          else
            match rewrite_update_lex_refresh_onions renv lex new_lex with
            | .error f => .error f
            | .ok r => .ok { lexes := r.lexes, path := .refresh }

/-- The assigned encrypted fields of a `SET` clause, each with the capability set that
`rewrite_update_lex` computes for it: the output set of the assigned value intersected
with the set of the field. -/
def assignedEncrypted (env : UpdateEnv) : List Item → List Item → List (FieldMeta × EncSet)
  | Item.field table name :: fds, val :: vals =>
    match env.getFieldMeta table name, env.es_out val with
    | some fm, some es =>
      if fm.isEncrypted then
        (fm, env.intersect es (env.encSetOf fm)) :: assignedEncrypted env fds vals
      else assignedEncrypted env fds vals
    | _, _ => assignedEncrypted env fds vals
  | _, _ => []

/-- An intersection for the sample environment: the onions of both sets, each with the
smaller of its two levels. -/
def sampleIntersect (a b : EncSet) : EncSet :=
  { osl := a.osl.filterMap fun p =>
      match mapFind p.1 b.osl with
      | none => none
      | some q => some (p.1, (min p.2.1 q.1, q.2)) }

/-- The capability set of a field in the sample environment: its onions at their
current levels. -/
def sampleEncSetOf (fm : FieldMeta) : EncSet :=
  { osl := fm.onions.map fun p => (p.1, (((fm.curLevel p.1).getD 0), some fm)) }

/-- An analysis in which column `salary` is `sampleField`, a string value can only be
produced on the `oDET` onion, and every other value on `oDET` and `oOPE`. -/
def sampleUpdateEnv : UpdateEnv :=
  { getFieldMeta := fun _ name => if name = "salary" then some sampleField else none,
    es_out := fun i =>
      match i with
      | .str _ => some { osl := [(.oDET, (3, none))] }
      | _ => some { osl := [(.oDET, (3, none)), (.oOPE, (5, none))] },
    intersect := sampleIntersect,
    encSetOf := sampleEncSetOf,
    needsSalt := fun _ => false,
    do_rewrite := fun i _ => .ok i,
    make_item := fun i _ => i,
    randomValue := fun n => n,
    mp_ok := true,
    filters := .ok none }

/-- Stores for the sample environment: the given live rows, an empty scratch table, a
`WHERE` that selects the rows starting with `1`, an assignment of `7` to every cell;
every statement succeeds and is rewritten into one statement. -/
def sampleRefreshEnv (live : List Row) : RefreshEnv :=
  { itemToString := fun _ => "c = 1",
    live := live,
    keep := fun _ r => decide (r.head? = some (Item.int 1)),
    select_fails := false,
    scratch := [],
    applies := fun _ => true,
    assign := fun r => r.map fun _ => Item.int 7,
    e_execute := fun _ => true,
    rewriteLex := fun q => some [.rewritten q 0] }

/-- `UPDATE t SET salary = 'x'`. -/
def sampleUpdateLex : UpdateLex :=
  { tables := ["t"], item_list := [.field "t" "salary"], value_list := [.str "x"] }

/-! ## Result decryption (`decrypt_item_layers`, `decrypt_item`, `decryptResults`) -/

/-- `Item::is_null()`, and `null_value`, for the items of a result set. -/
def Item.is_null : Item → Bool
  | .null => true
  | _ => false

/-- `ResType`: the column names and the rows. -/
structure ResType where
  names : List String
  rows : List Row
  deriving DecidableEq, Repr

/-- `rmeta->rfmeta[pos]`: the entry at `pos`, or the value-initialised entry `dflt`
that `operator[]` creates for a position without one. -/
def ReturnMeta.at (rmeta : ReturnMeta) (dflt : ReturnField) (pos : Nat) : ReturnField :=
  (mapFind pos rmeta.rfmeta).getD dflt

/-- The loop of `decrypt_item_layers` over `layers.rbegin() .. layers.rend()`, on the
layers listed outermost first: `dec = (*it)->decrypt(dec, IV)`. -/
def decryptLoop (decrypt : EncLayer → Item → Nat → Item) (IV : Nat) :
    List EncLayer → Item → Item
  | [], dec => dec
  | l :: rest, dec => decryptLoop decrypt IV rest (decrypt l dec IV)

/-- `decrypt_item_layers`: assert the item is not null; return it as it is for the
plaintext onion; else decrypt it through the layers, from the last one to the first. -/
def decrypt_item_layers (decrypt : EncLayer → Item → Nat → Item) (i : Item) (o : onion)
    (layers : List EncLayer) (IV : Nat) : Except Fault Item :=
  if i.is_null then .error (.assertion "!i->is_null()")
  else if o = .oPLAIN then .ok i
  else .ok (decryptLoop decrypt IV layers.reverse i)

/-- `decrypt_item`: assert the item is not null, and decrypt it through the layers of
`fm->onions[o]` (a null pointer when the field has no such onion). -/
def decrypt_item (decrypt : EncLayer → Item → Nat → Item) (fm : FieldMeta) (o : onion)
    (i : Item) (IV : Nat) : Except Fault Item :=
  if i.is_null then .error (.assertion "!i->is_null()")
  else
    match mapFind o fm.onions with
    | none => .error (.undefined "fm->onions[o] is null")
    | some om => decrypt_item_layers decrypt i o om.layers IV

/-- The body of the loops of `decryptResults` for row `row` and column `c`: the cell is
passed through when the field is absent or not encrypted or the cell is null; else the
salt is read at `pos_salt` when that is not negative (it must not be null, and is
read as an `Item_int`, as a 64-bit unsigned value), and the cell is decrypted. -/
def decryptCell (decrypt : EncLayer → Item → Nat → Item) (rf : ReturnField) (row : Row)
    (c : Nat) : Except Fault Item :=
  match row.get? c with
  | none => .error (.undefined "dbres.rows[r][c] out of range")
  | some cell =>
    match rf.olk.key with
    | none => .ok cell
    | some fm =>
      if fm.isEncrypted = false || cell.is_null then .ok cell
      else if rf.pos_salt ≥ 0 then
        match row.get? rf.pos_salt.toNat with
        | none => .error (.undefined "dbres.rows[r][rf.pos_salt] out of range")
        | some .null => .error (.assertion "salt item is null")
        | some (.int v) => decrypt_item decrypt fm rf.olk.o cell (v % 2 ^ 64)
        | some _ => .error (.undefined "salt item is not an Item_int")
      else decrypt_item decrypt fm rf.olk.o cell 0

/-- The inner loop `for r` of `decryptResults` for a column that is not a salt: one
cell is stored at `col_index` in each row of the result, here the end of the cells
stored so far. -/
def decryptCol (decrypt : EncLayer → Item → Nat → Item) (rf : ReturnField) (c : Nat) :
    List Row → List Row → Except Fault (List Row)
  | [], res => .ok res
  | drow :: drows, res =>
    match res with
    | [] => .error (.undefined "res.rows[r] out of range")
    | rrow :: rrows =>
      match decryptCell decrypt rf drow c with
      | .error f => .error f
      | .ok cell =>
        match decryptCol decrypt rf c drows rrows with
        | .error f => .error f
        | .ok rest => .ok ((rrow ++ [cell]) :: rest)

/-- The outer loop `for c` of `decryptResults` over the columns still to do. -/
def decryptCols (decrypt : EncLayer → Item → Nat → Item) (rmeta : ReturnMeta)
    (dflt : ReturnField) (drows : List Row) : List Nat → List Row → Except Fault (List Row)
  | [], res => .ok res
  | c :: cs, res =>
    if (rmeta.at dflt c).is_salt then decryptCols decrypt rmeta dflt drows cs res
    else
      match decryptCol decrypt (rmeta.at dflt c) c drows res with
      | .error f => .error f
      | .ok res1 => decryptCols decrypt rmeta dflt drows cs res1

/-- `mp_init_decrypt`: without multi-principal state nothing happens; with it, the key
of every entry that is not a salt is dereferenced. -/
def mp_init_decrypt (mp : Bool) (rmeta : ReturnMeta) : Except Fault Unit :=
  if mp = false then .ok ()
  else if rmeta.rfmeta.any (fun p => !p.2.is_salt && p.2.olk.key.isNone) then
    .error (.undefined "i->second.olk.key is null")
  else .ok ()

/-- `Rewriter::decryptResults`: the names of the columns that are not salts, and the
rows with one cell for each of these columns. -/
def Rewriter.decryptResults (decrypt : EncLayer → Item → Nat → Item) (mp : Bool)
    (dflt : ReturnField) (dbres : ResType) (rmeta : ReturnMeta) : Except Fault ResType :=
  match mp_init_decrypt mp rmeta with
  | .error f => .error f
  | .ok _ =>
    let cols := dbres.names.length
    let names := (List.range cols).filterMap fun index =>
      if (rmeta.at dflt index).is_salt then none
      else some (rmeta.at dflt index).field_called
    match decryptCols decrypt rmeta dflt dbres.rows (List.range cols)
        (dbres.rows.map fun _ => []) with
    | .error f => .error f
    | .ok rows => .ok { names := names, rows := rows }

/-- The value of `col_index` when the loop of `decryptResults` reaches column `c`: the
number of columns before `c` that are not salts. -/
def colIndex (rmeta : ReturnMeta) (dflt : ReturnField) (c : Nat) : Nat :=
  ((List.range c).filter fun i => !(rmeta.at dflt i).is_salt).length

/-- The cells that the loops of `decryptResults` store in the result row of `drow`, for
the columns `cs`. -/
def rowCells (decrypt : EncLayer → Item → Nat → Item) (rmeta : ReturnMeta)
    (dflt : ReturnField) (drow : Row) : List Nat → Except Fault Row
  | [] => .ok []
  | c :: cs =>
    if (rmeta.at dflt c).is_salt then rowCells decrypt rmeta dflt drow cs
    else
      match decryptCell decrypt (rmeta.at dflt c) drow c with
      | .error f => .error f
      | .ok v =>
        match rowCells decrypt rmeta dflt drow cs with
        | .error f => .error f
        | .ok vs => .ok (v :: vs)

/-- A layer decryption for the sample data: subtract the key tag of the layer and the
salt from an integer. -/
def sampleDecrypt : EncLayer → Item → Nat → Item := fun l i IV =>
  match i with
  | .int v => .int (v - l.key - IV)
  | x => x

/-- The entry `operator[]` creates for a position without one in the sample data. -/
def sampleDefault : ReturnField :=
  { is_salt := false, field_called := "", olk := { o := .oINVALID, l := 0, key := none },
    pos_salt := 0 }

/-- Return metadata of three physical columns: a column without field, the `oDET`
column of `sampleField` with its salt at position 2, and that salt. -/
def sampleReturnMeta : ReturnMeta :=
  { rfmeta :=
      [(0, { is_salt := false, field_called := "id",
             olk := { o := .oPLAIN, l := 0, key := none }, pos_salt := -1 }),
       (1, { is_salt := false, field_called := "salary",
             olk := { o := .oDET, l := 3, key := some sampleField }, pos_salt := 2 }),
       (2, { is_salt := true, field_called := "",
             olk := { o := .oINVALID, l := 0, key := none }, pos_salt := -1 })] }

/-- A raw result of two rows over these three columns; the second row has a null in the
encrypted column. -/
def sampleResult : ResType :=
  { names := ["c0", "c1", "c2"],
    rows := [[.int 5, .int 100, .int 4], [.int 6, .null, .int 8]] }

/-- Modelled from the spec: the encrypting counterpart of `decrypt_item_layers` is not
part of these sources. As the round trip `decrypt(stack, encrypt(stack, plaintext))`
describes it, a value is encrypted through the stack from the innermost layer outwards,
each layer with the same salt; like decryption it asserts that the item is not null and
leaves an item of the plaintext onion as it is. -/
def encrypt_item_layers (encrypt : EncLayer → Item → Nat → Item) (i : Item) (o : onion)
    (layers : List EncLayer) (IV : Nat) : Except Fault Item :=
  if i.is_null then .error (.assertion "!i->is_null()")
  else if o = .oPLAIN then .ok i
  else .ok (layers.foldl (fun enc l => encrypt l enc IV) i)

/-- The columns of a result of `cols` physical columns that are not salts, in increasing
position. -/
def nonSaltCols (rmeta : ReturnMeta) (dflt : ReturnField) (cols : Nat) : List Nat :=
  (List.range cols).filter fun i => !(rmeta.at dflt i).is_salt

/-- A raw result whose only row has a null in the salt column of the encrypted column. -/
def sampleNullSalt : ResType :=
  { names := ["c0", "c1", "c2"], rows := [[.int 5, .int 100, .null]] }

/-- A layer encryption for the sample data, the inverse of `sampleDecrypt`: add the key
tag of the layer and the salt to an integer. -/
def sampleEncrypt : EncLayer → Item → Nat → Item := fun l i IV =>
  match i with
  | .int v => .int (v + l.key + IV)
  | x => x

/-- Two layers of a sample stack, the lower one first. -/
def sampleStack : List EncLayer := [{ lvl := 1, key := 7 }, { lvl := 2, key := 11 }]

/-- A field with the plaintext onion and the `oDET` onion together. -/
def samplePlainAndDet : FieldMeta :=
  { sampleField with
    onions := [(.oPLAIN, { layers := [], onionname := "salary" }),
               (.oDET, { layers := sampleStack, onionname := "salary_det" })] }

/-! ## Rewriting of `GROUP BY` and `ORDER BY` (`rewrite_order`, `rewrite_filters_lex`) -/

/-- `ORDER`: an item of a `GROUP BY` or `ORDER BY` list, with its direction. -/
structure ORDER where
  item : Item
  asc : Bool
  deriving DecidableEq, Repr

/-- `rewrite_order`: for each item of the list, the plan of the item must exist, the
required set `constr` is intersected with the output set of the plan, an empty
intersection stops at `assert(false)`, and else the item is rewritten for the chosen
onion and level; `make_order` copies the `ORDER` with the new item. `chooseOne` is
declared outside these sources. -/
def rewrite_order (env : UpdateEnv) (chooseOne : EncSet → OLK) (constr : EncSet) :
    List ORDER → Except Fault (List ORDER)
  | [] => .ok []
  | o :: rest =>
    match env.es_out o.item with
    | none => .error (.assertion "getAssert(a.rewritePlans, i)")
    | some es_out =>
      let es := env.intersect constr es_out
      if es.empty then .error (.assertion "false")
      else
        let olk := chooseOne es
        match env.do_rewrite o.item olk with
        | .error f => .error f
        | .ok new_item =>
          match rewrite_order env chooseOne constr rest with
          | .error f => .error f
          | .ok news => .ok ({ o with item := new_item } :: news)

/-- What `rewrite_filters_lex` reads and writes of a `st_select_lex`. -/
structure SelectLex where
  where_ : Option Item
  having : Option Item
  group_list : List ORDER
  order_list : List ORDER
  deriving DecidableEq, Repr

/-- `rewrite_filters_lex`: `WHERE` and `HAVING` are rewritten for `PLAIN_OLK` by
`rewrite` (declared outside these sources, it may fail), then the `GROUP BY` list is
rewritten with the required set `EQ_EncSet` and the `ORDER BY` list with `ORD_EncSet`
(both defined outside these sources). -/
def rewrite_filters_lex (env : UpdateEnv) (chooseOne : EncSet → OLK)
    (rewrite : Item → OLK → Except Fault Item) (PLAIN_OLK : OLK)
    (EQ_EncSet ORD_EncSet : EncSet) (select_lex : SelectLex) : Except Fault SelectLex :=
  let new_where : Except Fault (Option Item) :=
    match select_lex.where_ with
    | none => .ok none
    | some w =>
      match rewrite w PLAIN_OLK with
      | .error f => .error f
      | .ok w1 => .ok (some w1)
  match new_where with
  | .error f => .error f
  | .ok where1 =>
    let new_having : Except Fault (Option Item) :=
      match select_lex.having with
      | none => .ok none
      | some h =>
        match rewrite h PLAIN_OLK with
        | .error f => .error f
        | .ok h1 => .ok (some h1)
    match new_having with
    | .error f => .error f
    | .ok having1 =>
      match rewrite_order env chooseOne EQ_EncSet select_lex.group_list with
      | .error f => .error f
      | .ok groups =>
        match rewrite_order env chooseOne ORD_EncSet select_lex.order_list with
        | .error f => .error f
        | .ok orders =>
          .ok { where_ := where1, having := having1, group_list := groups,
                order_list := orders }

/-- A required set for the sample environment that only the `oOPE` onion meets. -/
def sampleOrdSet : EncSet := { osl := [(.oOPE, (5, none))] }

/-- A required set for the sample environment that the `oDET` onion meets. -/
def sampleEqSet : EncSet := { osl := [(.oDET, (3, none))] }

/-- A choice for the sample environment: the first onion of the set. -/
def sampleChoose (es : EncSet) : OLK :=
  match es.osl with
  | [] => { o := .oINVALID, l := 0, key := none }
  | p :: _ => { o := p.1, l := p.2.1, key := p.2.2 }

/-- A sample environment in which a string value cannot be produced on any onion of
`sampleField`: its only output onion is `oSWP`. -/
def sampleNoOnionEnv : UpdateEnv :=
  { sampleUpdateEnv with es_out := fun _ => some { osl := [(.oSWP, (4, none))] } }

/-! ## Capability sets (`EncSet::intersect`, `EncSet::chooseOne`) -/

/-- The onions in one fixed order, which stands for the order of the enumeration
(declared in `util/onions.hh`): an `OnionLevelFieldMap` is walked in that order. -/
def allOnions : List onion := [.oPLAIN, .oDET, .oOPE, .oAGG, .oSWP, .oINVALID]

/-- A capability set that is a `std::map`: each onion at most once, in the order of the
enumeration. -/
def EncSet.isMap (A : EncSet) : Prop := (A.osl.map Prod.fst).Sublist allOnions

instance (A : EncSet) : Decidable A.isMap := by
  unfold EncSet.isMap
  infer_instance

/-- Modelled from the spec: two field bindings are compatible when they are equal or one
of them is absent, and then they combine to the binding that is present; `none` as a
result stands for incompatible bindings. -/
def mergeKeys : Option FieldMeta → Option FieldMeta → Option (Option FieldMeta)
  | none, b => some b
  | some x, none => some (some x)
  | some x, some y => if x = y then some (some x) else none

/-- Modelled from the spec: what the intersection keeps of one onion, given its entries
in the two operands: nothing when the onion is missing in an operand or the bindings are
not compatible, and else the smaller of the two levels with the combined binding. -/
def intersectPair : Option LevelFieldPair → Option LevelFieldPair → Option LevelFieldPair
  | some p, some q => (mergeKeys p.2 q.2).map fun k => (min p.1 q.1, k)
  | _, _ => none

/-- Modelled from the spec: `EncSet::intersect` is declared outside these sources. For
each onion present in both operands the result has the minimum of the two levels, the
field bindings having to be equal or absent in either; onions present in only one
operand are dropped. The result is built in the order of the enumeration, as a map is. -/
def EncSet.intersect (A B : EncSet) : EncSet :=
  { osl := allOnions.filterMap fun o =>
      (intersectPair (mapFind o A.osl) (mapFind o B.osl)).map fun p => (o, p) }

/-- Modelled from the spec: the walk of `chooseOne` along its precedence order, which
stops at the first onion of the order that the set has. -/
def chooseLoop (S : EncSet) : List onion → Option OLK
  | [] => none
  | o :: rest =>
    match mapFind o S.osl with
    | some p => some { o := o, l := p.1, key := p.2 }
    | none => chooseLoop S rest

/-- Modelled from the spec: `EncSet::chooseOne` is declared outside these sources. It
requires a non-empty set (`none` is the failure on an empty one) and selects the entry
of the first onion that the set has in a fixed precedence order, a parameter here. -/
def EncSet.chooseOne (precedence : List onion) (S : EncSet) : Option OLK :=
  if S.empty then none else chooseLoop S precedence

/-- Sample capability sets: two onions bound to no field, and the same two onions at
other levels with `oDET` bound to `sampleField`, and a third onion. -/
def sampleSetA : EncSet := { osl := [(.oDET, (3, none)), (.oOPE, (5, none))] }

/-- See `sampleSetA`. -/
def sampleSetB : EncSet :=
  { osl := [(.oDET, (2, some sampleField)), (.oOPE, (6, none)), (.oAGG, (1, none))] }

/-! ## Creation of metadata (`create_field_meta`, `create_table_meta`) -/

/-- `m[k] = v` on a `std::map`: the value under `k` is replaced when the key exists, and
the entry is added otherwise. -/
def mapAssign {K V : Type} [DecidableEq K] (k : K) (v : V) (m : List (K × V)) :
    List (K × V) :=
  if (mapFind k m).isSome then mapReplace k v m else m ++ [(k, v)]

/-- What the metadata code reads of a `Create_field`: the name and the SQL type. -/
structure Create_field where
  field_name : String
  sql_type : Nat
  deriving DecidableEq, Repr

/-- `TableMeta` as `cdb_rewrite.cc` uses it: the fields by name, the ordered names of the
fields, the number and the anonymized name of the table. -/
structure TableMeta where
  fieldMetaMap : List (String × FieldMeta)
  fieldNames : List String
  tableNo : Nat
  anonTableName : String
  deriving DecidableEq, Repr

/-- `SchemaInfo`: the tables by name, and the counter `totalTables`. -/
structure SchemaInfo where
  tableMetaMap : List (String × TableMeta)
  totalTables : Nat
  deriving DecidableEq, Repr

/-- What `create_table_meta` reads of the `LEX` of a `CREATE TABLE`: the command, whether
`create_info.options` has `HA_LEX_CREATE_IF_NOT_EXISTS`, and `alter_info.create_list`. -/
structure CreateLex where
  sql_command : enum_sql_command
  if_not_exists : Bool
  create_list : List Create_field
  deriving DecidableEq, Repr

/-- What `init_onions` sets on a new field: the salt flag, the salt name and the onions
(built with key material and layouts that lie outside these sources). -/
structure OnionInit where
  has_salt : Bool
  salt_name : String
  onions : List (onion × OnionMeta)
  deriving DecidableEq, Repr

/-- `check_table_not_exists`: when the table exists a warning is logged, unless the
statement has `IF NOT EXISTS`; the function returns nothing, and its `return` leaves the
function itself only. The result here is what it logs. -/
def check_table_not_exists (schema : SchemaInfo) (lex : CreateLex) (table : String) :
    List String :=
  match mapFind table schema.tableMetaMap with
  | some _ =>
    if !lex.if_not_exists then
      ["ERROR: Table exists. Embedded DB possiblyout of sync with regular DB (or, just programmer error)"]
    else []
  | none => []

/-- `create_field_meta`: build the field (`init_onions` with the master key when
`encByDefault`, the argument being the field, its index and the anonymized table name),
return false when the table has a field of that name, and else store the field under
its name, append the name to `fieldNames` and return true. Without `encByDefault` the
index passed to `init_onions` is its default 0. -/
def create_field_meta (init_onions : Bool → Create_field → Nat → String → OnionInit)
    (tm : TableMeta) (field : Create_field) (encByDefault : Bool) : Bool × TableMeta :=
  let index := tm.fieldNames.length
  let ini := init_onions encByDefault field (if encByDefault then index else 0)
    tm.anonTableName
  let fm : FieldMeta :=
    { fname := field.field_name, has_salt := ini.has_salt, salt_name := ini.salt_name,
      anonTableName := tm.anonTableName, onions := ini.onions }
  if (mapFind fm.fname tm.fieldMetaMap).isSome then (false, tm)
  else
    (true, { tm with fieldMetaMap := mapAssign fm.fname fm tm.fieldMetaMap,
                     fieldNames := tm.fieldNames ++ [fm.fname] })

/-- The loop of `create_table_meta` over the create list; the result of
`create_field_meta` is not looked at. -/
def createFields (init_onions : Bool → Create_field → Nat → String → OnionInit)
    (encByDefault : Bool) : List Create_field → TableMeta → TableMeta
  | [], tm => tm
  | cf :: rest, tm =>
    createFields init_onions encByDefault rest
      (create_field_meta init_onions tm cf encByDefault).2

/-- `create_table_meta`: assert the command is `CREATE TABLE`, call
`check_table_not_exists`, store a new `TableMeta` under the table name
(`tableMetaMap[table] = tm`), number and anonymize it when `encByDefault`, and create
the fields of the create list. The result is the schema and what was logged. -/
def create_table_meta (init_onions : Bool → Create_field → Nat → String → OnionInit)
    (anonymizeTableName : Nat → String → String) (schema : SchemaInfo) (table : String)
    (lex : CreateLex) (encByDefault : Bool) : Except Fault (SchemaInfo × List String) :=
  if lex.sql_command ≠ .SQLCOM_CREATE_TABLE then
    .error (.assertion "lex->sql_command == SQLCOM_CREATE_TABLE")
  else
    let log := check_table_not_exists schema lex table
    let tm0 : TableMeta :=
      { fieldMetaMap := [], fieldNames := [], tableNo := 0, anonTableName := "" }
    let tm1 : TableMeta :=
      if encByDefault then
        { tm0 with tableNo := schema.totalTables,
                   anonTableName := anonymizeTableName schema.totalTables table }
      else { tm0 with anonTableName := table }
    let totalTables := if encByDefault then schema.totalTables + 1 else schema.totalTables
    let tm := createFields init_onions encByDefault lex.create_list tm1
    .ok ({ tableMetaMap := mapAssign table tm schema.tableMetaMap,
           totalTables := totalTables }, log)

/-- An `init_onions` for the sample data: a field without salt, with the plaintext onion
alone. -/
def sampleInit : Bool → Create_field → Nat → String → OnionInit := fun _ cf _ _ =>
  { has_salt := false, salt_name := "",
    onions := [(.oPLAIN, { layers := [], onionname := cf.field_name })] }

/-- A table `t` with the one field `a`. -/
def sampleTable : TableMeta :=
  (create_field_meta sampleInit
    { fieldMetaMap := [], fieldNames := [], tableNo := 0, anonTableName := "t" }
    { field_name := "a", sql_type := 3 } false).2

/-- A schema with the table `t`. -/
def sampleSchema : SchemaInfo := { tableMetaMap := [("t", sampleTable)], totalTables := 0 }

/-- `CREATE TABLE t (b ...)`, without `IF NOT EXISTS`. -/
def sampleCreateLex : CreateLex :=
  { sql_command := .SQLCOM_CREATE_TABLE, if_not_exists := false,
    create_list := [{ field_name := "b", sql_type := 3 }] }

/-! ## Reconstruction of the onions on restart (`buildOnionMeta`) -/

/-- A row of `pdb.onion_info` as `buildOnionMeta` reads it, together with the keys that
`get_layer_keys` returns for it: name, onion, persisted current level, SQL type, and the
serialized layers by level. -/
structure OnionRow where
  name : String
  type : onion
  current_level : SECLEVEL
  sql_type : Nat
  layer_serial : List (SECLEVEL × String)
  deriving DecidableEq, Repr

/-- The loop `for (auto it: layers)` of `buildOnionMeta` over the levels of the layout
that are still to come: the layer of level `it` is built from its serialization (an
empty string when `layer_serial` has none) and pushed; the level of the onion must not
be `INVALID`; and at the persisted current level the loop stops, after asserting that
this level is the last one of the layout. `encLayerFromSerial` is declared outside these
sources. -/
def buildLayers (encLayerFromSerial : onion → SECLEVEL → Nat → String → EncLayer)
    (INVALID : SECLEVEL) (fm : FieldMeta) (row : OnionRow) (layout : List SECLEVEL) :
    List SECLEVEL → OnionMeta → Except Fault OnionMeta
  | [], om => .ok om
  | it :: rest, om =>
    let enc_layer :=
      encLayerFromSerial row.type it row.sql_type ((mapFind it row.layer_serial).getD "")
    let om1 : OnionMeta := { om with layers := om.layers ++ [enc_layer] }
    match ({ fm with onions := mapAssign row.type om1 fm.onions } : FieldMeta).getOnionLevel
        INVALID row.type with
    | .error f => .error f
    | .ok onion_level =>
      if onion_level = INVALID then .error (.assertion "onion_level != SECLEVEL::INVALID")
      else if it = row.current_level then
        if some it = layout.getLast? then .ok om1
        else .error (.assertion "it == layers.back()")
      else buildLayers encLayerFromSerial INVALID fm row layout rest om1

/-- The body of the loop of `buildOnionMeta` over the rows: a new `OnionMeta` is stored
under the onion of the row, and its layers are built along `fm->onion_layout[o]` (an
empty layout when the field has none for this onion). -/
def buildOnionRow (encLayerFromSerial : onion → SECLEVEL → Nat → String → EncLayer)
    (INVALID : SECLEVEL) (onion_layout : List (onion × List SECLEVEL)) (fm : FieldMeta)
    (row : OnionRow) : Except Fault FieldMeta :=
  let om : OnionMeta := { layers := [], onionname := row.name }
  let fm1 : FieldMeta := { fm with onions := mapAssign row.type om fm.onions }
  let layers := (mapFind row.type onion_layout).getD []
  match buildLayers encLayerFromSerial INVALID fm1 row layers layers om with
  | .error f => .error f
  | .ok om1 => .ok { fm1 with onions := mapAssign row.type om1 fm1.onions }

/-- The loop of `buildOnionMeta` over the rows of the query. -/
def buildOnionRows (encLayerFromSerial : onion → SECLEVEL → Nat → String → EncLayer)
    (INVALID : SECLEVEL) (onion_layout : List (onion × List SECLEVEL)) :
    List OnionRow → FieldMeta → Except Fault FieldMeta
  | [], fm => .ok fm
  | row :: rest, fm =>
    match buildOnionRow encLayerFromSerial INVALID onion_layout fm row with
    | .error f => .error f
    | .ok fm1 => buildOnionRows encLayerFromSerial INVALID onion_layout rest fm1

/-- `buildOnionMeta`: the query on `pdb.onion_info` must succeed (`rows` is `none` when it
does not), and the onions of the field are rebuilt row by row; `onion_layout` is
`fm->onion_layout`. -/
def buildOnionMeta (encLayerFromSerial : onion → SECLEVEL → Nat → String → EncLayer)
    (INVALID : SECLEVEL) (onion_layout : List (onion × List SECLEVEL))
    (rows : Option (List OnionRow)) (fm : FieldMeta) : Except Fault FieldMeta :=
  match rows with
  | none => .error (.assertion "ps.e_conn->execute(q, dbRes)")
  | some rs => buildOnionRows encLayerFromSerial INVALID onion_layout rs fm

/-- A layer factory for the sample data: the layer of the asked level, with the length of
its serialization as key tag. -/
def sampleFactory : onion → SECLEVEL → Nat → String → EncLayer := fun _ l _ s =>
  { lvl := l, key := s.length }

/-- A field as `buildFieldMeta` creates it, before its onions are rebuilt. -/
def sampleNewField : FieldMeta :=
  { fname := "salary", has_salt := true, salt_name := "cdb_salt", anonTableName := "table_a",
    onions := [] }

/-- A layout of three levels for `oDET`. -/
def sampleLayout : List (onion × List SECLEVEL) := [(.oDET, [1, 2, 3])]

/-- The persisted row of the onion `oDET` at the level `lvl`. -/
def sampleOnionRow (lvl : SECLEVEL) : OnionRow :=
  { name := "f_oDET", type := .oDET, current_level := lvl, sql_type := 3,
    layer_serial := [(1, "k"), (2, "kk"), (3, "kkk")] }

/-! ## The operator policy of `parser/analyze.cc` -/

namespace Analyze

/-- `enum class cipher_type`, in the order of `CIPHER_TYPES`. -/
inductive cipher_type where
  /-- no data needed (blind writes) -/
  | none
  /-- just need to decrypt the result -/
  | any
  /-- evaluate Item on the server, e.g. for WHERE -/
  | plain
  /-- evaluate order on the server, e.g. for SORT BY -/
  | order
  /-- evaluate dups on the server, e.g. for GROUP BY -/
  | equal
  /-- need to do LIKE -/
  | like
  /-- addition -/
  | homadd
  deriving DecidableEq, Repr

/-- The values of `Item_func::Functype` whose handlers are embedded here; every other
value is `OTHER`. -/
inductive Functype where
  | EQ_FUNC
  | EQUAL_FUNC
  | NE_FUNC
  | GT_FUNC
  | GE_FUNC
  | LT_FUNC
  | LE_FUNC
  | LIKE_FUNC
  | NEG_FUNC
  | NOT_FUNC
  | COND_AND_FUNC
  | COND_OR_FUNC
  | UNKNOWN_FUNC
  | NOW_FUNC
  | OTHER (tag : Nat)
  deriving DecidableEq, Repr

/-- The expression trees that the analysis walks: a field (`FIELD_ITEM`), a string
constant (`STRING_ITEM`) with its `str_value`, a function or condition (`FUNC_ITEM`,
`COND_ITEM`) with its `functype()`, `func_name()` and arguments, and any other item. -/
inductive Item where
  | field (name : String)
  | string (str_value : String)
  | func (functype : Functype) (func_name : String) (args : List Item)
  | other (tag : Nat) (args : List Item)
  deriving Repr

/-- `class cipher_type_reason`: the requirement `t`, whether it is soft, and why it is
needed (text, item and the requirement of the parent). -/
inductive cipher_type_reason where
  | mk (t : cipher_type) (soft : Bool) (why_t : String) (why_t_item : Option Item)
      (parent : Option cipher_type_reason)
  deriving Repr

/-- The member `t`. -/
def cipher_type_reason.t : cipher_type_reason → cipher_type
  | .mk t _ _ _ _ => t

/-- The member `soft`. -/
def cipher_type_reason.soft : cipher_type_reason → Bool
  | .mk _ soft _ _ _ => soft

/-- The constructor of `cipher_type_reason`: `soft` starts as `init_soft` and is set
when there is a parent whose requirement is `none` or `any`. -/
def cipher_type_reason.new (t_arg : cipher_type) (why_t_arg : String)
    (why_t_item_arg : Option Item) (parent_arg : Option cipher_type_reason)
    (init_soft_arg : Bool) : cipher_type_reason :=
  let soft :=
    match parent_arg with
    | some parent =>
      if parent.t = cipher_type.none ∨ parent.t = cipher_type.any then true
      else init_soft_arg
    | Option.none => init_soft_arg
  .mk t_arg soft why_t_arg why_t_item_arg parent_arg

/-- What the analysis does, in order: the calls of `analyze` (a ghost record), and the
lines `FIELD i CIPHER tr` that the handler of fields prints. -/
inductive AnalyzeEvent where
  | analyze (i : Item) (tr : cipher_type_reason)
  | print_field (i : Item) (tr : cipher_type_reason)
  deriving Repr

/-- The outcome of a part of the analysis: what was done, and the failure that ended
it, if any. -/
abbrev Run := List AnalyzeEvent × Option Fault

/-- Sequencing of two statements: the second runs when the first has not failed. -/
def Run.andThen (a b : Run) : Run :=
  match a.2 with
  | some f => (a.1, some f)
  | Option.none => (a.1 ++ b.1, b.2)

/-- The body of `analyze(i, tr)`, given what the handler found for `i` would do: the
handler runs when the requirement is not `none` and the item is not constant. -/
def analyzeWith (const_item : Item → Bool) (i : Item) (tr : cipher_type_reason)
    (handler : Run) : Run :=
  if tr.t ≠ cipher_type.none ∧ const_item i = false then
    (AnalyzeEvent.analyze i tr :: handler.1, handler.2)
  else ([AnalyzeEvent.analyze i tr], Option.none)

/-- `t2` of `CItemCompare<FT, IT>::do_analyze`. -/
def CItemCompare_t2 (FT : Functype) : cipher_type :=
  if FT = Functype.EQ_FUNC ∨ FT = Functype.EQUAL_FUNC ∨ FT = Functype.NE_FUNC then
    cipher_type.equal
  else cipher_type.order

mutual
/-- `itemTypes.do_analyze(i, tr)`: the handler registered for the type of the item, for
a function the handler registered for its `functype()`, and for `UNKNOWN_FUNC` and
`NOW_FUNC` the handler registered for its `func_name()`. The handlers embedded are those
of fields, string constants, `NEG_FUNC` and `NOT_FUNC`, the comparisons (`CItemCompare`),
`COND_AND_FUNC` and `COND_OR_FUNC` (`CItemCond`), `LIKE_FUNC`, and `+` and `-`
(`CItemAdditive`); what the other handlers do, a missing handler included, is the
parameter `rest`. `Item::const_item()` is the parameter `const_item`. -/
def do_analyze (const_item : Item → Bool) (rest : Item → cipher_type_reason → Run) :
    Item → cipher_type_reason → Run
  | .field name, tr => ([AnalyzeEvent.print_field (.field name) tr], Option.none)
  | .string _, _ => ([], Option.none)
  | .other tag args, tr => rest (.other tag args) tr
  | .func ft func_name args, tr =>
    let i := Item.func ft func_name args
    let compare : Run :=
      let r := cipher_type_reason.new (CItemCompare_t2 ft) "compare func" (some i) (some tr)
        false
      match args with
      | [] => ([], some (.undefined "args[0] out of range"))
      | [a0] =>
        (analyzeWith const_item a0 r (do_analyze const_item rest a0 r)).andThen
          ([], some (.undefined "args[1] out of range"))
      | a0 :: a1 :: _ =>
        (analyzeWith const_item a0 r (do_analyze const_item rest a0 r)).andThen
          (analyzeWith const_item a1 r (do_analyze const_item rest a1 r))
    let additive : Run :=
      let r :=
        if tr.t = cipher_type.any then
          cipher_type_reason.new cipher_type.homadd "additive" (some i) (some tr) false
        else cipher_type_reason.new cipher_type.plain "additivex" (some i) (some tr) false
      match args with
      | [] => ([], some (.undefined "args[0] out of range"))
      | [a0] =>
        (analyzeWith const_item a0 r (do_analyze const_item rest a0 r)).andThen
          ([], some (.undefined "args[1] out of range"))
      | a0 :: a1 :: _ =>
        (analyzeWith const_item a0 r (do_analyze const_item rest a0 r)).andThen
          (analyzeWith const_item a1 r (do_analyze const_item rest a1 r))
    let like_non_const : Run :=
      analyzeArgs const_item rest args
        (cipher_type_reason.new cipher_type.plain "like non-const" (some i) (some tr) false)
    match ft with
    | .NEG_FUNC | .NOT_FUNC =>
      match args with
      | [] => ([], some (.undefined "arguments()[0] out of range"))
      | a0 :: _ => analyzeWith const_item a0 tr (do_analyze const_item rest a0 tr)
    | .EQ_FUNC | .EQUAL_FUNC | .NE_FUNC | .GT_FUNC | .GE_FUNC | .LT_FUNC | .LE_FUNC => compare
    | .COND_AND_FUNC | .COND_OR_FUNC =>
      analyzeArgs const_item rest args
        (cipher_type_reason.new cipher_type.plain "cond" (some i) (some tr) false)
    | .LIKE_FUNC =>
      match args with
      | [] | [_] => ([], some (.undefined "args[1] out of range"))
      | a0 :: a1 :: _ =>
        match a1 with
        | .string s =>
          if ¬ '%' ∈ s.toList ∧ ¬ '_' ∈ s.toList then
            let r := cipher_type_reason.new cipher_type.equal "like eq" (some i) (some tr) false
            analyzeWith const_item a0 r (do_analyze const_item rest a0 r)
          else
            let r := cipher_type_reason.new cipher_type.like "like" (some i) (some tr) false
            analyzeWith const_item a0 r (do_analyze const_item rest a0 r)
        | _ => like_non_const
    | .UNKNOWN_FUNC | .NOW_FUNC =>
      if func_name = "+" ∨ func_name = "-" then additive else rest i tr
    | .OTHER _ => rest i tr
/-- A loop `for (x = 0; x < argument_count(); x++) analyze(args[x], r)`. -/
def analyzeArgs (const_item : Item → Bool) (rest : Item → cipher_type_reason → Run) :
    List Item → cipher_type_reason → Run
  | [], _ => ([], Option.none)
  | a :: more, r =>
    (analyzeWith const_item a r (do_analyze const_item rest a r)).andThen
      (analyzeArgs const_item rest more r)
end

/-- `analyze(i, tr)`: `if (tr.t != cipher_type::none && !i->const_item())
itemTypes.do_analyze(i, tr);`. -/
def analyze (const_item : Item → Bool) (rest : Item → cipher_type_reason → Run)
    (i : Item) (tr : cipher_type_reason) : Run :=
  analyzeWith const_item i tr (do_analyze const_item rest i tr)

/-- No item is constant: the sample `const_item`. -/
def sampleConst : Item → Bool := fun _ => false

/-- The handlers that are not embedded do nothing in the samples. -/
def sampleRest : Item → cipher_type_reason → Run := fun _ _ => ([], Option.none)

/-- The requirement of the condition of a `WHERE` clause. -/
def sampleWhere : cipher_type_reason :=
  cipher_type_reason.new cipher_type.plain "where" Option.none Option.none false

/-- The requirement of a projected item of a `SELECT`. -/
def sampleSelect : cipher_type_reason :=
  cipher_type_reason.new cipher_type.any "select" Option.none Option.none false

end Analyze

/-- A field whose `oDET` onion has a single layer. -/
def sampleOneLayer : FieldMeta :=
  { sampleField with onions := [(onion.oDET, { layers := [⟨1, 11⟩], onionname := "f_oDET" })] }

/-! ## Projections and return metadata (`rewrite_proj`, `addToReturn`) -/

/-- `needsSalt(OLK)`: `olk.key && olk.key->has_salt && needsSalt(olk.l)`; `needsSalt` of
a level is declared outside these sources. -/
def needsSalt (needsSaltLevel : SECLEVEL → Bool) (olk : OLK) : Bool :=
  match olk.key with
  | none => false
  | some key => key.has_salt && needsSaltLevel olk.l

/-- `addToReturn(rm, pos, constr, has_salt)`: the entry at `pos` is a new `ReturnField`
(`dflt` is the value-initialised one) that is not a salt, with the `OLK` and with
`pos + 1` as position of its salt when it has one, `-1` otherwise. -/
def addToReturn4 (dflt : ReturnField) (rm : ReturnMeta) (pos : Nat) (constr : OLK)
    (has_salt : Bool) : ReturnMeta :=
  let rf : ReturnField :=
    { dflt with is_salt := false, olk := constr,
                pos_salt := if has_salt then ((pos + 1 : Nat) : Int) else -1 }
  { rfmeta := mapAssign pos rf rm.rfmeta }

/-- `addToReturn(rm, pos, constr, has_salt, name)`: as above, and then
`rm->rfmeta[pos].field_called = name`. -/
def addToReturn (dflt : ReturnField) (rm : ReturnMeta) (pos : Nat) (constr : OLK)
    (has_salt : Bool) (name : String) : ReturnMeta :=
  let rm1 := addToReturn4 dflt rm pos constr has_salt
  { rfmeta := mapAssign pos { rm1.at dflt pos with field_called := name } rm1.rfmeta }

/-- `addSaltToReturn(rm, pos)`: the entry at `pos` is a new `ReturnField` that is a
salt, with the `OLK()` of the default constructor and no salt position. -/
def addSaltToReturn (INVALID : SECLEVEL) (dflt : ReturnField) (rm : ReturnMeta) (pos : Nat) :
    ReturnMeta :=
  let rf : ReturnField :=
    { dflt with is_salt := true, olk := { o := .oINVALID, l := INVALID, key := none },
                pos_salt := -1 }
  { rfmeta := mapAssign pos rf rm.rfmeta }

/-- What `rewrite_proj` uses of the analysis and of the expression rewriting: the
choice in a capability set, the rewriting of an item (it may fail), `make_item`, the
levels that need a salt, the name of an item (`i->name`), `SECLEVEL::INVALID` and the
value-initialised `ReturnField`. -/
structure ProjEnv where
  chooseOne : EncSet → OLK
  rewrite : Item → OLK → Except Fault Item
  make_item : Item → String → Item
  needsSaltLevel : SECLEVEL → Bool
  nameOf : Item → String
  INVALID : SECLEVEL
  dflt : ReturnField

/-- The state that `rewrite_proj` works on: `a.rmeta`, `a.pos` and the list of the
rewritten items. -/
structure ProjState where
  rmeta : ReturnMeta
  pos : Nat
  newList : List Item
  deriving DecidableEq, Repr

/-- `rewrite_proj`: choose an `OLK` in the output set of the plan, rewrite the item for
it and record it at the next position; when the `OLK` needs a salt, emit the salt column
as well and record it at the position after. -/
def rewrite_proj (penv : ProjEnv) (i : Item) (es_out : EncSet) (st : ProjState) :
    Except Fault ProjState :=
  let olk := penv.chooseOne es_out
  match penv.rewrite i olk with
  | .error f => .error f
  | .ok ir =>
    let newList1 := st.newList ++ [ir]
    let use_salt := needsSalt penv.needsSaltLevel olk
    let rm1 := addToReturn penv.dflt st.rmeta st.pos olk use_salt (penv.nameOf i)
    let pos1 := st.pos + 1
    if use_salt then
      match olk.key with
      | none => .error (.undefined "olk.key is null")
      | some key =>
        .ok { rmeta := addSaltToReturn penv.INVALID penv.dflt rm1 pos1, pos := pos1 + 1,
              newList := newList1 ++ [penv.make_item ir key.salt_name] }
    else .ok { rmeta := rm1, pos := pos1, newList := newList1 }

/-- The loop of `rewrite_select_lex` over the projected items; `plan` gives the output
set of the plan of an item, `none` when `getAssert(a.rewritePlans, item)` fails. -/
def projLoop (penv : ProjEnv) (plan : Item → Option EncSet) :
    List Item → ProjState → Except Fault ProjState
  | [], st => .ok st
  | item :: rest, st =>
    match plan item with
    | none => .error (.assertion "getAssert(a.rewritePlans, item)")
    | some es_out =>
      match rewrite_proj penv item es_out st with
      | .error f => .error f
      | .ok st1 => projLoop penv plan rest st1

/-- The `OLK` that `rewrite_proj` chooses for an item. -/
def chosenOLK (penv : ProjEnv) (plan : Item → Option EncSet) (i : Item) : Option OLK :=
  (plan i).map penv.chooseOne

/-- A projection environment for the sample data: the first onion of the set is chosen,
items are not changed by the rewriting, every level above 1 needs a salt, and an item is
called by its column or its text. -/
def sampleProjEnv : ProjEnv :=
  { chooseOne := fun es =>
      match es.osl with
      | [] => { o := .oINVALID, l := 0, key := none }
      | p :: _ => { o := p.1, l := p.2.1, key := p.2.2 },
    rewrite := fun i _ => .ok i,
    make_item := fun _ name => .field "" name,
    needsSaltLevel := fun l => decide (1 < l),
    nameOf := fun i =>
      match i with
      | .field _ name => name
      | .str s => s
      | _ => "",
    INVALID := 99,
    dflt := sampleDefault }

/-- Plans for the sample data: the column `salary` is produced on `oDET` at level 3 of
`sampleField`, every other item in plain text. -/
def samplePlan : Item → Option EncSet := fun i =>
  match i with
  | .field _ "salary" => some { osl := [(.oDET, (3, some sampleField))] }
  | _ => some { osl := [(.oPLAIN, (0, none))] }

/-- The invariant of the loop over the projected items: the positions recorded are
`0 .. pos - 1` in order, `pos` is the number of columns emitted, an entry that is not a
salt has the salt position `p + 1` or `-1` as its `OLK` needs a salt or not, an entry
that is a salt has none, and an entry with a salt position is followed by a salt. -/
def ProjState.inv (penv : ProjEnv) (st : ProjState) : Prop :=
  st.rmeta.rfmeta.map Prod.fst = List.range st.pos ∧
  st.pos = st.newList.length ∧
  (∀ p rf, (p, rf) ∈ st.rmeta.rfmeta → rf.is_salt = false →
    rf.pos_salt = if needsSalt penv.needsSaltLevel rf.olk then ((p + 1 : Nat) : Int) else -1) ∧
  (∀ p rf, (p, rf) ∈ st.rmeta.rfmeta → rf.is_salt = true → rf.pos_salt = -1) ∧
  (∀ p rf, (p, rf) ∈ st.rmeta.rfmeta → 0 ≤ rf.pos_salt →
    ∃ rf1, (p + 1, rf1) ∈ st.rmeta.rfmeta ∧ rf1.is_salt = true)

/-! ## Join lists (`rewrite_table_list`, `process_table_list`) -/

/-- `TABLE_LIST`: the name of the table (`none` for a null `table_name`), the alias,
`is_alias`, the `ON` expression, a derived table (the identifier of its sub-select), and,
for the second constructor, the join list of `nested_join`. -/
inductive TABLE_LIST where
  | table (table_name : Option String) (alias_name : String) (is_alias : Bool)
      (on_expr : Option Item) (derived : Option Nat)
  | nested (table_name : Option String) (alias_name : String) (is_alias : Bool)
      (on_expr : Option Item) (derived : Option Nat) (join_list : List TABLE_LIST)
  deriving Repr

/-- `t->table_name`. -/
def TABLE_LIST.table_name : TABLE_LIST → Option String
  | .table n _ _ _ _ => n
  | .nested n _ _ _ _ _ => n

/-- `t->alias`. -/
def TABLE_LIST.alias_name : TABLE_LIST → String
  | .table _ a _ _ _ => a
  | .nested _ a _ _ _ _ => a

/-- `t->is_alias`. -/
def TABLE_LIST.is_alias : TABLE_LIST → Bool
  | .table _ _ b _ _ => b
  | .nested _ _ b _ _ _ => b

/-- `t->on_expr`. -/
def TABLE_LIST.on_expr : TABLE_LIST → Option Item
  | .table _ _ _ e _ => e
  | .nested _ _ _ e _ _ => e

/-- `t->derived`. -/
def TABLE_LIST.derived : TABLE_LIST → Option Nat
  | .table _ _ _ _ d => d
  | .nested _ _ _ _ d _ => d

/-- Whether `t->nested_join` is not null. -/
def TABLE_LIST.isNested : TABLE_LIST → Bool
  | .table _ _ _ _ _ => false
  | .nested _ _ _ _ _ _ => true

/-- The entry with another name and alias. -/
def TABLE_LIST.rename (anon_name : String) : TABLE_LIST → TABLE_LIST
  | .table _ _ b e d => .table (some anon_name) anon_name b e d
  | .nested _ _ b e d l => .nested (some anon_name) anon_name b e d l

/-- The entry with another `ON` expression. -/
def TABLE_LIST.setOn (e : Option Item) : TABLE_LIST → TABLE_LIST
  | .table n a b _ d => .table n a b e d
  | .nested n a b _ d l => .nested n a b e d l

/-- What the rewriting of a join list uses from outside these sources:
`anonymize_table_name`, the rewriting of an expression, and `PLAIN_OLK`. -/
structure JoinEnv where
  anonymize_table_name : String → Except Fault String
  rewrite : Item → OLK → Except Fault Item
  PLAIN_OLK : OLK

/-- `rewrite_table_list(TABLE_LIST *t, Analysis &a)`: a copy of the entry in which, when
the table is named, the name and the alias are the anonymized name; a name can only be
missing when the entry groups a nested join. -/
def rewrite_table_list_one (jenv : JoinEnv) (t : TABLE_LIST) : Except Fault TABLE_LIST :=
  if t.table_name.isNone && !t.isNested then
    .error (.assertion "t->table_name || t->nested_join")
  else
    match t.table_name with
    | none => .ok t
    | some name =>
      match jenv.anonymize_table_name name with
      | .error f => .error f
      | .ok anon_name => .ok (t.rename anon_name)

/-- `rewrite_table_list(SQL_I_List<TABLE_LIST> tlist, Analysis &a)`: the entries of the
chain `first`, `next_local`, ... are rewritten one by one. -/
def rewrite_table_list_chain (jenv : JoinEnv) : List TABLE_LIST → Except Fault (List TABLE_LIST)
  | [] => .ok []
  | t :: rest =>
    match rewrite_table_list_one jenv t with
    | .error f => .error f
    | .ok new_t =>
      match rewrite_table_list_chain jenv rest with
      | .error f => .error f
      | .ok new_rest => .ok (new_t :: new_rest)

/-- The body of the loop of `rewrite_table_list(List<TABLE_LIST>, Analysis &)` for an
entry without nested join: the entry is rewritten, and its `ON` expression, when it has
one, is rewritten for `PLAIN_OLK`. -/
def rewrite_join_entry (jenv : JoinEnv) (t : TABLE_LIST) : Except Fault TABLE_LIST :=
  match rewrite_table_list_one jenv t with
  | .error f => .error f
  | .ok new_t =>
    match t.on_expr with
    | none => .ok new_t
    | some e =>
      match jenv.rewrite e jenv.PLAIN_OLK with
      | .error f => .error f
      | .ok e1 => .ok (new_t.setOn (some e1))

mutual
/-- `rewrite_table_list(List<TABLE_LIST> tll, Analysis &a)`: each entry is rewritten and
pushed; at an entry with a nested join, the join list of the nested join is rewritten
and the function returns what it has pushed so far; an entry without nested join gets
its `ON` expression rewritten. -/
def rewrite_table_list (jenv : JoinEnv) : List TABLE_LIST → Except Fault (List TABLE_LIST)
  | [] => .ok []
  | .nested n a b e d join_list :: _ =>
    match rewrite_nested_join jenv (.nested n a b e d join_list) with
    | .error f => .error f
    | .ok new_t => .ok [new_t]
  | .table n a b e d :: rest =>
    match rewrite_join_entry jenv (.table n a b e d) with
    | .error f => .error f
    | .ok new_t =>
      match rewrite_table_list jenv rest with
      | .error f => .error f
      | .ok new_rest => .ok (new_t :: new_rest)
/-- The branch `if (t->nested_join)` of the loop of `rewrite_table_list`: the entry is
rewritten, and its nested join gets the rewritten join list. -/
def rewrite_nested_join (jenv : JoinEnv) : TABLE_LIST → Except Fault TABLE_LIST
  | .table n a b e d => rewrite_table_list_one jenv (.table n a b e d)
  | .nested n a b e d join_list =>
    match rewrite_table_list_one jenv (.nested n a b e d join_list) with
    | .error f => .error f
    | .ok new_t =>
      match rewrite_table_list jenv join_list with
      | .error f => .error f
      | .ok new_join_list =>
        .ok (.nested new_t.table_name new_t.alias_name new_t.is_alias new_t.on_expr
              new_t.derived new_join_list)
end

/-- What `process_table_list` does, in order. -/
inductive JoinEvent where
  /-- `analyze(t->on_expr, a)` -/
  | analyze (on_expr : Item)
  /-- `a.addAlias(t->alias, t->table_name)` -/
  | addAlias (alias_name table_name : String)
  /-- `process_select_lex(u->first_select(), a)` for a derived table -/
  | process_select_lex (derived : Nat)
  deriving DecidableEq, Repr

/-- The body of the loop of `process_table_list` for an entry without nested join: the
`ON` expression is analysed, the alias is registered when the entry is an alias
(`addAlias` must return true), and the sub-select of a derived table is processed.
`fails` tells whether a call fails, given the calls made before it. -/
def process_join_entry (fails : List JoinEvent → JoinEvent → Option Fault) (t : TABLE_LIST)
    (tr : List JoinEvent) : Option Fault × List JoinEvent :=
  let r1 : Option Fault × List JoinEvent :=
    match t.on_expr with
    | none => (none, tr)
    | some e => (fails tr (.analyze e), tr ++ [.analyze e])
  match r1 with
  | (some f, tr1) => (some f, tr1)
  | (none, tr1) =>
    let r2 : Option Fault × List JoinEvent :=
      if t.is_alias then
        match t.table_name with
        | none => (some (.undefined "t->table_name is null"), tr1)
        | some name => (fails tr1 (.addAlias t.alias_name name), tr1 ++ [.addAlias t.alias_name name])
      else (none, tr1)
    match r2 with
    | (some f, tr2) => (some f, tr2)
    | (none, tr2) =>
      match t.derived with
      | none => (none, tr2)
      | some u => (fails tr2 (.process_select_lex u), tr2 ++ [.process_select_lex u])

mutual
/-- `process_table_list`: at an entry with a nested join, the join list of the nested
join is processed and the function returns; every other entry is processed in turn. -/
def process_table_list (fails : List JoinEvent → JoinEvent → Option Fault) :
    List TABLE_LIST → List JoinEvent → Option Fault × List JoinEvent
  | [], tr => (none, tr)
  | .nested n a b e d join_list :: _, tr =>
    process_nested_join fails (.nested n a b e d join_list) tr
  | .table n a b e d :: rest, tr =>
    match process_join_entry fails (.table n a b e d) tr with
    | (some f, tr1) => (some f, tr1)
    | (none, tr1) => process_table_list fails rest tr1
/-- The branch `if (t->nested_join)` of the loop of `process_table_list`:
`process_table_list(&t->nested_join->join_list, a)`. -/
def process_nested_join (fails : List JoinEvent → JoinEvent → Option Fault) :
    TABLE_LIST → List JoinEvent → Option Fault × List JoinEvent
  | .table _ _ _ _ _, tr => (none, tr)
  | .nested _ _ _ _ _ join_list, tr => process_table_list fails join_list tr
end

/-- A join environment for the sample data: a table `t` is anonymized to `anon_t`, and
expressions are not changed by the rewriting. -/
def sampleJoinEnv : JoinEnv :=
  { anonymize_table_name := fun n => .ok ("anon_" ++ n),
    rewrite := fun i _ => .ok i,
    PLAIN_OLK := { o := .oPLAIN, l := 0, key := none } }

/-- A join list with a nested join of `a` and `b` followed by the table `c`, which is an
alias and has an `ON` expression. -/
def sampleJoinList : List TABLE_LIST :=
  [.nested none "" false none none
    [.table (some "a") "a" false none none, .table (some "b") "b" false none none],
   .table (some "c") "c1" true (some (.field "c" "x")) none]

/-- The calls that `process_table_list` makes for an entry without nested join. -/
def joinEvents (t : TABLE_LIST) : List JoinEvent :=
  (match t.on_expr with
    | none => []
    | some e => [JoinEvent.analyze e]) ++
  (if t.is_alias then
    match t.table_name with
    | none => []
    | some name => [JoinEvent.addAlias t.alias_name name]
   else []) ++
  (match t.derived with
    | none => []
    | some u => [JoinEvent.process_select_lex u])

/-! ## Creation and removal of columns (`rewrite_create_field`, `rewrite_alter_lex`) -/

/-- `Alter_drop`: whether it drops a column (`type == Alter_drop::COLUMN`), and the name. -/
structure Alter_drop where
  is_column : Bool
  name : String
  deriving DecidableEq, Repr

/-- `ALTER_CHANGE_COLUMN`, the flag of MySQL's `sql_lex.h` (`1L << 2`). -/
def ALTER_CHANGE_COLUMN : Nat := 4

/-- What the rewriting of `CREATE TABLE` and `ALTER TABLE` uses from outside these
sources: `a.getFieldMeta`, `a.tableMetaExists`, `EncLayer::newCreateField` and the column
type `MYSQL_TYPE_LONGLONG`. -/
structure DdlEnv where
  getFieldMeta : String → String → Option FieldMeta
  tableMetaExists : String → Bool
  newCreateField : EncLayer → String → Create_field
  MYSQL_TYPE_LONGLONG : Nat

/-- The loop of `rewrite_create_field` over the onions: one column per onion, built by
the last layer of the onion with the name of the onion. -/
def onionCreateFields (denv : DdlEnv) : List (onion × OnionMeta) → Except Fault (List Create_field)
  | [] => .ok []
  | oit :: rest =>
    match oit.2.layers.getLast? with
    | none => .error (.undefined "layers.back() of an empty vector")
    | some last_layer =>
      match onionCreateFields denv rest with
      | .error f => .error f
      | .ok l => .ok (denv.newCreateField last_layer oit.2.onionname :: l)

/-- `rewrite_create_field`: the columns created for the field `f` of the table: the field
itself when it is not encrypted or has no onion, and else one column per onion, and the
salt column when the field has a salt. -/
def rewrite_create_field (denv : DdlEnv) (table_name : String) (f : Create_field) :
    Except Fault (List Create_field) :=
  match denv.getFieldMeta table_name f.field_name with
  | none => .error (.undefined "fm is null")
  | some fm =>
    if fm.isEncrypted = false then .ok [f]
    else if fm.onions.isEmpty then .ok [f]
    else
      match onionCreateFields denv fm.onions with
      | .error e => .error e
      | .ok l =>
        if fm.has_salt then
          if fm.salt_name = "" then .error (.assertion "!fm->salt_name.empty()")
          else
            .ok (l ++ [{ field_name := fm.salt_name, sql_type := denv.MYSQL_TYPE_LONGLONG }])
        else .ok l

/-- The rewriting of the create list in `do_field_rewriting`: the columns of each field
in turn. -/
def rewrite_create_list (denv : DdlEnv) (table : String) :
    List Create_field → Except Fault (List Create_field)
  | [] => .ok []
  | cf :: rest =>
    match rewrite_create_field denv table cf with
    | .error e => .error e
    | .ok l =>
      match rewrite_create_list denv table rest with
      | .error e => .error e
      | .ok out => .ok (l ++ out)

/-- The function given to `reduceList` for the drop list in `rewrite_alter_lex`: for a
dropped column, one `Alter_drop` for each onion of the field, with the name of the onion,
and one for the salt when the field has a salt; nothing for another kind of drop. -/
def rewrite_alter_drop (denv : DdlEnv) (table : String) (adrop : Alter_drop) :
    Except Fault (List Alter_drop) :=
  if adrop.is_column then
    match denv.getFieldMeta table adrop.name with
    | none => .error (.undefined "fm is null")
    | some fm =>
      .ok ((fm.onions.map fun onion_pair => { adrop with name := onion_pair.2.onionname }) ++
        (if fm.has_salt then [{ adrop with name := fm.salt_name }] else []))
  else .ok []

/-- The rewriting of the drop list in `rewrite_alter_lex`. -/
def rewrite_drop_list (denv : DdlEnv) (table : String) :
    List Alter_drop → Except Fault (List Alter_drop)
  | [] => .ok []
  | adrop :: rest =>
    match rewrite_alter_drop denv table adrop with
    | .error e => .error e
    | .ok l =>
      match rewrite_drop_list denv table rest with
      | .error e => .error e
      | .ok out => .ok (l ++ out)

/-- What the rewriting of `CREATE TABLE`, `ALTER TABLE` and `DROP TABLE` reads and writes
of a `LEX`: the table list, `alter_info.flags`, the create list, the key list, the drop
list, and the options `HA_LEX_CREATE_TABLE_LIKE` and `HA_LEX_CREATE_IF_NOT_EXISTS`. -/
structure DdlLex where
  table_list : List TABLE_LIST
  flags : Nat
  create_list : List Create_field
  key_list : List String
  drop_list : List Alter_drop
  create_like : Bool
  if_not_exists : Bool

/-- `lex->select_lex.table_list.first->table_name`. -/
def DdlLex.table (lex : DdlLex) : Except Fault String :=
  match lex.table_list with
  | [] => .error (.undefined "table_list.first is null")
  | t :: _ =>
    match t.table_name with
    | none => .error (.undefined "table_name is null")
    | some name => .ok name

/-- `do_field_rewriting`: the create list is rewritten field by field; `rewrite_key`
keeps each key as it is. -/
def do_field_rewriting (denv : DdlEnv) (lex new_lex : DdlLex) (table : String) :
    Except Fault DdlLex :=
  match rewrite_create_list denv table lex.create_list with
  | .error e => .error e
  | .ok l => .ok { new_lex with create_list := l, key_list := lex.key_list }

/-- `rewrite_alter_lex`: the table list is rewritten, the create list when the statement
adds columns, the drop list when it drops columns; changing a column is not supported;
one statement is returned. -/
def rewrite_alter_lex (jenv : JoinEnv) (denv : DdlEnv) (lex : DdlLex) :
    Except Fault (List DdlLex) :=
  match lex.table with
  | .error e => .error e
  | .ok table =>
    match rewrite_table_list_chain jenv lex.table_list with
    | .error e => .error e
    | .ok tl =>
      let new_lex0 : DdlLex := { lex with table_list := tl }
      let added : Except Fault DdlLex :=
        if lex.flags &&& ALTER_ADD_COLUMN ≠ 0 then do_field_rewriting denv lex new_lex0 table
        else .ok new_lex0
      match added with
      | .error e => .error e
      | .ok new_lex1 =>
        let dropped : Except Fault DdlLex :=
          if lex.flags &&& ALTER_DROP_COLUMN ≠ 0 then
            match rewrite_drop_list denv table lex.drop_list with
            | .error e => .error e
            | .ok l => .ok { new_lex1 with drop_list := l }
          else .ok new_lex1
        match dropped with
        | .error e => .error e
        | .ok new_lex2 =>
          if lex.flags &&& ALTER_CHANGE_COLUMN ≠ 0 then .error (.assertion "false")
          else .ok [new_lex2]

/-- A rewriting environment for `CREATE TABLE` and `ALTER TABLE` in which the table `t`
has the fields of `fields`; a layer creates a column with the name it is given. -/
def sampleDdlEnv (fields : List (String × FieldMeta)) : DdlEnv :=
  { getFieldMeta := fun _ name => mapFind name fields,
    tableMetaExists := fun t => t = "t",
    newCreateField := fun _ name => { field_name := name, sql_type := 8 },
    MYSQL_TYPE_LONGLONG := 8 }

/-- A field that is not encrypted: its only onion is the plaintext onion, here with a
name of its own. -/
def samplePlainField : FieldMeta :=
  { fname := "id", has_salt := false, salt_name := "", anonTableName := "table_a",
    onions := [(.oPLAIN, { layers := [], onionname := "id_plain" })] }

/-- A field without onions. -/
def sampleNoOnionField : FieldMeta :=
  { fname := "x", has_salt := false, salt_name := "", anonTableName := "table_a",
    onions := [] }

/-! ## The statements a rewrite returns (the `lex_rewrite` handlers, `rewrite_helper`) -/

/-- `rewrite_create_lex`: the table list is rewritten; `CREATE TABLE ... LIKE` is refused
by `cryptdb_err`; the fields are rewritten unless the statement has `IF NOT EXISTS` and
the table has metadata; one statement is returned. -/
def rewrite_create_lex (jenv : JoinEnv) (denv : DdlEnv) (lex : DdlLex) :
    Except Fault (List DdlLex) :=
  match lex.table with
  | .error e => .error e
  | .ok table =>
    match rewrite_table_list_chain jenv lex.table_list with
    | .error e => .error e
    | .ok tl =>
      let new_lex : DdlLex := { lex with table_list := tl }
      if lex.create_like then
        .error (.thrown
          "No support for create table like yet. If you see this, please implement me")
      else if !(lex.if_not_exists && denv.tableMetaExists table) then
        match do_field_rewriting denv lex new_lex table with
        | .error e => .error e
        | .ok new_lex1 => .ok [new_lex1]
      else .ok [new_lex]

/-- `rewrite_drop_table_lex`: the table list is rewritten; one statement is returned. -/
def rewrite_drop_table_lex (jenv : JoinEnv) (lex : DdlLex) : Except Fault (List DdlLex) :=
  match rewrite_table_list_chain jenv lex.table_list with
  | .error e => .error e
  | .ok tl => .ok [{ lex with table_list := tl }]

/-- What the rewriting of `SELECT` and `DELETE` reads and writes of a `st_select_lex`:
the top join list, the projected items and the filters. -/
structure st_select_lex where
  top_join_list : List TABLE_LIST
  item_list : List Item
  filters : SelectLex

/-- What the rewriting of `SELECT` and `DELETE` reads and writes of a `LEX`:
`query_tables` (`none` when null) and `select_lex`. -/
structure QueryLex where
  query_tables : Option TABLE_LIST
  select_lex : st_select_lex

/-- What the rewriting of a `st_select_lex` uses from outside these sources: the
collaborators of the rewriting of the join lists, of the projections and of the filters,
the plans of the items, and the sets `EQ_EncSet` and `ORD_EncSet`. -/
structure SelectEnv where
  jenv : JoinEnv
  penv : ProjEnv
  plan : Item → Option EncSet
  uenv : UpdateEnv
  EQ_EncSet : EncSet
  ORD_EncSet : EncSet

/-- `rewrite_select_lex(st_select_lex *, Analysis &)`: the projected items are rewritten
into a new list, recording the return metadata from `a.pos` on, and then the filters are
rewritten. -/
def rewrite_st_select_lex (senv : SelectEnv) (select_lex : st_select_lex)
    (rmeta : ReturnMeta) (pos : Nat) : Except Fault (st_select_lex × ReturnMeta × Nat) :=
  match projLoop senv.penv senv.plan select_lex.item_list
      { rmeta := rmeta, pos := pos, newList := [] } with
  | .error e => .error e
  | .ok st =>
    match rewrite_filters_lex senv.uenv senv.penv.chooseOne senv.jenv.rewrite
        senv.jenv.PLAIN_OLK senv.EQ_EncSet senv.ORD_EncSet select_lex.filters with
    | .error e => .error e
    | .ok filters =>
      .ok ({ select_lex with item_list := st.newList, filters := filters }, st.rmeta, st.pos)

/-- `rewrite_delete_lex`: `query_tables` is rewritten, then the `st_select_lex`; one
statement is returned, with the return metadata and the position left in the analysis. -/
def rewrite_delete_lex (senv : SelectEnv) (lex : QueryLex) (rmeta : ReturnMeta) (pos : Nat) :
    Except Fault (List QueryLex × ReturnMeta × Nat) :=
  match lex.query_tables with
  | none => .error (.undefined "query_tables is null")
  | some t =>
    match rewrite_table_list_one senv.jenv t with
    | .error e => .error e
    | .ok new_t =>
      match rewrite_st_select_lex senv lex.select_lex rmeta pos with
      | .error e => .error e
      | .ok (sl, rm, p) => .ok ([{ query_tables := some new_t, select_lex := sl }], rm, p)

/-- `rewrite_select_lex(LEX *, Analysis &, unsigned *)`: the top join list is rewritten,
then the `st_select_lex`; one statement is returned, with the return metadata and the
position left in the analysis. -/
def rewrite_select_lex (senv : SelectEnv) (lex : QueryLex) (rmeta : ReturnMeta) (pos : Nat) :
    Except Fault (List QueryLex × ReturnMeta × Nat) :=
  match rewrite_table_list senv.jenv lex.select_lex.top_join_list with
  | .error e => .error e
  | .ok tll =>
    match rewrite_st_select_lex senv { lex.select_lex with top_join_list := tll } rmeta pos with
    | .error e => .error e
    | .ok (sl, rm, p) => .ok ([{ lex with select_lex := sl }], rm, p)

/-- What `rewrite_insert_lex` reads and writes of a `LEX`: the table list, the field list
and the rows of values. -/
structure InsertLex where
  table_list : List TABLE_LIST
  field_list : List Item
  many_values : List (List Item)

/-- What `rewrite_insert_lex` uses from outside these sources: whether `mp_insert_init`
fails, `a.getFieldMeta`, `itemTypes.do_rewrite_insert` (the field is `none` for a null
pointer), and the schema. -/
structure InsertEnv where
  mp_insert_init : Option Fault
  getFieldMeta : String → String → Option FieldMeta
  do_rewrite_insert : Item → Option FieldMeta → Except Fault (List Item)
  schema : SchemaInfo

/-- The loop of `rewrite_insert_lex` over the field list: each item must be a field; its
metadata is appended to `fmVec`, and the items it is rewritten into to the new list. -/
def insertFields (ienv : InsertEnv) :
    List Item → Except Fault (List (Option FieldMeta) × List Item)
  | [] => .ok ([], [])
  | i :: rest =>
    match i with
    | .field table_name field_name =>
      match ienv.do_rewrite_insert i none with
      | .error e => .error e
      | .ok l =>
        match insertFields ienv rest with
        | .error e => .error e
        | .ok (fmVec, newList) =>
          .ok (ienv.getFieldMeta table_name field_name :: fmVec, l ++ newList)
    | _ => .error (.assertion "i->type() == Item::FIELD_ITEM")

/-- The inner loop of `rewrite_insert_lex` over the values of a row, with the iterator
over `fmVec`. -/
def insertRow (ienv : InsertEnv) :
    List Item → List (Option FieldMeta) → Except Fault (List Item)
  | [], _ => .ok []
  | _ :: _, [] => .error (.assertion "fmVecIt != fmVec.end()")
  | i :: rest, fm :: fms =>
    match ienv.do_rewrite_insert i fm with
    | .error e => .error e
    | .ok l =>
      match insertRow ienv rest fms with
      | .error e => .error e
      | .ok newList0 => .ok (l ++ newList0)

/-- The loop of `rewrite_insert_lex` over the rows of values: a row must have as many
values as `fmVec` has fields. -/
def insertRows (ienv : InsertEnv) (fmVec : List (Option FieldMeta)) :
    List (List Item) → Except Fault (List (List Item))
  | [] => .ok []
  | li :: rest =>
    if li.length ≠ fmVec.length then .error (.assertion "li->elements == fmVec.size()")
    else
      match insertRow ienv li fmVec with
      | .error e => .error e
      | .ok newList0 =>
        match insertRows ienv fmVec rest with
        | .error e => .error e
        | .ok newList => .ok (newList0 :: newList)

/-- `rewrite_insert_lex`: the first entry of the table list is rewritten, the field list
is rewritten, `fmVec` is taken from the table in the order of its fields when the
statement names no field, the rows of values are rewritten; one statement is returned. -/
def rewrite_insert_lex (jenv : JoinEnv) (ienv : InsertEnv) (lex : InsertLex) :
    Except Fault (List InsertLex) :=
  match ienv.mp_insert_init with
  | some e => .error e
  | none =>
    match lex.table_list with
    | [] => .error (.undefined "table_list.first is null")
    | first :: _ =>
      match first.table_name with
      | none => .error (.undefined "table_name is null")
      | some table =>
        match rewrite_table_list_one jenv first with
        | .error e => .error e
        | .ok new_first =>
          match insertFields ienv lex.field_list with
          | .error e => .error e
          | .ok (fmVec0, newFields) =>
            let fmVec1 : Except Fault (List (Option FieldMeta)) :=
              if fmVec0.isEmpty then
                match mapFind table ienv.schema.tableMetaMap with
                | none => .error (.assertion "itt != a.ps->schema->tableMetaMap.end()")
                | some tm => .ok (tm.fieldNames.map fun name => mapFind name tm.fieldMetaMap)
              else .ok fmVec0
            match fmVec1 with
            | .error e => .error e
            | .ok fmVec =>
              match insertRows ienv fmVec lex.many_values with
              | .error e => .error e
              | .ok newValues =>
                .ok [{ table_list := [new_first], field_list := newFields,
                       many_values := newValues }]

/-- The kind of an annotation: `SINGLE_ENC`, `ENCFOR`, or another enumerator of the
annotation parser. -/
inductive AnnotType where
  | SINGLE_ENC
  | ENCFOR
  | other (tag : Nat)
  deriving DecidableEq, Repr

/-- What `processAnnotation` reads of an `Annotation`: `type`, `getPrimitive()`,
`getPrimitiveTableName()` and `getPrimitiveFieldName()`. -/
structure Annotation where
  type : AnnotType
  primitive : String
  primitiveTableName : String
  primitiveFieldName : String
  deriving DecidableEq, Repr

/-- What `processAnnotation` uses besides the annotation: `a.ps->mp` with its
`processAnnotation` (`none` when `mp` is null), `a.getFieldMeta`, what `init_onions` (or
`init_onions_mp`) sets on the field with the master key (the layers are built from key
material and layouts that lie outside these sources), `EncLayer::newCreateField`, the
printing of a `Create_field`, and the type name `TN_SALT`. -/
structure AnnotEnv where
  mp : Option ( Annotation → Except Fault (List String))
  getFieldMeta : String → String → Option FieldMeta
  init_onions : FieldMeta → OnionInit
  newCreateField : EncLayer → String → Create_field
  printCreateField : Create_field → String
  TN_SALT : String

/-- The loop of `processAnnotation` over the onions of the field: one `ALTER TABLE` per
onion; the second component is the variable `onionname`. -/
def annotQueries (aenv : AnnotEnv) (fm : FieldMeta) :
    List (onion × OnionMeta) → String → Except Fault (List String × String)
  | [], onionname => .ok ([], onionname)
  | pr :: rest, _ =>
    let onionname := pr.2.onionname
    match pr.2.layers.getLast? with
    | none => .error (.undefined "layers.back() of an empty vector")
    | some last_layer =>
      let cf := aenv.newCreateField last_layer onionname
      let head := "ALTER TABLE " ++ fm.anonTableName
      let after (o : onion) : Except Fault String :=
        match mapFind o fm.onions with
        | none => .error (.undefined "fm->onions[o] is null")
        | some om =>
          .ok (head ++ " ADD " ++ aenv.printCreateField cf ++ " AFTER " ++ om.onionname ++ ";")
      let query : Except Fault String :=
        match pr.1 with
        | .oDET =>
          .ok (head ++ " CHANGE " ++ fm.fname ++ " " ++ aenv.printCreateField cf ++ ";")
        | .oOPE => after .oDET
        | .oAGG => after .oOPE
        | .oSWP => after .oOPE
        | _ => .error (.assertion "unknown onion type")
      match query with
      | .error e => .error e
      | .ok q =>
        match annotQueries aenv fm rest onionname with
        | .error e => .error e
        | .ok (qs, last) => .ok (q :: qs, last)

/-- `processAnnotation`: with multiple principals the annotation is handed to `mp`; else
the annotation must be an encryption annotation with a primitive, the onions of the
field are initialised, and the result is one `ALTER TABLE` per onion followed by the one
that adds the salt column. -/
def processAnnotation (aenv : AnnotEnv) (annot : Annotation) : Except Fault (List String) :=
  match aenv.mp, decide (annot.type ≠ .ENCFOR) with
  | some mp, true => mp annot
  | _, _ =>
    if ¬ (annot.type = .SINGLE_ENC ∨ annot.type = .ENCFOR) then
      .error (.assertion
        "parser is in single principal mode, but annotations are for multiple principals")
    else if annot.primitive = "" then .error (.assertion "enc annotation has no primitive")
    else
      match aenv.getFieldMeta annot.primitiveTableName annot.primitiveFieldName with
      | none => .error (.undefined "fm is null")
      | some fm0 =>
        let ini := aenv.init_onions fm0
        let fm : FieldMeta :=
          { fm0 with has_salt := ini.has_salt, salt_name := ini.salt_name,
                     onions := ini.onions }
        match aenv.mp with
        | some mp => mp annot
        | none =>
          match annotQueries aenv fm fm.onions "" with
          | .error e => .error e
          | .ok (query_list, onionname) =>
            .ok (query_list ++
              ["ALTER TABLE " ++ fm.anonTableName ++ " ADD " ++ fm.salt_name ++ " " ++
                aenv.TN_SALT ++ " AFTER " ++ onionname ++ ";"])

/-- `rewrite_helper`: an annotation is processed by `processAnnotation`; else the
statement is rewritten by `rewriteLexAndUpdateMeta`, which must return at least one
statement, and each statement is printed (`ss << *new_lexes[i]`) in turn. The result is
the list of queries and the calls made. -/
def rewrite_helper (handlers : List (enum_sql_command × SqlHandler)) (cb : Callbacks)
    (aenv : AnnotEnv) (print : String → String) (annot : Option Annotation) (lex : LEX) :
    Except Fault (List String) × List HandlerEvent :=
  match annot with
  | some an => ( processAnnotation aenv an, [])
  | none =>
    match SqlHandler.rewriteLexAndUpdateMeta handlers cb lex with
    | (.error e, tr) => (.error e, tr)
    | (.ok none, tr) => (.error (.assertion "new_lexes && out_lex_count != 0"), tr)
    | (.ok (some new_lexes), tr) =>
      if new_lexes.length = 0 then
        (.error (.assertion "new_lexes && out_lex_count != 0"), tr)
      else (.ok (new_lexes.map print), tr)

/-- What the rewrite operations read of a `LEX`, each its own part. -/
structure Statement where
  ddl : DdlLex
  ins : InsertLex
  query : QueryLex
  upd : UpdateLex

/-- A statement returned by a rewrite operation. -/
inductive NewStmt where
  | ddl (l : DdlLex)
  | insert (l : InsertLex)
  | query (l : QueryLex)
  | update (l : OutLex)

/-- What the rewrite operations use from outside these sources, with `a.salts`,
`a.rmeta` and `a.pos` as the call finds them. -/
structure RewriteEnv where
  senv : SelectEnv
  denv : DdlEnv
  ienv : InsertEnv
  renv : RefreshEnv
  salts : List (FieldMeta × Nat)
  rmeta : ReturnMeta
  pos : Nat

/-- The call `(*sql_handler->lex_rewrite)(lex, analysis, out_lex_count)` for each function
that `buildSqlHandlers` installs as rewrite operation: the statements returned. -/
def lex_rewrite (env : RewriteEnv) (f : HandlerFn) (lex : Statement) :
    Except Fault (List NewStmt) :=
  match f with
  | .rewrite_alter_lex =>
    (rewrite_alter_lex env.senv.jenv env.denv lex.ddl).map fun l => l.map .ddl
  | .rewrite_create_lex =>
    (rewrite_create_lex env.senv.jenv env.denv lex.ddl).map fun l => l.map .ddl
  | .rewrite_drop_table_lex =>
    (rewrite_drop_table_lex env.senv.jenv lex.ddl).map fun l => l.map .ddl
  | .rewrite_insert_lex =>
    (rewrite_insert_lex env.senv.jenv env.ienv lex.ins).map fun l => l.map .insert
  | .rewrite_delete_lex =>
    (rewrite_delete_lex env.senv lex.query env.rmeta env.pos).map fun r => r.1.map .query
  | .rewrite_select_lex =>
    (rewrite_select_lex env.senv lex.query env.rmeta env.pos).map fun r => r.1.map .query
  | .rewrite_update_lex =>
    (rewrite_update_lex env.senv.uenv env.renv lex.upd env.salts).map fun r =>
      r.lexes.map .update
  | _ => .error (.undefined "not a rewrite operation")

/-- The operations of `rewriteLexAndUpdateMeta` when the rewrite operations are the
functions above: a rewrite fails as the function does, and else returns the statements
of the function, each under the identifier `render` gives it; the other operations
behave as in `base`. -/
def handlerCallbacks (base : Callbacks) (env : RewriteEnv) (lex : Statement)
    (render : NewStmt → String) : Callbacks :=
  { fails := fun tr ev =>
      match ev with
      | .lex_rewrite f =>
        match lex_rewrite env f lex with
        | .error e => some e
        | .ok _ => none
      | _ => base.fails tr ev,
    rewritten := fun f =>
      match lex_rewrite env f lex with
      | .error _ => none
      | .ok l => some (l.map render) }

/-- An annotation environment for the sample data, in single-principal mode: the
annotated field gets a salt, the onions of `sampleField` and an `oAGG` onion of one
layer. -/
def sampleAnnotEnv : AnnotEnv :=
  { mp := none,
    getFieldMeta := fun _ name => if name = "salary" then some sampleNewField else none,
    init_onions := fun _ =>
      { has_salt := true, salt_name := "cdb_salt",
        onions := sampleField.onions ++ [(.oAGG, { layers := [⟨6, 31⟩], onionname := "f_oAGG" })] },
    newCreateField := fun _ name => { field_name := name, sql_type := 8 },
    printCreateField := fun cf => cf.field_name,
    TN_SALT := "bigint(20) unsigned" }

/-- An encryption annotation on the field `salary` of the table `t`. -/
def sampleAnnotation : Annotation :=
  { type := .SINGLE_ENC, primitive := "salary", primitiveTableName := "t",
    primitiveFieldName := "salary" }

/-- A rewriting environment for the sample data, over the given rows of the live
table. -/
def sampleRewriteEnv (live : List Row) : RewriteEnv :=
  { senv :=
      { jenv := sampleJoinEnv, penv := sampleProjEnv, plan := samplePlan,
        uenv := sampleUpdateEnv, EQ_EncSet := sampleEqSet, ORD_EncSet := sampleOrdSet },
    denv := sampleDdlEnv [("salary", sampleField)],
    ienv :=
      { mp_insert_init := none,
        getFieldMeta := fun _ name => if name = "salary" then some sampleField else none,
        do_rewrite_insert := fun i _ => .ok [i],
        schema := sampleSchema },
    renv := sampleRefreshEnv live,
    salts := [],
    rmeta := { rfmeta := [] },
    pos := 0 }

/-- The parts of a statement on the field `salary` of the table `t` that each rewrite
operation reads. -/
def sampleStatement : Statement :=
  { ddl :=
      { table_list := [.table (some "t") "t" false none none], flags := ALTER_DROP_COLUMN,
        create_list := [{ field_name := "salary", sql_type := 3 }], key_list := [],
        drop_list := [{ is_column := true, name := "salary" }], create_like := false,
        if_not_exists := false },
    ins :=
      { table_list := [.table (some "t") "t" false none none],
        field_list := [.field "t" "salary"], many_values := [[.int 5]] },
    query :=
      { query_tables := some (.table (some "t") "t" false none none),
        select_lex :=
          { top_join_list := [.table (some "t") "t" false none none],
            item_list := [.field "t" "salary"],
            filters := { where_ := none, having := none, group_list := [],
                         order_list := [] } } },
    upd := sampleUpdateLex }

/-- An identifier for each statement returned by a rewrite operation. -/
def sampleRender : NewStmt → String
  | .ddl _ => "ddl"
  | .insert _ => "insert"
  | .query _ => "query"
  | .update .begin_transaction => "START TRANSACTION"
  | .update .commit_transaction => "COMMIT"
  | .update (.update _) => "update"
  | .update (.rewritten (.deleteWhere _ _) _) => "delete"
  | .update (.rewritten _ _) => "insert"

/-! ## The translation between enumerators and texts (`TypeText`, `buildTypeTextTranslator`) -/

/-- `TypeText<_type>`: the vectors `theEnums` and `theTexts`. -/
structure TypeText (α : Type) where
  theEnums : List α
  theTexts : List String
  deriving Repr

/-- `TypeText::addSet`: the two vectors must have the same length; the new instance
replaces `TypeText<_type>::instance`. -/
def TypeText.addSet {α : Type} (enums : List α) (texts : List String) :
    Except Fault (TypeText α) :=
  if enums.length ≠ texts.length then
    .error (.thrown "enums and text must be the same length!")
  else .ok { theEnums := enums, theTexts := texts }

/-- The loop of `TypeText::getText`, from an index on: the text at the first index whose
enumerator is `e`. -/
def getTextLoop {α : Type} [DecidableEq α] (e : α) :
    List α → List String → Except Fault String
  | [], _ => .error (.thrown "enum does not exist!")
  | x :: xs, ts =>
    if x = e then
      match ts with
      | [] => .error (.undefined "(*theTexts)[i] out of range")
      | t :: _ => .ok t
    else getTextLoop e xs ts.tail

/-- `TypeText::getText`. -/
def TypeText.getText {α : Type} [DecidableEq α] (tt : TypeText α) (e : α) :
    Except Fault String :=
  getTextLoop e tt.theEnums tt.theTexts

/-- The loop of `TypeText::getEnum`, from an index on: the enumerator at the first index
whose text is `t`. -/
def getEnumLoop {α : Type} (t : String) : List String → List α → Except Fault α
  | [], _ => .error (.thrown "text does not exist!")
  | x :: xs, es =>
    if x = t then
      match es with
      | [] => .error (.undefined "(*theEnums)[i] out of range")
      | e :: _ => .ok e
    else getEnumLoop t xs es.tail

/-- `TypeText::getEnum`. -/
def TypeText.getEnum {α : Type} (tt : TypeText α) (t : String) : Except Fault α :=
  getEnumLoop t tt.theTexts tt.theEnums

/-- `TypeText::toText`: `instance->getText(e)`; `none` is the null instance. -/
def TypeText.toText {α : Type} [DecidableEq α] (inst : Option (TypeText α)) (e : α) :
    Except Fault String :=
  match inst with
  | none => .error (.undefined "TypeText::instance is null")
  | some tt => tt.getText e

/-- `TypeText::toType`: `instance->getEnum(t)`; `none` is the null instance. -/
def TypeText.toType {α : Type} (inst : Option (TypeText α)) (t : String) : Except Fault α :=
  match inst with
  | none => .error (.undefined "TypeText::instance is null")
  | some tt => tt.getEnum t

/-- `translatorHelper`: the first `count` texts and enumerators are copied into two
vectors, which are given to `addSet`. -/
def translatorHelper {α : Type} (texts : List String) (enums : List α) (count : Nat) :
    Except Fault (TypeText α) :=
  if texts.length < count ∨ enums.length < count then
    .error (.undefined "read past the end of an array")
  else TypeText.addSet (enums.take count) (texts.take count)

/-- `onionlayout`: the levels of each onion. -/
abbrev onionlayout := List (onion × List SECLEVEL)

/-- The enumerators and constants that `buildTypeTextTranslator` registers and that are
defined outside these sources: the levels of `SECLEVEL`, MySQL's `enum_field_types`, the
onion layouts, and `Field::geometry_type`. -/
structure EnumConstants where
  RND : SECLEVEL
  DET : SECLEVEL
  DETJOIN : SECLEVEL
  OPE : SECLEVEL
  HOM : SECLEVEL
  SEARCH : SECLEVEL
  PLAINVAL : SECLEVEL
  MYSQL_TYPE_BIT : Nat
  MYSQL_TYPE_BLOB : Nat
  MYSQL_TYPE_DATE : Nat
  MYSQL_TYPE_DATETIME : Nat
  MYSQL_TYPE_DECIMAL : Nat
  MYSQL_TYPE_DOUBLE : Nat
  MYSQL_TYPE_ENUM : Nat
  MYSQL_TYPE_FLOAT : Nat
  MYSQL_TYPE_GEOMETRY : Nat
  MYSQL_TYPE_INT24 : Nat
  MYSQL_TYPE_LONG : Nat
  MYSQL_TYPE_LONG_BLOB : Nat
  MYSQL_TYPE_LONGLONG : Nat
  MYSQL_TYPE_MEDIUM_BLOB : Nat
  MYSQL_TYPE_NEWDATE : Nat
  MYSQL_TYPE_NEWDECIMAL : Nat
  MYSQL_TYPE_NULL : Nat
  MYSQL_TYPE_SET : Nat
  MYSQL_TYPE_SHORT : Nat
  MYSQL_TYPE_STRING : Nat
  MYSQL_TYPE_TIME : Nat
  MYSQL_TYPE_TIMESTAMP : Nat
  MYSQL_TYPE_TINY : Nat
  MYSQL_TYPE_TINY_BLOB : Nat
  MYSQL_TYPE_VAR_STRING : Nat
  MYSQL_TYPE_VARCHAR : Nat
  MYSQL_TYPE_YEAR : Nat
  PLAIN_ONION_LAYOUT : onionlayout
  NUM_ONION_LAYOUT : onionlayout
  MP_NUM_ONION_LAYOUT : onionlayout
  STR_ONION_LAYOUT : onionlayout
  GEOM_GEOMETRY : Nat
  GEOM_POINT : Nat
  GEOM_LINESTRING : Nat
  GEOM_POLYGON : Nat
  GEOM_MULTIPOINT : Nat
  GEOM_MULTILINESTRING : Nat
  GEOM_MULTIPOLYGON : Nat
  GEOM_GEOMETRYCOLLECTION : Nat

/-- The array `onion_chars` of `buildTypeTextTranslator`. -/
def onion_chars : List String := ["oPLAIN", "oDET", "oOPE", "oAGG", "oSWP"]

/-- The array `onions` of `buildTypeTextTranslator`. -/
def onions : List onion := [.oPLAIN, .oDET, .oOPE, .oAGG, .oSWP]

/-- The array `seclevel_chars` of `buildTypeTextTranslator`. -/
def seclevel_chars : List String :=
  ["RND", "DET", "DETJOIN", "OPE", "HOM", "SEARCH", "PLAINVAL"]

/-- The array `seclevels` of `buildTypeTextTranslator`. -/
def seclevels (c : EnumConstants) : List SECLEVEL :=
  [c.RND, c.DET, c.DETJOIN, c.OPE, c.HOM, c.SEARCH, c.PLAINVAL]

/-- The array `mysql_type_chars` of `buildTypeTextTranslator`. -/
def mysql_type_chars : List String :=
  ["MYSQL_TYPE_BIT", "MYSQL_TYPE_BLOB", "MYSQL_TYPE_DATE",
   "MYSQL_TYPE_DATETIME", "MYSQL_TYPE_DECIMAL", "MYSQL_TYPE_DOUBLE",
   "MYSQL_TYPE_ENUM", "MYSQL_TYPE_FLOAT", "MYSQL_TYPE_GEOMETRY",
   "MYSQL_TYPE_INT24", "MYSQL_TYPE_LONG", "MYSQL_TYPE_LONG_BLOB",
   "MYSQL_TYPE_LONGLONG", "MYSQL_TYPE_MEDIUM_BLOB",
   "MYSQL_TYPE_NEWDATE", "MYSQL_TYPE_NEWDECIMAL", "MYSQL_TYPE_NULL",
   "MYSQL_TYPE_SET", "MYSQL_TYPE_SHORT", "MYSQL_TYPE_STRING",
   "MYSQL_TYPE_TIME", "MYSQL_TYPE_TIMESTAMP", "MYSQL_TYPE_TINY",
   "MYSQL_TYPE_TINY_BLOB", "MYSQL_TYPE_VAR_STRING",
   "MYSQL_TYPE_VARCHAR", "MYSQL_TYPE_YEAR"]

/-- The array `mysql_types` of `buildTypeTextTranslator`. -/
def mysql_types (c : EnumConstants) : List Nat :=
  [c.MYSQL_TYPE_BIT, c.MYSQL_TYPE_BLOB, c.MYSQL_TYPE_DATE,
   c.MYSQL_TYPE_DATETIME, c.MYSQL_TYPE_DECIMAL, c.MYSQL_TYPE_DOUBLE,
   c.MYSQL_TYPE_ENUM, c.MYSQL_TYPE_FLOAT, c.MYSQL_TYPE_GEOMETRY,
   c.MYSQL_TYPE_INT24, c.MYSQL_TYPE_LONG, c.MYSQL_TYPE_LONG_BLOB,
   c.MYSQL_TYPE_LONGLONG, c.MYSQL_TYPE_MEDIUM_BLOB,
   c.MYSQL_TYPE_NEWDATE, c.MYSQL_TYPE_NEWDECIMAL, c.MYSQL_TYPE_NULL,
   c.MYSQL_TYPE_SET, c.MYSQL_TYPE_SHORT, c.MYSQL_TYPE_STRING,
   c.MYSQL_TYPE_TIME, c.MYSQL_TYPE_TIMESTAMP, c.MYSQL_TYPE_TINY,
   c.MYSQL_TYPE_TINY_BLOB, c.MYSQL_TYPE_VAR_STRING,
   c.MYSQL_TYPE_VARCHAR, c.MYSQL_TYPE_YEAR]

/-- The array `onion_layout_chars` of `buildTypeTextTranslator`. -/
def onion_layout_chars : List String :=
  ["PLAIN_ONION_LAYOUT", "NUM_ONION_LAYOUT", "MP_NUM_ONION_LAYOUT", "STR_ONION_LAYOUT"]

/-- The array `onion_layouts` of `buildTypeTextTranslator`. -/
def onion_layouts (c : EnumConstants) : List onionlayout :=
  [c.PLAIN_ONION_LAYOUT, c.NUM_ONION_LAYOUT, c.MP_NUM_ONION_LAYOUT, c.STR_ONION_LAYOUT]

/-- The array `geometry_type_chars` of `buildTypeTextTranslator`. -/
def geometry_type_chars : List String :=
  ["GEOM_GEOMETRY", "GEOM_POINT", "GEOM_LINESTRING", "GEOM_POLYGON",
   "GEOM_MULTIPOINT", "GEOM_MULTILINESTRING", "GEOM_MULTIPOLYGON",
   "GEOM_GEOMETRYCOLLECTION"]

/-- The array `geometry_types` of `buildTypeTextTranslator`. -/
def geometry_types (c : EnumConstants) : List Nat :=
  [c.GEOM_GEOMETRY, c.GEOM_POINT, c.GEOM_LINESTRING, c.GEOM_POLYGON,
   c.GEOM_MULTIPOINT, c.GEOM_MULTILINESTRING, c.GEOM_MULTIPOLYGON,
   c.GEOM_GEOMETRYCOLLECTION]

/-- The five instances `TypeText<_type>::instance` that `buildTypeTextTranslator`
leaves. -/
structure Translators where
  onionT : TypeText onion
  seclevelT : TypeText SECLEVEL
  mysqlT : TypeText Nat
  layoutT : TypeText onionlayout
  geometryT : TypeText Nat

/-- One block of `buildTypeTextTranslator`: the two arrays must have the same size
(`assert`), and are given to `translatorHelper` with the size of the texts. -/
def registerSet {α : Type} (chars : List String) (enums : List α) :
    Except Fault (TypeText α) :=
  if chars.length ≠ enums.length then .error (.assertion "arraysize(chars) == arraysize(enums)")
  else translatorHelper chars enums chars.length

/-- `buildTypeTextTranslator`: the onions, the levels, the MySQL types, the onion layouts
and the geometry types are registered in turn. -/
def buildTypeTextTranslator (c : EnumConstants) : Except Fault Translators :=
  match registerSet onion_chars onions with
  | .error e => .error e
  | .ok onionT =>
    match registerSet seclevel_chars (seclevels c) with
    | .error e => .error e
    | .ok seclevelT =>
      match registerSet mysql_type_chars (mysql_types c) with
      | .error e => .error e
      | .ok mysqlT =>
        match registerSet onion_layout_chars (onion_layouts c) with
        | .error e => .error e
        | .ok layoutT =>
          match registerSet geometry_type_chars (geometry_types c) with
          | .error e => .error e
          | .ok geometryT =>
            .ok { onionT := onionT, seclevelT := seclevelT, mysqlT := mysqlT,
                  layoutT := layoutT, geometryT := geometryT }

/-- The values of the enumerators in MySQL 5.5 and in the order of declaration of
`SECLEVEL` and `Field::geometry_type`, with four different layouts. -/
def sampleConstants : EnumConstants :=
  { RND := 0, DET := 1, DETJOIN := 2, OPE := 3, HOM := 4, SEARCH := 5, PLAINVAL := 6,
    MYSQL_TYPE_DECIMAL := 0, MYSQL_TYPE_TINY := 1, MYSQL_TYPE_SHORT := 2,
    MYSQL_TYPE_LONG := 3, MYSQL_TYPE_FLOAT := 4, MYSQL_TYPE_DOUBLE := 5,
    MYSQL_TYPE_NULL := 6, MYSQL_TYPE_TIMESTAMP := 7, MYSQL_TYPE_LONGLONG := 8,
    MYSQL_TYPE_INT24 := 9, MYSQL_TYPE_DATE := 10, MYSQL_TYPE_TIME := 11,
    MYSQL_TYPE_DATETIME := 12, MYSQL_TYPE_YEAR := 13, MYSQL_TYPE_NEWDATE := 14,
    MYSQL_TYPE_VARCHAR := 15, MYSQL_TYPE_BIT := 16, MYSQL_TYPE_NEWDECIMAL := 246,
    MYSQL_TYPE_ENUM := 247, MYSQL_TYPE_SET := 248, MYSQL_TYPE_TINY_BLOB := 249,
    MYSQL_TYPE_MEDIUM_BLOB := 250, MYSQL_TYPE_LONG_BLOB := 251, MYSQL_TYPE_BLOB := 252,
    MYSQL_TYPE_VAR_STRING := 253, MYSQL_TYPE_STRING := 254, MYSQL_TYPE_GEOMETRY := 255,
    PLAIN_ONION_LAYOUT := [(.oPLAIN, [6])],
    NUM_ONION_LAYOUT := [(.oDET, [2, 1, 0]), (.oOPE, [3, 0]), (.oAGG, [4])],
    MP_NUM_ONION_LAYOUT := [(.oDET, [2, 1, 0]), (.oOPE, [3, 0])],
    STR_ONION_LAYOUT := [(.oDET, [2, 1, 0]), (.oOPE, [3, 0]), (.oSWP, [5])],
    GEOM_GEOMETRY := 0, GEOM_POINT := 1, GEOM_LINESTRING := 2, GEOM_POLYGON := 3,
    GEOM_MULTIPOINT := 4, GEOM_MULTILINESTRING := 5, GEOM_MULTIPOLYGON := 6,
    GEOM_GEOMETRYCOLLECTION := 7 }

/-- A `rewrite_helper` that asks, at every call, for the `oDET` onion of the first field
at level 3. -/
def stuckHelper : Helper := fun w => (.adjust { o := .oDET, fm := 0, tolevel := 3 }, w)
/-! ## Lemmas on the metadata maps -/

theorem mapFind_mapReplace_self {K V : Type} [DecidableEq K] (k : K) (v : V)
    (m : List (K × V)) (h : (mapFind k m).isSome) : mapFind k (mapReplace k v m) = some v := by
  induction m with
  | nil => simp [mapFind] at h
  | cons p rest ih =>
    obtain ⟨k', v'⟩ := p
    by_cases hk : k' = k
    · simp [mapReplace, mapFind, hk]
    · simp only [mapFind, hk, if_false] at h
      simp [mapReplace, mapFind, hk, ih h]

theorem mapFind_mapReplace_ne {K V : Type} [DecidableEq K] (k k' : K) (v : V)
    (m : List (K × V)) (h : k' ≠ k) : mapFind k' (mapReplace k v m) = mapFind k' m := by
  induction m with
  | nil => simp [mapReplace]
  | cons p rest ih =>
    obtain ⟨k0, v0⟩ := p
    by_cases hk : k0 = k
    · subst hk
      have h' : ¬ k0 = k' := fun e => h e.symm
      simp [mapReplace, mapFind, h']
    · by_cases hk' : k0 = k'
      · subst hk'
        simp [mapReplace, mapFind, hk]
      · simp [mapReplace, mapFind, hk, hk', ih]

theorem layersOf_setOnion_self (fm : FieldMeta) (o : onion) (om0 om : OnionMeta)
    (h : mapFind o fm.onions = some om0) : (fm.setOnion o om).layersOf o = om.layers := by
  have := mapFind_mapReplace_self o om fm.onions (by simp [h])
  simp [FieldMeta.layersOf, FieldMeta.setOnion, this]

theorem layersOf_setOnion_ne (fm : FieldMeta) (o o' : onion) (om : OnionMeta)
    (h : o' ≠ o) : (fm.setOnion o om).layersOf o' = fm.layersOf o' := by
  simp [FieldMeta.layersOf, FieldMeta.setOnion, mapFind_mapReplace_ne o o' om fm.onions h]

theorem onionName_setOnion (fm : FieldMeta) (o o' : onion) (om0 om : OnionMeta)
    (h : mapFind o fm.onions = some om0) (hn : om.onionname = om0.onionname) :
    (fm.setOnion o om).onionName o' = fm.onionName o' := by
  by_cases ho : o' = o
  · subst ho
    have := mapFind_mapReplace_self o' om fm.onions (by simp [h])
    simp [FieldMeta.onionName, FieldMeta.setOnion, this, h, hn]
  · simp [FieldMeta.onionName, FieldMeta.setOnion, mapFind_mapReplace_ne o o' om fm.onions ho]

theorem peelTrace_congr (fm fm' : FieldMeta) (cur_db : String) (o : onion)
    (removed : List EncLayer) (h1 : fm'.anonTableName = fm.anonTableName)
    (h2 : fm'.salt_name = fm.salt_name) (h3 : fm'.onionName o = fm.onionName o) :
    peelTrace fm' cur_db o removed = peelTrace fm cur_db o removed := by
  simp [peelTrace, h1, h2, h3]

/-- The shape of a successful `removeOnionLayer`. -/
theorem removeOnionLayer_ok (srv : Server) (cur_db : String) (o : onion) (s s1 : AdjState)
    (l : SECLEVEL) (h : removeOnionLayer srv cur_db o s = (.ok l, s1)) :
    ∃ top, s.fm.layersOf o = s1.fm.layersOf o ++ [top] ∧
      s1.fm.curLevel o = some l ∧
      (∀ o', o' ≠ o → s1.fm.layersOf o' = s.fm.layersOf o') ∧
      s1.trace = s.trace ++ peelTrace s.fm cur_db o [top] ∧
      s1.fm.anonTableName = s.fm.anonTableName ∧ s1.fm.salt_name = s.fm.salt_name ∧
      (∀ o', s1.fm.onionName o' = s.fm.onionName o') := by
  unfold removeOnionLayer at h
  split at h
  · simp at h
  · rename_i om hom
    split at h
    · simp at h
    · rename_i top htop
      simp only at h
      split at h
      · simp at h
      · split at h
        · simp at h
        · split at h
          · simp at h
          · rename_i l0 hl0
            simp only [Prod.mk.injEq, Except.ok.injEq] at h
            obtain ⟨hl, hs⟩ := h
            subst hs
            have hlay : om.layers = om.layers.dropLast ++ [top] := by
              have := List.dropLast_append_getLast? top (by simpa using htop)
              exact this.symm
            refine ⟨top, ?_, ?_, ?_, ?_, rfl, rfl, ?_⟩
            · simp only
              rw [layersOf_setOnion_self _ _ om _ hom]
              simp only [FieldMeta.layersOf, hom]
              exact hlay
            · simp only [FieldMeta.curLevel]
              rw [layersOf_setOnion_self _ _ om _ hom]
              simp [hl0, hl]
            · intro o' ho'
              exact layersOf_setOnion_ne _ _ _ _ ho'
            · simp [peelTrace, FieldMeta.onionName, hom]
            · intro o'
              exact onionName_setOnion _ _ _ om _ hom rfl

/-- The shape of a loop of `adjustOnion` that ends normally. -/
theorem adjustLoop_ok (srv : Server) (cur_db : String) (o : onion) (tolevel : SECLEVEL) :
    ∀ (k : Nat) (newlevel : SECLEVEL) (s s1 : AdjState) (l : SECLEVEL),
      adjustLoop srv cur_db o tolevel k newlevel s = (.ok l, s1) →
      ∃ removed : List EncLayer,
        s.fm.layersOf o = s1.fm.layersOf o ++ removed.reverse ∧
        (removed = [] → l = newlevel ∧ s1 = s) ∧
        (removed ≠ [] → newlevel > tolevel ∧ s1.fm.curLevel o = some l) ∧
        l ≤ tolevel ∧
        (∀ o', o' ≠ o → s1.fm.layersOf o' = s.fm.layersOf o') ∧
        s1.trace = s.trace ++ peelTrace s.fm cur_db o removed ∧
        s1.fm.anonTableName = s.fm.anonTableName ∧ s1.fm.salt_name = s.fm.salt_name ∧
        (∀ o', s1.fm.onionName o' = s.fm.onionName o') := by
  intro k
  induction k with
  | zero =>
    intro newlevel s s1 l h
    unfold adjustLoop at h
    split at h
    · simp at h
    · rename_i hgt
      simp only [Prod.mk.injEq, Except.ok.injEq] at h
      obtain ⟨h1, h2⟩ := h
      subst h1 h2
      exact ⟨[], by simp, by simp, by simp, Nat.le_of_not_lt hgt, by simp,
        by simp [peelTrace], rfl, rfl, by simp⟩
  | succ k ih =>
    intro newlevel s s1 l h
    unfold adjustLoop at h
    split at h
    · rename_i hgt
      split at h
      · rename_i l0 s0 hrem
        obtain ⟨top, hlay, hcur, hfr, htr, hn1, hn2, hn3⟩ :=
          removeOnionLayer_ok srv cur_db o s s0 l0 hrem
        obtain ⟨removed, glay, gnil, gcons, gle, gfr, gtr, gn1, gn2, gn3⟩ :=
          ih l0 s0 s1 l h
        refine ⟨top :: removed, ?_, by simp, ?_, gle, ?_, ?_, by rw [gn1, hn1],
          by rw [gn2, hn2], fun o' => by rw [gn3, hn3]⟩
        · rw [hlay, glay]
          simp
        · intro _
          refine ⟨hgt, ?_⟩
          by_cases hr : removed = []
          · obtain ⟨e1, e2⟩ := gnil hr
            rw [e1, e2]
            exact hcur
          · exact (gcons hr).2
        · intro o' ho'
          rw [gfr o' ho', hfr o' ho']
        · rw [gtr, htr, peelTrace_congr s.fm s0.fm cur_db o removed hn1 hn2 (hn3 o)]
          simp [peelTrace]
      · simp at h
    · rename_i hgt
      simp only [Prod.mk.injEq, Except.ok.injEq] at h
      obtain ⟨h1, h2⟩ := h
      subst h1 h2
      exact ⟨[], by simp, by simp, by simp, Nat.le_of_not_lt hgt, by simp,
        by simp [peelTrace], rfl, rfl, by simp⟩

/-- When `getOnionLevel` returns a level other than `INVALID`, or the onion exists, that
level is the current level of the onion. -/
theorem getOnionLevel_curLevel (INVALID : SECLEVEL) (fm : FieldMeta) (o : onion)
    (l : SECLEVEL) (h : fm.getOnionLevel INVALID o = .ok l) (hl : l ≠ INVALID) :
    fm.curLevel o = some l := by
  unfold FieldMeta.getOnionLevel at h
  split at h
  · simp only [Except.ok.injEq] at h
    exact absurd h.symm hl
  · rename_i om hom
    unfold OnionMeta.getSecLevel at h
    split at h
    · simp at h
    · rename_i top htop
      simp only [Except.ok.injEq] at h
      simp [FieldMeta.curLevel, FieldMeta.layersOf, hom, htop, h]

/-- The shape of an `adjustOnion` that returns normally. -/
theorem adjustOnion_ok (INVALID : SECLEVEL) (srv : Server) (cur_db : String) (o : onion)
    (tolevel : SECLEVEL) (s s1 : AdjState)
    (h : adjustOnion INVALID srv cur_db o tolevel s = (.ok (), s1)) :
    ∃ (removed : List EncLayer) (before : SECLEVEL),
      s.fm.curLevel o = some before ∧ tolevel ≤ before ∧
      s1.fm.curLevel o = some tolevel ∧
      s.fm.layersOf o = s1.fm.layersOf o ++ removed.reverse ∧
      (removed = [] → s1 = s) ∧
      (∀ o', o' ≠ o → s1.fm.layersOf o' = s.fm.layersOf o') ∧
      s1.trace = s.trace ++ peelTrace s.fm cur_db o removed := by
  unfold adjustOnion at h
  split at h
  · simp at h
  · rename_i newlevel hget
    split at h
    · simp at h
    · rename_i hinv
      have hcur := getOnionLevel_curLevel INVALID s.fm o newlevel hget hinv
      split at h
      · simp at h
      · rename_i l s0 hloop
        split at h
        · rename_i hl
          simp only [Prod.mk.injEq, true_and] at h
          subst h hl
          obtain ⟨removed, glay, gnil, gcons, gle, gfr, gtr, -, -, -⟩ :=
            adjustLoop_ok srv cur_db o l _ newlevel s s0 l hloop
          refine ⟨removed, newlevel, hcur, ?_, ?_, glay, fun hr => (gnil hr).2, gfr, gtr⟩
          · by_cases hr : removed = []
            · exact le_of_eq (gnil hr).1
            · exact le_of_lt (gcons hr).1
          · by_cases hr : removed = []
            · obtain ⟨e1, e2⟩ := gnil hr
              rw [e2, e1]
              exact hcur
            · exact (gcons hr).2
        · simp at h

/-- The loop of `setOnionLevel`, given as many iterations as there are layers, stops
with an empty stack or with a last layer of level `maxl`; what it popped, put back in
place, gives the stack it started from. -/
theorem popUntil_spec (maxl : SECLEVEL) :
    ∀ (k : Nat) (ls : List EncLayer), ls.length ≤ k →
      ls = (popUntil maxl k ls).1 ++ (popUntil maxl k ls).2.reverse ∧
      ((popUntil maxl k ls).1 = [] ∨
        (popUntil maxl k ls).1.getLast?.map EncLayer.level = some maxl) := by
  intro k
  induction k with
  | zero =>
    intro ls hlen
    have : ls = [] := List.length_eq_zero.mp (Nat.le_zero.mp hlen)
    subst this
    simp [popUntil]
  | succ k ih =>
    intro ls hlen
    unfold popUntil
    split
    · rename_i hnone
      have : ls = [] := by simpa using hnone
      subst this
      simp
    · rename_i top htop
      have hlay : ls.dropLast ++ [top] = ls :=
        List.dropLast_append_getLast? top (by simpa using htop)
      split
      · rename_i hne
        have hlen' : ls.dropLast.length ≤ k := by
          rw [List.length_dropLast]
          omega
        obtain ⟨h1, h2⟩ := ih ls.dropLast hlen'
        refine ⟨?_, h2⟩
        simp only [List.reverse_cons, ← List.append_assoc, ← h1]
        exact hlay.symm
      · rename_i heq
        have heq' : top.level = maxl := by
          by_contra hc
          exact heq hc
        simp [htop, heq']

/-- The shape of a `setOnionLevel` that returns. -/
theorem setOnionLevel_ok (o : onion) (maxl : SECLEVEL) (s s1 : AdjState) (b : Bool)
    (h : setOnionLevel o maxl s = (.ok b, s1)) :
    ∃ (removed : List EncLayer) (before : SECLEVEL),
      s.fm.curLevel o = some before ∧
      s.fm.layersOf o = s1.fm.layersOf o ++ removed.reverse ∧
      (b = false → s1 = s ∧ before ≤ maxl) ∧
      (b = true → maxl < before ∧
        (s1.fm.layersOf o = [] ∨ s1.fm.curLevel o = some maxl)) ∧
      (∀ o', o' ≠ o → s1.fm.layersOf o' = s.fm.layersOf o') ∧
      s1.trace = s.trace ++ removed.map (Event.popLayer o) := by
  unfold setOnionLevel at h
  split at h
  · simp at h
  · rename_i om hom
    split at h
    · simp at h
    · rename_i cur hcur
      have hc : s.fm.curLevel o = some cur := by
        unfold OnionMeta.getSecLevel at hcur
        split at hcur
        · simp at hcur
        · rename_i top htop
          simp only [Except.ok.injEq] at hcur
          simp [FieldMeta.curLevel, FieldMeta.layersOf, hom, htop, hcur]
      split at h
      · rename_i hgt
        simp only [Prod.mk.injEq, Except.ok.injEq] at h
        obtain ⟨hb, hs⟩ := h
        subst hb hs
        obtain ⟨p1, p2⟩ := popUntil_spec maxl om.layers.length om.layers le_rfl
        refine ⟨(popUntil maxl om.layers.length om.layers).2, cur, hc, ?_, by simp, ?_, ?_,
          rfl⟩
        · simp only
          rw [layersOf_setOnion_self _ _ om _ hom]
          simp only [FieldMeta.layersOf, hom]
          exact p1
        · intro _
          refine ⟨hgt, ?_⟩
          simp only [FieldMeta.curLevel]
          rw [layersOf_setOnion_self _ _ om _ hom]
          exact p2
        · intro o' ho'
          exact layersOf_setOnion_ne _ _ _ _ ho'
      · rename_i hgt
        simp only [Prod.mk.injEq, Except.ok.injEq] at h
        obtain ⟨hb, hs⟩ := h
        subst hb hs
        exact ⟨[], cur, hc, by simp, fun _ => ⟨rfl, Nat.le_of_not_lt hgt⟩, by simp, by simp,
          by simp⟩

/-! ## Adjustment never raises a level -/

/-- In a stack whose levels do not decrease upwards, the last layer of a non-empty
prefix is not above the last layer of the whole stack. -/
theorem last_le_of_append (P R : List EncLayer) (a : EncLayer)
    (hs : ((P ++ R).map EncLayer.level).Sorted (· ≤ ·)) (ha : P.getLast? = some a) :
    ∃ b, (P ++ R).getLast? = some b ∧ a.level ≤ b.level := by
  rcases List.eq_nil_or_concat R with hR | ⟨R', b, hR⟩
  · subst hR
    exact ⟨a, by simpa using ha, le_rfl⟩
  · rw [List.concat_eq_append] at hR
    subst hR
    refine ⟨b, by simp [← List.append_assoc], ?_⟩
    have hp : ((P ++ (R' ++ [b])).map EncLayer.level).Pairwise (· ≤ ·) := hs
    rw [List.map_append, List.pairwise_append] at hp
    have ha' : a ∈ P := List.mem_of_getLast?_eq_some ha
    exact hp.2.2 a.level (List.mem_map_of_mem _ ha') b.level
      (List.mem_map_of_mem _ (by simp))

/-- A prefix of a stack whose levels do not decrease upwards has the same property. -/
theorem sorted_of_append (P R : List EncLayer)
    (hs : ((P ++ R).map EncLayer.level).Sorted (· ≤ ·)) :
    (P.map EncLayer.level).Sorted (· ≤ ·) := by
  have hp : ((P ++ R).map EncLayer.level).Pairwise (· ≤ ·) := hs
  rw [List.map_append, List.pairwise_append] at hp
  exact hp.1

theorem curLevel_eq_of_layersOf_eq (fm fm' : FieldMeta) (o : onion)
    (h : fm'.layersOf o = fm.layersOf o) : fm'.curLevel o = fm.curLevel o := by
  simp [FieldMeta.curLevel, h]

/-- What one adjustment operation that completes does to the stack of any onion: it
leaves a prefix; and unless it is a bare `removeOnionLayer` on that onion, a level
that is defined afterwards is not above the level before. -/
theorem runOp_ok (INVALID : SECLEVEL) (srv : Server) (op : AdjOp) (s s1 : AdjState)
    (h : runOp INVALID srv op s = (.ok (), s1)) (o : onion) :
    (∃ removed, s.fm.layersOf o = s1.fm.layersOf o ++ removed) ∧
    (∀ l1, s1.fm.curLevel o = some l1 → (∀ db, op ≠ .removeOnionLayer o db) →
      ∃ l, s.fm.curLevel o = some l ∧ l1 ≤ l) := by
  cases op with
  | removeOnionLayer o' db =>
    simp only [runOp] at h
    split at h
    · rename_i l0 s0 hrem
      simp only [Prod.mk.injEq, true_and] at h
      subst h
      obtain ⟨top, hlay, -, hfr, -⟩ := removeOnionLayer_ok srv db o' s s0 l0 hrem
      by_cases ho : o = o'
      · subst ho
        exact ⟨⟨[top], hlay⟩, fun l1 _ hb => absurd rfl (hb db)⟩
      · refine ⟨⟨[], by simp [hfr o ho]⟩, fun l1 hl1 _ => ⟨l1, ?_, le_rfl⟩⟩
        rw [← curLevel_eq_of_layersOf_eq _ _ o (hfr o ho)]
        exact hl1
    · simp at h
  | adjustOnion o' tolevel db =>
    simp only [runOp] at h
    obtain ⟨removed, before, hb, hle, ha, hlay, -, hfr, -⟩ :=
      adjustOnion_ok INVALID srv db o' tolevel s s1 h
    by_cases ho : o = o'
    · subst ho
      refine ⟨⟨removed.reverse, hlay⟩, fun l1 hl1 _ => ⟨before, hb, ?_⟩⟩
      rw [ha] at hl1
      simp only [Option.some.injEq] at hl1
      subst hl1
      exact hle
    · refine ⟨⟨[], by simp [hfr o ho]⟩, fun l1 hl1 _ => ⟨l1, ?_, le_rfl⟩⟩
      rw [← curLevel_eq_of_layersOf_eq _ _ o (hfr o ho)]
      exact hl1
  | setOnionLevel o' maxl =>
    simp only [runOp] at h
    split at h
    · rename_i b s0 hset
      simp only [Prod.mk.injEq, true_and] at h
      subst h
      obtain ⟨removed, before, hb, hlay, hfalse, htrue, hfr, -⟩ :=
        setOnionLevel_ok o' maxl s s0 b hset
      by_cases ho : o = o'
      · subst ho
        refine ⟨⟨removed.reverse, hlay⟩, fun l1 hl1 _ => ⟨before, hb, ?_⟩⟩
        cases b with
        | false =>
          obtain ⟨e, -⟩ := hfalse rfl
          rw [e, hb] at hl1
          simp only [Option.some.injEq] at hl1
          exact le_of_eq hl1.symm
        | true =>
          obtain ⟨hlt, hor⟩ := htrue rfl
          rcases hor with hnil | hmax
          · simp [FieldMeta.curLevel, hnil] at hl1
          · rw [hmax] at hl1
            simp only [Option.some.injEq] at hl1
            subst hl1
            exact le_of_lt hlt
      · refine ⟨⟨[], by simp [hfr o ho]⟩, fun l1 hl1 _ => ⟨l1, ?_, le_rfl⟩⟩
        rw [← curLevel_eq_of_layersOf_eq _ _ o (hfr o ho)]
        exact hl1
    · simp at h

/-- Shared induction behind the monotonicity of levels: over any sequence of adjustment
operations that completes, under the ordering of the stack or in the absence of bare
`removeOnionLayer` calls on the onion. -/
theorem runOps_level_le (INVALID : SECLEVEL) (srv : Server) (o : onion) :
    ∀ (ops : List AdjOp) (s s1 : AdjState) (l1 : SECLEVEL),
      runOps INVALID srv ops s = (.ok (), s1) →
      s1.fm.curLevel o = some l1 →
      (s.fm.layersOrdered o ∨ ∀ db, AdjOp.removeOnionLayer o db ∉ ops) →
      ∃ l, s.fm.curLevel o = some l ∧ l1 ≤ l := by
  intro ops
  induction ops with
  | nil =>
    intro s s1 l1 h hl1 _
    simp only [runOps, Prod.mk.injEq, true_and] at h
    subst h
    exact ⟨l1, hl1, le_rfl⟩
  | cons op ops ih =>
    intro s s1 l1 h hl1 hcase
    simp only [runOps] at h
    split at h
    · rename_i u s0 hop
      cases u
      obtain ⟨⟨removed, hlay⟩, hlev⟩ := runOp_ok INVALID srv op s s0 hop o
      have hcase0 : s0.fm.layersOrdered o ∨ ∀ db, AdjOp.removeOnionLayer o db ∉ ops := by
        rcases hcase with hs | hn
        · left
          unfold FieldMeta.layersOrdered at hs ⊢
          rw [hlay] at hs
          exact sorted_of_append _ _ hs
        · right
          intro db hmem
          exact hn db (List.mem_cons_of_mem _ hmem)
      obtain ⟨l0, hl0, hle0⟩ := ih s0 s1 l1 h hl1 hcase0
      rcases hcase with hs | hn
      · unfold FieldMeta.layersOrdered at hs
        rw [hlay] at hs
        simp only [FieldMeta.curLevel, Option.map_eq_some'] at hl0
        obtain ⟨a, ha, hal⟩ := hl0
        obtain ⟨b, hb, hab⟩ := last_le_of_append _ _ a hs ha
        refine ⟨b.level, ?_, ?_⟩
        · simp [FieldMeta.curLevel, hlay, hb]
        · rw [← hal] at hle0
          exact le_trans hle0 hab
      · obtain ⟨l, hl, hle⟩ := hlev l0 hl0 (fun db e => hn db (by simp [e]))
        exact ⟨l, hl, le_trans hle0 hle⟩
    · simp at h

/-- An `adjustOnion` whose target lies above the current level stops at an assertion
and leaves the field and the trace as they were. -/
theorem adjustOnion_above (INVALID : SECLEVEL) (srv : Server) (cur_db : String) (o : onion)
    (tolevel : SECLEVEL) (s : AdjState) (l : SECLEVEL) (hcur : s.fm.curLevel o = some l)
    (habove : l < tolevel) :
    ∃ what, adjustOnion INVALID srv cur_db o tolevel s = (.error (.assertion what), s) := by
  have hget : s.fm.getOnionLevel INVALID o = .ok l := by
    unfold FieldMeta.curLevel FieldMeta.layersOf at hcur
    unfold FieldMeta.getOnionLevel
    split at hcur
    · simp at hcur
    · rename_i om hom
      simp only [hom, OnionMeta.getSecLevel]
      split
      · rename_i hnone
        simp [hnone] at hcur
      · rename_i top htop
        simp only [htop, Option.map_some', Option.some.injEq] at hcur
        simp [hcur]
  unfold adjustOnion
  simp only [hget]
  by_cases hinv : l = INVALID
  · exact ⟨"newlevel != SECLEVEL::INVALID", by simp [hinv]⟩
  · have hng : ¬ l > tolevel := Nat.not_lt.mpr (Nat.le_of_lt habove)
    have hloop : ∀ k, adjustLoop srv cur_db o tolevel k l s = (.ok l, s) := by
      intro k
      cases k <;> simp [adjustLoop, hng]
    have hne : l ≠ tolevel := Nat.ne_of_lt habove
    exact ⟨"newlevel == tolevel", by simp [hinv, hloop, hne]⟩

theorem list_set_of_get? {α : Type} : ∀ (xs : List α) (i : Nat) (a : α),
    xs.get? i = some a → xs.set i a = xs := by
  intro xs
  induction xs with
  | nil => intro i a h; simp at h
  | cons x xs ih =>
    intro i a h
    cases i with
    | zero =>
      simp only [List.get?_cons_zero, Option.some.injEq] at h
      simp [h]
    | succ i =>
      simp only [List.get?_cons_succ] at h
      simp [ih i a h]

/-! ## Claims on onion adjustment -/

/-- C1. Over any sequence of `removeOnionLayer`, `adjustOnion` and `setOnionLevel` calls
that completes, the level an onion has afterwards is at most the level it had before.
A level afterwards means that the onion still has a layer; a direct `removeOnionLayer`
on the onion is covered for stacks whose levels do not decrease from the lowest layer to
the outermost one (inside `adjustOnion` no such assumption is needed). -/
theorem C1_level_non_increasing (INVALID : SECLEVEL) (srv : Server) (o : onion)
    (ops : List AdjOp) (s s1 : AdjState) (l1 : SECLEVEL)
    (hrun : runOps INVALID srv ops s = (.ok (), s1))
    (hafter : s1.fm.curLevel o = some l1)
    (hbare : (∃ db, AdjOp.removeOnionLayer o db ∈ ops) → s.fm.layersOrdered o) :
    ∃ l, s.fm.curLevel o = some l ∧ l1 ≤ l := by
  apply runOps_level_le INVALID srv o ops s s1 l1 hrun hafter
  by_cases hex : ∃ db, AdjOp.removeOnionLayer o db ∈ ops
  · exact Or.inl (hbare hex)
  · right
    intro db hmem
    exact hex ⟨db, hmem⟩

/-- C2. When `adjustOnion` returns normally the onion is at `tolevel`; the stack that
remains is a prefix of the stack before the call, the layers `removed` (outermost first)
being gone; no other onion is touched; and the effects of the call are, for each removed
layer in turn, `USE cur_db`, the one decrypting `UPDATE` built from that layer, and then
the pop of that layer from the metadata. -/
theorem C2_adjustOnion_postcondition (INVALID : SECLEVEL) (srv : Server) (cur_db : String)
    (o : onion) (tolevel : SECLEVEL) (s s1 : AdjState)
    (hret : adjustOnion INVALID srv cur_db o tolevel s = (.ok (), s1)) :
    s1.fm.curLevel o = some tolevel ∧
    ∃ removed : List EncLayer,
      s.fm.layersOf o = s1.fm.layersOf o ++ removed.reverse ∧
      (∀ o', o' ≠ o → s1.fm.layersOf o' = s.fm.layersOf o') ∧
      s1.trace = s.trace ++ removed.flatMap (fun l =>
        [Event.execute (.useDb cur_db),
         Event.execute
           (.decryptColumn s.fm.anonTableName (s.fm.onionName o) l s.fm.salt_name),
         Event.popLayer o l]) := by
  obtain ⟨removed, before, -, -, ha, hlay, -, hfr, htr⟩ :=
    adjustOnion_ok INVALID srv cur_db o tolevel s s1 hret
  exact ⟨ha, removed, hlay, hfr, htr⟩

/-- C3. Calling `adjustOnion` with a target strictly above the onion's current level
fails at an assertion, with no layer removed and no statement issued; and when the
rewrite loop receives such a request from `rewrite_helper`, the failure leaves
`Rewriter::rewrite`: there is no further call of `rewrite_helper`, the schema is
unchanged and the trace only gains the record of the call of `adjustOnion`. -/
theorem C3_adjust_above_current_fatal (INVALID : SECLEVEL) (srv : Server) (cur_db : String)
    (o : onion) (tolevel : SECLEVEL) (fm : FieldMeta) (l : SECLEVEL)
    (hcur : fm.curLevel o = some l) (habove : l < tolevel) :
    (∀ tr, ∃ what, adjustOnion INVALID srv cur_db o tolevel { fm := fm, trace := tr } =
      (.error (.assertion what), { fm := fm, trace := tr })) ∧
    (∀ (helper : Helper) (k : Nat) (w w1 : ProxyWorld) (i : Nat),
      helper { w with trace := w.trace ++ [.rewriteHelper] } =
        (.adjust { o := o, fm := i, tolevel := tolevel }, w1) →
      w1.fields.get? i = some fm →
      ∃ what, rewriteLoop INVALID srv helper cur_db (k + 1) w =
        some (.error (.assertion what),
          { fields := w1.fields,
            trace := w1.trace ++ [.adjustCall { o := o, fm := i, tolevel := tolevel }] })) := by
  refine ⟨fun tr => adjustOnion_above INVALID srv cur_db o tolevel _ l hcur habove, ?_⟩
  intro helper k w w1 i hsig hfm
  obtain ⟨what, hw⟩ := adjustOnion_above INVALID srv cur_db o tolevel
    { fm := fm, trace := w1.trace ++ [.adjustCall { o := o, fm := i, tolevel := tolevel }] }
    l hcur habove
  refine ⟨what, ?_⟩
  simp only [rewriteLoop, hsig, hfm, hw, list_set_of_get? _ _ _ hfm]

/-- C1 at a concrete field: `adjustOnion` to level 2, `setOnionLevel` to level 1 and a
direct `removeOnionLayer` on another onion take `oDET` from level 3 to level 1. -/
theorem C1_level_non_increasing_witness :
    (runOps 0 acceptAll
        [.adjustOnion .oDET 2 "db", .setOnionLevel .oDET 1, .removeOnionLayer .oOPE "db"]
        { fm := sampleField, trace := [] }).2.fm.curLevel .oDET = some 1 ∧
    ∃ l, sampleField.curLevel .oDET = some l ∧ 1 ≤ l :=
  ⟨by decide,
   C1_level_non_increasing 0 acceptAll .oDET
    [.adjustOnion .oDET 2 "db", .setOnionLevel .oDET 1, .removeOnionLayer .oOPE "db"]
    { fm := sampleField, trace := [] }
    (runOps 0 acceptAll
        [.adjustOnion .oDET 2 "db", .setOnionLevel .oDET 1, .removeOnionLayer .oOPE "db"]
        { fm := sampleField, trace := [] }).2
    1 rfl (by decide) (by
      rintro ⟨db, h⟩
      simp at h)⟩

/-- C2 at a concrete field: adjusting `oDET` from level 3 to level 1 removes two layers. -/
theorem C2_adjustOnion_postcondition_witness :
    adjustOnion 0 acceptAll "db" .oDET 1 { fm := sampleField, trace := [] } =
      (.ok (),
        { fm := { sampleField with onions :=
              [(onion.oDET, { layers := [⟨1, 11⟩], onionname := "f_oDET" }),
               (onion.oOPE, { layers := [⟨4, 21⟩, ⟨5, 22⟩], onionname := "f_oOPE" })] },
          trace :=
            [.execute (.useDb "db"),
             .execute (.decryptColumn "table_a" "f_oDET" ⟨3, 13⟩ "cdb_salt"),
             .popLayer .oDET ⟨3, 13⟩,
             .execute (.useDb "db"),
             .execute (.decryptColumn "table_a" "f_oDET" ⟨2, 12⟩ "cdb_salt"),
             .popLayer .oDET ⟨2, 12⟩] }) ∧
    FieldMeta.curLevel { sampleField with onions :=
        [(onion.oDET, { layers := [⟨1, 11⟩], onionname := "f_oDET" }),
         (onion.oOPE, { layers := [⟨4, 21⟩, ⟨5, 22⟩], onionname := "f_oOPE" })] } .oDET =
      some 1 :=
  ⟨rfl,
   (C2_adjustOnion_postcondition 0 acceptAll "db" .oDET 1
      { fm := sampleField, trace := [] }
      (adjustOnion 0 acceptAll "db" .oDET 1 { fm := sampleField, trace := [] }).2 rfl).1⟩

/-- C3 at a concrete field: asking for level 4 on an onion at level 3. -/
theorem C3_adjust_above_current_fatal_witness :
    sampleField.curLevel .oDET = some 3 ∧
    ∀ tr, ∃ what, adjustOnion 0 acceptAll "db" .oDET 4 { fm := sampleField, trace := tr } =
      (.error (.assertion what), { fm := sampleField, trace := tr }) :=
  ⟨by decide,
   (C3_adjust_above_current_fatal 0 acceptAll "db" .oDET 4 sampleField 3 (by decide)
      (by decide)).1⟩

/-! ## Termination of adjustment and of the rewrite loop -/

theorem sum_mapReplace (o : onion) (om om1 : OnionMeta) :
    ∀ (m : List (onion × OnionMeta)), mapFind o m = some om →
      ((mapReplace o om1 m).map fun p => p.2.layers.length).sum + om.layers.length =
        (m.map fun p => p.2.layers.length).sum + om1.layers.length := by
  intro m
  induction m with
  | nil => intro h; simp [mapFind] at h
  | cons p rest ih =>
    intro h
    obtain ⟨k, v⟩ := p
    by_cases hk : k = o
    · simp only [mapFind, hk, if_true, Option.some.injEq] at h
      subst h
      simp only [mapReplace, hk, if_true, List.map_cons, List.sum_cons]
      omega
    · simp only [mapFind, hk, if_false] at h
      have := ih h
      simp only [mapReplace, hk, if_false, List.map_cons, List.sum_cons]
      omega

/-- A successful `removeOnionLayer` leaves the field with one layer less. -/
theorem removeOnionLayer_layerCount (srv : Server) (cur_db : String) (o : onion)
    (s s1 : AdjState) (l : SECLEVEL) (h : removeOnionLayer srv cur_db o s = (.ok l, s1)) :
    s1.fm.layerCount + 1 = s.fm.layerCount := by
  unfold removeOnionLayer at h
  split at h
  · simp at h
  · rename_i om hom
    split at h
    · simp at h
    · rename_i top htop
      simp only at h
      split at h
      · simp at h
      · split at h
        · simp at h
        · split at h
          · simp at h
          · simp only [Prod.mk.injEq, Except.ok.injEq] at h
            obtain ⟨-, hs⟩ := h
            subst hs
            have hsum := sum_mapReplace o om { om with layers := om.layers.dropLast }
              s.fm.onions hom
            have hlen : om.layers.length = om.layers.dropLast.length + 1 := by
              have := List.dropLast_append_getLast? top (by simpa using htop)
              conv_lhs => rw [← this]
              simp
            simp only [FieldMeta.layerCount, FieldMeta.setOnion]
            simp only at hsum
            omega

/-- A loop of `adjustOnion` that ends normally does not add layers, and removes at
least one when it starts above the target. -/
theorem adjustLoop_layerCount (srv : Server) (cur_db : String) (o : onion)
    (tolevel : SECLEVEL) :
    ∀ (k : Nat) (newlevel : SECLEVEL) (s s1 : AdjState) (l : SECLEVEL),
      adjustLoop srv cur_db o tolevel k newlevel s = (.ok l, s1) →
      s1.fm.layerCount ≤ s.fm.layerCount ∧
      (tolevel < newlevel → s1.fm.layerCount < s.fm.layerCount) := by
  intro k
  induction k with
  | zero =>
    intro newlevel s s1 l h
    unfold adjustLoop at h
    split at h
    · simp at h
    · rename_i hgt
      simp only [Prod.mk.injEq, Except.ok.injEq] at h
      obtain ⟨-, h2⟩ := h
      subst h2
      exact ⟨le_rfl, fun hc => absurd hc hgt⟩
  | succ k ih =>
    intro newlevel s s1 l h
    unfold adjustLoop at h
    split at h
    · split at h
      · rename_i l0 s0 hrem
        have h1 := removeOnionLayer_layerCount srv cur_db o s s0 l0 hrem
        have h2 := (ih l0 s0 s1 l h).1
        exact ⟨by omega, fun _ => by omega⟩
      · simp at h
    · rename_i hgt
      simp only [Prod.mk.injEq, Except.ok.injEq] at h
      obtain ⟨-, h2⟩ := h
      subst h2
      exact ⟨le_rfl, fun hc => absurd hc hgt⟩

/-- An `adjustOnion` that returns normally for a target strictly below the current
level leaves the field with strictly fewer layers. -/
theorem adjustOnion_layerCount (INVALID : SECLEVEL) (srv : Server) (cur_db : String)
    (o : onion) (tolevel : SECLEVEL) (s s1 : AdjState) (l : SECLEVEL)
    (h : adjustOnion INVALID srv cur_db o tolevel s = (.ok (), s1))
    (hcur : s.fm.curLevel o = some l) (hlt : tolevel < l) :
    s1.fm.layerCount < s.fm.layerCount := by
  unfold adjustOnion at h
  split at h
  · simp at h
  · rename_i newlevel hget
    split at h
    · simp at h
    · rename_i hinv
      have hc := getOnionLevel_curLevel INVALID s.fm o newlevel hget hinv
      rw [hcur] at hc
      simp only [Option.some.injEq] at hc
      subst hc
      split at h
      · simp at h
      · rename_i l0 s0 hloop
        split at h
        · simp only [Prod.mk.injEq, true_and] at h
          subst h
          exact (adjustLoop_layerCount srv cur_db o tolevel _ l s s0 l0 hloop).2 hlt
        · simp at h

theorem totalLayers_set : ∀ (fields : List FieldMeta) (i : Nat) (fm fm1 : FieldMeta),
    fields.get? i = some fm →
    totalLayers (fields.set i fm1) + fm.layerCount = totalLayers fields + fm1.layerCount := by
  intro fields
  induction fields with
  | nil => intro i fm fm1 h; simp at h
  | cons x xs ih =>
    intro i fm fm1 h
    cases i with
    | zero =>
      simp only [List.get?_cons_zero, Option.some.injEq] at h
      subst h
      simp only [totalLayers, List.set_cons_zero, List.map_cons, List.sum_cons]
      omega
    | succ i =>
      simp only [List.get?_cons_succ] at h
      have := ih i fm fm1 h
      simp only [totalLayers, List.set_cons_succ, List.map_cons, List.sum_cons] at this ⊢
      omega

/-- The loop of `adjustOnion` never needs more iterations than the onion has layers. -/
theorem adjustLoop_no_fuel (srv : Server) (cur_db : String) (o : onion) (tolevel : SECLEVEL) :
    ∀ (k : Nat) (newlevel : SECLEVEL) (s : AdjState),
      s.fm.layersOf o ≠ [] → (s.fm.layersOf o).length ≤ k →
      (adjustLoop srv cur_db o tolevel k newlevel s).1 ≠ .error .fuel := by
  intro k
  induction k with
  | zero =>
    intro newlevel s hne hlen
    exact absurd (List.length_eq_zero.mp (Nat.le_zero.mp hlen)) hne
  | succ k ih =>
    intro newlevel s hne hlen
    unfold adjustLoop
    split
    · split
      · rename_i l0 s0 hrem
        obtain ⟨top, hlay, hcur, -⟩ := removeOnionLayer_ok srv cur_db o s s0 l0 hrem
        apply ih
        · intro hnil
          simp [FieldMeta.curLevel, hnil] at hcur
        · rw [hlay] at hlen
          simp only [List.length_append, List.length_singleton] at hlen
          omega
      · rename_i f s0 hrem
        intro hf
        simp only at hf
        have hf' : f = Fault.fuel := by
          injection hf
        subst hf'
        unfold removeOnionLayer at hrem
        split at hrem
        · simp at hrem
        · split at hrem
          · simp at hrem
          · simp only at hrem
            split at hrem
            · simp at hrem
            · split at hrem
              · simp at hrem
              · split at hrem
                · simp at hrem
                · simp at hrem
    · simp

/-- Iterations granted beyond those a loop of `adjustOnion` uses change nothing. -/
theorem adjustLoop_more_fuel (srv : Server) (cur_db : String) (o : onion)
    (tolevel : SECLEVEL) :
    ∀ (k j : Nat) (newlevel : SECLEVEL) (s : AdjState),
      (adjustLoop srv cur_db o tolevel k newlevel s).1 ≠ .error .fuel →
      adjustLoop srv cur_db o tolevel (k + j) newlevel s =
        adjustLoop srv cur_db o tolevel k newlevel s := by
  intro k
  induction k with
  | zero =>
    intro j newlevel s h
    unfold adjustLoop at h
    by_cases hgt : newlevel > tolevel
    · simp [hgt] at h
    · cases j <;> simp [adjustLoop, hgt]
  | succ k ih =>
    intro j newlevel s h
    have e : k + 1 + j = (k + j) + 1 := by omega
    rw [e]
    unfold adjustLoop at h ⊢
    by_cases hgt : newlevel > tolevel
    · simp only [hgt, if_true] at h ⊢
      split
      · rename_i l0 s0 hrem
        simp only [hrem] at h
        exact ih j l0 s0 h
      · rfl
    · simp [hgt]

/-- `adjustOnion` never reaches the bound on the iterations of its loop. -/
theorem adjustOnion_no_fuel (INVALID : SECLEVEL) (srv : Server) (cur_db : String) (o : onion)
    (tolevel : SECLEVEL) (s : AdjState) :
    (adjustOnion INVALID srv cur_db o tolevel s).1 ≠ .error .fuel := by
  unfold adjustOnion
  split
  · rename_i f hget
    intro hf
    simp only at hf
    have hf' : f = Fault.fuel := by
      injection hf
    subst hf'
    unfold FieldMeta.getOnionLevel at hget
    split at hget
    · simp at hget
    · unfold OnionMeta.getSecLevel at hget
      split at hget
      · simp at hget
      · simp at hget
  · rename_i newlevel hget
    split
    · simp
    · rename_i hinv
      have hcur := getOnionLevel_curLevel INVALID s.fm o newlevel hget hinv
      have hne : s.fm.layersOf o ≠ [] := by
        intro hnil
        simp [FieldMeta.curLevel, hnil] at hcur
      have hnf := adjustLoop_no_fuel srv cur_db o tolevel _ newlevel s hne le_rfl
      split
      · rename_i f s1 hloop
        rw [hloop] at hnf
        intro hf
        apply hnf
        simp only at hf ⊢
        have hf' : f = Fault.fuel := by
          injection hf
        rw [hf']
      · split <;> simp

/-- With requests that ask for a level strictly below the current one, and a
`rewrite_helper` that adds no layer when it raises a request, the rewrite loop ends
within as many iterations as there are layers, plus one. -/
theorem rewriteLoop_terminates (INVALID : SECLEVEL) (srv : Server) (helper : Helper)
    (cur_db : String)
    (hTrigger : ∀ w e w1, helper w = (.adjust e, w1) →
      ∃ fm l, w1.fields.get? e.fm = some fm ∧ fm.curLevel e.o = some l ∧ e.tolevel < l)
    (hKeep : ∀ w e w1, helper w = (.adjust e, w1) →
      totalLayers w1.fields ≤ totalLayers w.fields) :
    ∀ (k : Nat) (w : ProxyWorld), totalLayers w.fields < k →
      (rewriteLoop INVALID srv helper cur_db k w).isSome ∧
      ∀ j, rewriteLoop INVALID srv helper cur_db (k + j) w =
        rewriteLoop INVALID srv helper cur_db k w := by
  intro k
  induction k with
  | zero => intro w h; omega
  | succ k ih =>
    intro w hlt
    have key : ∀ j, (rewriteLoop INVALID srv helper cur_db (k + j + 1) w).isSome ∧
        rewriteLoop INVALID srv helper cur_db (k + j + 1) w =
          rewriteLoop INVALID srv helper cur_db (k + 1) w := by
      intro j
      unfold rewriteLoop
      split
      · simp
      · simp
      · rename_i e w1 hh
        obtain ⟨fm, l, hfm, hcur, hl⟩ := hTrigger _ e w1 hh
        have hk := hKeep _ e w1 hh
        simp only [hfm]
        split
        · simp
        · rename_i u s hadj
          cases u
          have hdec := adjustOnion_layerCount INVALID srv cur_db e.o e.tolevel _ s l hadj
            hcur hl
          have hset := totalLayers_set w1.fields e.fm fm s.fm hfm
          simp only at hdec hk
          have hlt' : totalLayers (w1.fields.set e.fm s.fm) < k := by omega
          have := ih { fields := w1.fields.set e.fm s.fm, trace := s.trace } hlt'
          exact ⟨by rw [this.2 j]; exact this.1, this.2 j⟩
    refine ⟨by simpa using (key 0).1, fun j => ?_⟩
    have e : k + 1 + j = k + j + 1 := by omega
    rw [e]
    exact (key j).2

/-- A rewrite that succeeds returns `wasRew = true` with the queries and the metadata of
a call of `rewrite_helper` that succeeded, and the state that call left. -/
theorem rewriteLoop_ok_inv (INVALID : SECLEVEL) (srv : Server) (helper : Helper)
    (cur_db : String) :
    ∀ (k : Nat) (w w1 : ProxyWorld) (qr : QueryRewrite),
      rewriteLoop INVALID srv helper cur_db k w = some (.ok qr, w1) →
      qr.wasRew = true ∧ ∃ w0, helper w0 = (.queries qr.queries qr.rmeta, w1) := by
  intro k
  induction k with
  | zero => intro w w1 qr h; simp [rewriteLoop] at h
  | succ k ih =>
    intro w w1 qr h
    unfold rewriteLoop at h
    split at h
    · rename_i qs rmeta w2 hh
      simp only [Option.some.injEq, Prod.mk.injEq, Except.ok.injEq] at h
      obtain ⟨h1, h2⟩ := h
      subst h1 h2
      exact ⟨rfl, _, hh⟩
    · simp at h
    · simp only at h
      split at h
      · simp at h
      · split at h
        · simp at h
        · exact ih _ _ _ h

/-- An `adjustOnion` that returns has not added a layer; it has removed one exactly when
the target is strictly below the level the onion had, and has changed nothing when the
target is that level. -/
theorem adjustOnion_layerCount_le (INVALID : SECLEVEL) (srv : Server) (cur_db : String)
    (o : onion) (tolevel : SECLEVEL) (s s1 : AdjState)
    (h : adjustOnion INVALID srv cur_db o tolevel s = (.ok (), s1)) :
    ∃ l, s.fm.curLevel o = some l ∧ tolevel ≤ l ∧
      s1.fm.layerCount ≤ s.fm.layerCount ∧
      (tolevel < l → s1.fm.layerCount < s.fm.layerCount) ∧
      (tolevel = l → s1 = s) := by
  have h0 := h
  unfold adjustOnion at h
  split at h
  · simp at h
  · rename_i newlevel hget
    split at h
    · simp at h
    · rename_i hinv
      have hc := getOnionLevel_curLevel INVALID s.fm o newlevel hget hinv
      obtain ⟨removed, before, hbefore, hle, -⟩ := adjustOnion_ok INVALID srv cur_db o tolevel s s1 h0
      rw [hc] at hbefore
      simp only [Option.some.injEq] at hbefore
      subst hbefore
      split at h
      · simp at h
      · rename_i l0 s0 hloop
        split at h
        · simp only [Prod.mk.injEq, true_and] at h
          subst h
          have hcount := adjustLoop_layerCount srv cur_db o tolevel _ newlevel s s0 l0 hloop
          refine ⟨newlevel, hc, hle, hcount.1, hcount.2, ?_⟩
          intro heq
          have hng : ¬ newlevel > tolevel := by rw [heq]; exact Nat.lt_irrefl _
          have hstop : ∀ k, adjustLoop srv cur_db o tolevel k newlevel s = (.ok newlevel, s) := by
            intro k
            cases k <;> simp [adjustLoop, hng]
          rw [hstop] at hloop
          simp only [Prod.mk.injEq] at hloop
          exact hloop.2.symm
        · simp at h

/-- On the sample field, whose `oDET` onion is at level 3, `adjustOnion` to the level 3
returns and changes nothing. -/
theorem adjustOnion_sample_same (tr : List Event) :
    adjustOnion 0 acceptAll "db" .oDET 3 { fm := sampleField, trace := tr } =
      (.ok (), { fm := sampleField, trace := tr }) := by
  have hstop : ∀ k, adjustLoop acceptAll "db" .oDET 3 k 3 { fm := sampleField, trace := tr } =
      (.ok 3, { fm := sampleField, trace := tr }) := by
    intro k
    cases k <;> simp [adjustLoop]
  have hget : sampleField.getOnionLevel 0 .oDET = .ok 3 := rfl
  simp only [adjustOnion, hget, hstop]
  rfl

/-- With a `rewrite_helper` that keeps asking for the level the onion already has, the
loop of `Rewriter::rewrite` reaches every bound on its iterations. -/
theorem stuck_loop : ∀ (k : Nat) (tr : List Event),
    rewriteLoop 0 acceptAll stuckHelper "db" k { fields := [sampleField], trace := tr } =
      none := by
  intro k
  induction k with
  | zero => intro tr; rfl
  | succ k ih =>
    intro tr
    have hget : ([sampleField] : List FieldMeta).get? 0 = some sampleField := rfl
    simp only [rewriteLoop, stuckHelper, hget, adjustOnion_sample_same, List.set_cons_zero]
    exact ih _

/-! ## Claims on the rewrite loop -/

/-- C4 fails for a request whose target is the level the onion already has: on the sample
field, whose `oDET` onion is at level 3, `adjustOnion` to the level 3 returns without
removing a layer, so the number of layers is not decreased; and with a `rewrite_helper`
that raises this request at every call, the loop of `Rewriter::rewrite` does not end
within any number of iterations. -/
theorem C4_counterexample :
    adjustOnion 0 acceptAll "db" .oDET 3 { fm := sampleField, trace := [] } =
      (.ok (), { fm := sampleField, trace := [] }) ∧
    totalLayers (([sampleField] : List FieldMeta).set 0 sampleField) =
      totalLayers [sampleField] ∧
    ∀ k, rewriteLoop 0 acceptAll stuckHelper "db" k
      { fields := [sampleField], trace := [] } = none :=
  ⟨adjustOnion_sample_same [], rfl, fun k => stuck_loop k []⟩

/-- C4, amended. For an onion with `n` layers the loop of `adjustOnion` ends within `n`
iterations whatever the target (the bound `n` that `adjustOnion` gives its loop is never
reached, and iterations granted beyond `n` change nothing). In `Rewriter::rewrite`, a
request that is applied (its `adjustOnion` returns) has a target at or below the level
of the onion and never increases the number of layers held across all onions; it
strictly decreases that number exactly when its target is strictly below the level of
the onion, and changes nothing when its target is that level. Hence, when
`rewrite_helper` only raises requests with a target strictly below the level of the
onion and adds no layer when it raises one, the loop ends, with success or a fatal
failure, within the number of layers plus one iterations. -/
theorem C4_adjustment_terminates (INVALID : SECLEVEL) (srv : Server) (helper : Helper)
    (cur_db : String) :
    (∀ (o : onion) (tolevel : SECLEVEL) (s : AdjState),
      (adjustOnion INVALID srv cur_db o tolevel s).1 ≠ .error .fuel) ∧
    (∀ (o : onion) (tolevel newlevel : SECLEVEL) (s : AdjState) (j : Nat),
      s.fm.layersOf o ≠ [] →
      (adjustLoop srv cur_db o tolevel (s.fm.layersOf o).length newlevel s).1 ≠ .error .fuel ∧
      adjustLoop srv cur_db o tolevel ((s.fm.layersOf o).length + j) newlevel s =
        adjustLoop srv cur_db o tolevel (s.fm.layersOf o).length newlevel s) ∧
    (∀ (fields : List FieldMeta) (e : OnionAdjustExcept) (fm : FieldMeta) (tr : List Event)
        (s1 : AdjState),
      fields.get? e.fm = some fm →
      adjustOnion INVALID srv cur_db e.o e.tolevel { fm := fm, trace := tr } = (.ok (), s1) →
      ∃ l, fm.curLevel e.o = some l ∧ e.tolevel ≤ l ∧
        totalLayers (fields.set e.fm s1.fm) ≤ totalLayers fields ∧
        (totalLayers (fields.set e.fm s1.fm) < totalLayers fields ↔ e.tolevel < l) ∧
        (e.tolevel = l → fields.set e.fm s1.fm = fields ∧ s1.trace = tr)) ∧
    ((∀ w e w1, helper w = (.adjust e, w1) →
        ∃ fm l, w1.fields.get? e.fm = some fm ∧ fm.curLevel e.o = some l ∧ e.tolevel < l) →
      (∀ w e w1, helper w = (.adjust e, w1) →
        totalLayers w1.fields ≤ totalLayers w.fields) →
      ∀ (w : ProxyWorld),
        (rewriteLoop INVALID srv helper cur_db (totalLayers w.fields + 1) w).isSome ∧
        ∀ j, rewriteLoop INVALID srv helper cur_db (totalLayers w.fields + 1 + j) w =
          rewriteLoop INVALID srv helper cur_db (totalLayers w.fields + 1) w) := by
  refine ⟨fun o tolevel s => adjustOnion_no_fuel INVALID srv cur_db o tolevel s, ?_, ?_, ?_⟩
  · intro o tolevel newlevel s j hne
    have h := adjustLoop_no_fuel srv cur_db o tolevel _ newlevel s hne le_rfl
    exact ⟨h, adjustLoop_more_fuel srv cur_db o tolevel _ j newlevel s h⟩
  · intro fields e fm tr s1 hfm hadj
    obtain ⟨l, hcur, hle, hcount, hlt, hsame⟩ :=
      adjustOnion_layerCount_le INVALID srv cur_db e.o e.tolevel _ s1 hadj
    have hset := totalLayers_set fields e.fm fm s1.fm hfm
    simp only at hcur hcount hlt hsame
    refine ⟨l, hcur, hle, by omega, ⟨?_, fun h => by have := hlt h; omega⟩, ?_⟩
    · intro hdec
      rcases Nat.lt_or_ge e.tolevel l with h | h
      · exact h
      · have heq : e.tolevel = l := Nat.le_antisymm hle h
        have hs := hsame heq
        subst hs
        rw [list_set_of_get? fields e.fm fm hfm] at hdec
        exact absurd hdec (Nat.lt_irrefl _)
    · intro heq
      have hs := hsame heq
      subst hs
      exact ⟨list_set_of_get? fields e.fm fm hfm, rfl⟩
  · intro hTrigger hKeep w
    exact rewriteLoop_terminates INVALID srv helper cur_db hTrigger hKeep _ w
      (Nat.lt_succ_self _)

theorem sampleHelper_adjust (w w1 : ProxyWorld) (e : OnionAdjustExcept)
    (h : sampleHelper w = (.adjust e, w1)) :
    w1 = w ∧ e = { o := .oDET, fm := 0, tolevel := 2 } ∧
      ∃ fm, w.fields = [fm] ∧ fm.curLevel .oDET = some 3 := by
  unfold sampleHelper at h
  split at h
  · rename_i fm hf
    split at h
    · rename_i hc
      simp only [Prod.mk.injEq, HelperOutcome.adjust.injEq] at h
      exact ⟨h.2.symm, h.1.symm, fm, hf, hc⟩
    · simp at h
  · simp at h

/-- C4, amended, for a statement that needs one adjustment to a level strictly below the
current one: the loop is over after the retry. -/
theorem C4_adjustment_terminates_witness :
    rewriteLoop 0 acceptAll sampleHelper "db" (totalLayers [sampleField] + 1)
        { fields := [sampleField], trace := [] } =
      rewriteLoop 0 acceptAll sampleHelper "db" 2 { fields := [sampleField], trace := [] } ∧
    (rewriteLoop 0 acceptAll sampleHelper "db" (totalLayers [sampleField] + 1)
        { fields := [sampleField], trace := [] }).isSome :=
  ⟨rfl,
   ((C4_adjustment_terminates 0 acceptAll sampleHelper "db").2.2.2
      (fun w e w1 h => by
        obtain ⟨h1, h2, fm, hf, hc⟩ := sampleHelper_adjust w w1 e h
        subst h1 h2
        exact ⟨fm, 3, by simp [hf], hc, by decide⟩)
      (fun w e w1 h => by
        obtain ⟨h1, -⟩ := sampleHelper_adjust w w1 e h
        subst h1
        exact le_rfl) { fields := [sampleField], trace := [] }).1⟩

/-- C5. In `Rewriter::rewrite`, a call of `rewrite_helper` that fails with anything but
the adjustment signal ends `rewrite` with that failure and the state the call left: no
retry, no call of `adjustOnion`. A call that succeeds ends the loop at once with
`wasRew = true` and the queries of that call. Hence another attempt only follows the
adjustment signal; and whenever `rewrite` succeeds through the loop, its result is that
of a successful call of `rewrite_helper`. -/
theorem C5_only_adjustment_retries (INVALID : SECLEVEL) (srv : Server) (helper : Helper)
    (cur_db : String) (k : Nat) (w w1 : ProxyWorld) :
    (∀ f, helper { w with trace := w.trace ++ [.rewriteHelper] } = (.failure f, w1) →
      rewriteLoop INVALID srv helper cur_db (k + 1) w = some (.error f, w1)) ∧
    (∀ qs rmeta, helper { w with trace := w.trace ++ [.rewriteHelper] } =
        (.queries qs rmeta, w1) →
      rewriteLoop INVALID srv helper cur_db (k + 1) w =
        some (.ok { wasRew := true, queries := qs, rmeta := rmeta }, w1)) ∧
    (∀ e fm s, helper { w with trace := w.trace ++ [.rewriteHelper] } = (.adjust e, w1) →
      w1.fields.get? e.fm = some fm →
      adjustOnion INVALID srv cur_db e.o e.tolevel
        { fm := fm, trace := w1.trace ++ [.adjustCall e] } = (.ok (), s) →
      rewriteLoop INVALID srv helper cur_db (k + 1) w =
        rewriteLoop INVALID srv helper cur_db k
          { fields := w1.fields.set e.fm s.fm, trace := s.trace }) ∧
    (∀ qr, rewriteLoop INVALID srv helper cur_db k w = some (.ok qr, w1) →
      qr.wasRew = true ∧ ∃ w0, helper w0 = (.queries qr.queries qr.rmeta, w1)) ∧
    (∀ cmd q, noRewrite cmd = false →
      Rewriter.rewrite INVALID srv helper true true cmd q cur_db k w =
        rewriteLoop INVALID srv helper cur_db k w) := by
  refine ⟨?_, ?_, ?_, ?_, ?_⟩
  · intro f h
    simp only [rewriteLoop, h]
  · intro qs rmeta h
    simp only [rewriteLoop, h]
  · intro e fm s h hfm hadj
    simp only [rewriteLoop, h, hfm, hadj]
  · intro qr h
    exact rewriteLoop_ok_inv INVALID srv helper cur_db k w w1 qr h
  · intro cmd q hno
    simp [Rewriter.rewrite, hno]

/-- C5 at a statement on an unknown table: the failure of `rewrite_helper` is the result
of the rewrite, after one call. -/
theorem C5_only_adjustment_retries_witness :
    rewriteLoop 0 acceptAll sampleHelper "db" 5 { fields := [], trace := [] } =
      some (.error (.thrown "unknown table"), { fields := [], trace := [.rewriteHelper] }) :=
  (C5_only_adjustment_retries 0 acceptAll sampleHelper "db" 4 { fields := [], trace := [] }
    { fields := [], trace := [.rewriteHelper] }).1 (.thrown "unknown table") rfl

/-! ## Claims on the SQL handlers -/

theorem invalidatesLoop_iff (es : EncSet) : ∀ (onions : List (onion × OnionMeta)),
    invalidatesLoop es onions = true ↔ ∃ p ∈ onions, mapFind p.1 es.osl = none := by
  intro onions
  induction onions with
  | nil => simp [invalidatesLoop]
  | cons o_l rest ih =>
    unfold invalidatesLoop
    by_cases h : (mapFind o_l.1 es.osl).isNone = true
    · simp only [h, if_true, true_iff]
      exact ⟨o_l, by simp, by simpa using h⟩
    · rw [if_neg h, ih]
      have h' : ¬ mapFind o_l.1 es.osl = none := by simpa using h
      constructor
      · rintro ⟨p, hp, hnone⟩
        exact ⟨p, List.mem_cons_of_mem _ hp, hnone⟩
      · rintro ⟨p, hp, hnone⟩
        rcases List.mem_cons.mp hp with heq | hp'
        · rw [heq] at hnone
          exact absurd hnone h'
        · exact ⟨p, hp', hnone⟩

theorem rewriteOnions_invalids (env : UpdateEnv) (i val : Item) (fm : FieldMeta) :
    ∀ (osl : List (onion × LevelFieldPair)) (st st1 : UpdateState) (r r1 : Option Item),
      rewriteOnions env i val fm osl st r = .ok (st1, r1) → st1.invalids = st.invalids := by
  intro osl
  induction osl with
  | nil =>
    intro st st1 r r1 h
    simp only [rewriteOnions, Except.ok.injEq, Prod.mk.injEq] at h
    rw [← h.1]
  | cons pair rest ih =>
    intro st st1 r r1 h
    unfold rewriteOnions at h
    simp only at h
    split at h
    · simp at h
    · split at h
      · simp at h
      · split at h
        · simp at h
        · split at h
          · simp at h
          · have := ih _ _ _ _ h
            simpa using this

/-- The flag `invalids` after the loop over the `SET` pairs: set before, or raised by
one of the assigned encrypted fields. -/
theorem setLoop_invalids (env : UpdateEnv) :
    ∀ (fds vals : List Item) (st st1 : UpdateState),
      setLoop env fds vals st = .ok st1 →
      st1.invalids =
        (st.invalids || (assignedEncrypted env fds vals).any fun p => invalidates p.1 p.2) := by
  intro fds
  induction fds with
  | nil =>
    intro vals st st1 h
    unfold setLoop at h
    split at h
    · simp only [Except.ok.injEq] at h
      subst h
      simp [assignedEncrypted]
    · simp at h
  | cons i fds ih =>
    intro vals st st1 h
    unfold setLoop at h
    split at h
    · rename_i table name
      split at h
      · simp at h
      · rename_i fm hfm
        split at h
        · simp at h
        · rename_i val vals1
          split at h
          · rename_i henc
            have := ih _ _ _ h
            simp only [this, assignedEncrypted, hfm]
            cases env.es_out val <;> simp [henc]
          · rename_i henc
            have henc' : fm.isEncrypted = true := by simpa using henc
            split at h
            · simp at h
            · rename_i es hes
              simp only at h
              split at h
              · simp at h
              · split at h
                · simp at h
                · rename_i st2 rew_fd hrw
                  have hinv := rewriteOnions_invalids env _ _ _ _ _ _ _ _ hrw
                  have hst : st2.invalids = st.invalids := by
                    rw [hinv]
                    split <;> rfl
                  split at h
                  · split at h
                    · simp at h
                    · have := ih _ _ _ h
                      simp only [this, assignedEncrypted, hfm, hes, henc', if_true,
                        List.any_cons, hst, Bool.or_assoc]
                  · have := ih _ _ _ h
                    simp only [this, assignedEncrypted, hfm, hes, henc', if_true,
                      List.any_cons, hst, Bool.or_assoc]
    · simp at h

/-- The shape of a refresh that returns. -/
theorem refresh_ok (renv : RefreshEnv) (lex : UpdateLex) (new_lex : NewLex)
    (r : RefreshResult) (h : rewrite_update_lex_refresh_onions renv lex new_lex = .ok r) :
    ∃ t rows, lex.tables.head? = some t ∧
      renv.executeQuery (renv.whereClause new_lex) = some rows ∧
      (rows = [] → r = { lexes := [.update new_lex], scratch := renv.scratch }) ∧
      (rows ≠ [] → ∃ d i,
        r = { lexes := [.begin_transaction, d, i, .commit_transaction], scratch := [] } ∧
        renv.rewriteLex (.deleteWhere t (renv.whereClause new_lex)) = some [d] ∧
        renv.rewriteLex (.insertValues t (renv.runOriginal (renv.scratch ++ rows))) =
          some [i]) := by
  unfold rewrite_update_lex_refresh_onions at h
  split at h
  · simp at h
  · rename_i t ht
    simp only at h
    split at h
    · simp at h
    · rename_i rows hrows
      refine ⟨t, rows, ht, hrows, ?_, ?_⟩
      · intro hnil
        subst hnil
        simp only [List.length_nil, if_true, Except.ok.injEq] at h
        exact h.symm
      · intro hne
        have hlen : ¬ rows.length = 0 := fun e => hne (List.length_eq_zero.mp e)
        simp only [hlen, if_false] at h
        split at h
        · simp at h
        · split at h
          · simp at h
          · split at h
            · simp at h
            · split at h
              · simp at h
              · split at h
                · rename_i i hi
                  split at h
                  · rename_i d hd
                    simp only [Except.ok.injEq] at h
                    exact ⟨d, i, h.symm, hd, hi⟩
                  · simp at h
                · simp at h

/-- The shape of a `rewrite_update_lex` that returns. -/
theorem rewrite_update_lex_ok (env : UpdateEnv) (renv : RefreshEnv) (lex : UpdateLex)
    (salts : List (FieldMeta × Nat)) (r : UpdateResult)
    (h : rewrite_update_lex env renv lex salts = .ok r) :
    ∃ (new_where : Option Item) (st : UpdateState), env.filters = .ok new_where ∧
      st.invalids =
        (assignedEncrypted env lex.item_list lex.value_list).any
          (fun p => invalidates p.1 p.2) ∧
      (st.invalids = false →
        r = { lexes := [.update { items := st.res_items, vals := st.res_vals,
                                  where_ := new_where }],
              path := .inPlace }) ∧
      (st.invalids = true → ∃ rr,
        rewrite_update_lex_refresh_onions renv lex
          { items := st.res_items, vals := st.res_vals, where_ := new_where } = .ok rr ∧
        r = { lexes := rr.lexes, path := .refresh }) := by
  unfold rewrite_update_lex at h
  split at h
  · simp at h
  · split at h
    · simp at h
    · split at h
      · simp at h
      · rename_i new_where hf
        split at h
        · simp at h
        · split at h
          · simp at h
          · rename_i st hst
            have hinv := setLoop_invalids env _ _ _ _ hst
            simp only [Bool.false_or] at hinv
            refine ⟨new_where, st, hf, hinv, ?_, ?_⟩
            · intro hfalse
              simp only [hfalse, if_true, Except.ok.injEq] at h
              exact h.symm
            · intro htrue
              simp only [htrue, Bool.true_eq_false, if_false] at h
              split at h
              · simp at h
              · rename_i rr hrr
                simp only [Except.ok.injEq] at h
                exact ⟨rr, hrr, h.symm⟩

/-- C7, as amended. `invalidates(fm, es)` is true exactly when some onion of `fm` is not
a key of `es`. When `rewrite_update_lex` returns, it has taken the refresh path exactly
when some assigned encrypted field is invalidated by the set obtained by intersecting
the output set of its value with the set of the field; when no assigned encrypted field
is invalidated the single in-place `UPDATE` is returned; and on the refresh path the
single in-place `UPDATE` is returned as well exactly when the filter selects no row. -/
theorem C7_refresh_path_iff_invalidates (env : UpdateEnv) (renv : RefreshEnv)
    (lex : UpdateLex) (salts : List (FieldMeta × Nat)) (r : UpdateResult)
    (hret : rewrite_update_lex env renv lex salts = .ok r) :
    (∀ fm es, invalidates fm es = true ↔ ∃ p ∈ fm.onions, mapFind p.1 es.osl = none) ∧
    (r.path = .refresh ↔
      ∃ p ∈ assignedEncrypted env lex.item_list lex.value_list, invalidates p.1 p.2 = true) ∧
    ((∀ p ∈ assignedEncrypted env lex.item_list lex.value_list, invalidates p.1 p.2 = false) →
      r.path = .inPlace ∧ ∃ n, r.lexes = [.update n]) ∧
    (r.path = .refresh → ∀ new_where, env.filters = .ok new_where →
      ((∃ n, r.lexes = [.update n]) ↔
        renv.executeQuery
          (renv.whereClause { items := [], vals := [], where_ := new_where }) = some [])) := by
  obtain ⟨new_where, st, hf, hinv, hin, hre⟩ :=
    rewrite_update_lex_ok env renv lex salts r hret
  have hany : st.invalids = true ↔
      ∃ p ∈ assignedEncrypted env lex.item_list lex.value_list, invalidates p.1 p.2 = true := by
    rw [hinv, List.any_eq_true]
  refine ⟨fun fm es => invalidatesLoop_iff es fm.onions, ?_, ?_, ?_⟩
  · rw [← hany]
    cases hst : st.invalids with
    | false =>
      rw [hin hst]
      simp
    | true =>
      obtain ⟨rr, -, hr⟩ := hre hst
      rw [hr]
      simp
  · intro hall
    have hst : st.invalids = false := by
      cases hst : st.invalids with
      | false => rfl
      | true =>
        obtain ⟨p, hp, hpi⟩ := hany.mp hst
        rw [hall p hp] at hpi
        exact absurd hpi (by simp)
    rw [hin hst]
    exact ⟨rfl, _, rfl⟩
  · intro hpath w hw
    rw [hf] at hw
    simp only [Except.ok.injEq] at hw
    subst hw
    cases hst : st.invalids with
    | false =>
      rw [hin hst] at hpath
      simp at hpath
    | true =>
      obtain ⟨rr, hrr, hr⟩ := hre hst
      obtain ⟨t, rows, -, hrows, hnil, hcons⟩ := refresh_ok renv lex _ rr hrr
      have hw : renv.whereClause
          { items := st.res_items, vals := st.res_vals, where_ := new_where } =
          renv.whereClause { items := [], vals := [], where_ := new_where } := rfl
      rw [← hw, hrows, hr]
      by_cases hempty : rows = []
      · rw [hnil hempty]
        simp [hempty]
      · obtain ⟨d, i, hrr', -, -⟩ := hcons hempty
        rw [hrr']
        simp [hempty]

/-- C7 at an `UPDATE` that invalidates no onion: the single in-place `UPDATE` is
returned. -/
theorem C7_refresh_path_iff_invalidates_witness :
    rewrite_update_lex sampleUpdateEnv (sampleRefreshEnv [[.int 1, .int 2]])
        { sampleUpdateLex with value_list := [.int 4] } [] =
      .ok { lexes := [.update { items := [.field "t" "salary", .field "t" "salary"],
                                vals := [.int 4, .int 4], where_ := none }],
            path := .inPlace } ∧
    (UpdatePath.inPlace = UpdatePath.inPlace ∧
      ∃ n, [OutLex.update { items := [.field "t" "salary", .field "t" "salary"],
                            vals := [.int 4, .int 4], where_ := none }] = [.update n]) :=
  ⟨rfl,
   (C7_refresh_path_iff_invalidates sampleUpdateEnv (sampleRefreshEnv [[.int 1, .int 2]])
      { sampleUpdateLex with value_list := [.int 4] } []
      { lexes := [.update { items := [.field "t" "salary", .field "t" "salary"],
                            vals := [.int 4, .int 4], where_ := none }],
        path := .inPlace } rfl).2.2.1 (by decide)⟩

/-- The second half of C7 fails: this `UPDATE` assigns to an encrypted field a value
whose set lacks the `oOPE` onion of the field, so `invalidates` is true for it; no row
matches the filter, and what `rewrite_update_lex` returns is the single in-place
`UPDATE`. -/
theorem C7_counterexample :
    ¬ ((∃ n, (rewrite_update_lex sampleUpdateEnv (sampleRefreshEnv []) sampleUpdateLex []).map
          UpdateResult.lexes = .ok [.update n]) ↔
        ∀ p ∈ assignedEncrypted sampleUpdateEnv sampleUpdateLex.item_list
            sampleUpdateLex.value_list, invalidates p.1 p.2 = false) := by
  intro hiff
  have hleft : ∃ n, (rewrite_update_lex sampleUpdateEnv (sampleRefreshEnv [])
      sampleUpdateLex []).map UpdateResult.lexes = .ok [.update n] :=
    ⟨{ items := [.field "t" "salary"], vals := [.str "x"], where_ := none }, rfl⟩
  have hall := hiff.mp hleft
  have hmem : (sampleField, sampleIntersect { osl := [(.oDET, (3, none))] }
      (sampleEncSetOf sampleField)) ∈
      assignedEncrypted sampleUpdateEnv sampleUpdateLex.item_list
        sampleUpdateLex.value_list := by
    decide
  have := hall _ hmem
  revert this
  decide

/-- C8, as amended. When `rewrite_update_lex` returns for an `UPDATE` that invalidates
an onion, it read the rows that the filter selects. If there is at least one, the output
is exactly four statements in this order: transaction begin, the rewritten `DELETE` of
the filtered rows, the rewritten `INSERT` of the rows recomputed in the scratch store,
transaction commit. If there is none, the output is the single in-place `UPDATE`. -/
theorem C8_refresh_output (env : UpdateEnv) (renv : RefreshEnv) (lex : UpdateLex)
    (salts : List (FieldMeta × Nat)) (r : UpdateResult)
    (hret : rewrite_update_lex env renv lex salts = .ok r)
    (hinv : ∃ p ∈ assignedEncrypted env lex.item_list lex.value_list,
      invalidates p.1 p.2 = true) :
    ∃ (new_lex : NewLex) (t : String) (rows : List Row),
      lex.tables.head? = some t ∧
      renv.executeQuery (renv.whereClause new_lex) = some rows ∧
      (rows = [] → r.lexes = [.update new_lex]) ∧
      (rows ≠ [] → ∃ d i,
        r.lexes = [.begin_transaction, d, i, .commit_transaction] ∧
        renv.rewriteLex (.deleteWhere t (renv.whereClause new_lex)) = some [d] ∧
        renv.rewriteLex (.insertValues t (renv.runOriginal (renv.scratch ++ rows))) =
          some [i]) := by
  obtain ⟨new_where, st, -, hst, -, hre⟩ := rewrite_update_lex_ok env renv lex salts r hret
  have htrue : st.invalids = true := by
    rw [hst, List.any_eq_true]
    exact hinv
  obtain ⟨rr, hrr, hr⟩ := hre htrue
  obtain ⟨t, rows, ht, hrows, hnil, hcons⟩ := refresh_ok renv lex _ rr hrr
  refine ⟨_, t, rows, ht, hrows, ?_, ?_⟩
  · intro hempty
    rw [hr, hnil hempty]
  · intro hne
    obtain ⟨d, i, hrr', hd, hi⟩ := hcons hne
    exact ⟨d, i, by rw [hr, hrr'], hd, hi⟩

/-- C8 at an invalidating `UPDATE` whose filter selects two of three rows. -/
theorem C8_refresh_output_witness :
    rewrite_update_lex sampleUpdateEnv
        (sampleRefreshEnv [[.int 1, .int 2], [.int 3, .int 4], [.int 1, .int 9]])
        sampleUpdateLex [] =
      .ok { lexes :=
              [.begin_transaction,
               .rewritten (.deleteWhere "t" " TRUE ") 0,
               .rewritten (.insertValues "t" [[.int 7, .int 7], [.int 7, .int 7]]) 0,
               .commit_transaction],
            path := .refresh } ∧
    ∃ (new_lex : NewLex) (t : String) (rows : List Row),
      sampleUpdateLex.tables.head? = some t ∧
      (sampleRefreshEnv [[.int 1, .int 2], [.int 3, .int 4], [.int 1, .int 9]]).executeQuery
        ((sampleRefreshEnv [[.int 1, .int 2], [.int 3, .int 4], [.int 1, .int 9]]).whereClause
          new_lex) = some rows :=
  ⟨rfl, by
    obtain ⟨new_lex, t, rows, h1, h2, -⟩ :=
      C8_refresh_output sampleUpdateEnv
        (sampleRefreshEnv [[.int 1, .int 2], [.int 3, .int 4], [.int 1, .int 9]])
        sampleUpdateLex [] _ rfl (by decide)
    exact ⟨new_lex, t, rows, h1, h2⟩⟩

/-- C8 fails as stated: this `UPDATE` invalidates the `oOPE` onion of the field it
assigns, the refresh path is taken, no row matches the filter, and the output is one
statement, the in-place `UPDATE`, not four. -/
theorem C8_counterexample :
    invalidates sampleField
        (sampleIntersect { osl := [(.oDET, (3, none))] } (sampleEncSetOf sampleField)) = true ∧
    rewrite_update_lex sampleUpdateEnv (sampleRefreshEnv []) sampleUpdateLex [] =
      .ok { lexes := [.update { items := [.field "t" "salary"], vals := [.str "x"],
                                where_ := none }],
            path := .refresh } :=
  ⟨by decide, rfl⟩

/-- The inner loop of `decryptResults` appends to each result row the cell computed
from the row of the same rank. -/
theorem decryptCol_ok (decrypt : EncLayer → Item → Nat → Item) (rf : ReturnField) (c : Nat) :
    ∀ (drows res res1 : List Row), decryptCol decrypt rf c drows res = .ok res1 →
      res.length = drows.length →
      res1.length = res.length ∧
      ∀ r drow rrow, drows.get? r = some drow → res.get? r = some rrow →
        ∃ v, decryptCell decrypt rf drow c = .ok v ∧ res1.get? r = some (rrow ++ [v]) := by
  intro drows
  induction drows with
  | nil =>
    intro res res1 h hlen
    simp only [decryptCol, Except.ok.injEq] at h
    subst h
    exact ⟨rfl, fun r drow rrow hd _ => by simp at hd⟩
  | cons drow drows ih =>
    intro res res1 h hlen
    unfold decryptCol at h
    split at h
    · simp at h
    · rename_i rrow rrows
      split at h
      · simp at h
      · rename_i cell hcell
        split at h
        · simp at h
        · rename_i rest hrest
          simp only [Except.ok.injEq] at h
          subst h
          simp only [List.length_cons, Nat.add_right_cancel_iff] at hlen
          obtain ⟨hl, hcells⟩ := ih rrows rest hrest hlen
          refine ⟨by simp [hl], ?_⟩
          intro r drow' rrow' hd hr
          cases r with
          | zero =>
            simp only [List.get?_cons_zero, Option.some.injEq] at hd hr
            subst hd hr
            exact ⟨cell, hcell, by simp⟩
          | succ r =>
            simp only [List.get?_cons_succ] at hd hr
            obtain ⟨v, hv, hget⟩ := hcells r drow' rrow' hd hr
            exact ⟨v, hv, by simpa using hget⟩

/-- The outer loop of `decryptResults` appends to each result row the cells of the
columns it goes through. -/
theorem decryptCols_ok (decrypt : EncLayer → Item → Nat → Item) (rmeta : ReturnMeta)
    (dflt : ReturnField) (drows : List Row) :
    ∀ (cs : List Nat) (res res1 : List Row),
      decryptCols decrypt rmeta dflt drows cs res = .ok res1 →
      res.length = drows.length →
      res1.length = res.length ∧
      ∀ r drow rrow, drows.get? r = some drow → res.get? r = some rrow →
        ∃ vs, rowCells decrypt rmeta dflt drow cs = .ok vs ∧
          res1.get? r = some (rrow ++ vs) := by
  intro cs
  induction cs with
  | nil =>
    intro res res1 h hlen
    simp only [decryptCols, Except.ok.injEq] at h
    subst h
    exact ⟨rfl, fun r drow rrow _ hr => ⟨[], rfl, by simpa using hr⟩⟩
  | cons c cs ih =>
    intro res res1 h hlen
    unfold decryptCols at h
    split at h
    · rename_i hsalt
      obtain ⟨hl, hcells⟩ := ih res res1 h hlen
      refine ⟨hl, fun r drow rrow hd hr => ?_⟩
      obtain ⟨vs, hvs, hget⟩ := hcells r drow rrow hd hr
      exact ⟨vs, by simp [rowCells, hsalt, hvs], hget⟩
    · rename_i hsalt
      split at h
      · simp at h
      · rename_i res0 hcol
        obtain ⟨hl0, hcells0⟩ := decryptCol_ok decrypt _ c drows res res0 hcol hlen
        obtain ⟨hl, hcells⟩ := ih res0 res1 h (by rw [hl0, hlen])
        refine ⟨by rw [hl, hl0], fun r drow rrow hd hr => ?_⟩
        obtain ⟨v, hv, hget0⟩ := hcells0 r drow rrow hd hr
        obtain ⟨vs, hvs, hget⟩ := hcells r drow (rrow ++ [v]) hd hget0
        exact ⟨v :: vs, by simp [rowCells, hsalt, hv, hvs], by simpa using hget⟩

/-- The cell of column `c` in a result row is at the rank given by the number of
columns before `c` that are not salts. -/
theorem rowCells_get (decrypt : EncLayer → Item → Nat → Item) (rmeta : ReturnMeta)
    (dflt : ReturnField) (drow : Row) :
    ∀ (pre : List Nat) (c : Nat) (post : List Nat) (vs : Row),
      rowCells decrypt rmeta dflt drow (pre ++ c :: post) = .ok vs →
      (rmeta.at dflt c).is_salt = false →
      ∃ v, decryptCell decrypt (rmeta.at dflt c) drow c = .ok v ∧
        vs.get? (pre.filter fun i => !(rmeta.at dflt i).is_salt).length = some v := by
  intro pre
  induction pre with
  | nil =>
    intro c post vs h hsalt
    simp only [List.nil_append, rowCells, hsalt, Bool.false_eq_true, if_false] at h
    split at h
    · simp at h
    · rename_i v hv
      split at h
      · simp at h
      · simp only [Except.ok.injEq] at h
        subst h
        exact ⟨v, hv, by simp⟩
  | cons p pre ih =>
    intro c post vs h hsalt
    simp only [List.cons_append, rowCells] at h
    split at h
    · rename_i hp
      obtain ⟨v, hv, hget⟩ := ih c post vs h hsalt
      exact ⟨v, hv, by simpa [List.filter, hp] using hget⟩
    · rename_i hp
      split at h
      · simp at h
      · split at h
        · simp at h
        · rename_i vs0 hvs0
          simp only [Except.ok.injEq] at h
          subst h
          obtain ⟨v, hv, hget⟩ := ih c post vs0 hvs0 hsalt
          have hp' : (rmeta.at dflt p).is_salt = false := by simpa using hp
          exact ⟨v, hv, by simpa [List.filter, hp'] using hget⟩

theorem range_split (c cols : Nat) (h : c < cols) :
    ∃ post, List.range cols = List.range c ++ c :: post := by
  obtain ⟨k, rfl⟩ : ∃ k, cols = c + (k + 1) := ⟨cols - c - 1, by omega⟩
  refine ⟨(List.range k).map fun i => c + (i + 1), ?_⟩
  rw [List.range_add, List.range_succ_eq_map]
  simp [Function.comp_def]

/-- What `decryptCell` returns: the cell itself when the field is absent or not
encrypted or the cell is null, and else the decryption of a non-null cell of an
encrypted field. -/
theorem decryptCell_ok (decrypt : EncLayer → Item → Nat → Item) (rf : ReturnField)
    (row : Row) (c : Nat) (v : Item) (h : decryptCell decrypt rf row c = .ok v) :
    ∃ cell, row.get? c = some cell ∧
      ((rf.olk.key = none ∨ (∃ fm, rf.olk.key = some fm ∧ fm.isEncrypted = false) ∨
          cell.is_null = true) → v = cell) ∧
      (v = cell ∨ ∃ fm IV, rf.olk.key = some fm ∧ fm.isEncrypted = true ∧
          cell.is_null = false ∧ decrypt_item decrypt fm rf.olk.o cell IV = .ok v) := by
  unfold decryptCell at h
  split at h
  · simp at h
  · rename_i cell hcell
    refine ⟨cell, hcell, ?_⟩
    split at h
    · simp only [Except.ok.injEq] at h
      exact ⟨fun _ => h.symm, Or.inl h.symm⟩
    · rename_i fm hfm
      split at h
      · simp only [Except.ok.injEq] at h
        exact ⟨fun _ => h.symm, Or.inl h.symm⟩
      · rename_i hcond
        simp only [Bool.or_eq_true, not_or, Bool.not_eq_true] at hcond
        obtain ⟨henc, hnull⟩ := hcond
        have henc' : fm.isEncrypted = true := by
          cases hb : fm.isEncrypted with
          | true => rfl
          | false => simp [hb] at henc
        have hpass : (rf.olk.key = none ∨ (∃ fm, rf.olk.key = some fm ∧
            fm.isEncrypted = false) ∨ cell.is_null = true) → v = cell := by
          rintro (hk | ⟨fm', hk, hf⟩ | hn)
          · rw [hfm] at hk
            simp at hk
          · rw [hfm] at hk
            simp only [Option.some.injEq] at hk
            subst hk
            rw [henc'] at hf
            simp at hf
          · rw [hnull] at hn
            simp at hn
        refine ⟨hpass, Or.inr ?_⟩
        split at h
        · split at h
          · simp at h
          · simp at h
          · exact ⟨fm, _, hfm, henc', hnull, h⟩
          · simp at h
        · exact ⟨fm, 0, hfm, henc', hnull, h⟩

/-- C10. In `Rewriter::decryptResults`, for every row and every output column that is
not a salt, the output cell stands at the rank of the column among the columns that are
not salts; it is the input cell unchanged whenever the field of the column is absent or
not encrypted or the stored value is null; and an output cell is the result of
`decrypt_item` only for a non-null value of an encrypted field. -/
theorem C10_decryptResults_passthrough (decrypt : EncLayer → Item → Nat → Item) (mp : Bool)
    (dflt : ReturnField) (dbres : ResType) (rmeta : ReturnMeta) (res : ResType)
    (hret : Rewriter.decryptResults decrypt mp dflt dbres rmeta = .ok res)
    (c : Nat) (hc : c < dbres.names.length) (hsalt : (rmeta.at dflt c).is_salt = false)
    (r : Nat) (drow : Row) (hrow : dbres.rows.get? r = some drow) :
    ∃ rrow cell v, res.rows.get? r = some rrow ∧ drow.get? c = some cell ∧
      rrow.get? (colIndex rmeta dflt c) = some v ∧
      (((rmeta.at dflt c).olk.key = none ∨
          (∃ fm, (rmeta.at dflt c).olk.key = some fm ∧ fm.isEncrypted = false) ∨
          cell.is_null = true) → v = cell) ∧
      (v = cell ∨ ∃ fm IV, (rmeta.at dflt c).olk.key = some fm ∧ fm.isEncrypted = true ∧
          cell.is_null = false ∧
          decrypt_item decrypt fm (rmeta.at dflt c).olk.o cell IV = .ok v) := by
  unfold Rewriter.decryptResults at hret
  split at hret
  · simp at hret
  · simp only at hret
    split at hret
    · simp at hret
    · rename_i rows hrows
      simp only [Except.ok.injEq] at hret
      subst hret
      obtain ⟨-, hcells⟩ := decryptCols_ok decrypt rmeta dflt dbres.rows _ _ rows hrows
        (by simp)
      obtain ⟨vs, hvs, hget⟩ := hcells r drow [] hrow (by
        rw [List.get?_eq_getElem?, List.getElem?_map, ← List.get?_eq_getElem?, hrow]
        rfl)
      obtain ⟨post, hsplit⟩ := range_split c dbres.names.length hc
      rw [hsplit] at hvs
      obtain ⟨v, hv, hvget⟩ := rowCells_get decrypt rmeta dflt drow _ c post vs hvs hsalt
      obtain ⟨cell, hcell, hpass, hdec⟩ := decryptCell_ok decrypt _ drow c v hv
      exact ⟨vs, cell, v, by simpa using hget, hcell, hvget, hpass, hdec⟩

/-- C10 on the sample result: the column without field and the null of the encrypted
column come out unchanged, the other value of the encrypted column is decrypted, and the
salt column is gone. -/
theorem C10_decryptResults_passthrough_witness :
    Rewriter.decryptResults sampleDecrypt false sampleDefault sampleResult sampleReturnMeta =
      .ok { names := ["id", "salary"], rows := [[.int 5, .int 52], [.int 6, .null]] } ∧
    ∃ rrow cell v,
      [[Item.int 5, Item.int 52], [Item.int 6, Item.null]].get? 1 = some rrow ∧
      [Item.int 6, Item.null, Item.int 8].get? 1 = some cell ∧
      rrow.get? (colIndex sampleReturnMeta sampleDefault 1) = some v ∧ v = cell :=
  ⟨rfl, by
    obtain ⟨rrow, cell, v, h1, h2, h3, h4, -⟩ :=
      C10_decryptResults_passthrough sampleDecrypt false sampleDefault sampleResult
        sampleReturnMeta { names := ["id", "salary"], rows := [[.int 5, .int 52], [.int 6, .null]] }
        rfl 1 (by decide) (by decide) 1 [.int 6, .null, .int 8] rfl
    have hcell : cell = Item.null := by
      simp only [List.get?_cons_succ, List.get?_cons_zero, Option.some.injEq] at h2
      exact h2.symm
    exact ⟨rrow, cell, v, h1, h2, h3, h4 (Or.inr (Or.inr (by rw [hcell]; rfl)))⟩⟩

/-- The names `decryptResults` collects are those of the columns that are not salts. -/
theorem filterMap_names (rmeta : ReturnMeta) (dflt : ReturnField) : ∀ (cs : List Nat),
    (cs.filterMap fun index =>
        if (rmeta.at dflt index).is_salt then none
        else some (rmeta.at dflt index).field_called) =
      (cs.filter fun i => !(rmeta.at dflt i).is_salt).map
        fun i => (rmeta.at dflt i).field_called := by
  intro cs
  induction cs with
  | nil => rfl
  | cons c cs ih =>
    by_cases h : (rmeta.at dflt c).is_salt = true
    · simp [List.filterMap_cons, List.filter_cons, h, ih]
    · have h' : (rmeta.at dflt c).is_salt = false := by simpa using h
      simp [List.filterMap_cons, List.filter_cons, h', ih]

/-- The rows of a `decryptResults` that returns: as many as in the input, each made of
the cells computed from the input row of the same rank. -/
theorem decryptResults_rows (decrypt : EncLayer → Item → Nat → Item) (mp : Bool)
    (dflt : ReturnField) (dbres : ResType) (rmeta : ReturnMeta) (res : ResType)
    (hret : Rewriter.decryptResults decrypt mp dflt dbres rmeta = .ok res) :
    res.names = (nonSaltCols rmeta dflt dbres.names.length).map
        (fun i => (rmeta.at dflt i).field_called) ∧
    res.rows.length = dbres.rows.length ∧
    ∀ r drow, dbres.rows.get? r = some drow →
      ∃ rrow, res.rows.get? r = some rrow ∧
        rowCells decrypt rmeta dflt drow (List.range dbres.names.length) = .ok rrow := by
  unfold Rewriter.decryptResults at hret
  split at hret
  · simp at hret
  · simp only at hret
    split at hret
    · simp at hret
    · rename_i rows hrows
      simp only [Except.ok.injEq] at hret
      subst hret
      obtain ⟨hlen, hcells⟩ := decryptCols_ok decrypt rmeta dflt dbres.rows _ _ rows hrows
        (by simp)
      refine ⟨filterMap_names rmeta dflt _, by simpa using hlen, ?_⟩
      intro r drow hrow
      obtain ⟨vs, hvs, hget⟩ := hcells r drow [] hrow (by
        rw [List.get?_eq_getElem?, List.getElem?_map, ← List.get?_eq_getElem?, hrow]
        rfl)
      exact ⟨vs, by simpa using hget, hvs⟩

/-- C12. If a column that is not a salt holds, in some row, a non-null value of an
encrypted field whose salt position is not negative, and the item at that salt position
of the row is null, then `Rewriter::decryptResults` fails: it returns no result. -/
theorem C12_null_salt_fails (decrypt : EncLayer → Item → Nat → Item) (mp : Bool)
    (dflt : ReturnField) (dbres : ResType) (rmeta : ReturnMeta)
    (c : Nat) (hc : c < dbres.names.length) (hsalt : (rmeta.at dflt c).is_salt = false)
    (r : Nat) (drow : Row) (hrow : dbres.rows.get? r = some drow)
    (cell : Item) (hcell : drow.get? c = some cell) (hnn : cell.is_null = false)
    (fm : FieldMeta) (hkey : (rmeta.at dflt c).olk.key = some fm)
    (henc : fm.isEncrypted = true) (hpos : 0 ≤ (rmeta.at dflt c).pos_salt)
    (hnull : drow.get? (rmeta.at dflt c).pos_salt.toNat = some Item.null) :
    (∃ f, Rewriter.decryptResults decrypt mp dflt dbres rmeta = .error f) ∧
    ∀ res, Rewriter.decryptResults decrypt mp dflt dbres rmeta ≠ .ok res := by
  have hno : ∀ res, Rewriter.decryptResults decrypt mp dflt dbres rmeta ≠ .ok res := by
    intro res hret
    obtain ⟨-, -, hrows⟩ := decryptResults_rows decrypt mp dflt dbres rmeta res hret
    obtain ⟨rrow, -, hcells⟩ := hrows r drow hrow
    obtain ⟨post, hsplit⟩ := range_split c dbres.names.length hc
    rw [hsplit] at hcells
    obtain ⟨v, hv, -⟩ := rowCells_get decrypt rmeta dflt drow _ c post rrow hcells hsalt
    have hpos' : (rmeta.at dflt c).pos_salt ≥ 0 := hpos
    unfold decryptCell at hv
    rw [hcell] at hv
    simp only [hkey, henc, hnn, Bool.or_self, Bool.true_eq_false, Bool.false_eq_true,
      decide_False, if_false, hpos', if_true] at hv
    rw [hnull] at hv
    simp at hv
  refine ⟨?_, hno⟩
  cases h : Rewriter.decryptResults decrypt mp dflt dbres rmeta with
  | error f => exact ⟨f, rfl⟩
  | ok res => exact absurd h (hno res)

/-- C12 on a sample row whose salt is null: the encrypted column holds 100, its salt
column holds a null, and decryption stops at the assertion on the salt. -/
theorem C12_null_salt_fails_witness :
    Rewriter.decryptResults sampleDecrypt false sampleDefault sampleNullSalt sampleReturnMeta =
      .error (.assertion "salt item is null") ∧
    ((∃ f, Rewriter.decryptResults sampleDecrypt false sampleDefault sampleNullSalt
        sampleReturnMeta = .error f) ∧
     ∀ res, Rewriter.decryptResults sampleDecrypt false sampleDefault sampleNullSalt
        sampleReturnMeta ≠ .ok res) :=
  ⟨rfl, C12_null_salt_fails sampleDecrypt false sampleDefault sampleNullSalt sampleReturnMeta
    1 (by decide) (by decide) 0 [.int 5, .int 100, .null] rfl (.int 100) rfl rfl
    sampleField rfl (by decide) (by decide) rfl⟩

/-- The loop of `decrypt_item_layers` is a left fold over the layers it visits. -/
theorem decryptLoop_foldl (decrypt : EncLayer → Item → Nat → Item) (IV : Nat) :
    ∀ (ls : List EncLayer) (i : Item),
      decryptLoop decrypt IV ls i = ls.foldl (fun dec l => decrypt l dec IV) i := by
  intro ls
  induction ls with
  | nil => intro i; rfl
  | cons l rest ih => intro i; simp [decryptLoop, ih]

/-- The loop of `decrypt_item_layers` over the reversed stack `[l1, ..., ln]` computes
`l1.decrypt(l2.decrypt(... ln.decrypt(i, IV) ..., IV), IV)`. -/
theorem decryptLoop_reverse (decrypt : EncLayer → Item → Nat → Item) (IV : Nat)
    (layers : List EncLayer) (i : Item) :
    decryptLoop decrypt IV layers.reverse i = layers.foldr (fun l dec => decrypt l dec IV) i := by
  rw [decryptLoop_foldl, List.foldl_reverse]

/-- C13. For a non-null item, `decrypt_item_layers` on an onion other than the plaintext
onion and the stack `[l1, ..., ln]` (lowest layer first) returns
`l1.decrypt(l2.decrypt(... ln.decrypt(item, IV) ..., IV), IV)`, a right fold that applies
each layer once with the same `IV`; on the plaintext onion it returns the item itself,
whatever the layers; and `decrypt_item` does the same with the stack of the onion of the
field. -/
theorem C13_decrypt_outer_to_inner (decrypt : EncLayer → Item → Nat → Item) (i : Item)
    (o : onion) (layers : List EncLayer) (IV : Nat) (hnn : i.is_null = false) :
    (o ≠ onion.oPLAIN →
      decrypt_item_layers decrypt i o layers IV =
        .ok (layers.foldr (fun l dec => decrypt l dec IV) i)) ∧
    (o = onion.oPLAIN → decrypt_item_layers decrypt i o layers IV = .ok i) ∧
    (∀ l1 l2, o ≠ onion.oPLAIN →
      decrypt_item_layers decrypt i o [l1, l2] IV = .ok (decrypt l1 (decrypt l2 i IV) IV)) ∧
    (∀ (fm : FieldMeta) (om : OnionMeta), mapFind o fm.onions = some om →
      decrypt_item decrypt fm o i IV = decrypt_item_layers decrypt i o om.layers IV) := by
  refine ⟨?_, ?_, ?_, ?_⟩
  · intro ho
    simp [decrypt_item_layers, hnn, ho, decryptLoop_reverse]
  · intro ho
    simp [decrypt_item_layers, hnn, ho]
  · intro l1 l2 ho
    simp [decrypt_item_layers, hnn, ho, decryptLoop]
  · intro fm om hom
    simp [decrypt_item, hnn, hom]

/-- C13 on the sample stack: the upper layer (key 11) is removed first, then the lower
one (key 7), each with the salt 4; on the plaintext onion nothing is applied. -/
theorem C13_decrypt_outer_to_inner_witness :
    decrypt_item_layers sampleDecrypt (.int 100) .oDET sampleStack 4 = .ok (.int 74) ∧
    decrypt_item_layers sampleDecrypt (.int 100) .oPLAIN sampleStack 4 = .ok (.int 100) ∧
    decrypt_item_layers sampleDecrypt (.int 100) .oDET sampleStack 4 =
      .ok (sampleStack.foldr (fun l dec => sampleDecrypt l dec 4) (.int 100)) :=
  ⟨rfl, rfl,
   (C13_decrypt_outer_to_inner sampleDecrypt (.int 100) .oDET sampleStack 4 rfl).1
     (by decide)⟩

/-- Undoing, outermost layer first, what was done innermost layer first gives the value
back, when each layer's decryption inverts its encryption. -/
theorem foldr_foldl_inverse (encrypt decrypt : EncLayer → Item → Nat → Item) (IV : Nat) :
    ∀ (layers : List EncLayer) (p : Item),
      (∀ l ∈ layers, ∀ x, decrypt l (encrypt l x IV) IV = x) →
      layers.foldr (fun l dec => decrypt l dec IV)
        (layers.foldl (fun enc l => encrypt l enc IV) p) = p := by
  intro layers
  induction layers using List.reverseRecOn with
  | nil => intro p _; rfl
  | append_singleton ls l ih =>
    intro p hinv
    simp only [List.foldl_append, List.foldl_cons, List.foldl_nil, List.foldr_append,
      List.foldr_cons, List.foldr_nil]
    rw [hinv l (by simp)]
    exact ih p fun l' hl' => hinv l' (by simp [hl'])

/-- Encrypting a non-null item through layers that never produce a null gives a
non-null item. -/
theorem foldl_encrypt_not_null (encrypt : EncLayer → Item → Nat → Item) (IV : Nat) :
    ∀ (layers : List EncLayer) (p : Item), p.is_null = false →
      (∀ l ∈ layers, ∀ x, x.is_null = false → (encrypt l x IV).is_null = false) →
      (layers.foldl (fun enc l => encrypt l enc IV) p).is_null = false := by
  intro layers
  induction layers with
  | nil => intro p hp _; exact hp
  | cons l rest ih =>
    intro p hp hnn
    simp only [List.foldl_cons]
    exact ih _ (hnn l (by simp) p hp) fun l' hl' => hnn l' (by simp [hl'])

/-- C14. For every onion, every layer stack and every salt, if each layer of the stack
decrypts what it encrypts under that salt, and no layer encrypts a non-null item to a
null, then a non-null plaintext encrypted through the stack from the innermost layer
outwards is decrypted by `decrypt_item_layers` with the same stack to the plaintext. -/
theorem C14_round_trip (encrypt decrypt : EncLayer → Item → Nat → Item) (p : Item)
    (o : onion) (layers : List EncLayer) (IV : Nat) (hp : p.is_null = false)
    (hinv : ∀ l ∈ layers, ∀ x, decrypt l (encrypt l x IV) IV = x)
    (hnn : ∀ l ∈ layers, ∀ x, x.is_null = false → (encrypt l x IV).is_null = false) :
    ∃ c, encrypt_item_layers encrypt p o layers IV = .ok c ∧
      decrypt_item_layers decrypt c o layers IV = .ok p := by
  by_cases ho : o = onion.oPLAIN
  · exact ⟨p, by simp [encrypt_item_layers, hp, ho], by simp [decrypt_item_layers, hp, ho]⟩
  · refine ⟨layers.foldl (fun enc l => encrypt l enc IV) p,
      by simp [encrypt_item_layers, hp, ho], ?_⟩
    have hc := foldl_encrypt_not_null encrypt IV layers p hp hnn
    simp only [decrypt_item_layers, hc, Bool.false_eq_true, if_false, ho,
      decryptLoop_reverse]
    rw [foldr_foldl_inverse encrypt decrypt IV layers p hinv]

/-- The sample layers are inverse to each other on every item. -/
theorem sample_inverse (l : EncLayer) (x : Item) (IV : Nat) :
    sampleDecrypt l (sampleEncrypt l x IV) IV = x := by
  cases x <;> simp [sampleDecrypt, sampleEncrypt]
  omega

/-- The sample encryption never produces a null from a non-null item. -/
theorem sample_not_null (l : EncLayer) (x : Item) (IV : Nat) (h : x.is_null = false) :
    (sampleEncrypt l x IV).is_null = false := by
  cases x <;> simp_all [sampleEncrypt, Item.is_null]

/-- C14 on the sample stack: 100 encrypted with the keys 7 and 11 and the salt 4 is 126,
and decrypts to 100. -/
theorem C14_round_trip_witness :
    encrypt_item_layers sampleEncrypt (.int 100) .oDET sampleStack 4 = .ok (.int 126) ∧
    ∃ c, encrypt_item_layers sampleEncrypt (.int 100) .oDET sampleStack 4 = .ok c ∧
      decrypt_item_layers sampleDecrypt c .oDET sampleStack 4 = .ok (.int 100) :=
  ⟨rfl, C14_round_trip sampleEncrypt sampleDecrypt (.int 100) .oDET sampleStack 4 rfl
    (fun l _ x => sample_inverse l x 4) (fun l _ x h => sample_not_null l x 4 h)⟩

/-- C15. `FieldMeta::isEncrypted` is false exactly for a field whose onions are the
plaintext onion alone; a field without onions is encrypted, and so is every field with
two onions or more, the plaintext onion among them or not. -/
theorem C15_isEncrypted_iff (fm : FieldMeta) :
    (fm.isEncrypted = false ↔ ∃ om, fm.onions = [(onion.oPLAIN, om)]) ∧
    (fm.onions = [] → fm.isEncrypted = true) ∧
    (2 ≤ fm.onions.length → fm.isEncrypted = true) ∧
    (∀ om o om1, o ≠ onion.oPLAIN →
      ({ fm with onions := [(onion.oPLAIN, om), (o, om1)] } : FieldMeta).isEncrypted = true) := by
  refine ⟨?_, ?_, ?_, ?_⟩
  · constructor
    · intro h
      simp only [FieldMeta.isEncrypted, Bool.or_eq_false_iff, bne_eq_false_iff_eq,
        Option.isNone_eq_false_iff, Option.isSome_iff_exists] at h
      obtain ⟨hlen, om, hom⟩ := h
      match hons : fm.onions, hlen, hom with
      | [(o, om1)], _, hom =>
        simp only [mapFind] at hom
        split at hom
        · rename_i ho
          exact ⟨om1, by rw [ho]⟩
        · simp at hom
    · rintro ⟨om, hom⟩
      simp [FieldMeta.isEncrypted, hom, mapFind]
  · intro h
    simp [FieldMeta.isEncrypted, h]
  · intro h
    have : fm.onions.length ≠ 1 := by omega
    simp [FieldMeta.isEncrypted, this]
  · intro om o om1 _
    simp [FieldMeta.isEncrypted]

/-- C15 on sample fields: a field with the plaintext onion and `oDET` is encrypted, one
with the plaintext onion alone is not, and one without onions is. -/
theorem C15_isEncrypted_iff_witness :
    samplePlainAndDet.isEncrypted = true ∧
    ({ sampleField with onions := [(.oPLAIN, { layers := [], onionname := "salary" })] } :
      FieldMeta).isEncrypted = false ∧
    ({ sampleField with onions := [] } : FieldMeta).isEncrypted = true :=
  ⟨(C15_isEncrypted_iff samplePlainAndDet).2.2.1 (by decide),
   (C15_isEncrypted_iff _).1.2 ⟨_, rfl⟩,
   (C15_isEncrypted_iff _).2.1 rfl⟩

/-- A list with an item whose intersection is empty is not rewritten by `rewrite_order`. -/
theorem rewrite_order_empty_fails (env : UpdateEnv) (chooseOne : EncSet → OLK)
    (constr : EncSet) (o : ORDER) (post : List ORDER) (es_out : EncSet)
    (hplan : env.es_out o.item = some es_out)
    (hempty : (env.intersect constr es_out).empty = true) :
    ∀ (pre : List ORDER),
      ∃ f, rewrite_order env chooseOne constr (pre ++ o :: post) = .error f := by
  intro pre
  induction pre with
  | nil => exact ⟨.assertion "false", by simp [rewrite_order, hplan, hempty]⟩
  | cons p pre ih =>
    obtain ⟨f, hf⟩ := ih
    simp only [List.cons_append]
    unfold rewrite_order
    rw [hf]
    split
    · exact ⟨_, rfl⟩
    · simp only
      split
      · exact ⟨_, rfl⟩
      · split <;> exact ⟨_, rfl⟩

/-- A `SET` clause with an encrypted field whose intersection is empty stops the loop of
`rewrite_update_lex`. -/
theorem setLoop_empty_fails (env : UpdateEnv) (table name : String) (val : Item)
    (post postv : List Item) (fm : FieldMeta) (es : EncSet)
    (hfm : env.getFieldMeta table name = some fm) (henc : fm.isEncrypted = true)
    (hplan : env.es_out val = some es)
    (hempty : (env.intersect es (env.encSetOf fm)).empty = true) :
    ∀ (pre prev : List Item) (st : UpdateState), pre.length = prev.length →
      ∃ f, setLoop env (pre ++ Item.field table name :: post) (prev ++ val :: postv) st =
        .error f := by
  intro pre
  induction pre with
  | nil =>
    intro prev st hlen
    cases prev with
    | nil => exact ⟨.assertion "false", by simp [setLoop, hfm, henc, hplan, hempty]⟩
    | cons v prev => simp at hlen
  | cons i pre ih =>
    intro prev st hlen
    cases prev with
    | nil => simp at hlen
    | cons v prev =>
      have hlen' : pre.length = prev.length := by simpa using hlen
      simp only [List.cons_append]
      rw [setLoop.eq_def]
      simp only
      repeat' split
      all_goals first
        | exact ⟨_, rfl⟩
        | exact ih prev _ hlen'

/-- C16. Whenever the intersection of the required set with the output set of an
expression is empty, rewriting fails and returns no statement: `rewrite_order` for an
item of the list with any required set, `rewrite_filters_lex` for an item of the
`GROUP BY` list with `EQ_EncSet` and for an item of the `ORDER BY` list with
`ORD_EncSet`, and `rewrite_update_lex` for a value assigned to an encrypted field. -/
theorem C16_empty_intersection_fails (env : UpdateEnv) (chooseOne : EncSet → OLK) :
    (∀ (constr : EncSet) (pre : List ORDER) (o : ORDER) (post : List ORDER) (es_out : EncSet),
      env.es_out o.item = some es_out → (env.intersect constr es_out).empty = true →
      ∃ f, rewrite_order env chooseOne constr (pre ++ o :: post) = .error f) ∧
    (∀ (rewrite : Item → OLK → Except Fault Item) (PLAIN_OLK : OLK)
        (EQ_EncSet ORD_EncSet : EncSet) (select_lex : SelectLex) (o : ORDER) (es_out : EncSet),
      env.es_out o.item = some es_out →
      ((o ∈ select_lex.group_list ∧ (env.intersect EQ_EncSet es_out).empty = true) ∨
       (o ∈ select_lex.order_list ∧ (env.intersect ORD_EncSet es_out).empty = true)) →
      ∃ f, rewrite_filters_lex env chooseOne rewrite PLAIN_OLK EQ_EncSet ORD_EncSet
        select_lex = .error f) ∧
    (∀ (renv : RefreshEnv) (lex : UpdateLex) (salts : List (FieldMeta × Nat))
        (pre prev post postv : List Item) (table name : String) (val : Item)
        (fm : FieldMeta) (es : EncSet),
      lex.item_list = pre ++ Item.field table name :: post →
      lex.value_list = prev ++ val :: postv → pre.length = prev.length →
      env.getFieldMeta table name = some fm → fm.isEncrypted = true →
      env.es_out val = some es → (env.intersect es (env.encSetOf fm)).empty = true →
      ∃ f, rewrite_update_lex env renv lex salts = .error f) := by
  refine ⟨?_, ?_, ?_⟩
  · intro constr pre o post es_out hplan hempty
    exact rewrite_order_empty_fails env chooseOne constr o post es_out hplan hempty pre
  · intro rewrite PLAIN_OLK EQ_EncSet ORD_EncSet select_lex o es_out hplan h
    unfold rewrite_filters_lex
    simp only
    split
    · exact ⟨_, rfl⟩
    · split
      · exact ⟨_, rfl⟩
      · split
        · exact ⟨_, rfl⟩
        · rename_i groups hgroups
          split
          · exact ⟨_, rfl⟩
          · rename_i orders horders
            exfalso
            rcases h with ⟨hmem, hempty⟩ | ⟨hmem, hempty⟩
            · obtain ⟨pre, post, hsplit⟩ := List.append_of_mem hmem
              obtain ⟨f, hf⟩ := rewrite_order_empty_fails env chooseOne EQ_EncSet o post
                es_out hplan hempty pre
              rw [hsplit, hf] at hgroups
              exact Except.noConfusion hgroups
            · obtain ⟨pre, post, hsplit⟩ := List.append_of_mem hmem
              obtain ⟨f, hf⟩ := rewrite_order_empty_fails env chooseOne ORD_EncSet o post
                es_out hplan hempty pre
              rw [hsplit, hf] at horders
              exact Except.noConfusion horders
  · intro renv lex salts pre prev post postv table name val fm es hitems hvals hlen hfm henc
      hplan hempty
    obtain ⟨f, hf⟩ := setLoop_empty_fails env table name val post postv fm es hfm henc hplan
      hempty pre prev
      { res_items := [], res_vals := [], invalids := false, salts := salts, draws := 0 } hlen
    unfold rewrite_update_lex
    rw [hitems, hvals, hf]
    split
    · exact ⟨_, rfl⟩
    · split
      · exact ⟨_, rfl⟩
      · split
        · exact ⟨_, rfl⟩
        · split <;> exact ⟨_, rfl⟩

/-- C16 on the sample environments: a string can only be produced on `oDET`, so that an
`ORDER BY` on it, which needs `oOPE`, is not rewritten, while a `GROUP BY` is; and an
`UPDATE` that assigns a value produced on `oSWP` only to the field `salary`, which has no
such onion, is not rewritten. -/
theorem C16_empty_intersection_fails_witness :
    rewrite_order sampleUpdateEnv sampleChoose sampleOrdSet
        [{ item := .str "x", asc := true }] = .error (.assertion "false") ∧
    rewrite_order sampleUpdateEnv sampleChoose sampleEqSet
        [{ item := .str "x", asc := true }] = .ok [{ item := .str "x", asc := true }] ∧
    rewrite_update_lex sampleNoOnionEnv (sampleRefreshEnv []) sampleUpdateLex [] =
        .error (.assertion "false") ∧
    (∃ f, rewrite_order sampleUpdateEnv sampleChoose sampleOrdSet
        ([] ++ { item := .str "x", asc := true } :: []) = .error f) ∧
    (∃ f, rewrite_filters_lex sampleUpdateEnv sampleChoose (fun i _ => .ok i)
        { o := .oPLAIN, l := 0, key := none } sampleEqSet sampleOrdSet
        { where_ := none, having := none, group_list := [],
          order_list := [{ item := .str "x", asc := true }] } = .error f) ∧
    (∃ f, rewrite_update_lex sampleNoOnionEnv (sampleRefreshEnv []) sampleUpdateLex [] =
        .error f) :=
  ⟨rfl, rfl, rfl,
   (C16_empty_intersection_fails sampleUpdateEnv sampleChoose).1 sampleOrdSet []
     { item := .str "x", asc := true } [] { osl := [(.oDET, (3, none))] } rfl rfl,
   (C16_empty_intersection_fails sampleUpdateEnv sampleChoose).2.1 (fun i _ => .ok i)
     { o := .oPLAIN, l := 0, key := none } sampleEqSet sampleOrdSet
     { where_ := none, having := none, group_list := [],
       order_list := [{ item := .str "x", asc := true }] }
     { item := .str "x", asc := true } { osl := [(.oDET, (3, none))] } rfl
     (Or.inr ⟨by simp, rfl⟩),
   (C16_empty_intersection_fails sampleNoOnionEnv sampleChoose).2.2 (sampleRefreshEnv [])
     sampleUpdateLex [] [] [] [] [] "t" "salary" (.str "x") sampleField
     { osl := [(.oSWP, (4, none))] } rfl rfl rfl rfl (by decide) rfl rfl⟩

/-- Every onion is in `allOnions`. -/
theorem mem_allOnions (o : onion) : o ∈ allOnions := by
  cases o <;> decide

/-- A key that is not among the keys of a map is not found. -/
theorem mapFind_none_of_not_mem {K V : Type} [DecidableEq K] (k : K) :
    ∀ (m : List (K × V)), k ∉ m.map Prod.fst → mapFind k m = none := by
  intro m
  induction m with
  | nil => intro _; rfl
  | cons p rest ih =>
    intro h
    simp only [List.map_cons, List.mem_cons, not_or] at h
    have hne : ¬ p.1 = k := fun e => h.1 e.symm
    simp [mapFind, hne, ih h.2]

/-- What is found in a map is an entry of the map. -/
theorem mapFind_mem {K V : Type} [DecidableEq K] (k : K) (v : V) :
    ∀ (m : List (K × V)), mapFind k m = some v → (k, v) ∈ m := by
  intro m
  induction m with
  | nil => intro h; simp [mapFind] at h
  | cons p rest ih =>
    obtain ⟨k', v'⟩ := p
    intro h
    simp only [mapFind] at h
    split at h
    · rename_i hk
      simp only [Option.some.injEq] at h
      simp [hk, h]
    · exact List.mem_cons_of_mem _ (ih h)

/-- Lookup in a map built by listing, for distinct keys, the keys that have a value. -/
theorem mapFind_filterMap {K V : Type} [DecidableEq K] (f : K → Option V) (k : K) :
    ∀ (all : List K), all.Nodup →
      mapFind k (all.filterMap fun o => (f o).map fun p => (o, p)) =
        if k ∈ all then f k else none := by
  intro all
  induction all with
  | nil => intro _; rfl
  | cons a rest ih =>
    intro hnd
    simp only [List.nodup_cons] at hnd
    rw [List.filterMap_cons]
    cases hfa : f a with
    | none =>
      simp only [Option.map_none']
      rw [ih hnd.2]
      by_cases hk : k = a
      · subst hk
        simp [hnd.1, hfa]
      · simp [hk]
    | some v =>
      simp only [Option.map_some', mapFind]
      by_cases hk : a = k
      · subst hk
        simp [hfa]
      · have hk' : ¬ k = a := fun e => hk e.symm
        rw [if_neg hk, ih hnd.2]
        simp [hk']

/-- A map that lists its keys in the order of `all` is the listing of its own lookups. -/
theorem filterMap_mapFind_self {K V : Type} [DecidableEq K] :
    ∀ (all : List K) (m : List (K × V)), all.Nodup → (m.map Prod.fst).Sublist all →
      (all.filterMap fun o => (mapFind o m).map fun p => (o, p)) = m := by
  intro all
  induction all with
  | nil =>
    intro m _ hsub
    have : m = [] := by simpa using hsub
    subst this
    rfl
  | cons a rest ih =>
    intro m hnd hsub
    have hnd' := hnd
    simp only [List.nodup_cons] at hnd'
    cases m with
    | nil =>
      have h := ih [] hnd'.2 (by simp)
      simp only [mapFind, Option.map_none'] at h ⊢
      simp
    | cons p m' =>
      obtain ⟨k, v⟩ := p
      simp only [List.map_cons] at hsub
      by_cases hka : k = a
      · subst hka
        have hsub' : (m'.map Prod.fst).Sublist rest := by
          cases hsub with
          | cons _ h => exact (List.sublist_of_cons_sublist h)
          | cons₂ _ h => exact h
        rw [List.filterMap_cons]
        simp only [mapFind, if_true, Option.map_some']
        congr 1
        rw [← ih m' hnd'.2 hsub']
        apply List.filterMap_congr
        intro o ho
        have hne : ¬ k = o := fun e => hnd'.1 (e ▸ ho)
        simp only [if_neg hne]
        rw [ih m' hnd'.2 hsub']
      · have hsub' : (k :: m'.map Prod.fst).Sublist rest := by
          cases hsub with
          | cons _ h => exact h
          | cons₂ _ h => exact absurd rfl hka
        have hnot : a ∉ ((k, v) :: m').map Prod.fst := fun h => hnd'.1 (hsub'.subset h)
        rw [List.filterMap_cons, mapFind_none_of_not_mem a _ hnot]
        simp only [Option.map_none']
        exact ih ((k, v) :: m') hnd'.2 hsub'

/-- Combining bindings does not depend on the order of the operands. -/
theorem mergeKeys_comm (a b : Option FieldMeta) : mergeKeys a b = mergeKeys b a := by
  cases a with
  | none => cases b <;> rfl
  | some x =>
    cases b with
    | none => rfl
    | some y =>
      simp only [mergeKeys]
      by_cases h : x = y
      · subst h; rfl
      · have h' : ¬ y = x := fun e => h e.symm
        simp [h, h']

/-- What the intersection keeps of an onion does not depend on the order of the operands. -/
theorem intersectPair_comm (a b : Option LevelFieldPair) :
    intersectPair a b = intersectPair b a := by
  cases a with
  | none => cases b <;> rfl
  | some p =>
    cases b with
    | none => rfl
    | some q =>
      simp only [intersectPair]
      rw [mergeKeys_comm p.2 q.2, Nat.min_comm p.1 q.1]

/-- What the intersection keeps of an onion in three operands does not depend on the
grouping. -/
theorem intersectPair_assoc (a b c : Option LevelFieldPair) :
    intersectPair (intersectPair a b) c = intersectPair a (intersectPair b c) := by
  rcases a with _ | ⟨la, ka⟩ <;> rcases b with _ | ⟨lb, kb⟩ <;> rcases c with _ | ⟨lc, kc⟩ <;>
    try rfl
  · cases h : mergeKeys ka kb <;> simp [intersectPair, h]
  · rcases ka with _ | x <;> rcases kb with _ | y <;> rcases kc with _ | z <;>
      simp only [intersectPair, mergeKeys, Option.map_some', Option.map_none'] <;>
      (try split_ifs) <;>
      simp_all [intersectPair, mergeKeys, Nat.min_assoc]

/-- What the intersection of a set with itself keeps of an onion is its entry. -/
theorem intersectPair_self (a : Option LevelFieldPair) : intersectPair a a = a := by
  rcases a with _ | ⟨l, k⟩
  · rfl
  · cases k <;> simp [intersectPair, mergeKeys]

/-- The entry of an onion in an intersection. -/
theorem mapFind_intersect (A B : EncSet) (o : onion) :
    mapFind o (A.intersect B).osl = intersectPair (mapFind o A.osl) (mapFind o B.osl) := by
  unfold EncSet.intersect
  simp only
  rw [mapFind_filterMap (fun o => intersectPair (mapFind o A.osl) (mapFind o B.osl)) o
    allOnions (by decide)]
  simp [mem_allOnions]

/-- C17. The intersection of capability sets (for each onion present in both operands
the smaller level and the combined binding, the bindings having to be equal or absent;
other onions dropped) is commutative and associative, and the intersection of a set
with itself has the entries of the set: the same entry for every onion, and it is the
set itself when the set is a map (each onion once, in the order of the enumeration). -/
theorem C17_intersect_algebra :
    (∀ A B : EncSet, A.intersect B = B.intersect A) ∧
    (∀ A B C : EncSet, (A.intersect B).intersect C = A.intersect (B.intersect C)) ∧
    (∀ (A : EncSet) (o : onion), mapFind o (A.intersect A).osl = mapFind o A.osl) ∧
    (∀ A : EncSet, A.isMap → A.intersect A = A) ∧
    (∀ (A B : EncSet) (o : onion),
      mapFind o (A.intersect B).osl = intersectPair (mapFind o A.osl) (mapFind o B.osl)) := by
  refine ⟨?_, ?_, ?_, ?_, mapFind_intersect⟩
  · intro A B
    unfold EncSet.intersect
    congr 1
    apply List.filterMap_congr
    intro o _
    rw [intersectPair_comm]
  · intro A B C
    have h : ∀ o, intersectPair (mapFind o (A.intersect B).osl) (mapFind o C.osl) =
        intersectPair (mapFind o A.osl) (mapFind o (B.intersect C).osl) := by
      intro o
      rw [mapFind_intersect, mapFind_intersect, intersectPair_assoc]
    show EncSet.mk _ = EncSet.mk _
    congr 1
    apply List.filterMap_congr
    intro o _
    rw [h o]
  · intro A o
    rw [mapFind_intersect, intersectPair_self]
  · intro A hmap
    have h := filterMap_mapFind_self allOnions A.osl (by decide) hmap
    show EncSet.mk _ = A
    cases A with
    | mk osl =>
      congr 1
      simp only at h
      rw [← h]
      apply List.filterMap_congr
      intro o _
      rw [intersectPair_self, h]

/-- C17 on the sample sets: the intersection keeps `oDET` at level 2 bound to the field
and `oOPE` at level 5, in either order; and a set intersected with itself is the set. -/
theorem C17_intersect_algebra_witness :
    sampleSetA.intersect sampleSetB =
      { osl := [(.oDET, (2, some sampleField)), (.oOPE, (5, none))] } ∧
    sampleSetA.intersect sampleSetB = sampleSetB.intersect sampleSetA ∧
    (sampleSetA.intersect sampleSetB).intersect sampleSetB =
      sampleSetA.intersect (sampleSetB.intersect sampleSetB) ∧
    sampleSetB.intersect sampleSetB = sampleSetB :=
  ⟨by decide, C17_intersect_algebra.1 sampleSetA sampleSetB,
   C17_intersect_algebra.2.1 sampleSetA sampleSetB sampleSetB,
   C17_intersect_algebra.2.2.2.1 sampleSetB (by decide)⟩

/-- The walk of `chooseOne` returns an entry of the set. -/
theorem chooseLoop_mem (S : EncSet) : ∀ (prec : List onion) (olk : OLK),
    chooseLoop S prec = some olk →
      olk.o ∈ prec ∧ mapFind olk.o S.osl = some (olk.l, olk.key) := by
  intro prec
  induction prec with
  | nil => intro olk h; simp [chooseLoop] at h
  | cons o rest ih =>
    intro olk h
    unfold chooseLoop at h
    split at h
    · rename_i p hp
      simp only [Option.some.injEq] at h
      subst h
      exact ⟨by simp, hp⟩
    · obtain ⟨h1, h2⟩ := ih olk h
      exact ⟨List.mem_cons_of_mem _ h1, h2⟩

/-- The walk of `chooseOne` finds an entry when the order has an onion of the set. -/
theorem chooseLoop_some (S : EncSet) (o : onion) (p : LevelFieldPair)
    (hp : mapFind o S.osl = some p) : ∀ (prec : List onion), o ∈ prec →
    ∃ olk, chooseLoop S prec = some olk := by
  intro prec
  induction prec with
  | nil => intro h; simp at h
  | cons o' rest ih =>
    intro h
    unfold chooseLoop
    split
    · exact ⟨_, rfl⟩
    · rename_i hnone
      rcases List.mem_cons.mp h with heq | hmem
      · rw [← heq, hp] at hnone
        simp at hnone
      · exact ih hmem

/-- The walk of `chooseOne` only reads the entries of the set. -/
theorem chooseLoop_congr (S T : EncSet) (h : ∀ o, mapFind o S.osl = mapFind o T.osl) :
    ∀ (prec : List onion), chooseLoop S prec = chooseLoop T prec := by
  intro prec
  induction prec with
  | nil => rfl
  | cons o rest ih => simp only [chooseLoop, h o, ih]

/-- C18. With a precedence order that has every onion, `chooseOne` on a non-empty
capability set returns an onion and level (and binding) that is an entry of the set, and
the choice is a function of the entries of the set alone: sets with the same entry for
every onion give the same choice, so that a repeated call on an unchanged set returns
the same element. On an empty set it returns nothing. -/
theorem C18_chooseOne_member (precedence : List onion) (htotal : ∀ o, o ∈ precedence) :
    (∀ S : EncSet, S.empty = false →
      ∃ olk, S.chooseOne precedence = some olk ∧
        (olk.o, (olk.l, olk.key)) ∈ S.osl ∧
        mapFind olk.o S.osl = some (olk.l, olk.key)) ∧
    (∀ S T : EncSet, (∀ o, mapFind o S.osl = mapFind o T.osl) →
      S.chooseOne precedence = T.chooseOne precedence) ∧
    (∀ S : EncSet, S.empty = true → S.chooseOne precedence = none) := by
  refine ⟨?_, ?_, ?_⟩
  · intro S hne
    obtain ⟨o, p, hp⟩ : ∃ o p, mapFind o S.osl = some p := by
      cases hosl : S.osl with
      | nil => simp [EncSet.empty, hosl] at hne
      | cons e rest => exact ⟨e.1, e.2, by simp [mapFind]⟩
    obtain ⟨olk, holk⟩ := chooseLoop_some S o p hp precedence (htotal o)
    obtain ⟨-, hfind⟩ := chooseLoop_mem S precedence olk holk
    exact ⟨olk, by simp [EncSet.chooseOne, hne, holk], mapFind_mem _ _ _ hfind, hfind⟩
  · intro S T h
    have hempty : S.empty = T.empty := by
      cases hS : S.osl with
      | nil =>
        cases hT : T.osl with
        | nil => simp [EncSet.empty, hS, hT]
        | cons e rest =>
          have := h e.1
          rw [hS, hT] at this
          simp [mapFind] at this
      | cons e rest =>
        cases hT : T.osl with
        | nil =>
          have := h e.1
          rw [hS, hT] at this
          simp [mapFind] at this
        | cons e' rest' => simp [EncSet.empty, hS, hT]
    simp only [EncSet.chooseOne, hempty, chooseLoop_congr S T h precedence]
  · intro S he
    simp [EncSet.chooseOne, he]

/-- C18 on a sample set with the order of the enumeration: the choice is `oDET` at level
2, an entry of the set. -/
theorem C18_chooseOne_member_witness :
    sampleSetB.chooseOne allOnions =
      some { o := .oDET, l := 2, key := some sampleField } ∧
    ∃ olk, sampleSetB.chooseOne allOnions = some olk ∧
      (olk.o, (olk.l, olk.key)) ∈ sampleSetB.osl ∧
      mapFind olk.o sampleSetB.osl = some (olk.l, olk.key) :=
  ⟨by decide, (C18_chooseOne_member allOnions mem_allOnions).1 sampleSetB (by decide)⟩

/-- After `m[k] = v` the value under `k` is `v`. -/
theorem mapFind_mapAssign_self {K V : Type} [DecidableEq K] (k : K) (v : V) :
    ∀ (m : List (K × V)), mapFind k (mapAssign k v m) = some v := by
  intro m
  induction m with
  | nil => simp [mapAssign, mapFind]
  | cons p rest ih =>
    obtain ⟨k', v'⟩ := p
    by_cases hk : k' = k
    · simp [mapAssign, mapFind, mapReplace, hk]
    · unfold mapAssign at ih ⊢
      simp only [mapFind, if_neg hk, mapReplace]
      split
      · rename_i hs
        simp only [hs, if_true] at ih
        simp [mapFind, hk, ih]
      · rename_i hs
        simp only [hs] at ih
        simp only [List.cons_append, mapFind, if_neg hk]
        simpa using ih

/-- C19. `create_field_meta` on a name that the table already has returns false and
leaves the table as it is, its field map and its list of field names included. But
`create_table_meta` on a name that the schema already has returns normally, with a
warning in the log only, and stores a newly built `TableMeta` under that name in place
of the existing one: on the sample schema, `CREATE TABLE t (b)` replaces the metadata of
the table `t` with its field `a` by metadata with the field `b` alone. -/
theorem C19_create_meta_uniqueness
    (init_onions : Bool → Create_field → Nat → String → OnionInit)
    (anonymizeTableName : Nat → String → String) :
    (∀ (tm : TableMeta) (field : Create_field) (encByDefault : Bool),
      (mapFind field.field_name tm.fieldMetaMap).isSome = true →
      create_field_meta init_onions tm field encByDefault = (false, tm)) ∧
    (∀ (schema : SchemaInfo) (table : String) (lex : CreateLex) (encByDefault : Bool)
        (old : TableMeta),
      lex.sql_command = .SQLCOM_CREATE_TABLE →
      mapFind table schema.tableMetaMap = some old →
      ∃ s log, create_table_meta init_onions anonymizeTableName schema table lex
          encByDefault = .ok (s, log) ∧
        mapFind table s.tableMetaMap =
          some (createFields init_onions encByDefault lex.create_list
            (if encByDefault then
              { fieldMetaMap := [], fieldNames := [], tableNo := schema.totalTables,
                anonTableName := anonymizeTableName schema.totalTables table }
             else
              { fieldMetaMap := [], fieldNames := [], tableNo := 0,
                anonTableName := table }))) ∧
    (mapFind "t" sampleSchema.tableMetaMap = some sampleTable ∧
     sampleTable.fieldNames = ["a"] ∧
     ∃ s tm, create_table_meta sampleInit anonymizeTableName sampleSchema "t"
          sampleCreateLex false =
        .ok (s, ["ERROR: Table exists. Embedded DB possiblyout of sync with regular DB (or, just programmer error)"]) ∧
        mapFind "t" s.tableMetaMap = some tm ∧ tm.fieldNames = ["b"] ∧ tm ≠ sampleTable) := by
  refine ⟨?_, ?_, ?_⟩
  · intro tm field encByDefault h
    simp [create_field_meta, h]
  · intro schema table lex encByDefault old hcmd hold
    refine ⟨_, _, by simp only [create_table_meta, hcmd, ne_eq, not_true_eq_false, if_false]; rfl,
      ?_⟩
    simp only [mapFind_mapAssign_self]
  · exact ⟨rfl, rfl,
      { tableMetaMap := [("t", (create_field_meta sampleInit
          { fieldMetaMap := [], fieldNames := [], tableNo := 0, anonTableName := "t" }
          { field_name := "b", sql_type := 3 } false).2)], totalTables := 0 },
      (create_field_meta sampleInit
          { fieldMetaMap := [], fieldNames := [], tableNo := 0, anonTableName := "t" }
          { field_name := "b", sql_type := 3 } false).2,
      rfl, rfl, rfl, by decide⟩

/-- The level of an onion just stored with a stack that ends with the layer `l`. -/
theorem getOnionLevel_assign (INVALID : SECLEVEL) (fm : FieldMeta) (o : onion)
    (name : String) (ls : List EncLayer) (l : EncLayer) :
    ({ fm with onions := mapAssign o { layers := ls ++ [l], onionname := name } fm.onions } :
      FieldMeta).getOnionLevel INVALID o = .ok l.level := by
  simp [FieldMeta.getOnionLevel, mapFind_mapAssign_self, OnionMeta.getSecLevel]

/-- The loop of `buildOnionMeta` on the levels still to come, when the persisted level
is among them: it pushes the layers up to the first occurrence of that level, and then
returns when that level is the last one of the layout, and fails otherwise. -/
theorem buildLayers_at_level (f : onion → SECLEVEL → Nat → String → EncLayer)
    (INVALID : SECLEVEL) (fm : FieldMeta) (row : OnionRow) (layout post : List SECLEVEL)
    (hfac : ∀ o l t s, (f o l t s).level = l) (hcur : row.current_level ≠ INVALID) :
    ∀ (pre : List SECLEVEL) (om : OnionMeta), row.current_level ∉ pre →
      (∀ l ∈ pre, l ≠ INVALID) →
      buildLayers f INVALID fm row layout (pre ++ row.current_level :: post) om =
        if some row.current_level = layout.getLast? then
          .ok { om with layers := om.layers ++ (pre ++ [row.current_level]).map (fun it =>
            f row.type it row.sql_type ((mapFind it row.layer_serial).getD "")) }
        else .error (.assertion "it == layers.back()") := by
  intro pre
  induction pre with
  | nil =>
    intro om _ _
    simp only [List.nil_append, buildLayers, getOnionLevel_assign, hfac, if_neg hcur, if_true,
      List.map_cons, List.map_nil]
  | cons p pre ih =>
    intro om hnot hvalid
    have hp : p ≠ row.current_level := fun e => hnot (by simp [e])
    have hnot' : row.current_level ∉ pre := fun h => hnot (List.mem_cons_of_mem _ h)
    have hpv : p ≠ INVALID := hvalid p (by simp)
    simp only [List.cons_append, buildLayers, getOnionLevel_assign, hfac, if_neg hpv, if_neg hp,
      List.append_eq]
    rw [ih _ hnot' fun l hl => hvalid l (List.mem_cons_of_mem _ hl)]
    simp

/-- The loop of `buildOnionMeta` on levels none of which is the persisted level: every
layer is pushed. -/
theorem buildLayers_no_level (f : onion → SECLEVEL → Nat → String → EncLayer)
    (INVALID : SECLEVEL) (fm : FieldMeta) (row : OnionRow) (layout : List SECLEVEL)
    (hfac : ∀ o l t s, (f o l t s).level = l) :
    ∀ (todo : List SECLEVEL) (om : OnionMeta), row.current_level ∉ todo →
      (∀ l ∈ todo, l ≠ INVALID) →
      buildLayers f INVALID fm row layout todo om =
        .ok { om with layers := om.layers ++ todo.map (fun it =>
          f row.type it row.sql_type ((mapFind it row.layer_serial).getD "")) } := by
  intro todo
  induction todo with
  | nil => intro om _ _; simp [buildLayers]
  | cons p todo ih =>
    intro om hnot hvalid
    have hp : p ≠ row.current_level := fun e => hnot (by simp [e])
    have hnot' : row.current_level ∉ todo := fun h => hnot (List.mem_cons_of_mem _ h)
    have hpv : p ≠ INVALID := hvalid p (by simp)
    simp only [buildLayers, getOnionLevel_assign, hfac, if_neg hpv, if_neg hp]
    rw [ih _ hnot' fun l hl => hvalid l (List.mem_cons_of_mem _ hl)]
    simp

/-- The stack of an onion just stored. -/
theorem layersOf_assign (fname salt_name anon : String) (has_salt : Bool)
    (onions : List (onion × OnionMeta)) (o : onion) (om : OnionMeta) :
    ({ fname := fname, has_salt := has_salt, salt_name := salt_name, anonTableName := anon,
       onions := mapAssign o om onions } : FieldMeta).layersOf o = om.layers := by
  simp [FieldMeta.layersOf, mapFind_mapAssign_self]

/-- C20 fails for a persisted level strictly below the top of the layout: with the
layout `[1, 2, 3]` of `oDET` and the persisted current level 2, a level of the layout,
`buildOnionMeta` stops at the assertion `it == layers.back()` and rebuilds nothing. -/
theorem C20_counterexample :
    mapFind onion.oDET sampleLayout = some [1, 2, 3] ∧
    (sampleOnionRow 2).current_level ∈ [1, 2, 3] ∧ (sampleOnionRow 2).current_level < 3 ∧
    buildOnionMeta sampleFactory 0 sampleLayout (some [sampleOnionRow 2]) sampleNewField =
      .error (.assertion "it == layers.back()") :=
  ⟨rfl, by decide, by decide, rfl⟩

/-- C20, amended. Let the layers be built with the level asked for, let no level of the
layout be `INVALID`, and let the persisted current level of an onion be a level of its
layout. When that level is the last level of the layout, `buildOnionMeta` returns and
the rebuilt stack holds the levels of the layout from the bottom up to that level, so
that the current level of the rebuilt onion is the persisted one. When it is not the
last level of the layout, `buildOnionMeta` fails at the assertion
`it == layers.back()`. -/
theorem C20_buildOnionMeta_top_level (f : onion → SECLEVEL → Nat → String → EncLayer)
    (INVALID : SECLEVEL) (onion_layout : List (onion × List SECLEVEL)) (fm : FieldMeta)
    (row : OnionRow) (layout pre post : List SECLEVEL)
    (hfac : ∀ o l t s, (f o l t s).level = l)
    (hlayout : mapFind row.type onion_layout = some layout)
    (hsplit : layout = pre ++ row.current_level :: post)
    (hfirst : row.current_level ∉ pre)
    (hvalid : ∀ l ∈ layout, l ≠ INVALID) :
    (layout.getLast? = some row.current_level →
      ∃ fm1, buildOnionMeta f INVALID onion_layout (some [row]) fm = .ok fm1 ∧
        (fm1.layersOf row.type).map EncLayer.level = pre ++ [row.current_level] ∧
        (post = [] → (fm1.layersOf row.type).map EncLayer.level = layout) ∧
        fm1.curLevel row.type = some row.current_level) ∧
    (layout.getLast? ≠ some row.current_level →
      buildOnionMeta f INVALID onion_layout (some [row]) fm =
        .error (.assertion "it == layers.back()")) := by
  have hcur : row.current_level ≠ INVALID := hvalid _ (by simp [hsplit])
  have hpre : ∀ l ∈ pre, l ≠ INVALID := fun l hl => hvalid l (by simp [hsplit, hl])
  have hfac' : ∀ o l t s, (f o l t s).lvl = l := hfac
  have hloop := fun fm0 om =>
    buildLayers_at_level f INVALID fm0 row layout post hfac hcur pre om hfirst hpre
  rw [← hsplit] at hloop
  constructor
  · intro hlast
    have hlast' : some row.current_level = layout.getLast? := hlast.symm
    simp only [buildOnionMeta, buildOnionRows, buildOnionRow, hlayout, Option.getD_some,
      hloop, if_pos hlast']
    refine ⟨_, rfl, ?_, ?_, ?_⟩
    · rw [layersOf_assign]
      simp [Function.comp_def, hfac', EncLayer.level]
    · intro hpost
      rw [layersOf_assign, hsplit, hpost]
      simp [Function.comp_def, hfac', EncLayer.level]
    · simp only [FieldMeta.curLevel]
      rw [layersOf_assign]
      simp [hfac]
  · intro hlast
    have hlast' : ¬ some row.current_level = layout.getLast? := fun e => hlast e.symm
    simp only [buildOnionMeta, buildOnionRows, buildOnionRow, hlayout, Option.getD_some,
      hloop, if_neg hlast']

/-- C20, amended, on the sample onion persisted at the top level 3 of its layout
`[1, 2, 3]`: the three layers are rebuilt and the current level is 3. -/
theorem C20_buildOnionMeta_top_level_witness :
    ∃ fm1, buildOnionMeta sampleFactory 0 sampleLayout (some [sampleOnionRow 3])
        sampleNewField = .ok fm1 ∧
      (fm1.layersOf (sampleOnionRow 3).type).map EncLayer.level =
        [1, 2] ++ [(sampleOnionRow 3).current_level] ∧
      (([] : List SECLEVEL) = [] →
        (fm1.layersOf (sampleOnionRow 3).type).map EncLayer.level = [1, 2, 3]) ∧
      fm1.curLevel (sampleOnionRow 3).type = some (sampleOnionRow 3).current_level :=
  (C20_buildOnionMeta_top_level sampleFactory 0 sampleLayout sampleNewField (sampleOnionRow 3)
    [1, 2, 3] [1, 2] [] (fun _ _ _ _ => rfl) rfl rfl (by decide) (by decide)).1 rfl

/-! ## The operator policy of `parser/analyze.cc` -/

/-- The first thing a call of `analyze` does is recorded as that call. -/
theorem analyze_head (const_item : Analyze.Item → Bool)
    (rest : Analyze.Item → Analyze.cipher_type_reason → Analyze.Run) (i : Analyze.Item)
    (tr : Analyze.cipher_type_reason) :
    ∃ evs, (Analyze.analyze const_item rest i tr).1 = Analyze.AnalyzeEvent.analyze i tr :: evs := by
  unfold Analyze.analyze Analyze.analyzeWith
  split
  · exact ⟨_, rfl⟩
  · exact ⟨[], rfl⟩

/-- Two calls of `analyze` in a row: the first is made, and the second is made when the
first has not failed. -/
theorem andThen_calls (const_item : Analyze.Item → Bool)
    (rest : Analyze.Item → Analyze.cipher_type_reason → Analyze.Run) (a0 a1 : Analyze.Item)
    (r : Analyze.cipher_type_reason) :
    (∃ evs, ((Analyze.analyze const_item rest a0 r).andThen
        (Analyze.analyze const_item rest a1 r)).1 = Analyze.AnalyzeEvent.analyze a0 r :: evs) ∧
    ((Analyze.analyze const_item rest a0 r).2 = none →
      ∃ evs, ((Analyze.analyze const_item rest a0 r).andThen
        (Analyze.analyze const_item rest a1 r)).1 =
          (Analyze.analyze const_item rest a0 r).1 ++ Analyze.AnalyzeEvent.analyze a1 r :: evs) := by
  obtain ⟨e0, h0⟩ := analyze_head const_item rest a0 r
  obtain ⟨e1, h1⟩ := analyze_head const_item rest a1 r
  constructor
  · unfold Analyze.Run.andThen
    split
    · exact ⟨e0, h0⟩
    · exact ⟨e0 ++ (Analyze.analyze const_item rest a1 r).1, by simp [h0]⟩
  · intro hok
    unfold Analyze.Run.andThen
    rw [hok]
    exact ⟨e1, by simp [h1]⟩

/-- C21. The handler of a comparison (`CItemCompare`, registered for `EQ_FUNC`,
`EQUAL_FUNC`, `NE_FUNC`, `GT_FUNC`, `GE_FUNC`, `LT_FUNC` and `LE_FUNC`) calls `analyze`
on its first operand and then, when that has not failed, on its second operand, both
with the requirement `r`, which is `equal` for `=`, `<=>` and `<>` and `order` for `>`,
`>=`, `<` and `<=`, whatever the requirement `tr` of the comparison is; and `analyze`
runs this handler on a comparison that is not constant whenever `tr` is not `none`. -/
theorem C21_compare_policy (const_item : Analyze.Item → Bool)
    (rest : Analyze.Item → Analyze.cipher_type_reason → Analyze.Run)
    (FT : Analyze.Functype) (func_name : String) (a0 a1 : Analyze.Item)
    (more : List Analyze.Item) (tr r : Analyze.cipher_type_reason)
    (hFT : FT ∈ [Analyze.Functype.EQ_FUNC, Analyze.Functype.EQUAL_FUNC,
      Analyze.Functype.NE_FUNC, Analyze.Functype.GT_FUNC, Analyze.Functype.GE_FUNC,
      Analyze.Functype.LT_FUNC, Analyze.Functype.LE_FUNC])
    (hr : r = Analyze.cipher_type_reason.new (Analyze.CItemCompare_t2 FT) "compare func"
      (some (Analyze.Item.func FT func_name (a0 :: a1 :: more))) (some tr) false) :
    Analyze.do_analyze const_item rest (Analyze.Item.func FT func_name (a0 :: a1 :: more)) tr =
      (Analyze.analyze const_item rest a0 r).andThen (Analyze.analyze const_item rest a1 r) ∧
    (FT ∈ [Analyze.Functype.EQ_FUNC, Analyze.Functype.EQUAL_FUNC, Analyze.Functype.NE_FUNC] →
      r.t = Analyze.cipher_type.equal) ∧
    (FT ∈ [Analyze.Functype.GT_FUNC, Analyze.Functype.GE_FUNC, Analyze.Functype.LT_FUNC,
        Analyze.Functype.LE_FUNC] → r.t = Analyze.cipher_type.order) ∧
    (∃ evs, (Analyze.do_analyze const_item rest
        (Analyze.Item.func FT func_name (a0 :: a1 :: more)) tr).1 =
          Analyze.AnalyzeEvent.analyze a0 r :: evs) ∧
    ((Analyze.analyze const_item rest a0 r).2 = none →
      ∃ evs, (Analyze.do_analyze const_item rest
        (Analyze.Item.func FT func_name (a0 :: a1 :: more)) tr).1 =
          (Analyze.analyze const_item rest a0 r).1 ++ Analyze.AnalyzeEvent.analyze a1 r :: evs) ∧
    (tr.t ≠ Analyze.cipher_type.none →
      const_item (Analyze.Item.func FT func_name (a0 :: a1 :: more)) = false →
      Analyze.analyze const_item rest (Analyze.Item.func FT func_name (a0 :: a1 :: more)) tr =
        (Analyze.AnalyzeEvent.analyze (Analyze.Item.func FT func_name (a0 :: a1 :: more)) tr ::
          ((Analyze.analyze const_item rest a0 r).andThen
            (Analyze.analyze const_item rest a1 r)).1,
         ((Analyze.analyze const_item rest a0 r).andThen
            (Analyze.analyze const_item rest a1 r)).2)) := by
  have hdo : Analyze.do_analyze const_item rest
      (Analyze.Item.func FT func_name (a0 :: a1 :: more)) tr =
      (Analyze.analyze const_item rest a0 r).andThen (Analyze.analyze const_item rest a1 r) := by
    subst hr
    simp only [List.mem_cons, List.mem_singleton, List.not_mem_nil, or_false] at hFT
    rcases hFT with h | h | h | h | h | h | h <;> subst h <;> rfl
  obtain ⟨hfirst, hsecond⟩ := andThen_calls const_item rest a0 a1 r
  refine ⟨hdo, ?_, ?_, ?_, ?_, ?_⟩
  · intro h
    subst hr
    simp only [List.mem_cons, List.mem_singleton, List.not_mem_nil, or_false] at h
    rcases h with h | h | h <;> subst h <;> rfl
  · intro h
    subst hr
    simp only [List.mem_cons, List.mem_singleton, List.not_mem_nil, or_false] at h
    rcases h with h | h | h | h <;> subst h <;> rfl
  · rw [hdo]
    exact hfirst
  · intro hok
    rw [hdo]
    exact hsecond hok
  · intro ht hc
    have hunf : Analyze.analyze const_item rest
        (Analyze.Item.func FT func_name (a0 :: a1 :: more)) tr =
        Analyze.analyzeWith const_item (Analyze.Item.func FT func_name (a0 :: a1 :: more)) tr
          (Analyze.do_analyze const_item rest
            (Analyze.Item.func FT func_name (a0 :: a1 :: more)) tr) := rfl
    rw [hunf, hdo]
    simp only [Analyze.analyzeWith, if_pos (And.intro ht hc)]

/-- C21 on `a = b` in a `WHERE` clause and on `a < b` in a projection: the two fields are
analysed with `equal` and with `order`. -/
theorem C21_compare_policy_witness :
    (Analyze.analyze Analyze.sampleConst Analyze.sampleRest
        (.func .EQ_FUNC "=" [.field "a", .field "b"]) Analyze.sampleWhere).1.map
      (fun e => match e with
        | .analyze _ tr => (true, tr.t)
        | .print_field _ tr => (false, tr.t)) =
      [(true, .plain), (true, .equal), (false, .equal), (true, .equal), (false, .equal)] ∧
    Analyze.do_analyze Analyze.sampleConst Analyze.sampleRest
        (.func .LT_FUNC "<" ([.field "a", .field "b"])) Analyze.sampleSelect =
      (Analyze.analyze Analyze.sampleConst Analyze.sampleRest (.field "a")
        (Analyze.cipher_type_reason.new (Analyze.CItemCompare_t2 .LT_FUNC) "compare func"
          (some (.func .LT_FUNC "<" [.field "a", .field "b"])) (some Analyze.sampleSelect)
          false)).andThen
      (Analyze.analyze Analyze.sampleConst Analyze.sampleRest (.field "b")
        (Analyze.cipher_type_reason.new (Analyze.CItemCompare_t2 .LT_FUNC) "compare func"
          (some (.func .LT_FUNC "<" [.field "a", .field "b"])) (some Analyze.sampleSelect)
          false)) :=
  ⟨rfl, (C21_compare_policy Analyze.sampleConst Analyze.sampleRest .LT_FUNC "<" (.field "a")
    (.field "b") [] Analyze.sampleSelect _ (by decide) rfl).1⟩

/-- C22 fails for a requirement other than `any`: in a `WHERE` clause, where the
requirement is `plain`, the operands of `a + b` are analysed with `plain`, not with
`homadd`. -/
theorem C22_counterexample :
    Analyze.sampleWhere.t = Analyze.cipher_type.plain ∧
    (Analyze.analyze Analyze.sampleConst Analyze.sampleRest
        (.func .UNKNOWN_FUNC "+" [.field "a", .field "b"]) Analyze.sampleWhere).1.map
      (fun e => match e with
        | .analyze _ tr => (true, tr.t)
        | .print_field _ tr => (false, tr.t)) =
      [(true, .plain), (true, .plain), (false, .plain), (true, .plain), (false, .plain)] ∧
    Analyze.do_analyze Analyze.sampleConst Analyze.sampleRest
        (.func .UNKNOWN_FUNC "+" [.field "a", .field "b"]) Analyze.sampleWhere =
      (Analyze.analyze Analyze.sampleConst Analyze.sampleRest (.field "a")
        (Analyze.cipher_type_reason.new .plain "additivex"
          (some (.func .UNKNOWN_FUNC "+" [.field "a", .field "b"])) (some Analyze.sampleWhere)
          false)).andThen
      (Analyze.analyze Analyze.sampleConst Analyze.sampleRest (.field "b")
        (Analyze.cipher_type_reason.new .plain "additivex"
          (some (.func .UNKNOWN_FUNC "+" [.field "a", .field "b"])) (some Analyze.sampleWhere)
          false)) :=
  ⟨rfl, rfl, rfl⟩

/-- C22, amended. The handler of `+` and `-` (`CItemAdditive`, found by the name of the
function) calls `analyze` on its first operand and then, when that has not failed, on
its second operand, both with the requirement `homadd` when the requirement of the node
is `any`, and both with the requirement `plain` when it is any other. -/
theorem C22_additive_policy (const_item : Analyze.Item → Bool)
    (rest : Analyze.Item → Analyze.cipher_type_reason → Analyze.Run)
    (ft : Analyze.Functype) (func_name : String) (a0 a1 : Analyze.Item)
    (more : List Analyze.Item) (tr : Analyze.cipher_type_reason)
    (hft : ft = Analyze.Functype.UNKNOWN_FUNC ∨ ft = Analyze.Functype.NOW_FUNC)
    (hname : func_name = "+" ∨ func_name = "-") :
    (tr.t = Analyze.cipher_type.any →
      Analyze.do_analyze const_item rest (Analyze.Item.func ft func_name (a0 :: a1 :: more)) tr =
        (Analyze.analyze const_item rest a0
          (Analyze.cipher_type_reason.new .homadd "additive"
            (some (Analyze.Item.func ft func_name (a0 :: a1 :: more))) (some tr) false)).andThen
        (Analyze.analyze const_item rest a1
          (Analyze.cipher_type_reason.new .homadd "additive"
            (some (Analyze.Item.func ft func_name (a0 :: a1 :: more))) (some tr) false))) ∧
    (tr.t ≠ Analyze.cipher_type.any →
      Analyze.do_analyze const_item rest (Analyze.Item.func ft func_name (a0 :: a1 :: more)) tr =
        (Analyze.analyze const_item rest a0
          (Analyze.cipher_type_reason.new .plain "additivex"
            (some (Analyze.Item.func ft func_name (a0 :: a1 :: more))) (some tr) false)).andThen
        (Analyze.analyze const_item rest a1
          (Analyze.cipher_type_reason.new .plain "additivex"
            (some (Analyze.Item.func ft func_name (a0 :: a1 :: more))) (some tr) false))) ∧
    (Analyze.cipher_type_reason.new Analyze.cipher_type.homadd "additive"
        (some (Analyze.Item.func ft func_name (a0 :: a1 :: more))) (some tr) false).t =
      Analyze.cipher_type.homadd ∧
    (Analyze.cipher_type_reason.new Analyze.cipher_type.plain "additivex"
        (some (Analyze.Item.func ft func_name (a0 :: a1 :: more))) (some tr) false).t =
      Analyze.cipher_type.plain := by
  have hdo : Analyze.do_analyze const_item rest
      (Analyze.Item.func ft func_name (a0 :: a1 :: more)) tr =
      (Analyze.analyze const_item rest a0
        (if tr.t = Analyze.cipher_type.any then
          Analyze.cipher_type_reason.new .homadd "additive"
            (some (Analyze.Item.func ft func_name (a0 :: a1 :: more))) (some tr) false
         else Analyze.cipher_type_reason.new .plain "additivex"
            (some (Analyze.Item.func ft func_name (a0 :: a1 :: more))) (some tr) false)).andThen
      (Analyze.analyze const_item rest a1
        (if tr.t = Analyze.cipher_type.any then
          Analyze.cipher_type_reason.new .homadd "additive"
            (some (Analyze.Item.func ft func_name (a0 :: a1 :: more))) (some tr) false
         else Analyze.cipher_type_reason.new .plain "additivex"
            (some (Analyze.Item.func ft func_name (a0 :: a1 :: more))) (some tr) false)) := by
    rcases hft with h | h <;> rcases hname with h' | h' <;> subst h <;> subst h' <;> rfl
  refine ⟨?_, ?_, rfl, rfl⟩
  · intro h
    rw [hdo, if_pos h]
  · intro h
    rw [hdo, if_neg h]

/-- C22, amended, on `a + b`: in a projection, where the requirement is `any`, the two
fields are analysed with `homadd`. -/
theorem C22_additive_policy_witness :
    (Analyze.analyze Analyze.sampleConst Analyze.sampleRest
        (.func .UNKNOWN_FUNC "+" [.field "a", .field "b"]) Analyze.sampleSelect).1.map
      (fun e => match e with
        | .analyze _ tr => (true, tr.t)
        | .print_field _ tr => (false, tr.t)) =
      [(true, .any), (true, .homadd), (false, .homadd), (true, .homadd), (false, .homadd)] ∧
    Analyze.do_analyze Analyze.sampleConst Analyze.sampleRest
        (.func .UNKNOWN_FUNC "+" [.field "a", .field "b"]) Analyze.sampleSelect =
      (Analyze.analyze Analyze.sampleConst Analyze.sampleRest (.field "a")
        (Analyze.cipher_type_reason.new .homadd "additive"
          (some (.func .UNKNOWN_FUNC "+" [.field "a", .field "b"])) (some Analyze.sampleSelect)
          false)).andThen
      (Analyze.analyze Analyze.sampleConst Analyze.sampleRest (.field "b")
        (Analyze.cipher_type_reason.new .homadd "additive"
          (some (.func .UNKNOWN_FUNC "+" [.field "a", .field "b"])) (some Analyze.sampleSelect)
          false)) :=
  ⟨rfl, (C22_additive_policy Analyze.sampleConst Analyze.sampleRest .UNKNOWN_FUNC "+"
    (.field "a") (.field "b") [] Analyze.sampleSelect (Or.inl rfl) (Or.inl rfl)).1 rfl⟩

/-- C23 fails for a pattern without wildcard: for `a LIKE 'abc'` the matched operand `a`
is analysed with `equal`, not with `like`; and for `a LIKE b`, whose pattern is not a
string constant, both operands are analysed with `plain`. -/
theorem C23_counterexample :
    (Analyze.analyze Analyze.sampleConst Analyze.sampleRest
        (.func .LIKE_FUNC "like" [.field "a", .string "abc"]) Analyze.sampleWhere).1.map
      (fun e => match e with
        | .analyze _ tr => (true, tr.t)
        | .print_field _ tr => (false, tr.t)) =
      [(true, .plain), (true, .equal), (false, .equal)] ∧
    (Analyze.analyze Analyze.sampleConst Analyze.sampleRest
        (.func .LIKE_FUNC "like" [.field "a", .field "b"]) Analyze.sampleWhere).1.map
      (fun e => match e with
        | .analyze _ tr => (true, tr.t)
        | .print_field _ tr => (false, tr.t)) =
      [(true, .plain), (true, .plain), (false, .plain), (true, .plain), (false, .plain)] :=
  ⟨by decide, by decide⟩

/-- C23, amended. The handler of `LIKE_FUNC` calls `analyze` on the matched operand with
the requirement `like` exactly when the pattern is a string constant that contains `%`
or `_`; when the pattern is a string constant with neither, the matched operand is
analysed with `equal`; in both cases the pattern is not analysed. When the pattern is
not a string constant, every argument is analysed with `plain`. -/
theorem C23_like_policy (const_item : Analyze.Item → Bool)
    (rest : Analyze.Item → Analyze.cipher_type_reason → Analyze.Run)
    (func_name : String) (a0 a1 : Analyze.Item) (more : List Analyze.Item)
    (tr : Analyze.cipher_type_reason) :
    (∀ s, a1 = Analyze.Item.string s → ('%' ∈ s.toList ∨ '_' ∈ s.toList) →
      Analyze.do_analyze const_item rest
          (Analyze.Item.func .LIKE_FUNC func_name (a0 :: a1 :: more)) tr =
        Analyze.analyze const_item rest a0
          (Analyze.cipher_type_reason.new .like "like"
            (some (Analyze.Item.func .LIKE_FUNC func_name (a0 :: a1 :: more))) (some tr)
            false)) ∧
    (∀ s, a1 = Analyze.Item.string s → ¬ '%' ∈ s.toList → ¬ '_' ∈ s.toList →
      Analyze.do_analyze const_item rest
          (Analyze.Item.func .LIKE_FUNC func_name (a0 :: a1 :: more)) tr =
        Analyze.analyze const_item rest a0
          (Analyze.cipher_type_reason.new .equal "like eq"
            (some (Analyze.Item.func .LIKE_FUNC func_name (a0 :: a1 :: more))) (some tr)
            false)) ∧
    ((∀ s, a1 ≠ Analyze.Item.string s) →
      Analyze.do_analyze const_item rest
          (Analyze.Item.func .LIKE_FUNC func_name (a0 :: a1 :: more)) tr =
        Analyze.analyzeArgs const_item rest (a0 :: a1 :: more)
          (Analyze.cipher_type_reason.new .plain "like non-const"
            (some (Analyze.Item.func .LIKE_FUNC func_name (a0 :: a1 :: more))) (some tr)
            false)) ∧
    (Analyze.cipher_type_reason.new Analyze.cipher_type.like "like"
        (some (Analyze.Item.func .LIKE_FUNC func_name (a0 :: a1 :: more))) (some tr) false).t =
      Analyze.cipher_type.like := by
  refine ⟨?_, ?_, ?_, rfl⟩
  · intro s hs hwild
    subst hs
    have hcond : ¬ (¬ '%' ∈ s.toList ∧ ¬ '_' ∈ s.toList) := by
      intro h
      rcases hwild with hw | hw
      · exact h.1 hw
      · exact h.2 hw
    have hdo : Analyze.do_analyze const_item rest
        (Analyze.Item.func .LIKE_FUNC func_name (a0 :: Analyze.Item.string s :: more)) tr =
        if ¬ '%' ∈ s.toList ∧ ¬ '_' ∈ s.toList then
          Analyze.analyze const_item rest a0
            (Analyze.cipher_type_reason.new .equal "like eq"
              (some (Analyze.Item.func .LIKE_FUNC func_name
                (a0 :: Analyze.Item.string s :: more))) (some tr) false)
        else
          Analyze.analyze const_item rest a0
            (Analyze.cipher_type_reason.new .like "like"
              (some (Analyze.Item.func .LIKE_FUNC func_name
                (a0 :: Analyze.Item.string s :: more))) (some tr) false) := rfl
    rw [hdo, if_neg hcond]
  · intro s hs h1 h2
    subst hs
    have hdo : Analyze.do_analyze const_item rest
        (Analyze.Item.func .LIKE_FUNC func_name (a0 :: Analyze.Item.string s :: more)) tr =
        if ¬ '%' ∈ s.toList ∧ ¬ '_' ∈ s.toList then
          Analyze.analyze const_item rest a0
            (Analyze.cipher_type_reason.new .equal "like eq"
              (some (Analyze.Item.func .LIKE_FUNC func_name
                (a0 :: Analyze.Item.string s :: more))) (some tr) false)
        else
          Analyze.analyze const_item rest a0
            (Analyze.cipher_type_reason.new .like "like"
              (some (Analyze.Item.func .LIKE_FUNC func_name
                (a0 :: Analyze.Item.string s :: more))) (some tr) false) := rfl
    rw [hdo, if_pos ⟨h1, h2⟩]
  · intro hns
    cases a1 with
    | string s => exact absurd rfl (hns s)
    | field n => rfl
    | func ft n args => rfl
    | other t args => rfl

/-- C23, amended, on `a LIKE 'ab%'`: the matched operand `a` is analysed with `like`, and
the pattern is not analysed. -/
theorem C23_like_policy_witness :
    (Analyze.analyze Analyze.sampleConst Analyze.sampleRest
        (.func .LIKE_FUNC "like" [.field "a", .string "ab%"]) Analyze.sampleWhere).1.map
      (fun e => match e with
        | .analyze _ tr => (true, tr.t)
        | .print_field _ tr => (false, tr.t)) =
      [(true, .plain), (true, .like), (false, .like)] ∧
    Analyze.do_analyze Analyze.sampleConst Analyze.sampleRest
        (.func .LIKE_FUNC "like" [.field "a", .string "ab%"]) Analyze.sampleWhere =
      Analyze.analyze Analyze.sampleConst Analyze.sampleRest (.field "a")
        (Analyze.cipher_type_reason.new .like "like"
          (some (.func .LIKE_FUNC "like" [.field "a", .string "ab%"]))
          (some Analyze.sampleWhere) false) :=
  ⟨by decide, (C23_like_policy Analyze.sampleConst Analyze.sampleRest "like" (.field "a")
    (.string "ab%") [] Analyze.sampleWhere).1 "ab%" rfl (Or.inl (by decide))⟩

/-! ## Layer stacks after layer removal -/

/-- The layers that the loop of `setOnionLevel` pops do not have the level `maxl`. -/
theorem popUntil_removed (maxl : SECLEVEL) :
    ∀ (k : Nat) (ls : List EncLayer), ∀ l ∈ (popUntil maxl k ls).2, l.level ≠ maxl := by
  intro k
  induction k with
  | zero => intro ls l hl; simp [popUntil] at hl
  | succ k ih =>
    intro ls l hl
    unfold popUntil at hl
    split at hl
    · simp at hl
    · rename_i top htop
      split at hl
      · rename_i hne
        simp only [List.mem_cons] at hl
        rcases hl with h | h
        · rw [h]; exact hne
        · exact ih _ l h
      · simp at hl

/-- The loop of `setOnionLevel`, given as many iterations as there are layers, leaves
the stack empty exactly when no layer has the level `maxl`. -/
theorem popUntil_empty_iff (maxl : SECLEVEL) (k : Nat) (ls : List EncLayer)
    (hlen : ls.length ≤ k) :
    (popUntil maxl k ls).1 = [] ↔ ∀ l ∈ ls, l.level ≠ maxl := by
  obtain ⟨hsplit, hlast⟩ := popUntil_spec maxl k ls hlen
  constructor
  · intro hnil l hl
    rw [hsplit, hnil, List.nil_append, List.mem_reverse] at hl
    exact popUntil_removed maxl k ls l hl
  · intro hall
    rcases hlast with h | h
    · exact h
    · exfalso
      cases hg : (popUntil maxl k ls).1.getLast? with
      | none => simp [hg] at h
      | some top =>
        simp only [hg, Option.map_some', Option.some.injEq] at h
        have hmem : top ∈ ls := by
          rw [hsplit]
          exact List.mem_append_left _ (List.mem_of_getLast?_eq_some hg)
        exact hall top hmem h

/-- C26 fails for `setOnionLevel`: on the three-layer `oDET` onion of the sample field,
whose levels are 1, 2 and 3, `setOnionLevel(oDET, 0)` returns true and leaves the stack
empty, so that `getSecLevel` then fails its assertion `layers.size() > 0`; and
`removeOnionLayer` on an onion with a single layer pops that layer and then reads
`back()` of the empty stack. -/
theorem C26_counterexample :
    (setOnionLevel .oDET 0 { fm := sampleField, trace := [] }).1 = .ok true ∧
    (setOnionLevel .oDET 0 { fm := sampleField, trace := [] }).2.fm.layersOf .oDET = [] ∧
    (setOnionLevel .oDET 0 { fm := sampleField, trace := [] }).2.fm.curLevel .oDET = none ∧
    (setOnionLevel .oDET 0 { fm := sampleField, trace := [] }).2.fm.getOnionLevel 99 .oDET =
      .error (.assertion "layers.size() > 0") ∧
    (removeOnionLayer acceptAll "db" .oDET { fm := sampleOneLayer, trace := [] }).1 =
      .error (.undefined "om->layers.back() of an empty vector") ∧
    (removeOnionLayer acceptAll "db" .oDET { fm := sampleOneLayer, trace := [] }).2.fm.layersOf
      .oDET = [] :=
  ⟨rfl, rfl, rfl, rfl, rfl, rfl⟩

/-- C26, amended. When `removeOnionLayer` returns a level, and when `adjustOnion`
returns, the stack of the onion has at least one layer and its current level is defined
(the level returned, and `tolevel`). When `setOnionLevel(o, maxl)` returns false the
field is unchanged and the stack has a layer; when it returns true the stack is left
empty exactly when no layer of the onion has the level `maxl`, and else its current
level is `maxl`. -/
theorem C26_stack_after_removal (INVALID : SECLEVEL) (srv : Server) (cur_db : String)
    (o : onion) (s s1 : AdjState) :
    (∀ l, removeOnionLayer srv cur_db o s = (.ok l, s1) →
      s1.fm.layersOf o ≠ [] ∧ s1.fm.curLevel o = some l) ∧
    (∀ tolevel, adjustOnion INVALID srv cur_db o tolevel s = (.ok (), s1) →
      s1.fm.layersOf o ≠ [] ∧ s1.fm.curLevel o = some tolevel) ∧
    (∀ maxl, setOnionLevel o maxl s = (.ok false, s1) →
      s1 = s ∧ s1.fm.layersOf o ≠ [] ∧ ∃ l, s1.fm.curLevel o = some l) ∧
    (∀ maxl, setOnionLevel o maxl s = (.ok true, s1) →
      (s1.fm.layersOf o = [] ↔ ∀ l ∈ s.fm.layersOf o, l.level ≠ maxl) ∧
      (s1.fm.layersOf o ≠ [] → s1.fm.curLevel o = some maxl)) := by
  have hne : ∀ (fm : FieldMeta) (l : SECLEVEL), fm.curLevel o = some l → fm.layersOf o ≠ [] := by
    intro fm l h hnil
    simp [FieldMeta.curLevel, hnil] at h
  refine ⟨?_, ?_, ?_, ?_⟩
  · intro l h
    obtain ⟨top, -, hcur, -⟩ := removeOnionLayer_ok srv cur_db o s s1 l h
    exact ⟨hne _ _ hcur, hcur⟩
  · intro tolevel h
    obtain ⟨removed, before, -, -, hcur, -⟩ := adjustOnion_ok INVALID srv cur_db o tolevel s s1 h
    exact ⟨hne _ _ hcur, hcur⟩
  · intro maxl h
    obtain ⟨removed, before, hbefore, -, hfalse, -⟩ := setOnionLevel_ok o maxl s s1 false h
    obtain ⟨hs, -⟩ := hfalse rfl
    subst hs
    exact ⟨rfl, hne _ _ hbefore, before, hbefore⟩
  · intro maxl h
    obtain ⟨removed, before, -, -, -, htrue, -⟩ := setOnionLevel_ok o maxl s s1 true h
    obtain ⟨-, hor⟩ := htrue rfl
    have hlay : ∃ om, mapFind o s.fm.onions = some om ∧
        s1.fm.layersOf o = (popUntil maxl om.layers.length om.layers).1 := by
      unfold setOnionLevel at h
      split at h
      · simp at h
      · rename_i om hom
        split at h
        · simp at h
        · split at h
          · simp only [Prod.mk.injEq, true_and] at h
            subst h
            exact ⟨om, hom, layersOf_setOnion_self s.fm o om _ hom⟩
          · simp at h
    obtain ⟨om, hom, hs1⟩ := hlay
    have hs : s.fm.layersOf o = om.layers := by simp [FieldMeta.layersOf, hom]
    refine ⟨?_, ?_⟩
    · rw [hs1, hs]
      exact popUntil_empty_iff maxl om.layers.length om.layers (Nat.le_refl _)
    · intro hnon
      rcases hor with h0 | h0
      · exact absurd h0 hnon
      · exact h0

/-- C26, amended, on the sample field: `setOnionLevel(oDET, 2)` pops the layer of level
3 and leaves the levels 1 and 2, and `adjustOnion` to the level 2 leaves a stack with
the current level 2. -/
theorem C26_stack_after_removal_witness :
    (setOnionLevel .oDET 2 { fm := sampleField, trace := [] }).1 = .ok true ∧
    ((setOnionLevel .oDET 2 { fm := sampleField, trace := [] }).2.fm.layersOf .oDET).map
      EncLayer.level = [1, 2] ∧
    ((adjustOnion 99 acceptAll "db" .oDET 2 { fm := sampleField, trace := [] }).2.fm.layersOf
        .oDET ≠ [] ∧
      (adjustOnion 99 acceptAll "db" .oDET 2 { fm := sampleField, trace := [] }).2.fm.curLevel
        .oDET = some 2) :=
  ⟨rfl, rfl,
   (C26_stack_after_removal 99 acceptAll "db" .oDET { fm := sampleField, trace := [] }
      (adjustOnion 99 acceptAll "db" .oDET 2 { fm := sampleField, trace := [] }).2).2.1 2 rfl⟩

/-! ## The `SET` clause of a rewritten `UPDATE` -/

/-- The inner loop of `rewrite_update_lex` over the onions of the intersection: one
rewritten field and one rewritten value per onion, and the last rewritten field. -/
theorem rewriteOnions_ok (env : UpdateEnv) (i val : Item) (fm : FieldMeta) :
    ∀ (osl : List (onion × LevelFieldPair)) (st st1 : UpdateState) (r r1 : Option Item),
      rewriteOnions env i val fm osl st r = .ok (st1, r1) →
      ∃ its vs : List Item,
        List.Forall₂ (fun (pair : onion × LevelFieldPair) it =>
          env.do_rewrite i { o := pair.1, l := pair.2.1, key := some fm } = .ok it) osl its ∧
        List.Forall₂ (fun (pair : onion × LevelFieldPair) v =>
          env.do_rewrite val { o := pair.1, l := pair.2.1, key := some fm } = .ok v) osl vs ∧
        st1 = { st with res_items := st.res_items ++ its, res_vals := st.res_vals ++ vs } ∧
        r1 = (match its.getLast? with
              | some fd => some fd
              | none => r) := by
  intro osl
  induction osl with
  | nil =>
    intro st st1 r r1 h
    simp only [rewriteOnions, Except.ok.injEq, Prod.mk.injEq] at h
    refine ⟨[], [], List.Forall₂.nil, List.Forall₂.nil, ?_, ?_⟩
    · rw [← h.1]; simp
    · rw [← h.2]; rfl
  | cons pair rest ih =>
    intro st st1 r r1 h
    unfold rewriteOnions at h
    simp only at h
    split at h
    · simp at h
    · split at h
      · simp at h
      · rename_i new_fd hfd
        split at h
        · simp at h
        · split at h
          · simp at h
          · rename_i new_val hval
            obtain ⟨its, vs, hits, hvs, hst, hr⟩ := ih _ _ _ _ h
            refine ⟨new_fd :: its, new_val :: vs, List.Forall₂.cons hfd hits,
              List.Forall₂.cons hval hvs, ?_, ?_⟩
            · rw [hst]; simp
            · rw [hr]
              cases its with
              | nil => rfl
              | cons a l =>
                obtain ⟨x, hx⟩ : ∃ x, (a :: l).getLast? = some x :=
                  ⟨_, List.getLast?_eq_getLast _ (List.cons_ne_nil _ _)⟩
                simp [List.getLast?_cons_cons, hx]

/-- One round of the loop of `rewrite_update_lex` over the pairs of the `SET` clause. -/
theorem setLoop_step (env : UpdateEnv) (i val : Item) (fds vals : List Item)
    (st st2 : UpdateState) (h : setLoop env (i :: fds) (val :: vals) st = .ok st2) :
    ∃ table name fm, i = Item.field table name ∧ env.getFieldMeta table name = some fm ∧
      (fm.isEncrypted = false →
        setLoop env fds vals
          { st with res_items := st.res_items ++ [i], res_vals := st.res_vals ++ [val] } =
            .ok st2) ∧
      (fm.isEncrypted = true →
        ∃ (es : EncSet) (its vs salt_items salt_vals : List Item) (st1 : UpdateState),
          env.es_out val = some es ∧
          List.Forall₂ (fun (pair : onion × LevelFieldPair) it =>
            env.do_rewrite i { o := pair.1, l := pair.2.1, key := some fm } = .ok it)
            (env.intersect es (env.encSetOf fm)).osl its ∧
          List.Forall₂ (fun (pair : onion × LevelFieldPair) v =>
            env.do_rewrite val { o := pair.1, l := pair.2.1, key := some fm } = .ok v)
            (env.intersect es (env.encSetOf fm)).osl vs ∧
          st1.res_items = st.res_items ++ its ++ salt_items ∧
          st1.res_vals = st.res_vals ++ vs ++ salt_vals ∧
          ((fm.has_salt && (mapFind fm st.salts).isNone &&
              env.needsSalt (env.intersect es (env.encSetOf fm))) = true →
            (∃ fd, its.getLast? = some fd ∧
              salt_items = [env.make_item fd fm.salt_name]) ∧
            salt_vals = [Item.int (env.randomValue st.draws)] ∧
            st1.salts = st.salts ++ [(fm, env.randomValue st.draws)] ∧
            st1.draws = st.draws + 1) ∧
          ((fm.has_salt && (mapFind fm st.salts).isNone &&
              env.needsSalt (env.intersect es (env.encSetOf fm))) = false →
            salt_items = [] ∧ salt_vals = [] ∧ st1.salts = st.salts ∧
            st1.draws = st.draws) ∧
          setLoop env fds vals st1 = .ok st2) := by
  unfold setLoop at h
  split at h
  · rename_i table name
    split at h
    · simp at h
    · rename_i fm hfm
      refine ⟨table, name, fm, rfl, hfm, ?_, ?_⟩
      · intro hplain
        simpa [hplain] using h
      · intro henc
        simp only [henc, Bool.true_eq_false, if_false] at h
        split at h
        · simp at h
        · rename_i es hes
          split at h
          · simp at h
          · split at h
            · simp at h
            · rename_i st2a rew_fd hro
              obtain ⟨its, vs, hits, hvs, hst, hr⟩ := rewriteOnions_ok env _ val fm _ _ _ _ _ hro
              cases hsalt : (fm.has_salt && (mapFind fm st.salts).isNone &&
                  env.needsSalt (env.intersect es (env.encSetOf fm))) with
              | true =>
                simp only [hsalt, if_true] at h hst
                split at h
                · simp at h
                · rename_i fd
                  have hfd : its.getLast? = some fd := by
                    cases hl : its.getLast? with
                    | none => simp [hl] at hr
                    | some x =>
                      simp only [hl, Option.some.injEq] at hr
                      rw [hr]
                  refine ⟨es, its, vs, [env.make_item fd fm.salt_name],
                    [Item.int (env.randomValue st.draws)], _, hes, hits, hvs, ?_, ?_, ?_, ?_, h⟩
                  · simp [hst]
                  · simp [hst]
                  · intro _
                    exact ⟨⟨fd, hfd, rfl⟩, rfl, by simp [hst], by simp [hst]⟩
                  · intro hc
                    rw [hsalt] at hc
                    exact absurd hc (by simp)
              | false =>
                simp only [hsalt, Bool.false_eq_true, if_false] at h hst
                refine ⟨es, its, vs, [], [], _, hes, hits, hvs, ?_, ?_, ?_, ?_, h⟩
                · simp [hst]
                · simp [hst]
                · intro hc
                  rw [hsalt] at hc
                  exact absurd hc (by simp)
                · intro _
                  exact ⟨rfl, rfl, by simp [hst], by simp [hst]⟩
  · simp at h

/-- A loop over the `SET` pairs that returns has walked as many fields as values, and it
adds as many columns as values to the rewritten clause. -/
theorem setLoop_lengths (env : UpdateEnv) :
    ∀ (fds vals : List Item) (st st2 : UpdateState), setLoop env fds vals st = .ok st2 →
      fds.length = vals.length ∧
      (st.res_items.length = st.res_vals.length →
        st2.res_items.length = st2.res_vals.length) := by
  intro fds
  induction fds with
  | nil =>
    intro vals st st2 h
    unfold setLoop at h
    split at h
    · simp only [Except.ok.injEq] at h
      subst h
      exact ⟨rfl, fun e => e⟩
    · simp at h
  | cons i fds ih =>
    intro vals st st2 h
    cases vals with
    | nil =>
      exfalso
      unfold setLoop at h
      split at h
      · split at h
        · simp at h
        · simp at h
      · simp at h
    | cons val vals =>
      obtain ⟨table, name, fm, -, -, hplain, henc⟩ := setLoop_step env i val fds vals st st2 h
      cases hfm : fm.isEncrypted with
      | false =>
        obtain ⟨hlen, hres⟩ := ih _ _ _ (hplain hfm)
        exact ⟨by simp [hlen], fun e => hres (by simp [e])⟩
      | true =>
        obtain ⟨es, its, vs, salt_items, salt_vals, st1, -, hits, hvs, hi, hv, hyes, hno, hrest⟩ :=
          henc hfm
        obtain ⟨hlen, hres⟩ := ih _ _ _ hrest
        refine ⟨by simp [hlen], fun e => hres ?_⟩
        have h1 : its.length = vs.length := by rw [← hits.length_eq, hvs.length_eq]
        have h2 : salt_items.length = salt_vals.length := by
          cases hs : (fm.has_salt && (mapFind fm st.salts).isNone &&
              env.needsSalt (env.intersect es (env.encSetOf fm))) with
          | true =>
            obtain ⟨⟨fd, -, hsi⟩, hsv, -⟩ := hyes hs
            rw [hsi, hsv]
            rfl
          | false =>
            obtain ⟨hsi, hsv, -⟩ := hno hs
            rw [hsi, hsv]
        rw [hi, hv]
        simp only [List.length_append]
        omega

/-- A `rewrite_update_lex` that returns has run the loop over the `SET` pairs to its
end; on the in-place path the result is the `UPDATE` with the columns and values that
the loop collected. -/
theorem rewrite_update_lex_loop (env : UpdateEnv) (renv : RefreshEnv) (lex : UpdateLex)
    (salts : List (FieldMeta × Nat)) (r : UpdateResult)
    (h : rewrite_update_lex env renv lex salts = .ok r) :
    ∃ (new_where : Option Item) (st : UpdateState),
      setLoop env lex.item_list lex.value_list
        { res_items := [], res_vals := [], invalids := false, salts := salts, draws := 0 } =
          .ok st ∧
      (r.path = .inPlace →
        r.lexes = [.update { items := st.res_items, vals := st.res_vals,
                             where_ := new_where }]) := by
  unfold rewrite_update_lex at h
  split at h
  · simp at h
  · split at h
    · simp at h
    · split at h
      · simp at h
      · rename_i new_where hf
        split at h
        · simp at h
        · split at h
          · simp at h
          · rename_i st hst
            refine ⟨new_where, st, hst, ?_⟩
            simp only at h
            split at h
            · simp only [Except.ok.injEq] at h
              subst h
              intro _
              rfl
            · split at h
              · simp at h
              · simp only [Except.ok.injEq] at h
                subst h
                intro hp
                simp at hp

/-- C27. `rewrite_update_lex` fails on a `SET` clause with more values than fields or
fewer. When it returns, the loop over the `SET` pairs has collected as many columns as
values (they are the `SET` clause of the `UPDATE` returned on the in-place path); and in
each round of the loop a field that is not encrypted adds its own field and value
unchanged, while an encrypted field adds one rewritten column and one rewritten value
for each onion of the intersection, followed by the salt column and the salt value
exactly when a salt is drawn for the field in that round. -/
theorem C27_update_set_pairs (env : UpdateEnv) (renv : RefreshEnv) (lex : UpdateLex)
    (salts : List (FieldMeta × Nat)) :
    (lex.item_list.length ≠ lex.value_list.length →
      ∃ f, rewrite_update_lex env renv lex salts = .error f) ∧
    (∀ r, rewrite_update_lex env renv lex salts = .ok r →
      ∃ (new_where : Option Item) (st : UpdateState),
        setLoop env lex.item_list lex.value_list
          { res_items := [], res_vals := [], invalids := false, salts := salts, draws := 0 } =
            .ok st ∧
        st.res_items.length = st.res_vals.length ∧
        (r.path = .inPlace →
          r.lexes = [.update { items := st.res_items, vals := st.res_vals,
                               where_ := new_where }])) ∧
    (∀ (i val : Item) (fds vals : List Item) (st st2 : UpdateState),
      setLoop env (i :: fds) (val :: vals) st = .ok st2 →
      ∃ table name fm, i = Item.field table name ∧ env.getFieldMeta table name = some fm ∧
        (fm.isEncrypted = false →
          setLoop env fds vals
            { st with res_items := st.res_items ++ [i], res_vals := st.res_vals ++ [val] } =
              .ok st2) ∧
        (fm.isEncrypted = true →
          ∃ (es : EncSet) (its vs salt_items salt_vals : List Item) (st1 : UpdateState),
            env.es_out val = some es ∧
            its.length = (env.intersect es (env.encSetOf fm)).osl.length ∧
            vs.length = (env.intersect es (env.encSetOf fm)).osl.length ∧
            List.Forall₂ (fun (pair : onion × LevelFieldPair) it =>
              env.do_rewrite i { o := pair.1, l := pair.2.1, key := some fm } = .ok it)
              (env.intersect es (env.encSetOf fm)).osl its ∧
            List.Forall₂ (fun (pair : onion × LevelFieldPair) v =>
              env.do_rewrite val { o := pair.1, l := pair.2.1, key := some fm } = .ok v)
              (env.intersect es (env.encSetOf fm)).osl vs ∧
            st1.res_items = st.res_items ++ its ++ salt_items ∧
            st1.res_vals = st.res_vals ++ vs ++ salt_vals ∧
            (st1.draws = st.draws + 1 ∨ st1.draws = st.draws) ∧
            (st1.draws = st.draws + 1 →
              (∃ fd, salt_items = [env.make_item fd fm.salt_name]) ∧
              salt_vals = [Item.int (env.randomValue st.draws)] ∧
              st1.salts = st.salts ++ [(fm, env.randomValue st.draws)]) ∧
            (st1.draws = st.draws →
              salt_items = [] ∧ salt_vals = [] ∧ st1.salts = st.salts) ∧
            setLoop env fds vals st1 = .ok st2)) := by
  have hloop := rewrite_update_lex_loop env renv lex salts
  refine ⟨?_, ?_, ?_⟩
  · intro hne
    cases hr : rewrite_update_lex env renv lex salts with
    | error f => exact ⟨f, rfl⟩
    | ok r =>
      obtain ⟨-, st, hst, -⟩ := hloop r hr
      exact absurd (setLoop_lengths env _ _ _ _ hst).1 hne
  · intro r hr
    obtain ⟨new_where, st, hst, hin⟩ := hloop r hr
    exact ⟨new_where, st, hst, (setLoop_lengths env _ _ _ _ hst).2 rfl, hin⟩
  · intro i val fds vals st st2 h
    obtain ⟨table, name, fm, hi, hfm, hplain, henc⟩ := setLoop_step env i val fds vals st st2 h
    refine ⟨table, name, fm, hi, hfm, hplain, ?_⟩
    intro he
    obtain ⟨es, its, vs, salt_items, salt_vals, st1, hes, hits, hvs, hri, hrv, hyes, hno, hrest⟩ :=
      henc he
    refine ⟨es, its, vs, salt_items, salt_vals, st1, hes, hits.length_eq.symm,
      hvs.length_eq.symm, hits, hvs, hri, hrv, ?_, ?_, ?_, hrest⟩
    · cases hs : (fm.has_salt && (mapFind fm st.salts).isNone &&
          env.needsSalt (env.intersect es (env.encSetOf fm))) with
      | true => exact Or.inl (hyes hs).2.2.2
      | false => exact Or.inr (hno hs).2.2.2
    · intro hd
      cases hs : (fm.has_salt && (mapFind fm st.salts).isNone &&
          env.needsSalt (env.intersect es (env.encSetOf fm))) with
      | true =>
        obtain ⟨⟨fd, -, hsi⟩, hsv, hsalts, -⟩ := hyes hs
        exact ⟨⟨fd, hsi⟩, hsv, hsalts⟩
      | false =>
        have := (hno hs).2.2.2
        omega
    · intro hd
      cases hs : (fm.has_salt && (mapFind fm st.salts).isNone &&
          env.needsSalt (env.intersect es (env.encSetOf fm))) with
      | true =>
        have := (hyes hs).2.2.2
        omega
      | false =>
        obtain ⟨hsi, hsv, hsalts, -⟩ := hno hs
        exact ⟨hsi, hsv, hsalts⟩

/-- C27 on the sample `UPDATE`: with two values for one field, and with one value for
two fields, the rewriting fails; with one value for the one field it returns. -/
theorem C27_update_set_pairs_witness :
    rewrite_update_lex sampleUpdateEnv (sampleRefreshEnv [])
        { sampleUpdateLex with value_list := [.str "x", .str "y"] } [] =
      .error (.assertion "NULL == v") ∧
    rewrite_update_lex sampleUpdateEnv (sampleRefreshEnv [])
        { sampleUpdateLex with item_list := [.field "t" "salary", .field "t" "salary"] } [] =
      .error (.assertion "val != NULL") ∧
    (∃ f, rewrite_update_lex sampleUpdateEnv (sampleRefreshEnv [])
        { sampleUpdateLex with value_list := [.str "x", .str "y"] } [] = .error f) ∧
    (∃ (new_where : Option Item) (st : UpdateState),
      setLoop sampleUpdateEnv sampleUpdateLex.item_list sampleUpdateLex.value_list
          { res_items := [], res_vals := [], invalids := false, salts := [], draws := 0 } =
            .ok st ∧
        st.res_items.length = st.res_vals.length ∧
        (UpdatePath.refresh = .inPlace →
          [OutLex.update { items := [.field "t" "salary"], vals := [.str "x"], where_ := none }] =
            [.update { items := st.res_items, vals := st.res_vals, where_ := new_where }])) :=
  ⟨rfl, rfl,
   (C27_update_set_pairs sampleUpdateEnv (sampleRefreshEnv [])
      { sampleUpdateLex with value_list := [.str "x", .str "y"] } []).1 (by decide),
   (C27_update_set_pairs sampleUpdateEnv (sampleRefreshEnv []) sampleUpdateLex []).2.1
      { lexes := [.update { items := [.field "t" "salary"], vals := [.str "x"],
                            where_ := none }],
        path := .refresh } rfl⟩

/-! ## Return metadata of the projections -/

/-- `m[k] = v` for a key that the map does not have adds the entry at the end. -/
theorem mapAssign_fresh {K V : Type} [DecidableEq K] (k : K) (v : V) (m : List (K × V))
    (h : mapFind k m = none) : mapAssign k v m = m ++ [(k, v)] := by
  simp [mapAssign, h]

/-- The position after the last one recorded is not recorded. -/
theorem mapFind_range_none {V : Type} (m : List (Nat × V)) (n : Nat)
    (h : m.map Prod.fst = List.range n) : mapFind n m = none := by
  apply mapFind_none_of_not_mem
  rw [h]
  simp

/-- The entry added last is found. -/
theorem mapFind_append_fresh {K V : Type} [DecidableEq K] (k : K) (v : V) :
    ∀ (m : List (K × V)), mapFind k m = none → mapFind k (m ++ [(k, v)]) = some v := by
  intro m
  induction m with
  | nil => intro _; simp [mapFind]
  | cons p rest ih =>
    obtain ⟨k', v'⟩ := p
    intro h
    simp only [mapFind] at h
    split at h
    · simp at h
    · rename_i hk
      simp only [List.cons_append, mapFind, if_neg hk]
      exact ih h

/-- Writing again the entry added last replaces it. -/
theorem mapAssign_append_last {K V : Type} [DecidableEq K] (k : K) (v v1 : V) :
    ∀ (m : List (K × V)), mapFind k m = none →
      mapAssign k v1 (m ++ [(k, v)]) = m ++ [(k, v1)] := by
  intro m h
  have hsome : (mapFind k (m ++ [(k, v)])).isSome = true := by
    rw [mapFind_append_fresh k v m h]; rfl
  simp only [mapAssign, hsome, if_true]
  clear hsome
  induction m with
  | nil => simp [mapReplace]
  | cons p rest ih =>
    obtain ⟨k', v'⟩ := p
    simp only [mapFind] at h
    split at h
    · simp at h
    · rename_i hk
      simp only [List.cons_append, mapReplace, if_neg hk, List.append_eq, ih h]

/-- What a `rewrite_proj` that returns has done, when the positions recorded before it
are `0 .. pos - 1`: one entry for the item, one column for it, and a salt entry and a
salt column when the chosen `OLK` needs a salt. -/
theorem rewrite_proj_ok (penv : ProjEnv) (i : Item) (es_out : EncSet) (st st1 : ProjState)
    (hkeys : st.rmeta.rfmeta.map Prod.fst = List.range st.pos)
    (h : rewrite_proj penv i es_out st = .ok st1) :
    ∃ ir more_entries more_items,
      penv.rewrite i (penv.chooseOne es_out) = .ok ir ∧
      st1.rmeta.rfmeta = st.rmeta.rfmeta ++
        (st.pos, { penv.dflt with
            is_salt := false, olk := penv.chooseOne es_out,
            pos_salt := if needsSalt penv.needsSaltLevel (penv.chooseOne es_out)
              then ((st.pos + 1 : Nat) : Int) else -1,
            field_called := penv.nameOf i }) :: more_entries ∧
      st1.newList = st.newList ++ ir :: more_items ∧
      st1.pos = st.pos + 1 + more_entries.length ∧
      more_items.length = more_entries.length ∧
      (needsSalt penv.needsSaltLevel (penv.chooseOne es_out) = false → more_entries = []) ∧
      (needsSalt penv.needsSaltLevel (penv.chooseOne es_out) = true →
        more_entries = [(st.pos + 1, { penv.dflt with
            is_salt := true, olk := { o := .oINVALID, l := penv.INVALID, key := none },
            pos_salt := -1 })]) := by
  have hfresh := mapFind_range_none st.rmeta.rfmeta st.pos hkeys
  have hmain : ∀ b : Bool,
      (addToReturn penv.dflt st.rmeta st.pos (penv.chooseOne es_out) b (penv.nameOf i)).rfmeta =
        st.rmeta.rfmeta ++ [(st.pos, { penv.dflt with
            is_salt := false, olk := penv.chooseOne es_out,
            pos_salt := if b then ((st.pos + 1 : Nat) : Int) else -1,
            field_called := penv.nameOf i })] := by
    intro b
    simp only [addToReturn, addToReturn4, ReturnMeta.at, mapAssign_fresh _ _ _ hfresh,
      mapFind_append_fresh _ _ _ hfresh, Option.getD_some, mapAssign_append_last _ _ _ _ hfresh]
  unfold rewrite_proj at h
  simp only at h
  split at h
  · simp at h
  · rename_i ir hir
    cases huse : needsSalt penv.needsSaltLevel (penv.chooseOne es_out) with
    | false =>
      simp only [huse, Bool.false_eq_true, if_false, Except.ok.injEq] at h
      subst h
      refine ⟨ir, [], [], hir, ?_, rfl, rfl, rfl, fun _ => rfl, fun hc => by simp at hc⟩
      simp only [hmain false, Bool.false_eq_true, if_false]
    | true =>
      simp only [huse, if_true] at h
      split at h
      · simp at h
      · rename_i key hkey
        simp only [Except.ok.injEq] at h
        subst h
        have hkeys1 : ∀ rf : ReturnField,
            (st.rmeta.rfmeta ++ [(st.pos, rf)]).map Prod.fst = List.range (st.pos + 1) := by
          intro rf
          simp [hkeys, List.range_succ]
        refine ⟨ir, _, [penv.make_item ir key.salt_name], hir, ?_, by simp, ?_, ?_,
          fun hc => by simp at hc, fun _ => rfl⟩
        · simp only [addSaltToReturn, hmain true, if_true]
          rw [mapAssign_fresh _ _ _ (mapFind_range_none _ _ (hkeys1 _))]
          simp
        · simp
        · simp

/-- One `rewrite_proj` keeps the invariant of the loop, and adds one entry that is not a
salt, with the chosen `OLK` and the name of the item. -/
theorem rewrite_proj_inv (penv : ProjEnv) (i : Item) (es_out : EncSet) (st st1 : ProjState)
    (hinv : st.inv penv) (h : rewrite_proj penv i es_out st = .ok st1) :
    st1.inv penv ∧
    (st1.rmeta.rfmeta.filter fun e => !e.2.is_salt).map
        (fun e => (some e.2.olk, e.2.field_called)) =
      (st.rmeta.rfmeta.filter fun e => !e.2.is_salt).map
        (fun e => (some e.2.olk, e.2.field_called)) ++
      [(some (penv.chooseOne es_out), penv.nameOf i)] := by
  obtain ⟨hkeys, hpos, h3, h4, h5⟩ := hinv
  obtain ⟨ir, more_entries, more_items, -, hrf, hnl, hp1, hlen, hno, hyes⟩ :=
    rewrite_proj_ok penv i es_out st st1 hkeys h
  cases huse : needsSalt penv.needsSaltLevel (penv.chooseOne es_out) with
  | false =>
    have hme := hno huse
    subst hme
    have hmi : more_items = [] := List.length_eq_zero.mp (by simpa using hlen)
    subst hmi
    simp only [huse, Bool.false_eq_true, if_false] at hrf
    refine ⟨⟨?_, ?_, ?_, ?_, ?_⟩, ?_⟩
    · rw [hrf, hp1]
      simp [hkeys, List.range_succ]
    · rw [hp1, hnl, hpos]
      simp
    · intro p rf hmem hns
      rw [hrf] at hmem
      rcases List.mem_append.mp hmem with hm | hm
      · exact h3 p rf hm hns
      · simp only [List.mem_singleton, Prod.mk.injEq] at hm
        obtain ⟨hp, hrf'⟩ := hm
        subst hp hrf'
        simp [huse]
    · intro p rf hmem hs
      rw [hrf] at hmem
      rcases List.mem_append.mp hmem with hm | hm
      · exact h4 p rf hm hs
      · simp only [List.mem_singleton, Prod.mk.injEq] at hm
        obtain ⟨-, hrf'⟩ := hm
        subst hrf'
        simp at hs
    · intro p rf hmem hge
      rw [hrf] at hmem
      rcases List.mem_append.mp hmem with hm | hm
      · obtain ⟨rf1, hin, hsalt⟩ := h5 p rf hm hge
        exact ⟨rf1, by rw [hrf]; exact List.mem_append_left _ hin, hsalt⟩
      · simp only [List.mem_singleton, Prod.mk.injEq] at hm
        obtain ⟨-, hrf'⟩ := hm
        subst hrf'
        simp at hge
    · rw [hrf]
      simp [List.filter_append]
  | true =>
    have hme := hyes huse
    subst hme
    simp only [huse, if_true] at hrf
    refine ⟨⟨?_, ?_, ?_, ?_, ?_⟩, ?_⟩
    · rw [hrf, hp1]
      simp [hkeys, List.range_succ]
    · rw [hp1, hnl, hpos]
      simp only [List.length_singleton] at hlen
      simp [hlen]
    · intro p rf hmem hns
      rw [hrf] at hmem
      rcases List.mem_append.mp hmem with hm | hm
      · exact h3 p rf hm hns
      · simp only [List.mem_cons, List.mem_singleton, Prod.mk.injEq, List.not_mem_nil,
          or_false] at hm
        rcases hm with ⟨hp, hrf'⟩ | ⟨hp, hrf'⟩
        · subst hp hrf'
          simp [huse]
        · subst hrf'
          simp at hns
    · intro p rf hmem hs
      rw [hrf] at hmem
      rcases List.mem_append.mp hmem with hm | hm
      · exact h4 p rf hm hs
      · simp only [List.mem_cons, List.mem_singleton, Prod.mk.injEq, List.not_mem_nil,
          or_false] at hm
        rcases hm with ⟨-, hrf'⟩ | ⟨-, hrf'⟩
        · subst hrf'
          simp at hs
        · subst hrf'
          rfl
    · intro p rf hmem hge
      rw [hrf] at hmem
      rcases List.mem_append.mp hmem with hm | hm
      · obtain ⟨rf1, hin, hsalt⟩ := h5 p rf hm hge
        exact ⟨rf1, by rw [hrf]; exact List.mem_append_left _ hin, hsalt⟩
      · simp only [List.mem_cons, List.mem_singleton, Prod.mk.injEq, List.not_mem_nil,
          or_false] at hm
        rcases hm with ⟨hp, hrf'⟩ | ⟨-, hrf'⟩
        · subst hp
          exact ⟨{ penv.dflt with
              is_salt := true, olk := { o := .oINVALID, l := penv.INVALID, key := none },
              pos_salt := -1 }, by rw [hrf]; simp, rfl⟩
        · subst hrf'
          simp at hge
    · rw [hrf]
      simp [List.filter_append, List.filter_cons]

/-- The loop over the projected items keeps its invariant and adds, for each item in
turn, one entry that is not a salt. -/
theorem projLoop_inv (penv : ProjEnv) (plan : Item → Option EncSet) :
    ∀ (items : List Item) (st st1 : ProjState), st.inv penv →
      projLoop penv plan items st = .ok st1 →
      st1.inv penv ∧
      (st1.rmeta.rfmeta.filter fun e => !e.2.is_salt).map
          (fun e => (some e.2.olk, e.2.field_called)) =
        (st.rmeta.rfmeta.filter fun e => !e.2.is_salt).map
          (fun e => (some e.2.olk, e.2.field_called)) ++
        items.map fun i => (chosenOLK penv plan i, penv.nameOf i) := by
  intro items
  induction items with
  | nil =>
    intro st st1 hinv h
    simp only [projLoop, Except.ok.injEq] at h
    subst h
    exact ⟨hinv, by simp⟩
  | cons item rest ih =>
    intro st st1 hinv h
    unfold projLoop at h
    split at h
    · simp at h
    · rename_i es hes
      split at h
      · simp at h
      · rename_i st0 hst0
        obtain ⟨hinv0, hns0⟩ := rewrite_proj_inv penv item es st st0 hinv hst0
        obtain ⟨hinv1, hns1⟩ := ih st0 st1 hinv0 h
        refine ⟨hinv1, ?_⟩
        rw [hns1, hns0]
        simp [chosenOLK, hes]

/-- C25. When the loop of `rewrite_select_lex` over the projected items, started at
position 0 with empty return metadata, returns, the positions recorded are
`0 .. k - 1` in order, `k` being the number of columns emitted; the entries that are not
salts are, in order, one for each item, with the `OLK` chosen for the item and its name;
such an entry at position `p` has the salt position `p + 1` when its `OLK` needs a salt
(key present, key with a salt, level that needs a salt) and `-1` otherwise; a salt entry
has the salt position `-1`; and every entry whose salt position is not negative is
followed, at the next position, by an entry marked as a salt. -/
theorem C25_return_meta (penv : ProjEnv) (plan : Item → Option EncSet) (items : List Item)
    (st : ProjState)
    (h : projLoop penv plan items { rmeta := { rfmeta := [] }, pos := 0, newList := [] } =
      .ok st) :
    st.rmeta.rfmeta.map Prod.fst = List.range st.newList.length ∧
    st.pos = st.newList.length ∧
    (st.rmeta.rfmeta.filter fun e => !e.2.is_salt).map
        (fun e => (some e.2.olk, e.2.field_called)) =
      items.map (fun i => (chosenOLK penv plan i, penv.nameOf i)) ∧
    (∀ p rf, (p, rf) ∈ st.rmeta.rfmeta → rf.is_salt = false →
      (needsSalt penv.needsSaltLevel rf.olk = true → rf.pos_salt = ((p + 1 : Nat) : Int)) ∧
      (needsSalt penv.needsSaltLevel rf.olk = false → rf.pos_salt = -1)) ∧
    (∀ p rf, (p, rf) ∈ st.rmeta.rfmeta → rf.is_salt = true → rf.pos_salt = -1) ∧
    (∀ p rf, (p, rf) ∈ st.rmeta.rfmeta → 0 ≤ rf.pos_salt →
      rf.pos_salt = ((p + 1 : Nat) : Int) ∧
      ∃ rf1, (p + 1, rf1) ∈ st.rmeta.rfmeta ∧ rf1.is_salt = true) := by
  have hinit : ({ rmeta := { rfmeta := [] }, pos := 0, newList := [] } : ProjState).inv penv := by
    refine ⟨rfl, rfl, ?_, ?_, ?_⟩ <;> intro p rf hmem <;> simp at hmem
  obtain ⟨⟨hkeys, hpos, h3, h4, h5⟩, hns⟩ := projLoop_inv penv plan items _ st hinit h
  refine ⟨by rw [hkeys, hpos], hpos, by simpa using hns, ?_, h4, ?_⟩
  · intro p rf hmem hs
    have := h3 p rf hmem hs
    constructor
    · intro hn
      simpa [hn] using this
    · intro hn
      simpa [hn] using this
  · intro p rf hmem hge
    refine ⟨?_, h5 p rf hmem hge⟩
    cases hs : rf.is_salt with
    | true =>
      have := h4 p rf hmem hs
      omega
    | false =>
      have := h3 p rf hmem hs
      split at this
      · exact this
      · omega

/-- C25 on the sample projection of `id` and `salary`: three columns are emitted, `id`
is recorded at position 0 without salt, `salary` at position 1 with its salt at position
2, and the entry at position 2 is a salt. -/
theorem C25_return_meta_witness :
    projLoop sampleProjEnv samplePlan [.field "t" "id", .field "t" "salary"]
        { rmeta := { rfmeta := [] }, pos := 0, newList := [] } =
      .ok { rmeta := { rfmeta :=
              [(0, { is_salt := false, field_called := "id",
                     olk := { o := .oPLAIN, l := 0, key := none }, pos_salt := -1 }),
               (1, { is_salt := false, field_called := "salary",
                     olk := { o := .oDET, l := 3, key := some sampleField }, pos_salt := 2 }),
               (2, { is_salt := true, field_called := "",
                     olk := { o := .oINVALID, l := 99, key := none }, pos_salt := -1 })] },
            pos := 3,
            newList := [.field "t" "id", .field "t" "salary", .field "" "cdb_salt"] } ∧
    [0, 1, 2] = List.range 3 :=
  ⟨rfl, (C25_return_meta sampleProjEnv samplePlan [.field "t" "id", .field "t" "salary"]
    { rmeta := { rfmeta :=
        [(0, { is_salt := false, field_called := "id",
               olk := { o := .oPLAIN, l := 0, key := none }, pos_salt := -1 }),
         (1, { is_salt := false, field_called := "salary",
               olk := { o := .oDET, l := 3, key := some sampleField }, pos_salt := 2 }),
         (2, { is_salt := true, field_called := "",
               olk := { o := .oINVALID, l := 99, key := none }, pos_salt := -1 })] },
      pos := 3,
      newList := [.field "t" "id", .field "t" "salary", .field "" "cdb_salt"] } rfl).1⟩

/-! ## Join lists -/

/-- What the rewriting of an entry without nested join leaves: the anonymized name as
name and alias of a named table, and the rewritten `ON` expression. -/
theorem rewrite_join_entry_ok (jenv : JoinEnv) (t nt : TABLE_LIST)
    (h : rewrite_join_entry jenv t = .ok nt) :
    (∀ name, t.table_name = some name →
      ∃ anon, jenv.anonymize_table_name name = .ok anon ∧
        nt.table_name = some anon ∧ nt.alias_name = anon) ∧
    (∀ e, t.on_expr = some e →
      ∃ e1, jenv.rewrite e jenv.PLAIN_OLK = .ok e1 ∧ nt.on_expr = some e1) ∧
    (t.on_expr = none → nt.on_expr = none) ∧
    nt.isNested = t.isNested := by
  unfold rewrite_join_entry at h
  split at h
  · simp at h
  · rename_i new_t hone
    have hnew : (∀ name, t.table_name = some name →
        ∃ anon, jenv.anonymize_table_name name = .ok anon ∧
          new_t.table_name = some anon ∧ new_t.alias_name = anon) ∧
        new_t.on_expr = t.on_expr ∧ new_t.isNested = t.isNested := by
      unfold rewrite_table_list_one at hone
      split at hone
      · simp at hone
      · split at hone
        · rename_i hnone
          simp only [Except.ok.injEq] at hone
          subst hone
          exact ⟨fun name hn => by rw [hnone] at hn; simp at hn, rfl, rfl⟩
        · rename_i name hname
          split at hone
          · simp at hone
          · rename_i anon hanon
            simp only [Except.ok.injEq] at hone
            subst hone
            refine ⟨fun name1 hn => ?_, ?_, ?_⟩
            · rw [hname] at hn
              simp only [Option.some.injEq] at hn
              subst hn
              exact ⟨anon, hanon, by cases t <;> rfl, by cases t <;> rfl⟩
            · cases t <;> rfl
            · cases t <;> rfl
    obtain ⟨hname, hon, hnest⟩ := hnew
    split at h
    · rename_i hnone
      simp only [Except.ok.injEq] at h
      subst h
      exact ⟨hname, fun e he => by rw [hnone] at he; simp at he, fun _ => by rw [hon, hnone],
        hnest⟩
    · rename_i e he
      split at h
      · simp at h
      · rename_i e1 he1
        simp only [Except.ok.injEq] at h
        subst h
        refine ⟨?_, ?_, ?_, ?_⟩
        · intro name hn
          obtain ⟨anon, h1, h2, h3⟩ := hname name hn
          exact ⟨anon, h1, by cases new_t <;> exact h2, by cases new_t <;> exact h3⟩
        · intro e0 he0
          rw [he] at he0
          simp only [Option.some.injEq] at he0
          subst he0
          exact ⟨e1, he1, by cases new_t <;> rfl⟩
        · intro hc
          rw [he] at hc
          simp at hc
        · rw [← hnest]
          cases new_t <;> rfl

/-- On a join list without nested join, `rewrite_table_list` rewrites the entries one
by one, in order. -/
theorem rewrite_table_list_flat (jenv : JoinEnv) :
    ∀ (tll out : List TABLE_LIST), (∀ t ∈ tll, t.isNested = false) →
      rewrite_table_list jenv tll = .ok out →
      List.Forall₂ (fun t nt => rewrite_join_entry jenv t = .ok nt) tll out := by
  intro tll
  induction tll with
  | nil =>
    intro out _ h
    simp only [rewrite_table_list, Except.ok.injEq] at h
    subst h
    exact List.Forall₂.nil
  | cons t rest ih =>
    intro out hflat h
    cases t with
    | nested n a b e d jl =>
      have := hflat _ (List.mem_cons_self _ _)
      simp [TABLE_LIST.isNested] at this
    | table n a b e d =>
      unfold rewrite_table_list at h
      split at h
      · simp at h
      · rename_i new_t hnew
        split at h
        · simp at h
        · rename_i new_rest hrest
          simp only [Except.ok.injEq] at h
          subst h
          exact List.Forall₂.cons hnew
            (ih new_rest (fun t ht => hflat t (List.mem_cons_of_mem _ ht)) hrest)

/-- What follows an entry with a nested join has no part in the result of
`rewrite_table_list`. -/
theorem rewrite_table_list_cut (jenv : JoinEnv) (n : Option String) (a : String) (b : Bool)
    (e : Option Item) (d : Option Nat) (jl post post1 : List TABLE_LIST) :
    ∀ (pre : List TABLE_LIST),
      rewrite_table_list jenv (pre ++ .nested n a b e d jl :: post) =
        rewrite_table_list jenv (pre ++ .nested n a b e d jl :: post1) := by
  intro pre
  induction pre with
  | nil => simp only [List.nil_append, rewrite_table_list]
  | cons t rest ih =>
    cases t with
    | nested n1 a1 b1 e1 d1 jl1 => simp only [List.cons_append, rewrite_table_list]
    | table n1 a1 b1 e1 d1 =>
      simp only [List.cons_append, rewrite_table_list, List.append_eq, ih]

/-- The result of `rewrite_table_list` on a list whose first entry with a nested join
comes after `pre`: the rewritten entries of `pre` and the rewritten nested join. -/
theorem rewrite_table_list_nested (jenv : JoinEnv) (n : Option String) (a : String) (b : Bool)
    (e : Option Item) (d : Option Nat) (jl post : List TABLE_LIST) :
    ∀ (pre out : List TABLE_LIST), (∀ t ∈ pre, t.isNested = false) →
      rewrite_table_list jenv (pre ++ .nested n a b e d jl :: post) = .ok out →
      ∃ pre1 new_t new_jl,
        List.Forall₂ (fun t nt => rewrite_join_entry jenv t = .ok nt) pre pre1 ∧
        rewrite_table_list_one jenv (.nested n a b e d jl) = .ok new_t ∧
        rewrite_table_list jenv jl = .ok new_jl ∧
        out = pre1 ++ [.nested new_t.table_name new_t.alias_name new_t.is_alias new_t.on_expr
          new_t.derived new_jl] := by
  intro pre
  induction pre with
  | nil =>
    intro out _ h
    simp only [List.nil_append] at h
    unfold rewrite_table_list at h
    unfold rewrite_nested_join at h
    split at h
    · simp at h
    · rename_i new_t0 hnew0
      split at hnew0
      · simp at hnew0
      · rename_i new_t hnew
        split at hnew0
        · simp at hnew0
        · rename_i new_jl hjl
          simp only [Except.ok.injEq] at hnew0 h
          subst hnew0
          subst h
          exact ⟨[], new_t, new_jl, List.Forall₂.nil, hnew, hjl, rfl⟩
  | cons t rest ih =>
    intro out hflat h
    cases t with
    | nested n1 a1 b1 e1 d1 jl1 =>
      have := hflat _ (List.mem_cons_self _ _)
      simp [TABLE_LIST.isNested] at this
    | table n1 a1 b1 e1 d1 =>
      simp only [List.cons_append] at h
      unfold rewrite_table_list at h
      split at h
      · simp at h
      · rename_i nt hnt
        split at h
        · simp at h
        · rename_i new_rest hrest
          simp only [Except.ok.injEq] at h
          subst h
          obtain ⟨pre1, new_t, new_jl, hpre, hone, hjl, hout⟩ :=
            ih new_rest (fun t ht => hflat t (List.mem_cons_of_mem _ ht)) hrest
          exact ⟨nt :: pre1, new_t, new_jl, List.Forall₂.cons hnt hpre, hone, hjl,
            by rw [hout]; rfl⟩

/-- The calls of `process_table_list` for an entry without nested join, when none of
them fails. -/
theorem process_join_entry_ok (fails : List JoinEvent → JoinEvent → Option Fault)
    (t : TABLE_LIST) (tr tr1 : List JoinEvent)
    (h : process_join_entry fails t tr = (none, tr1)) : tr1 = tr ++ joinEvents t := by
  unfold process_join_entry at h
  unfold joinEvents
  cases hon : t.on_expr with
  | none =>
    simp only [hon] at h ⊢
    cases hal : t.is_alias with
    | false =>
      simp only [hal, Bool.false_eq_true, if_false] at h ⊢
      cases hd : t.derived with
      | none =>
        simp only [hd, Prod.mk.injEq, true_and] at h
        simp [h]
      | some u =>
        simp only [hd, Prod.mk.injEq] at h
        simp [← h.2]
    | true =>
      simp only [hal, if_true] at h ⊢
      cases hn : t.table_name with
      | none => simp [hn] at h
      | some name =>
        simp only [hn] at h ⊢
        cases hf : fails tr (.addAlias t.alias_name name) with
        | some f => simp [hf] at h
        | none =>
          simp only [hf] at h
          cases hd : t.derived with
          | none =>
            simp only [hd, Prod.mk.injEq, true_and] at h
            simp [← h]
          | some u =>
            simp only [hd, Prod.mk.injEq] at h
            simp [← h.2]
  | some e =>
    simp only [hon] at h ⊢
    cases hfe : fails tr (.analyze e) with
    | some f => simp [hfe] at h
    | none =>
      simp only [hfe] at h
      cases hal : t.is_alias with
      | false =>
        simp only [hal, Bool.false_eq_true, if_false] at h ⊢
        cases hd : t.derived with
        | none =>
          simp only [hd, Prod.mk.injEq, true_and] at h
          simp [← h]
        | some u =>
          simp only [hd, Prod.mk.injEq] at h
          simp [← h.2]
      | true =>
        simp only [hal, if_true] at h ⊢
        cases hn : t.table_name with
        | none => simp [hn] at h
        | some name =>
          simp only [hn] at h ⊢
          cases hf : fails (tr ++ [.analyze e]) (.addAlias t.alias_name name) with
          | some f => simp [hf] at h
          | none =>
            simp only [hf] at h
            cases hd : t.derived with
            | none =>
              simp only [hd, Prod.mk.injEq, true_and] at h
              simp [← h]
            | some u =>
              simp only [hd, Prod.mk.injEq] at h
              simp [← h.2]

/-- On a join list without nested join, `process_table_list` processes every entry in
turn. -/
theorem process_table_list_flat (fails : List JoinEvent → JoinEvent → Option Fault) :
    ∀ (tll : List TABLE_LIST) (tr tr1 : List JoinEvent), (∀ t ∈ tll, t.isNested = false) →
      process_table_list fails tll tr = (none, tr1) →
      tr1 = tr ++ tll.flatMap joinEvents := by
  intro tll
  induction tll with
  | nil =>
    intro tr tr1 _ h
    simp only [process_table_list, Prod.mk.injEq, true_and] at h
    simp [h]
  | cons t rest ih =>
    intro tr tr1 hflat h
    cases t with
    | nested n a b e d jl =>
      have := hflat _ (List.mem_cons_self _ _)
      simp [TABLE_LIST.isNested] at this
    | table n a b e d =>
      unfold process_table_list at h
      split at h
      · simp at h
      · rename_i tr0 hentry
        have h0 := process_join_entry_ok fails _ tr tr0 hentry
        have h1 := ih tr0 tr1 (fun t ht => hflat t (List.mem_cons_of_mem _ ht)) h
        rw [h1, h0]
        simp [List.flatMap_cons]

/-- What follows an entry with a nested join is not processed by `process_table_list`. -/
theorem process_table_list_cut (fails : List JoinEvent → JoinEvent → Option Fault)
    (n : Option String) (a : String) (b : Bool) (e : Option Item) (d : Option Nat)
    (jl post post1 : List TABLE_LIST) :
    ∀ (pre : List TABLE_LIST) (tr : List JoinEvent),
      process_table_list fails (pre ++ .nested n a b e d jl :: post) tr =
        process_table_list fails (pre ++ .nested n a b e d jl :: post1) tr := by
  intro pre
  induction pre with
  | nil => intro tr; simp only [List.nil_append, process_table_list]
  | cons t rest ih =>
    intro tr
    cases t with
    | nested n1 a1 b1 e1 d1 jl1 => simp only [List.cons_append, process_table_list]
    | table n1 a1 b1 e1 d1 =>
      simp only [List.cons_append, process_table_list]
      split
      · rfl
      · exact ih _

/-- The entries of a chain are rewritten one by one, in order. -/
theorem rewrite_table_list_chain_ok (jenv : JoinEnv) :
    ∀ (tlist out : List TABLE_LIST), rewrite_table_list_chain jenv tlist = .ok out →
      List.Forall₂ (fun t nt => rewrite_table_list_one jenv t = .ok nt) tlist out := by
  intro tlist
  induction tlist with
  | nil =>
    intro out h
    simp only [rewrite_table_list_chain, Except.ok.injEq] at h
    subst h
    exact List.Forall₂.nil
  | cons t rest ih =>
    intro out h
    unfold rewrite_table_list_chain at h
    split at h
    · simp at h
    · rename_i new_t hnew
      split at h
      · simp at h
      · rename_i new_rest hrest
        simp only [Except.ok.injEq] at h
        subst h
        exact List.Forall₂.cons hnew (ih new_rest hrest)

/-- C29 fails for a join list with an entry after a nested join: on the sample list, a
nested join of `a` and `b` followed by the aliased table `c` with an `ON` expression,
`rewrite_table_list` returns a list with the nested join alone, and
`process_table_list` returns without analysing the `ON` expression of `c` and without
registering its alias. -/
theorem C29_counterexample :
    sampleJoinList.length = 2 ∧
    rewrite_table_list sampleJoinEnv sampleJoinList =
      .ok [.nested none "" false none none
        [.table (some "anon_a") "anon_a" false none none,
         .table (some "anon_b") "anon_b" false none none]] ∧
    process_table_list (fun _ _ => none) sampleJoinList [] = (none, []) ∧
    process_table_list (fun _ _ => none) sampleJoinList.reverse [] =
      (none, [.analyze (.field "c" "x"), .addAlias "c1" "c"]) :=
  ⟨rfl, rfl, rfl, rfl⟩

/-- C29, amended. On a join list without nested join, `rewrite_table_list` returns one
rewritten entry per entry, in the same order, the name and the alias of a named table
being its anonymized name and an `ON` expression being rewritten, and
`process_table_list`, when no call fails, analyses the `ON` expression, registers the
alias and processes the derived table of every entry in turn. On a list with a nested
join, both stop at the first entry with a nested join: the result of
`rewrite_table_list` is made of the rewritten entries before it and of the nested join
with its join list rewritten (its own `ON` expression is kept as it is), and what
follows that entry has no part in either result. The entries of a chain
(`SQL_I_List`) are rewritten one by one. -/
theorem C29_join_list_shape (jenv : JoinEnv)
    (fails : List JoinEvent → JoinEvent → Option Fault) :
    (∀ tll out : List TABLE_LIST, (∀ t ∈ tll, t.isNested = false) →
      rewrite_table_list jenv tll = .ok out →
      out.length = tll.length ∧
      List.Forall₂ (fun t nt => rewrite_join_entry jenv t = .ok nt) tll out) ∧
    (∀ t nt : TABLE_LIST, rewrite_join_entry jenv t = .ok nt →
      (∀ name, t.table_name = some name →
        ∃ anon, jenv.anonymize_table_name name = .ok anon ∧
          nt.table_name = some anon ∧ nt.alias_name = anon) ∧
      (∀ e, t.on_expr = some e →
        ∃ e1, jenv.rewrite e jenv.PLAIN_OLK = .ok e1 ∧ nt.on_expr = some e1) ∧
      (t.on_expr = none → nt.on_expr = none)) ∧
    (∀ (pre post out : List TABLE_LIST) (n : Option String) (a : String) (b : Bool)
        (e : Option Item) (d : Option Nat) (jl : List TABLE_LIST),
      (∀ t ∈ pre, t.isNested = false) →
      rewrite_table_list jenv (pre ++ .nested n a b e d jl :: post) = .ok out →
      out.length = pre.length + 1 ∧
      ∃ pre1 new_t new_jl,
        List.Forall₂ (fun t nt => rewrite_join_entry jenv t = .ok nt) pre pre1 ∧
        rewrite_table_list_one jenv (.nested n a b e d jl) = .ok new_t ∧
        rewrite_table_list jenv jl = .ok new_jl ∧
        out = pre1 ++ [.nested new_t.table_name new_t.alias_name new_t.is_alias new_t.on_expr
          new_t.derived new_jl]) ∧
    (∀ (pre post post1 : List TABLE_LIST) (n : Option String) (a : String) (b : Bool)
        (e : Option Item) (d : Option Nat) (jl : List TABLE_LIST) (tr : List JoinEvent),
      rewrite_table_list jenv (pre ++ .nested n a b e d jl :: post) =
        rewrite_table_list jenv (pre ++ .nested n a b e d jl :: post1) ∧
      process_table_list fails (pre ++ .nested n a b e d jl :: post) tr =
        process_table_list fails (pre ++ .nested n a b e d jl :: post1) tr) ∧
    (∀ (tll : List TABLE_LIST) (tr tr1 : List JoinEvent), (∀ t ∈ tll, t.isNested = false) →
      process_table_list fails tll tr = (none, tr1) →
      tr1 = tr ++ tll.flatMap joinEvents) ∧
    (∀ tlist out : List TABLE_LIST, rewrite_table_list_chain jenv tlist = .ok out →
      out.length = tlist.length ∧
      List.Forall₂ (fun t nt => rewrite_table_list_one jenv t = .ok nt) tlist out) := by
  refine ⟨?_, ?_, ?_, ?_, ?_, ?_⟩
  · intro tll out hflat h
    have hall := rewrite_table_list_flat jenv tll out hflat h
    exact ⟨hall.length_eq.symm, hall⟩
  · intro t nt h
    obtain ⟨h1, h2, h3, -⟩ := rewrite_join_entry_ok jenv t nt h
    exact ⟨h1, h2, h3⟩
  · intro pre post out n a b e d jl hflat h
    obtain ⟨pre1, new_t, new_jl, hpre, hone, hjl, hout⟩ :=
      rewrite_table_list_nested jenv n a b e d jl post pre out hflat h
    refine ⟨?_, pre1, new_t, new_jl, hpre, hone, hjl, hout⟩
    rw [hout, List.length_append, hpre.length_eq]
    rfl
  · intro pre post post1 n a b e d jl tr
    exact ⟨rewrite_table_list_cut jenv n a b e d jl post post1 pre,
      process_table_list_cut fails n a b e d jl post post1 pre tr⟩
  · exact process_table_list_flat fails
  · intro tlist out h
    have hall := rewrite_table_list_chain_ok jenv tlist out h
    exact ⟨hall.length_eq.symm, hall⟩

/-- C29, amended, on the join list of the tables `a` and `c`, without nested join: both
are rewritten, in order, and the `ON` expression and the alias of `c` are processed. -/
theorem C29_join_list_shape_witness :
    rewrite_table_list sampleJoinEnv
        [.table (some "a") "a" false none none,
         .table (some "c") "c1" true (some (.field "c" "x")) none] =
      .ok [.table (some "anon_a") "anon_a" false none none,
           .table (some "anon_c") "anon_c" true (some (.field "c" "x")) none] ∧
    ([TABLE_LIST.table (some "anon_a") "anon_a" false none none,
      TABLE_LIST.table (some "anon_c") "anon_c" true (some (.field "c" "x")) none].length =
        [TABLE_LIST.table (some "a") "a" false none none,
         TABLE_LIST.table (some "c") "c1" true (some (.field "c" "x")) none].length) ∧
    [JoinEvent.analyze (.field "c" "x"), JoinEvent.addAlias "c1" "c"] =
      [] ++ [TABLE_LIST.table (some "a") "a" false none none,
         TABLE_LIST.table (some "c") "c1" true (some (.field "c" "x")) none].flatMap
        joinEvents :=
  ⟨rfl,
   ((C29_join_list_shape sampleJoinEnv (fun _ _ => none)).1
      [.table (some "a") "a" false none none,
       .table (some "c") "c1" true (some (.field "c" "x")) none]
      [.table (some "anon_a") "anon_a" false none none,
       .table (some "anon_c") "anon_c" true (some (.field "c" "x")) none]
      (by intro t ht; simp only [List.mem_cons, List.mem_singleton, List.not_mem_nil,
            or_false] at ht; rcases ht with h | h <;> rw [h] <;> rfl) rfl).1,
   (C29_join_list_shape sampleJoinEnv (fun _ _ => none)).2.2.2.2.1
      [.table (some "a") "a" false none none,
       .table (some "c") "c1" true (some (.field "c" "x")) none] []
      [.analyze (.field "c" "x"), .addAlias "c1" "c"]
      (by intro t ht; simp only [List.mem_cons, List.mem_singleton, List.not_mem_nil,
            or_false] at ht; rcases ht with h | h <;> rw [h] <;> rfl) rfl⟩

/-! ## Creation and removal of columns -/

/-- The columns of the onions, when every onion has a layer, carry the names of the
onions. -/
theorem onionCreateFields_names (denv : DdlEnv)
    (hnew : ∀ l n, (denv.newCreateField l n).field_name = n)
    (ons : List (onion × OnionMeta)) (l : List Create_field)
    (h : onionCreateFields denv ons = .ok l) :
    l.map (fun cf => cf.field_name) = ons.map fun p => p.2.onionname := by
  induction ons generalizing l with
  | nil => simp [onionCreateFields] at h; subst h; rfl
  | cons oit rest ih =>
    unfold onionCreateFields at h
    split at h
    · simp at h
    · split at h
      · simp at h
      · rename_i l0 hl0
        simp at h
        subst h
        simp [hnew, ih l0 hl0]

/-- The loop over the onions returns when every onion has a layer. -/
theorem onionCreateFields_ok (denv : DdlEnv) (ons : List (onion × OnionMeta))
    (h : ∀ p ∈ ons, p.2.layers ≠ []) : ∃ l, onionCreateFields denv ons = .ok l := by
  induction ons with
  | nil => exact ⟨[], rfl⟩
  | cons oit rest ih =>
    obtain ⟨l, hl⟩ := ih (fun p hp => h p (List.mem_cons_of_mem _ hp))
    have hne := h oit (List.mem_cons_self _ _)
    obtain ⟨x, hx⟩ : ∃ x, oit.2.layers.getLast? = some x :=
      ⟨_, List.getLast?_eq_getLast _ hne⟩
    exact ⟨denv.newCreateField x oit.2.onionname :: l,
      by simp only [onionCreateFields, hx, hl]⟩

/-- C28 fails for a field without onions: the creation emits the column of the
field, and the removal emits no column; for a field that is not encrypted and whose
plaintext onion has a name of its own, the creation emits the column of the field and the
removal the name of the onion. -/
theorem C28_counterexample :
    rewrite_create_field (sampleDdlEnv [("x", sampleNoOnionField)]) "t" ⟨"x", 3⟩ =
      .ok [⟨"x", 3⟩] ∧
    rewrite_alter_drop (sampleDdlEnv [("x", sampleNoOnionField)]) "t" ⟨true, "x"⟩ = .ok [] ∧
    rewrite_create_field (sampleDdlEnv [("id", samplePlainField)]) "t" ⟨"id", 3⟩ =
      .ok [⟨"id", 3⟩] ∧
    rewrite_alter_drop (sampleDdlEnv [("id", samplePlainField)]) "t" ⟨true, "id"⟩ =
      .ok [⟨true, "id_plain"⟩] :=
  ⟨rfl, rfl, rfl, rfl⟩

/-- A field that is not encrypted has one onion, the plaintext onion. -/
theorem not_encrypted_onions (fm : FieldMeta) (h : fm.isEncrypted = false) :
    ∃ om, fm.onions = [(onion.oPLAIN, om)] := by
  unfold FieldMeta.isEncrypted at h
  simp only [Bool.or_eq_false_iff, bne_eq_false_iff_eq, beq_iff_eq] at h
  obtain ⟨hlen, hfind⟩ := h
  match hons : fm.onions, hlen, hfind with
  | [(k, om)], _, hfind =>
    by_cases hk : onion.oPLAIN = k
    · exact ⟨om, by rw [← hk]⟩
    · simp [mapFind, hk] at hfind
      exact absurd hfind.symm hk

/-- C28, amended: take a field with metadata and a layer that names the column as it is
asked. Dropping the field emits the names of its onions, in the order of the map, and the
name of the salt exactly when the field has a salt. For an encrypted field with an onion,
a creation that returns emitted these same names, and the creation returns when every
onion has a layer and the salt has a name. For a field that is not encrypted (its only
onion is the plaintext onion) or that has no onion, the creation emits the column of the
field itself; for a field that is not encrypted the two sides then agree exactly when the
plaintext onion has the name of the field and the field has no salt. A drop that is not
the drop of a column emits nothing, and the drop list of the statement returned by
`rewrite_alter_lex` is the rewritten drop list. -/
theorem C28_drop_matches_create (jenv : JoinEnv) (denv : DdlEnv) (table : String)
    (f : Create_field) (adrop : Alter_drop) (fm : FieldMeta)
    (hfm : denv.getFieldMeta table f.field_name = some fm)
    (hcol : adrop.is_column = true) (hname : adrop.name = f.field_name)
    (hnew : ∀ l n, (denv.newCreateField l n).field_name = n) :
    (∃ dl, rewrite_alter_drop denv table adrop = .ok dl ∧
      dl.map (fun d => d.name) =
        fm.onions.map (fun p => p.2.onionname) ++
          (if fm.has_salt then [fm.salt_name] else [])) ∧
    (fm.isEncrypted = true → fm.onions ≠ [] →
      ∀ cl, rewrite_create_field denv table f = .ok cl →
        cl.map (fun c => c.field_name) =
          fm.onions.map (fun p => p.2.onionname) ++
            (if fm.has_salt then [fm.salt_name] else [])) ∧
    (fm.isEncrypted = true → fm.onions ≠ [] → (∀ p ∈ fm.onions, p.2.layers ≠ []) →
      (fm.has_salt = true → fm.salt_name ≠ "") →
      ∃ cl, rewrite_create_field denv table f = .ok cl) ∧
    (fm.isEncrypted = false ∨ fm.onions = [] →
      rewrite_create_field denv table f = .ok [f]) ∧
    (fm.isEncrypted = false → ∃ om, fm.onions = [(onion.oPLAIN, om)]) ∧
    (fm.isEncrypted = false → ∀ om, fm.onions = [(onion.oPLAIN, om)] →
      ∀ cl dl, rewrite_create_field denv table f = .ok cl →
        rewrite_alter_drop denv table adrop = .ok dl →
        (cl.map (fun c => c.field_name) = dl.map (fun d => d.name) ↔
          (om.onionname = f.field_name ∧ fm.has_salt = false))) ∧
    (∀ other : Alter_drop, other.is_column = false →
      rewrite_alter_drop denv table other = .ok []) ∧
    (∀ lex out, rewrite_alter_lex jenv denv lex = .ok out →
      lex.flags &&& ALTER_DROP_COLUMN ≠ 0 →
      ∃ new_lex t, out = [new_lex] ∧ lex.table = .ok t ∧
        rewrite_drop_list denv t lex.drop_list = .ok new_lex.drop_list) := by
  refine ⟨?_, ?_, ?_, ?_, not_encrypted_onions fm, ?_, ?_, ?_⟩
  · refine ⟨(fm.onions.map fun onion_pair => { adrop with name := onion_pair.2.onionname }) ++
        (if fm.has_salt then [{ adrop with name := fm.salt_name }] else []),
      by simp only [rewrite_alter_drop, hcol, if_true, hname, hfm], ?_⟩
    cases fm.has_salt <;> simp [Function.comp_def]
  · intro henc hons cl hcl
    have hemp : fm.onions.isEmpty = false := by
      cases hl : fm.onions with
      | nil => exact absurd hl hons
      | cons _ _ => rfl
    simp only [rewrite_create_field, hfm, henc, hemp] at hcl
    rw [if_neg (by decide), if_neg (by decide)] at hcl
    split at hcl
    · simp at hcl
    · rename_i l hl
      have hl' := onionCreateFields_names denv hnew _ _ hl
      cases hs : fm.has_salt
      · simp [hs] at hcl
        subst hcl
        simpa using hl'
      · simp only [hs, if_true] at hcl
        split at hcl
        · simp at hcl
        · simp at hcl
          subst hcl
          simp [hl']
  · intro henc hons hlay hsalt
    have hemp : fm.onions.isEmpty = false := by
      cases hl : fm.onions with
      | nil => exact absurd hl hons
      | cons _ _ => rfl
    obtain ⟨l, hl⟩ := onionCreateFields_ok denv fm.onions hlay
    cases hs : fm.has_salt
    · exact ⟨l, by simp [rewrite_create_field, hfm, henc, hemp, hl, hs]⟩
    · exact ⟨l ++ [{ field_name := fm.salt_name, sql_type := denv.MYSQL_TYPE_LONGLONG }],
        by simp [rewrite_create_field, hfm, henc, hemp, hl, hs, hsalt hs]⟩
  · intro h
    rcases h with h | h
    · simp [rewrite_create_field, hfm, h]
    · cases henc : fm.isEncrypted
      · simp [rewrite_create_field, hfm, henc]
      · simp [rewrite_create_field, hfm, henc, h]
  · intro henc om hons cl dl hcl hdl
    simp only [rewrite_create_field, hfm, henc, if_true, Except.ok.injEq] at hcl
    simp only [rewrite_alter_drop, hcol, if_true, hname, hfm, hons, Except.ok.injEq] at hdl
    subst hcl
    subst hdl
    cases fm.has_salt <;> simp [eq_comm]
  · intro other hother
    simp [rewrite_alter_drop, hother]
  · intro lex out hout hflag
    unfold rewrite_alter_lex at hout
    split at hout
    · simp at hout
    · rename_i t ht
      split at hout
      · simp at hout
      · rename_i tl htl
        simp only at hout
        split at hout
        · simp at hout
        · rename_i new_lex1 hadd
          rw [if_pos hflag] at hout
          split at hout
          · simp at hout
          · rename_i new_lex2 hdrop
            split at hout
            · simp at hout
            · simp at hout
              split at hdrop
              · simp at hdrop
              · rename_i l hl
                simp at hdrop
                refine ⟨new_lex2, t, hout.symm, ht, ?_⟩
                rw [hl, ← hdrop]

/-- C28, amended, at a field with two onions and a salt: the three names on both sides. -/
theorem C28_drop_matches_create_witness :
    (∃ dl, rewrite_alter_drop (sampleDdlEnv [("salary", sampleField)]) "t"
        ⟨true, "salary"⟩ = .ok dl ∧
      dl.map (fun d => d.name) = ["f_oDET", "f_oOPE", "cdb_salt"]) ∧
    (∃ cl, rewrite_create_field (sampleDdlEnv [("salary", sampleField)]) "t"
        ⟨"salary", 3⟩ = .ok cl ∧
      cl.map (fun c => c.field_name) = ["f_oDET", "f_oOPE", "cdb_salt"]) := by
  have h := C28_drop_matches_create sampleJoinEnv (sampleDdlEnv [("salary", sampleField)]) "t"
    ⟨"salary", 3⟩ ⟨true, "salary"⟩ sampleField rfl rfl rfl (fun _ _ => rfl)
  obtain ⟨dl, hdl, hnames⟩ := h.1
  obtain ⟨cl, hcl⟩ := h.2.2.1 (by decide) (by decide) (by decide) (by decide)
  exact ⟨⟨dl, hdl, hnames⟩, ⟨cl, hcl, h.2.1 (by decide) (by decide) cl hcl⟩⟩

/-! ## The statements a rewrite returns -/

/-- `rewrite_alter_lex` returns one statement. -/
theorem rewrite_alter_lex_one (jenv : JoinEnv) (denv : DdlEnv) (lex : DdlLex)
    (out : List DdlLex) (h : rewrite_alter_lex jenv denv lex = .ok out) : out.length = 1 := by
  unfold rewrite_alter_lex at h
  split at h
  · simp at h
  · split at h
    · simp at h
    · simp only at h
      split at h
      · simp at h
      · split at h
        · simp at h
        · split at h
          · simp at h
          · simp at h
            subst h
            rfl

/-- `rewrite_create_lex` returns one statement. -/
theorem rewrite_create_lex_one (jenv : JoinEnv) (denv : DdlEnv) (lex : DdlLex)
    (out : List DdlLex) (h : rewrite_create_lex jenv denv lex = .ok out) : out.length = 1 := by
  unfold rewrite_create_lex at h
  split at h
  · simp at h
  · split at h
    · simp at h
    · simp only at h
      split at h
      · simp at h
      · split at h
        · split at h
          · simp at h
          · simp at h
            subst h
            rfl
        · simp at h
          subst h
          rfl

/-- `rewrite_drop_table_lex` returns one statement. -/
theorem rewrite_drop_table_lex_one (jenv : JoinEnv) (lex : DdlLex)
    (out : List DdlLex) (h : rewrite_drop_table_lex jenv lex = .ok out) : out.length = 1 := by
  unfold rewrite_drop_table_lex at h
  split at h
  · simp at h
  · simp at h
    subst h
    rfl

/-- `rewrite_delete_lex` returns one statement. -/
theorem rewrite_delete_lex_one (senv : SelectEnv) (lex : QueryLex) (rmeta : ReturnMeta)
    (pos : Nat) (out : List QueryLex × ReturnMeta × Nat)
    (h : rewrite_delete_lex senv lex rmeta pos = .ok out) : out.1.length = 1 := by
  unfold rewrite_delete_lex at h
  split at h
  · simp at h
  · split at h
    · simp at h
    · split at h
      · simp at h
      · simp at h
        subst h
        rfl

/-- `rewrite_select_lex` returns one statement. -/
theorem rewrite_select_lex_one (senv : SelectEnv) (lex : QueryLex) (rmeta : ReturnMeta)
    (pos : Nat) (out : List QueryLex × ReturnMeta × Nat)
    (h : rewrite_select_lex senv lex rmeta pos = .ok out) : out.1.length = 1 := by
  unfold rewrite_select_lex at h
  split at h
  · simp at h
  · split at h
    · simp at h
    · simp at h
      subst h
      rfl

/-- `rewrite_insert_lex` returns one statement. -/
theorem rewrite_insert_lex_one (jenv : JoinEnv) (ienv : InsertEnv) (lex : InsertLex)
    (out : List InsertLex) (h : rewrite_insert_lex jenv ienv lex = .ok out) :
    out.length = 1 := by
  unfold rewrite_insert_lex at h
  split at h
  · simp at h
  · split at h
    · simp at h
    · split at h
      · simp at h
      · split at h
        · simp at h
        · split at h
          · simp at h
          · simp only at h
            split at h
            · simp at h
            · split at h
              · simp at h
              · simp at h
                subst h
                rfl

/-- `rewrite_update_lex` returns one statement when it returns in place, and one or four
on the refresh path. -/
theorem rewrite_update_lex_count (env : UpdateEnv) (renv : RefreshEnv) (lex : UpdateLex)
    (salts : List (FieldMeta × Nat)) (r : UpdateResult)
    (h : rewrite_update_lex env renv lex salts = .ok r) :
    (r.path = .inPlace → r.lexes.length = 1) ∧
    (r.lexes.length = 1 ∨ (r.path = .refresh ∧ r.lexes.length = 4)) := by
  obtain ⟨new_where, st, _, _, hin, hre⟩ := rewrite_update_lex_ok env renv lex salts r h
  cases hinv : st.invalids
  · have hr := hin hinv
    subst hr
    exact ⟨fun _ => rfl, Or.inl rfl⟩
  · obtain ⟨rr, hrr, hr⟩ := hre hinv
    subst hr
    obtain ⟨t, rows, _, _, hnil, hcons⟩ := refresh_ok renv lex _ rr hrr
    refine ⟨fun hp => by simp at hp, ?_⟩
    by_cases hrows : rows = []
    · rw [hnil hrows]
      exact Or.inl rfl
    · obtain ⟨d, i, hrr', _, _⟩ := hcons hrows
      rw [hrr']
      exact Or.inr ⟨rfl, rfl⟩

/-- A rewrite operation that returns gives one statement, or four on the refresh path of
`UPDATE`. -/
theorem lex_rewrite_count (env : RewriteEnv) (f : HandlerFn) (lex : Statement)
    (out : List NewStmt) (h : lex_rewrite env f lex = .ok out) :
    out.length = 1 ∨
      (f = .rewrite_update_lex ∧ out.length = 4 ∧
        ∃ r, rewrite_update_lex env.senv.uenv env.renv lex.upd env.salts = .ok r ∧
          r.path = .refresh) := by
  cases f <;> simp only [lex_rewrite] at h <;> try (exact absurd h (by simp))
  · cases hh : rewrite_alter_lex env.senv.jenv env.denv lex.ddl with
    | error e => rw [hh] at h; simp [Except.map] at h
    | ok l =>
      rw [hh] at h
      simp [Except.map] at h
      subst h
      simp [rewrite_alter_lex_one _ _ _ _ hh]
  · cases hh : rewrite_create_lex env.senv.jenv env.denv lex.ddl with
    | error e => rw [hh] at h; simp [Except.map] at h
    | ok l =>
      rw [hh] at h
      simp [Except.map] at h
      subst h
      simp [rewrite_create_lex_one _ _ _ _ hh]
  · cases hh : rewrite_insert_lex env.senv.jenv env.ienv lex.ins with
    | error e => rw [hh] at h; simp [Except.map] at h
    | ok l =>
      rw [hh] at h
      simp [Except.map] at h
      subst h
      simp [rewrite_insert_lex_one _ _ _ _ hh]
  · cases hh : rewrite_drop_table_lex env.senv.jenv lex.ddl with
    | error e => rw [hh] at h; simp [Except.map] at h
    | ok l =>
      rw [hh] at h
      simp [Except.map] at h
      subst h
      simp [rewrite_drop_table_lex_one _ _ _ hh]
  · cases hh : rewrite_update_lex env.senv.uenv env.renv lex.upd env.salts with
    | error e => rw [hh] at h; simp [Except.map] at h
    | ok r =>
      rw [hh] at h
      simp [Except.map] at h
      subst h
      obtain ⟨_, hcount⟩ := rewrite_update_lex_count _ _ _ _ _ hh
      rcases hcount with h1 | ⟨hp, h4⟩
      · exact Or.inl (by simp [h1])
      · exact Or.inr ⟨rfl, by simp [h4], r, rfl, hp⟩
  · cases hh : rewrite_delete_lex env.senv lex.query env.rmeta env.pos with
    | error e => rw [hh] at h; simp [Except.map] at h
    | ok r =>
      rw [hh] at h
      simp [Except.map] at h
      subst h
      simp [rewrite_delete_lex_one _ _ _ _ _ hh]
  · cases hh : rewrite_select_lex env.senv lex.query env.rmeta env.pos with
    | error e => rw [hh] at h; simp [Except.map] at h
    | ok r =>
      rw [hh] at h
      simp [Except.map] at h
      subst h
      simp [rewrite_select_lex_one _ _ _ _ _ hh]

/-- When `rewriteLexAndUpdateMeta` returns statements, the command has a handler, the
rewrite operation of the handler was called and did not fail, and the statements are the
ones it returned. -/
theorem rewriteLexAndUpdateMeta_some (handlers : List (enum_sql_command × SqlHandler))
    (cb : Callbacks) (lex : LEX) (res : Option (List String)) (tr : List HandlerEvent)
    (h : SqlHandler.rewriteLexAndUpdateMeta handlers cb lex = (.ok res, tr)) :
    (SqlHandler.getHandler handlers lex.sql_command = none ∧ res = none ∧ tr = []) ∨
    ∃ hd t3, SqlHandler.getHandler handlers lex.sql_command = some hd ∧
      cb.fails t3 (.lex_rewrite hd.lex_rewrite) = none ∧
      HandlerEvent.lex_rewrite hd.lex_rewrite ∈ tr ∧
      res = cb.rewritten hd.lex_rewrite := by
  unfold SqlHandler.rewriteLexAndUpdateMeta at h
  split at h
  · rename_i hnone
    simp at h
    exact Or.inl ⟨hnone, h.1.symm, h.2⟩
  · rename_i hd hsome
    right
    split at h
    · simp at h
    · simp only at h
      split at h
      · simp at h
      · split at h
        · simp at h
        · rename_i t3 hbefore
          split at h
          · simp at h
          · rename_i hrew
            split at h
            · simp at h
            · rename_i t5 hafter
              simp at h
              refine ⟨hd, t3, hsome, hrew, ?_, h.1.symm⟩
              rw [← h.2]
              split at hafter
              · unfold callUpdateMeta at hafter
                split at hafter
                · simp at hafter
                · simp at hafter
                  rw [← hafter.2]
                  simp
              · simp at hafter
                rw [← hafter]
                simp

/-- The loop of `processAnnotation` gives one query per onion. -/
theorem annotQueries_length (aenv : AnnotEnv) (fm : FieldMeta)
    (ons : List (onion × OnionMeta)) (s : String) (qs : List String) (last : String)
    (h : annotQueries aenv fm ons s = .ok (qs, last)) : qs.length = ons.length := by
  induction ons generalizing s qs last with
  | nil =>
    simp [annotQueries] at h
    simp [h.1]
  | cons pr rest ih =>
    unfold annotQueries at h
    simp only at h
    split at h
    · simp at h
    · split at h
      · simp at h
      · split at h
        · simp at h
        · rename_i qs0 last0 hrest
          simp at h
          rw [← h.1]
          simp [ih _ _ _ hrest]

/-- In single-principal mode, `processAnnotation` gives one query per onion of the
initialised field and one more for the salt. -/
theorem processAnnotation_count (aenv : AnnotEnv) (an : Annotation) (qs : List String)
    (hmp : aenv.mp = none) (h : processAnnotation aenv an = .ok qs) :
    ∃ fm0, aenv.getFieldMeta an.primitiveTableName an.primitiveFieldName = some fm0 ∧
      qs.length = (aenv.init_onions fm0).onions.length + 1 := by
  unfold processAnnotation at h
  rw [hmp] at h
  simp only at h
  split at h
  · simp at h
  · split at h
    · simp at h
    · split at h
      · simp at h
      · rename_i fm0 hfm
        split at h
        · simp at h
        · rename_i query_list onionname hq
          simp at h
          refine ⟨fm0, hfm, ?_⟩
          rw [← h]
          simp [annotQueries_length _ _ _ _ _ _ hq]

/-- With multiple principals, a `processAnnotation` that returns gives the queries of
`mp`, as they are. -/
theorem processAnnotation_mp (aenv : AnnotEnv) (an : Annotation)
    (mp : Annotation → Except Fault (List String)) (qs : List String)
    (hmp : aenv.mp = some mp) (h : processAnnotation aenv an = .ok qs) :
    mp an = .ok qs := by
  unfold processAnnotation at h
  rw [hmp] at h
  simp only at h
  split at h
  · rename_i mp0 heq _
    simp only [Option.some.injEq] at heq
    rw [heq]
    exact h
  · split at h
    · simp at h
    · split at h
      · simp at h
      · split at h
        · simp at h
        · exact h

/-- C24 fails for an annotated query: `rewrite_helper` calls no rewrite operation and
returns the queries of `processAnnotation`, here four of them, one for each of the three
onions of the annotated field and one for its salt; and with multiple principals it
returns what `mp` gives for the annotation without looking at it, here no query. -/
theorem C24_counterexample :
    rewrite_helper registeredHandlers sampleCallbacks sampleAnnotEnv (fun s => s)
        (some sampleAnnotation) ⟨.SQLCOM_SELECT, 0⟩ =
      (.ok ["ALTER TABLE table_a CHANGE salary f_oDET;",
            "ALTER TABLE table_a ADD f_oOPE AFTER f_oDET;",
            "ALTER TABLE table_a ADD f_oAGG AFTER f_oOPE;",
            "ALTER TABLE table_a ADD cdb_salt bigint(20) unsigned AFTER f_oAGG;"], []) ∧
    rewrite_helper registeredHandlers sampleCallbacks
        { sampleAnnotEnv with mp := some (fun _ => .ok []) } (fun s => s)
        (some sampleAnnotation) ⟨.SQLCOM_SELECT, 0⟩ = (.ok [], []) :=
  ⟨rfl, rfl⟩

/-- A `rewrite_helper` without annotation that returns has printed, in order, the
statements the rewrite operation of the handler returned, and there is at least one. -/
theorem rewrite_helper_ok (handlers : List (enum_sql_command × SqlHandler)) (cb : Callbacks)
    (aenv : AnnotEnv) (print : String → String) (lex : LEX) (qs : List String)
    (tr : List HandlerEvent)
    (h : rewrite_helper handlers cb aenv print none lex = (.ok qs, tr)) :
    ∃ hd t3 new_lexes, SqlHandler.getHandler handlers lex.sql_command = some hd ∧
      cb.fails t3 (.lex_rewrite hd.lex_rewrite) = none ∧
      cb.rewritten hd.lex_rewrite = some new_lexes ∧ new_lexes ≠ [] ∧
      HandlerEvent.lex_rewrite hd.lex_rewrite ∈ tr ∧ qs = new_lexes.map print := by
  unfold rewrite_helper at h
  simp only at h
  split at h
  · simp at h
  · simp at h
  · rename_i new_lexes tr0 hres
    split at h
    · simp at h
    · rename_i hlen
      simp at h
      rcases rewriteLexAndUpdateMeta_some handlers cb lex _ _ hres with hnone | hsome
      · simp at hnone
      · obtain ⟨hd, t3, hget, hfail, hmem, hrew⟩ := hsome
        refine ⟨hd, t3, new_lexes, hget, hfail, hrew.symm, ?_, ?_, h.1.symm⟩
        · intro hnil
          exact hlen (by rw [hnil]; rfl)
        · rw [← h.2]
          exact hmem

/-- C24, amended. Each of the rewrite operations for `SELECT`, `INSERT`/`REPLACE`,
`DELETE`, `CREATE TABLE`, `ALTER TABLE` and `DROP TABLE` that returns gives exactly one
statement; `rewrite_update_lex` gives one statement when it returns in place, which it
does when no assigned encrypted field is invalidated, and on the refresh path one or
four. A `rewrite_helper` without annotation that returns has called
the rewrite operation of the handler of the command, the operation returned at least one
statement, and the queries are these statements printed in the same order; with the
rewrite operations above there is one query, or four on the refresh path of `UPDATE`.
For an annotated query `rewrite_helper` calls no handler: it returns the queries of
`processAnnotation`, in single-principal mode one per onion of the annotated field and
one more for the salt, and with multiple principals the queries of `mp`, as they are.
So a `rewrite_helper` that returns gives at least one query when the query has no
annotation and when it has one in single-principal mode. -/
theorem C24_statement_counts (handlers : List (enum_sql_command × SqlHandler))
    (cb base : Callbacks) (aenv : AnnotEnv) (print : String → String)
    (render : NewStmt → String) (env : RewriteEnv) (stmt : Statement) (lex : LEX) :
    (∀ out, rewrite_select_lex env.senv stmt.query env.rmeta env.pos = .ok out →
      out.1.length = 1) ∧
    (∀ out, rewrite_insert_lex env.senv.jenv env.ienv stmt.ins = .ok out → out.length = 1) ∧
    (∀ out, rewrite_delete_lex env.senv stmt.query env.rmeta env.pos = .ok out →
      out.1.length = 1) ∧
    (∀ out, rewrite_create_lex env.senv.jenv env.denv stmt.ddl = .ok out → out.length = 1) ∧
    (∀ out, rewrite_alter_lex env.senv.jenv env.denv stmt.ddl = .ok out → out.length = 1) ∧
    (∀ out, rewrite_drop_table_lex env.senv.jenv stmt.ddl = .ok out → out.length = 1) ∧
    (∀ r, rewrite_update_lex env.senv.uenv env.renv stmt.upd env.salts = .ok r →
      (r.path = .inPlace → r.lexes.length = 1) ∧
      (r.lexes.length = 1 ∨ (r.path = .refresh ∧ r.lexes.length = 4)) ∧
      ((assignedEncrypted env.senv.uenv stmt.upd.item_list stmt.upd.value_list).any
          (fun p => invalidates p.1 p.2) = false →
        r.path = .inPlace ∧ r.lexes.length = 1)) ∧
    (∀ qs tr, rewrite_helper handlers cb aenv print none lex = (.ok qs, tr) →
      ∃ hd new_lexes, SqlHandler.getHandler handlers lex.sql_command = some hd ∧
        cb.rewritten hd.lex_rewrite = some new_lexes ∧ new_lexes ≠ [] ∧
        HandlerEvent.lex_rewrite hd.lex_rewrite ∈ tr ∧ qs = new_lexes.map print) ∧
    (∀ qs tr,
      rewrite_helper handlers (handlerCallbacks base env stmt render) aenv print none lex =
        (.ok qs, tr) →
      ∃ hd out, SqlHandler.getHandler handlers lex.sql_command = some hd ∧
        lex_rewrite env hd.lex_rewrite stmt = .ok out ∧
        qs = out.map (fun s => print (render s)) ∧
        (qs.length = 1 ∨
          (hd.lex_rewrite = .rewrite_update_lex ∧ qs.length = 4 ∧
            ∃ r, rewrite_update_lex env.senv.uenv env.renv stmt.upd env.salts = .ok r ∧
              r.path = .refresh))) ∧
    (∀ an, rewrite_helper handlers cb aenv print (some an) lex =
      ( processAnnotation aenv an, [])) ∧
    (∀ an qs, aenv.mp = none → processAnnotation aenv an = .ok qs →
      ∃ fm0, aenv.getFieldMeta an.primitiveTableName an.primitiveFieldName = some fm0 ∧
        qs.length = (aenv.init_onions fm0).onions.length + 1) ∧
    (∀ an mp qs, aenv.mp = some mp → processAnnotation aenv an = .ok qs →
      mp an = .ok qs) ∧
    (∀ annot qs tr, rewrite_helper handlers cb aenv print annot lex = (.ok qs, tr) →
      annot = none ∨ aenv.mp = none → qs ≠ []) := by
  refine ⟨fun out h => rewrite_select_lex_one _ _ _ _ _ h,
    fun out h => rewrite_insert_lex_one _ _ _ _ h,
    fun out h => rewrite_delete_lex_one _ _ _ _ _ h,
    fun out h => rewrite_create_lex_one _ _ _ _ h,
    fun out h => rewrite_alter_lex_one _ _ _ _ h,
    fun out h => rewrite_drop_table_lex_one _ _ _ h,
    fun r h => ⟨(rewrite_update_lex_count _ _ _ _ _ h).1,
      (rewrite_update_lex_count _ _ _ _ _ h).2, fun hno => by
        obtain ⟨new_where, st, _, hinv, hin, _⟩ := rewrite_update_lex_ok _ _ _ _ r h
        have hr := hin (hinv.trans hno)
        subst hr
        exact ⟨rfl, rfl⟩⟩, ?_, ?_, fun an => rfl,
    fun an qs hmp h => processAnnotation_count aenv an qs hmp h,
    fun an mp qs hmp h => processAnnotation_mp aenv an mp qs hmp h, ?_⟩
  · intro qs tr h
    obtain ⟨hd, _, new_lexes, hget, _, hrew, hne, hmem, hqs⟩ :=
      rewrite_helper_ok handlers cb aenv print lex qs tr h
    exact ⟨hd, new_lexes, hget, hrew, hne, hmem, hqs⟩
  · intro qs tr h
    obtain ⟨hd, _, new_lexes, hget, _, hrew, _, _, hqs⟩ :=
      rewrite_helper_ok handlers _ aenv print lex qs tr h
    simp only [handlerCallbacks] at hrew
    cases hout : lex_rewrite env hd.lex_rewrite stmt with
    | error e => rw [hout] at hrew; simp at hrew
    | ok out =>
      rw [hout] at hrew
      simp at hrew
      have hqs' : qs = out.map (fun s => print (render s)) := by
        rw [hqs, ← hrew]
        simp [Function.comp_def]
      refine ⟨hd, out, hget, hout, hqs', ?_⟩
      rcases lex_rewrite_count env _ stmt out hout with h1 | ⟨hf, h4, hr⟩
      · exact Or.inl (by rw [hqs']; simp [h1])
      · exact Or.inr ⟨hf, by rw [hqs']; simp [h4], hr⟩
  · intro annot qs tr h hcase
    cases annot with
    | none =>
      obtain ⟨_, _, new_lexes, _, _, _, hne, _, hqs⟩ :=
        rewrite_helper_ok handlers cb aenv print lex qs tr h
      rw [hqs]
      intro hnil
      exact hne (List.map_eq_nil_iff.mp hnil)
    | some an =>
      rcases hcase with hc | hmp
      · simp at hc
      · simp only [rewrite_helper, Prod.mk.injEq] at h
        obtain ⟨_, _, hlen⟩ := processAnnotation_count aenv an qs hmp h.1
        intro hnil
        rw [hnil] at hlen
        simp at hlen

/-- C24, amended, at the sample statement: the `UPDATE` whose filter selects a row gives
the four queries of the refresh path, in order, which are the four statements of its
rewrite operation. -/
theorem C24_statement_counts_witness :
    rewrite_helper registeredHandlers
        (handlerCallbacks sampleCallbacks (sampleRewriteEnv [[.int 1, .int 2], [.int 3, .int 4]])
          sampleStatement sampleRender)
        sampleAnnotEnv (fun s => s) none ⟨.SQLCOM_UPDATE, 0⟩ =
      (.ok ["START TRANSACTION", "delete", "insert", "COMMIT"],
        [.process_table_list, .query_analyze .process_update_lex,
         .lex_rewrite .rewrite_update_lex]) ∧
    ∃ hd out,
      SqlHandler.getHandler registeredHandlers .SQLCOM_UPDATE = some hd ∧
      lex_rewrite (sampleRewriteEnv [[.int 1, .int 2], [.int 3, .int 4]]) hd.lex_rewrite
        sampleStatement = .ok out ∧
      ["START TRANSACTION", "delete", "insert", "COMMIT"] = out.map sampleRender :=
  ⟨rfl, by
    obtain ⟨hd, out, h1, h2, h3, -⟩ :=
      (C24_statement_counts registeredHandlers sampleCallbacks sampleCallbacks sampleAnnotEnv
        (fun s => s) sampleRender (sampleRewriteEnv [[.int 1, .int 2], [.int 3, .int 4]])
        sampleStatement ⟨.SQLCOM_UPDATE, 0⟩).2.2.2.2.2.2.2.2.1 _ _ rfl
    exact ⟨hd, out, h1, h2, h3⟩⟩

/-! ## The translation between enumerators and texts -/

/-- An enumerator that is not registered has no text. -/
theorem getTextLoop_not_mem {α : Type} [DecidableEq α] (e : α) (es : List α)
    (ts : List String) (h : e ∉ es) :
    getTextLoop e es ts = .error (.thrown "enum does not exist!") := by
  induction es generalizing ts with
  | nil => rfl
  | cons x xs ih =>
    have hx : x ≠ e := fun hxe => h (by rw [hxe]; exact List.mem_cons_self _ _)
    simp only [getTextLoop, if_neg hx]
    exact ih _ (fun hm => h (List.mem_cons_of_mem _ hm))

/-- A text that is not registered has no enumerator. -/
theorem getEnumLoop_not_mem {α : Type} (t : String) (ts : List String) (es : List α)
    (h : t ∉ ts) : getEnumLoop t ts es = .error (.thrown "text does not exist!") := by
  induction ts generalizing es with
  | nil => rfl
  | cons x xs ih =>
    have hx : x ≠ t := fun hxt => h (by rw [hxt]; exact List.mem_cons_self _ _)
    simp only [getEnumLoop, if_neg hx]
    exact ih _ (fun hm => h (List.mem_cons_of_mem _ hm))

/-- With as many texts as enumerators, all different, the text of a registered
enumerator translates back to it. -/
theorem getTextLoop_round_trip {α : Type} [DecidableEq α] (es : List α) (ts : List String)
    (hlen : es.length = ts.length) (hts : ts.Nodup) (e : α) (he : e ∈ es) :
    ∃ t, getTextLoop e es ts = .ok t ∧ t ∈ ts ∧ getEnumLoop t ts es = .ok e := by
  induction es generalizing ts with
  | nil => simp at he
  | cons x xs ih =>
    cases ts with
    | nil => simp at hlen
    | cons t0 ts1 =>
      have hlen1 : xs.length = ts1.length := by simpa using hlen
      have hnd := List.nodup_cons.mp hts
      by_cases hx : x = e
      · subst hx
        exact ⟨t0, by simp [getTextLoop], List.mem_cons_self _ _, by simp [getEnumLoop]⟩
      · have he1 : e ∈ xs := by
          rcases List.mem_cons.mp he with h | h
          · exact absurd h.symm hx
          · exact h
        obtain ⟨t, h1, h2, h3⟩ := ih ts1 hlen1 hnd.2 he1
        have ht0 : t0 ≠ t := fun h => hnd.1 (by rw [h]; exact h2)
        exact ⟨t, by simp [getTextLoop, hx, h1], List.mem_cons_of_mem _ h2,
          by simp [getEnumLoop, ht0, h3]⟩

/-- With as many texts as enumerators, all different, the enumerator of a registered
text translates back to it. -/
theorem getEnumLoop_round_trip {α : Type} [DecidableEq α] (es : List α) (ts : List String)
    (hlen : es.length = ts.length) (hes : es.Nodup) (t : String) (ht : t ∈ ts) :
    ∃ e, getEnumLoop t ts es = .ok e ∧ e ∈ es ∧ getTextLoop e es ts = .ok t := by
  induction ts generalizing es with
  | nil => simp at ht
  | cons x xs ih =>
    cases es with
    | nil => simp at hlen
    | cons e0 es1 =>
      have hlen1 : es1.length = xs.length := by simpa using hlen
      have hnd := List.nodup_cons.mp hes
      by_cases hx : x = t
      · subst hx
        exact ⟨e0, by simp [getEnumLoop], List.mem_cons_self _ _, by simp [getTextLoop]⟩
      · have ht1 : t ∈ xs := by
          rcases List.mem_cons.mp ht with h | h
          · exact absurd h.symm hx
          · exact h
        obtain ⟨e, h1, h2, h3⟩ := ih es1 hlen1 hnd.2 ht1
        have he0 : e0 ≠ e := fun h => hnd.1 (by rw [h]; exact h2)
        exact ⟨e, by simp [getEnumLoop, hx, h1], List.mem_cons_of_mem _ h2,
          by simp [getTextLoop, he0, h3]⟩

/-- A block of `buildTypeTextTranslator` with as many texts as enumerators registers
them as they are. -/
theorem registerSet_ok {α : Type} (chars : List String) (enums : List α)
    (h : chars.length = enums.length) :
    registerSet chars enums = .ok { theEnums := enums, theTexts := chars } := by
  have h1 : ¬ (chars.length < chars.length ∨ enums.length < chars.length) := by
    rw [h]
    simp
  have h2 : ¬ (List.take chars.length enums).length ≠ (List.take chars.length chars).length := by
    simp [h]
  simp only [registerSet, translatorHelper, TypeText.addSet, h, ne_eq, not_true, if_false]
  rw [h] at h1 h2
  rw [if_neg h1, if_neg h2]
  simp [← h]

/-- With as many texts as enumerators, all different, the instance translates every
registered enumerator and text back and forth, and fails on the others. -/
theorem typeText_table {α : Type} [DecidableEq α] (es : List α) (ts : List String)
    (hlen : es.length = ts.length) (hes : es.Nodup) (hts : ts.Nodup) :
    (∀ e ∈ es, ∃ t, TypeText.toText (some { theEnums := es, theTexts := ts }) e = .ok t ∧
      TypeText.toType (some ({ theEnums := es, theTexts := ts } : TypeText α)) t = .ok e) ∧
    (∀ t ∈ ts, ∃ e,
      TypeText.toType (some ({ theEnums := es, theTexts := ts } : TypeText α)) t = .ok e ∧
      TypeText.toText (some { theEnums := es, theTexts := ts }) e = .ok t) ∧
    (∀ e, e ∉ es →
      TypeText.toText (some { theEnums := es, theTexts := ts }) e =
        .error (.thrown "enum does not exist!")) ∧
    (∀ t, t ∉ ts →
      TypeText.toType (some ({ theEnums := es, theTexts := ts } : TypeText α)) t =
        .error (.thrown "text does not exist!")) := by
  refine ⟨?_, ?_, ?_, ?_⟩
  · intro e he
    obtain ⟨t, h1, _, h3⟩ := getTextLoop_round_trip es ts hlen hts e he
    exact ⟨t, h1, h3⟩
  · intro t ht
    obtain ⟨e, h1, _, h3⟩ := getEnumLoop_round_trip es ts hlen hes t ht
    exact ⟨e, h1, h3⟩
  · intro e he
    exact getTextLoop_not_mem e es ts he
  · intro t ht
    exact getEnumLoop_not_mem t ts es ht

/-- C30. When the levels, the MySQL types, the onion layouts and the geometry types that
`buildTypeTextTranslator` registers are pairwise different, it returns with the five
tables as written, and in each table `toType (toText e)` is `e` for every registered
enumerator, `toText (toType t)` is `t` for every registered text, `toText` of an
enumerator that is not registered throws, and `toType` of a text that is not registered
throws. `addSet` throws when the two vectors differ in length, and else installs them. -/
theorem C30_type_text_round_trip (c : EnumConstants)
    (hsec : (seclevels c).Nodup) (hmy : (mysql_types c).Nodup)
    (hlay : (onion_layouts c).Nodup) (hgeo : (geometry_types c).Nodup) :
    (∃ tr, buildTypeTextTranslator c = .ok tr ∧
      tr.onionT = { theEnums := onions, theTexts := onion_chars } ∧
      tr.seclevelT = { theEnums := seclevels c, theTexts := seclevel_chars } ∧
      tr.mysqlT = { theEnums := mysql_types c, theTexts := mysql_type_chars } ∧
      tr.layoutT = { theEnums := onion_layouts c, theTexts := onion_layout_chars } ∧
      tr.geometryT = { theEnums := geometry_types c, theTexts := geometry_type_chars } ∧
      ((∀ e ∈ tr.onionT.theEnums, ∃ t, TypeText.toText (some tr.onionT) e = .ok t ∧
          TypeText.toType (some tr.onionT) t = .ok e) ∧
        (∀ t ∈ tr.onionT.theTexts, ∃ e, TypeText.toType (some tr.onionT) t = .ok e ∧
          TypeText.toText (some tr.onionT) e = .ok t) ∧
        (∀ e, e ∉ tr.onionT.theEnums →
          TypeText.toText (some tr.onionT) e = .error (.thrown "enum does not exist!")) ∧
        (∀ t, t ∉ tr.onionT.theTexts →
          TypeText.toType (some tr.onionT) t = .error (.thrown "text does not exist!"))) ∧
      ((∀ e ∈ tr.seclevelT.theEnums, ∃ t, TypeText.toText (some tr.seclevelT) e = .ok t ∧
          TypeText.toType (some tr.seclevelT) t = .ok e) ∧
        (∀ t ∈ tr.seclevelT.theTexts, ∃ e, TypeText.toType (some tr.seclevelT) t = .ok e ∧
          TypeText.toText (some tr.seclevelT) e = .ok t) ∧
        (∀ e, e ∉ tr.seclevelT.theEnums →
          TypeText.toText (some tr.seclevelT) e = .error (.thrown "enum does not exist!")) ∧
        (∀ t, t ∉ tr.seclevelT.theTexts →
          TypeText.toType (some tr.seclevelT) t = .error (.thrown "text does not exist!"))) ∧
      ((∀ e ∈ tr.mysqlT.theEnums, ∃ t, TypeText.toText (some tr.mysqlT) e = .ok t ∧
          TypeText.toType (some tr.mysqlT) t = .ok e) ∧
        (∀ t ∈ tr.mysqlT.theTexts, ∃ e, TypeText.toType (some tr.mysqlT) t = .ok e ∧
          TypeText.toText (some tr.mysqlT) e = .ok t) ∧
        (∀ e, e ∉ tr.mysqlT.theEnums →
          TypeText.toText (some tr.mysqlT) e = .error (.thrown "enum does not exist!")) ∧
        (∀ t, t ∉ tr.mysqlT.theTexts →
          TypeText.toType (some tr.mysqlT) t = .error (.thrown "text does not exist!"))) ∧
      ((∀ e ∈ tr.layoutT.theEnums, ∃ t, TypeText.toText (some tr.layoutT) e = .ok t ∧
          TypeText.toType (some tr.layoutT) t = .ok e) ∧
        (∀ t ∈ tr.layoutT.theTexts, ∃ e, TypeText.toType (some tr.layoutT) t = .ok e ∧
          TypeText.toText (some tr.layoutT) e = .ok t) ∧
        (∀ e, e ∉ tr.layoutT.theEnums →
          TypeText.toText (some tr.layoutT) e = .error (.thrown "enum does not exist!")) ∧
        (∀ t, t ∉ tr.layoutT.theTexts →
          TypeText.toType (some tr.layoutT) t = .error (.thrown "text does not exist!"))) ∧
      ((∀ e ∈ tr.geometryT.theEnums, ∃ t, TypeText.toText (some tr.geometryT) e = .ok t ∧
          TypeText.toType (some tr.geometryT) t = .ok e) ∧
        (∀ t ∈ tr.geometryT.theTexts, ∃ e, TypeText.toType (some tr.geometryT) t = .ok e ∧
          TypeText.toText (some tr.geometryT) e = .ok t) ∧
        (∀ e, e ∉ tr.geometryT.theEnums →
          TypeText.toText (some tr.geometryT) e = .error (.thrown "enum does not exist!")) ∧
        (∀ t, t ∉ tr.geometryT.theTexts →
          TypeText.toType (some tr.geometryT) t =
            .error (.thrown "text does not exist!")))) ∧
    (∀ (α : Type) (enums : List α) (texts : List String),
      (enums.length ≠ texts.length →
        TypeText.addSet enums texts =
          .error (.thrown "enums and text must be the same length!")) ∧
      (enums.length = texts.length →
        TypeText.addSet enums texts = .ok { theEnums := enums, theTexts := texts })) := by
  refine ⟨⟨Translators.mk (TypeText.mk onions onion_chars)
        (TypeText.mk (seclevels c) seclevel_chars)
        (TypeText.mk (mysql_types c) mysql_type_chars)
        (TypeText.mk (onion_layouts c) onion_layout_chars)
        (TypeText.mk (geometry_types c) geometry_type_chars),
      ?_, rfl, rfl, rfl, rfl, rfl,
      typeText_table onions onion_chars rfl (by decide) (by decide),
      typeText_table (seclevels c) seclevel_chars rfl hsec (by decide),
      typeText_table (mysql_types c) mysql_type_chars rfl hmy (by decide),
      typeText_table (onion_layouts c) onion_layout_chars rfl hlay (by decide),
      typeText_table (geometry_types c) geometry_type_chars rfl hgeo (by decide)⟩, ?_⟩
  · simp only [buildTypeTextTranslator,
      registerSet_ok onion_chars onions rfl,
      registerSet_ok seclevel_chars (seclevels c) rfl,
      registerSet_ok mysql_type_chars (mysql_types c) rfl,
      registerSet_ok onion_layout_chars (onion_layouts c) rfl,
      registerSet_ok geometry_type_chars (geometry_types c) rfl]
  · intro α enums texts
    exact ⟨fun h => by simp [TypeText.addSet, h], fun h => by simp [TypeText.addSet, h]⟩

/-- C30 at the enumerators of MySQL and of the proxy: the table of the levels translates
`OPE` to its text and back, and the table of the layouts translates the text of the
layout for strings to the layout and back. -/
theorem C30_type_text_round_trip_witness :
    ∃ tr, buildTypeTextTranslator sampleConstants = .ok tr ∧
      (∃ t, TypeText.toText (some tr.seclevelT) sampleConstants.OPE = .ok t ∧
        TypeText.toType (some tr.seclevelT) t = .ok sampleConstants.OPE) ∧
      (∃ e, TypeText.toType (some tr.layoutT) "STR_ONION_LAYOUT" = .ok e ∧
        TypeText.toText (some tr.layoutT) e = .ok "STR_ONION_LAYOUT") := by
  obtain ⟨tr, hb, _, hs, _, hl, _, _, hsec, _, hlay, _⟩ :=
    (C30_type_text_round_trip sampleConstants (by decide) (by decide) (by decide)
      (by decide)).1
  refine ⟨tr, hb, hsec.1 _ ?_, hlay.2.1 _ ?_⟩
  · rw [hs]
    decide
  · rw [hl]
    decide

end CryptDB
